import Mathlib

/-! # FOnline map sprite list: scene ordering

A shallow embedding of `Source/Client/MapSprite.cpp` and of the fading state of
`Source/Client/HexView.h`.

* Every `MapSprite` ever created by `GrowPool` lives in a heap `sprites : Nat → MapSprite`;
  a `MapSprite*` is an `Option Nat` (`none` is `nullptr`).
* `ChainRoot` / `ChainLast` are `MapSprite**` in the source.  The only addresses ever stored in
  them are `&_rootSprite` and `&_lastSprite` of the owning list, so they are modelled as flags
  (`true`: holds that address, `false`: `nullptr`); a store through them writes `_rootSprite` /
  `_lastSprite`.
* Memory owned by collaborators (validity mirrors, extra chain anchors, the log of released
  sprite resources) is carried in the list state as `callbackMem`, `extraRootMem`, `released`.
* Loops that follow `ChainChild` take a fuel argument; `none` means that the call does not
  return normally.
* `DrawOrderPos` and the local `pos` of `InsertSprite` are 32-bit unsigned: `drawOrderPos`
  reduces modulo `2 ^ 32`, and the theorems on keys state the range in which nothing is
  reduced.
* `std::sort` is modelled by insertion sort with the comparator of `Sort`.  On a chain whose
  tree indices are distinct the comparator is a strict total order, so the sorted vector does
  not depend on the algorithm (`stdSort_eq_stable`, `lexLT_unique`).
* The queries of a sprite (`GetDrawRect`, `GetViewRect`, `CheckHit`) read memory and
  collaborators through a `SpriteEnv`; a query that stops returns the `Failure` it stops on
  (the failed `RUNTIME_ASSERT`, or the dereference of a null pointer that the source does not
  guard).  `int` arithmetic of the rectangles is taken in `Int`; the array index of `SetLight`
  is reduced to 32 bits.
* `HexView.h` declares `FadeUp`, `RestoreAlpha` and `SetMaxAlpha` without their bodies; they
  are modelled from the specification and marked so.  `StoreFading` and `RestoreFading` are
  translated from the header.
* The states reached from an empty list are the results of `runPublic` on lists of
  `PublicCall`s; the invariants of the list are proved for every such run, with fuel above
  the number of calls.  `scanTrace` / `scanSkips` record what the scan of `InsertSprite`
  examines, `traverseBack` walks the chain from the tail, `ExtraChain` states what a
  well-formed extra chain is.
* Constants declared in headers that are not among the sources (`MAXHEX_MAX`,
  `DrawOrderType::NormalBegin`, `DrawOrderType::NormalEnd`, `SPRITES_POOL_GROW_SIZE`) are the
  fields of `Settings`; theorems hold for all their values, under the stated hypotheses, and
  the worked examples use `exampleSettings` (hex span 4000, Normal range 20..32).
-/

namespace FOnline

/-! ## Data model -/

/-- Constants used by `MapSprite.cpp` whose declarations are not among the sources. -/
structure Settings where
  MAXHEX_MAX : Nat
  NormalBegin : Nat
  NormalEnd : Nat
  SPRITES_POOL_GROW_SIZE : Nat
  deriving DecidableEq

/-- Egg appearance kinds; only `None` is named in `MapSprite.cpp`. -/
inductive EggAppearenceType where
  | None
  | Other (tag : Nat)
  deriving DecidableEq

/-- Contour kinds; only `None` is named in `MapSprite.cpp`. -/
inductive ContourType where
  | None
  | Other (tag : Nat)
  deriving DecidableEq

/-- Target of a `const uint8*` alpha pointer: a byte owned elsewhere, or the alpha byte of the
`Color` field of a map sprite (what `SetFixedAlpha` installs). -/
inductive AlphaPtr where
  | external (addr : Nat)
  | colorByte (node : Nat)
  deriving DecidableEq

/-- One `MapSprite` record. -/
structure MapSprite where
  Root : Bool := false
  DrawOrder : Nat := 0
  DrawOrderPos : Nat := 0
  TreeIndex : Nat := 0
  Spr : Option Nat := none
  PSpr : Option Nat := none
  HexX : Nat := 0
  HexY : Nat := 0
  ScrX : Int := 0
  ScrY : Int := 0
  PScrX : Option Nat := none
  PScrY : Option Nat := none
  OffsX : Option Nat := none
  OffsY : Option Nat := none
  Alpha : Option AlphaPtr := none
  Light : Option (Nat × Int) := none
  LightRight : Option (Nat × Int) := none
  LightLeft : Option (Nat × Int) := none
  EggAppearence : EggAppearenceType := EggAppearenceType.None
  Contour : ContourType := ContourType.None
  ContourColor : Nat := 0
  Color : Nat := 0
  DrawEffect : Option Nat := none
  Valid : Bool := false
  ValidCallback : Option Nat := none
  MapSpr : Option Nat := none
  ChainRoot : Bool := false
  ChainLast : Bool := false
  ChainParent : Option Nat := none
  ChainChild : Option Nat := none
  ExtraChainRoot : Option Nat := none
  ExtraChainParent : Option Nat := none
  ExtraChainChild : Option Nat := none
  deriving DecidableEq

instance : Inhabited MapSprite := ⟨{}⟩

/-- State of one `MapSpriteList` together with the collaborator memory its sprites point into. -/
structure MapSpriteList where
  sprites : Nat → MapSprite
  allocated : Nat
  _rootSprite : Option Nat
  _lastSprite : Option Nat
  _spriteCount : Nat
  _invalidatedSprites : List Nat
  _spritesPool : List Nat
  _sortSprites : List Nat
  callbackMem : Nat → Bool
  extraRootMem : Nat → Option Nat
  released : List Nat

/-- Arguments of `AddSprite` / `InsertSprite` / `PutSprite` after the `child` pointer. -/
structure PutArgs where
  draw_order : Nat
  hx : Nat
  hy : Nat
  x : Int := 0
  y : Int := 0
  sx : Option Nat := none
  sy : Option Nat := none
  spr : Option Nat := none
  pspr : Option Nat := none
  ox : Option Nat := none
  oy : Option Nat := none
  alpha : Option AlphaPtr := none
  effect : Option Nat := none
  callback : Option Nat := none
  deriving DecidableEq

/-- Store `f (old value)` at address `n` of the sprite heap. -/
def modify (sp : Nat → MapSprite) (n : Nat) (f : MapSprite → MapSprite) : Nat → MapSprite :=
  fun j => if j = n then f (sp j) else sp j

/-- Store through an optional pointer: nothing happens for `nullptr`. -/
def modifyAt (sp : Nat → MapSprite) (p : Option Nat) (f : MapSprite → MapSprite) :
    Nat → MapSprite :=
  match p with
  | none => sp
  | some n => modify sp n f

/-- Write one cell of collaborator memory. -/
def store {α : Type} (mem : Nat → α) (a : Nat) (v : α) : Nat → α :=
  fun j => if j = a then v else mem j

/-- Store through an optional pointer into collaborator memory: nothing happens for
`nullptr`. -/
def storeAt {α : Type} (mem : Nat → α) (p : Option Nat) (v : α) : Nat → α :=
  match p with
  | none => mem
  | some a => store mem a v

/-- The draw order key of `PutSprite` (lines 372-377) and `InsertSprite` (lines 395-400),
reduced to the 32-bit unsigned range in which `pos` and `DrawOrderPos` are held. -/
def drawOrderPos (cfg : Settings) (draw_order hx hy : Nat) : Nat :=
  if draw_order < cfg.NormalBegin ∨ draw_order > cfg.NormalEnd then
    (cfg.MAXHEX_MAX * cfg.MAXHEX_MAX * draw_order + hy * cfg.MAXHEX_MAX + hx) % 2 ^ 32
  else
    (cfg.MAXHEX_MAX * cfg.MAXHEX_MAX * cfg.NormalBegin + hy * cfg.NormalBegin * cfg.MAXHEX_MAX
      + hx * cfg.NormalBegin + (draw_order - cfg.NormalBegin)) % 2 ^ 32

/-- The constructor `MapSpriteList::MapSpriteList`: nothing allocated, no chain. -/
def MapSpriteList.new (callbackMem : Nat → Bool) (extraRootMem : Nat → Option Nat) :
    MapSpriteList where
  sprites := fun _ => {}
  allocated := 0
  _rootSprite := none
  _lastSprite := none
  _spriteCount := 0
  _invalidatedSprites := []
  _spritesPool := []
  _sortSprites := []
  callbackMem := callbackMem
  extraRootMem := extraRootMem
  released := []

/-! ## `MapSprite::Invalidate` -/

/-- Lines 52-66 of `MapSprite::Invalidate`: take the sprite at `n` out of its extra chain.
Every statement of the source is one step, each reading the state left by the previous one. -/
def MapSprite.severExtraChain (s : MapSpriteList) (n : Nat) : MapSpriteList :=
  -- if (ExtraChainRoot != nullptr) *ExtraChainRoot = ExtraChainChild;
  let s :=
    { s with
      extraRootMem := storeAt s.extraRootMem (s.sprites n).ExtraChainRoot
        (s.sprites n).ExtraChainChild }
  -- if (ExtraChainParent != nullptr) ExtraChainParent->ExtraChainChild = ExtraChainChild;
  let s :=
    { s with
      sprites := modifyAt s.sprites (s.sprites n).ExtraChainParent
        (fun m => { m with ExtraChainChild := (s.sprites n).ExtraChainChild }) }
  -- if (ExtraChainChild != nullptr) ExtraChainChild->ExtraChainParent = ExtraChainParent;
  let s :=
    { s with
      sprites := modifyAt s.sprites (s.sprites n).ExtraChainChild
        (fun m => { m with ExtraChainParent := (s.sprites n).ExtraChainParent }) }
  -- if (ExtraChainRoot != nullptr && ExtraChainChild != nullptr)
  --     ExtraChainChild->ExtraChainRoot = ExtraChainRoot;
  let s :=
    { s with
      sprites :=
        match (s.sprites n).ExtraChainRoot with
        | none => s.sprites
        | some r =>
            modifyAt s.sprites (s.sprites n).ExtraChainChild
              (fun m => { m with ExtraChainRoot := some r }) }
  -- ExtraChainRoot = nullptr; ExtraChainParent = nullptr; ExtraChainChild = nullptr;
  { s with
    sprites := modify s.sprites n (fun m =>
      { m with ExtraChainRoot := none, ExtraChainParent := none, ExtraChainChild := none }) }

/-- Lines 68-89 of `MapSprite::Invalidate`: take the sprite at `n` out of the main chain.
Every statement of the source is one step, each reading the state left by the previous one. -/
def MapSprite.severChain (s : MapSpriteList) (n : Nat) : MapSpriteList :=
  -- if (ChainRoot != nullptr) *ChainRoot = ChainChild;
  let s :=
    { s with
      _rootSprite :=
        if (s.sprites n).ChainRoot = true then (s.sprites n).ChainChild else s._rootSprite }
  -- if (ChainLast != nullptr) *ChainLast = ChainParent;
  let s :=
    { s with
      _lastSprite :=
        if (s.sprites n).ChainLast = true then (s.sprites n).ChainParent else s._lastSprite }
  -- if (ChainParent != nullptr) ChainParent->ChainChild = ChainChild;
  let s :=
    { s with
      sprites := modifyAt s.sprites (s.sprites n).ChainParent
        (fun m => { m with ChainChild := (s.sprites n).ChainChild }) }
  -- if (ChainChild != nullptr) ChainChild->ChainParent = ChainParent;
  let s :=
    { s with
      sprites := modifyAt s.sprites (s.sprites n).ChainChild
        (fun m => { m with ChainParent := (s.sprites n).ChainParent }) }
  -- if (ChainRoot != nullptr && ChainChild != nullptr) ChainChild->ChainRoot = ChainRoot;
  let s :=
    { s with
      sprites :=
        if (s.sprites n).ChainRoot = true then
          modifyAt s.sprites (s.sprites n).ChainChild (fun m => { m with ChainRoot := true })
        else s.sprites }
  -- if (ChainLast != nullptr && ChainParent != nullptr) ChainParent->ChainLast = ChainLast;
  let s :=
    { s with
      sprites :=
        if (s.sprites n).ChainLast = true then
          modifyAt s.sprites (s.sprites n).ChainParent (fun m => { m with ChainLast := true })
        else s.sprites }
  -- ChainRoot = nullptr; ChainLast = nullptr; ChainParent = nullptr; ChainChild = nullptr;
  { s with
    sprites := modify s.sprites n (fun m =>
      { m with ChainRoot := false, ChainLast := false, ChainParent := none,
               ChainChild := none }) }

/-- Lines 45-50 of `MapSprite::Invalidate`: clear `Valid` and notify the validity mirror. -/
def MapSprite.markInvalid (s : MapSpriteList) (n : Nat) : MapSpriteList :=
  -- Valid = false;
  let s := { s with sprites := modify s.sprites n (fun m => { m with Valid := false }) }
  -- if (ValidCallback != nullptr) { *ValidCallback = false; ValidCallback = nullptr; }
  { s with
    callbackMem := storeAt s.callbackMem (s.sprites n).ValidCallback false
    sprites :=
      match (s.sprites n).ValidCallback with
      | none => s.sprites
      | some _ => modify s.sprites n (fun m => { m with ValidCallback := none }) }

/-- Lines 91-98 of `MapSprite::Invalidate`: release the held sprite resource and hand the
sprite to the recycle bin of its owner. -/
def MapSprite.recycle (s : MapSpriteList) (n : Nat) : MapSpriteList :=
  -- if (MapSpr != nullptr) { MapSpr->Release(); MapSpr = nullptr; }
  let s :=
    { s with
      released :=
        match (s.sprites n).MapSpr with
        | none => s.released
        | some r => s.released ++ [r]
      sprites :=
        match (s.sprites n).MapSpr with
        | none => s.sprites
        | some _ => modify s.sprites n (fun m => { m with MapSpr := none }) }
  -- Root->_invalidatedSprites.push_back(this);
  let s := { s with _invalidatedSprites := s._invalidatedSprites ++ [n] }
  -- Root = nullptr;
  { s with sprites := modify s.sprites n (fun m => { m with Root := false }) }

/-- `MapSprite::Invalidate` (lines 38-99) called on the sprite at address `n`. -/
def MapSprite.Invalidate (s : MapSpriteList) (n : Nat) : MapSpriteList :=
  if (s.sprites n).Valid = false then s
  else
    MapSprite.recycle
      (MapSprite.severChain (MapSprite.severExtraChain (MapSprite.markInvalid s n) n) n) n

/-! ## `MapSpriteList` -/

/-- `MapSpriteList::GrowPool` (lines 255-266): `SPRITES_POOL_GROW_SIZE` fresh default sprites
are created at the next free addresses and pushed to the back of `_spritesPool`. -/
def MapSpriteList.GrowPool (cfg : Settings) (s : MapSpriteList) : MapSpriteList :=
  { s with
    sprites := fun j =>
      if s.allocated ≤ j ∧ j < s.allocated + cfg.SPRITES_POOL_GROW_SIZE then {} else s.sprites j
    allocated := s.allocated + cfg.SPRITES_POOL_GROW_SIZE
    _spritesPool := s._spritesPool ++ List.range' s.allocated cfg.SPRITES_POOL_GROW_SIZE }

/-- Lines 283-295 of `PutSprite`: take the sprite to (re)use, from the back of
`_invalidatedSprites` if it is not empty, else from the back of `_spritesPool`, grown first
when empty.  `none`: `back()` of an empty vector. -/
def MapSpriteList.takeSprite (cfg : Settings) (s : MapSpriteList) :
    Option (MapSpriteList × Nat) :=
  match s._invalidatedSprites.getLast? with
  | some mspr => some ({ s with _invalidatedSprites := s._invalidatedSprites.dropLast }, mspr)
  | none =>
      let s := if s._spritesPool.isEmpty then s.GrowPool cfg else s
      match s._spritesPool.getLast? with
      | some mspr => some ({ s with _spritesPool := s._spritesPool.dropLast }, mspr)
      | none => none

/-- The index recalculation loop of `PutSprite` (lines 329-334). -/
def renumber : Nat → (Nat → MapSprite) → Option Nat → Nat → Option (Nat → MapSprite)
  | _, sp, none, _ => some sp
  | 0, _, some _, _ => none
  | fuel + 1, sp, some p, index =>
      let sp := modify sp p (fun m => { m with TreeIndex := index })
      renumber fuel sp (sp p).ChainChild (index + 1)

/-- Line 328 of `PutSprite`: `parent->TreeIndex + 1`, or `0` when there is no parent. -/
def nextIndex (sp : Nat → MapSprite) : Option Nat → Nat
  | some p => (sp p).TreeIndex + 1
  | none => 0

/-- Lines 320-325 of `PutSprite`: splice `mspr` into the chain right before `child`. -/
def spliceBefore (sp : Nat → MapSprite) (child mspr : Nat) : Nat → MapSprite :=
  let sp := modify sp mspr (fun m => { m with ChainChild := some child })
  let sp := modify sp mspr (fun m => { m with ChainParent := (sp child).ChainParent })
  let sp := modify sp child (fun m => { m with ChainParent := some mspr })
  modifyAt sp (sp mspr).ChainParent (fun m => { m with ChainChild := some mspr })

/-- Lines 299-342 of `PutSprite`: link `mspr` at the tail (`child = nullptr`) or right before
`child`.  `none`: the index loop does not end, or `RUNTIME_ASSERT(child->ChainRoot)` fails. -/
def MapSpriteList.linkSprite (fuel : Nat) (s : MapSpriteList) (child : Option Nat)
    (mspr : Nat) : Option MapSpriteList :=
  match child with
  | none =>
      match s._lastSprite with
      | none =>
          some { s with
            _rootSprite := some mspr
            _lastSprite := some mspr
            sprites := modify s.sprites mspr (fun m =>
              { m with ChainRoot := true, ChainLast := true, ChainParent := none,
                       ChainChild := none, TreeIndex := 0 }) }
      | some last =>
          let sp := modify s.sprites mspr (fun m =>
            { m with ChainParent := some last, ChainChild := none })
          let sp := modify sp last (fun m => { m with ChainChild := some mspr })
          let sp := modify sp last (fun m => { m with ChainLast := false })
          let sp := modify sp mspr (fun m => { m with ChainLast := true })
          let sp := modify sp mspr (fun m => { m with TreeIndex := (sp last).TreeIndex + 1 })
          some { s with sprites := sp, _lastSprite := some mspr }
  | some c =>
      let sp := spliceBefore s.sprites c mspr
      -- Recalculate indices
      let index := nextIndex sp (sp mspr).ChainParent
      match renumber fuel sp (some mspr) index with
      | none => none
      | some sp =>
          match (sp mspr).ChainParent with
          | some _ => some { s with sprites := sp }
          | none =>
              if (sp c).ChainRoot = true then
                let sp := modify sp mspr (fun m => { m with ChainRoot := true })
                let sp := modify sp c (fun m => { m with ChainRoot := false })
                some { s with _rootSprite := some mspr, sprites := sp }
              else none

/-- Lines 344-377 of `PutSprite`: fill the fields of `mspr` from the arguments. -/
def MapSpriteList.fillSprite (cfg : Settings) (s : MapSpriteList) (mspr : Nat) (a : PutArgs) :
    MapSpriteList :=
  let s :=
    { s with
      sprites := modify s.sprites mspr (fun m =>
        { m with HexX := a.hx, HexY := a.hy, ScrX := a.x, ScrY := a.y, PScrX := a.sx,
                 PScrY := a.sy, Spr := a.spr, PSpr := a.pspr, OffsX := a.ox, OffsY := a.oy,
                 Alpha := a.alpha, Light := none, LightRight := none, LightLeft := none,
                 Valid := true, ValidCallback := a.callback }) }
  let s := { s with callbackMem := storeAt s.callbackMem a.callback true }
  { s with
    sprites := modify s.sprites mspr (fun m =>
      { m with EggAppearence := EggAppearenceType.None, Contour := ContourType.None,
               ContourColor := 0, Color := 0, DrawEffect := a.effect,
               DrawOrder := a.draw_order,
               DrawOrderPos := drawOrderPos cfg a.draw_order m.HexX m.HexY }) }

/-- `MapSpriteList::PutSprite` (lines 277-380); the result carries the address of the sprite
that the source returns by reference. -/
def MapSpriteList.PutSprite (cfg : Settings) (fuel : Nat) (s : MapSpriteList)
    (child : Option Nat) (a : PutArgs) : Option (MapSpriteList × Nat) :=
  let s := { s with _spriteCount := s._spriteCount + 1 }
  match s.takeSprite cfg with
  | none => none
  | some (s, mspr) =>
      let s := { s with sprites := modify s.sprites mspr (fun m => { m with Root := true }) }
      match s.linkSprite fuel child mspr with
      | none => none
      | some s => some (s.fillSprite cfg mspr a, mspr)

/-- `MapSpriteList::AddSprite` (lines 382-387). -/
def MapSpriteList.AddSprite (cfg : Settings) (fuel : Nat) (s : MapSpriteList) (a : PutArgs) :
    Option (MapSpriteList × Nat) :=
  s.PutSprite cfg fuel none a

/-- The scan of `InsertSprite` (lines 402-411).  The outer `none` is fuel exhaustion; on an
invalid sprite the loop `continue`s without advancing. -/
def findPlace (sp : Nat → MapSprite) (pos : Nat) : Nat → Option Nat → Option (Option Nat)
  | _, none => some none
  | 0, some _ => none
  | fuel + 1, some parent =>
      if (sp parent).Valid = false then findPlace sp pos fuel (some parent)
      else if pos < (sp parent).DrawOrderPos then some (some parent)
      else findPlace sp pos fuel (sp parent).ChainChild

/-- `MapSpriteList::InsertSprite` (lines 389-414). -/
def MapSpriteList.InsertSprite (cfg : Settings) (fuel : Nat) (s : MapSpriteList) (a : PutArgs) :
    Option (MapSpriteList × Nat) :=
  let pos := drawOrderPos cfg a.draw_order a.hx a.hy
  match findPlace s.sprites pos fuel s._rootSprite with
  | none => none
  | some parent => s.PutSprite cfg fuel parent a

/-- `MapSpriteList::Invalidate` (lines 416-426): invalidate the head until there is none. -/
def MapSpriteList.Invalidate : Nat → MapSpriteList → Option MapSpriteList
  | fuel, s =>
      match s._rootSprite with
      | none => some { s with _lastSprite := none, _spriteCount := 0 }
      | some r =>
          match fuel with
          | 0 => none
          | fuel + 1 => MapSpriteList.Invalidate fuel (MapSprite.Invalidate s r)

/-- The collecting loop of `Sort` (lines 438-442): every sprite met from `mspr` on along
`ChainChild` is appended to `acc`. -/
def collect (sp : Nat → MapSprite) : Nat → Option Nat → List Nat → Option (List Nat)
  | _, none, acc => some acc
  | 0, some _, _ => none
  | fuel + 1, some mspr, acc => collect sp fuel (sp mspr).ChainChild (acc ++ [mspr])

/-- The comparison lambda handed to `std::sort` (lines 444-449). -/
def sortLess (sp : Nat → MapSprite) (mspr1 mspr2 : Nat) : Bool :=
  if (sp mspr1).DrawOrderPos = (sp mspr2).DrawOrderPos then
    decide ((sp mspr1).TreeIndex < (sp mspr2).TreeIndex)
  else decide ((sp mspr1).DrawOrderPos < (sp mspr2).DrawOrderPos)

/-- A model of `std::sort` with comparison `less`: insertion sort, which never swaps two
elements unless `less` tells them apart. -/
def stdSort (less : Nat → Nat → Bool) (v : List Nat) : List Nat :=
  v.insertionSort (fun a b => less b a = false)

/-- The relinking loop of `Sort` (lines 454-460): `cur` is `_sortSprites[i]` and `prev` is
`_sortSprites[i - 1]`. -/
def relink : (Nat → MapSprite) → Nat → Nat → List Nat → (Nat → MapSprite)
  | sp, _, _, [] => sp
  | sp, i, prev, cur :: rest =>
      let sp := modify sp cur (fun m => { m with TreeIndex := i })
      let sp := modify sp prev (fun m => { m with ChainChild := some cur })
      let sp := modify sp cur (fun m => { m with ChainParent := some prev })
      let sp := modify sp cur (fun m => { m with ChainRoot := false })
      let sp := modify sp cur (fun m => { m with ChainLast := false })
      relink sp (i + 1) cur rest

/-- `MapSpriteList::Sort` (lines 428-471).  `none`: the collecting loop does not end. -/
def MapSpriteList.Sort (fuel : Nat) (s : MapSpriteList) : Option MapSpriteList :=
  match s._rootSprite with
  | none => some s
  | some _ =>
      match collect s.sprites fuel s._rootSprite s._sortSprites with
      | none => none
      | some v =>
          let v := stdSort (sortLess s.sprites) v
          match v.head?, v.getLast? with
          | some front, some back =>
              let sp := relink s.sprites 1 front v.tail
              let sp := modify sp front (fun m => { m with TreeIndex := 0 })
              let sp := modify sp front (fun m => { m with ChainParent := none })
              let sp := modify sp front (fun m => { m with ChainRoot := true })
              let sp := modify sp front (fun m => { m with ChainLast := false })
              let sp := modify sp back (fun m => { m with ChainChild := none })
              let sp := modify sp back (fun m => { m with ChainLast := true })
              some { s with
                _rootSprite := some front
                _lastSprite := some back
                sprites := sp
                _sortSprites := [] }
          | _, _ => none

/-- Head-to-tail traversal of the main chain: the sprites met from `_rootSprite` along
`ChainChild` (the walk of lines 438-442). -/
def MapSpriteList.traverse (fuel : Nat) (s : MapSpriteList) : Option (List Nat) :=
  collect s.sprites fuel s._rootSprite []

/-! ## Well-formed lists -/

/-- First element of `l`, or `next` when `l` is empty. -/
def headOr (l : List Nat) (next : Option Nat) : Option Nat :=
  match l with
  | [] => next
  | q :: _ => some q

/-- Last element of `l`, or `prev` when `l` is empty. -/
def lastOr (prev : Option Nat) (l : List Nat) : Option Nat :=
  match l.getLast? with
  | none => prev
  | some q => some q

/-- `Seg sp prev l next`: the sprites of `l` are doubly linked in this order through
`ChainParent` / `ChainChild`, the first one having parent `prev` and the last one child
`next`. -/
def Seg (sp : Nat → MapSprite) : Option Nat → List Nat → Option Nat → Prop
  | _, [], _ => True
  | prev, p :: l, next =>
      (sp p).ChainParent = prev ∧ (sp p).ChainChild = headOr l next ∧ Seg sp (some p) l next

instance Seg.decidable (sp : Nat → MapSprite) :
    ∀ (prev : Option Nat) (l : List Nat) (next : Option Nat), Decidable (Seg sp prev l next)
  | _, [], _ => isTrue trivial
  | prev, p :: l, next =>
      have := Seg.decidable sp (some p) l next
      decidable_of_iff
        ((sp p).ChainParent = prev ∧ (sp p).ChainChild = headOr l next ∧ Seg sp (some p) l next)
        Iff.rfl

/-- The sort key of the sprite at address `n`. -/
def keyOf (s : MapSpriteList) (n : Nat) : Nat := (s.sprites n).DrawOrderPos

/-- The tree index of the sprite at address `n`. -/
def indexOf (s : MapSpriteList) (n : Nat) : Nat := (s.sprites n).TreeIndex

/-- The fields of a sprite other than its main chain links and its tree index. -/
def MapSprite.data (m : MapSprite) : MapSprite :=
  { m with TreeIndex := 0, ChainRoot := false, ChainLast := false, ChainParent := none,
           ChainChild := none }

/-- The fields of a sprite that take part in the ordering of the main chain: everything except
the extra chain links, the validity mirror, the held sprite resource and the owner. -/
def MapSprite.core (m : MapSprite) : MapSprite :=
  { m with ExtraChainRoot := none, ExtraChainParent := none, ExtraChainChild := none,
           ValidCallback := none, MapSpr := none, Root := false }

/-- `Linked s l`: `l` is the main chain of `s` from head to tail.
* `l` has no repetition, `_rootSprite` / `_lastSprite` are its ends and its sprites are doubly
  linked (`seg`);
* exactly the head holds `ChainRoot` and exactly the tail holds `ChainLast`;
* `TreeIndex` increases strictly along the chain. -/
structure Linked (s : MapSpriteList) (l : List Nat) : Prop where
  nodup : l.Nodup
  root : s._rootSprite = l.head?
  last : s._lastSprite = l.getLast?
  seg : Seg s.sprites none l none
  chainRoot : ∀ n ∈ l, ((s.sprites n).ChainRoot = true ↔ l.head? = some n)
  chainLast : ∀ n ∈ l, ((s.sprites n).ChainLast = true ↔ l.getLast? = some n)
  index : (l.map (indexOf s)).Sorted (· < ·)

/-- `WF s l`: the list `s` is well formed and `l` is its main chain from head to tail.
* `Linked s l`;
* the sprites of the chain are the valid ones among the allocated sprites;
* the sprites waiting in `_spritesPool` and `_invalidatedSprites` are distinct, outside the
  chain, invalid, and hold neither `ChainRoot` nor `ChainLast`;
* every address in use is below `allocated`;
* `_sortSprites` is empty (it is filled only while `Sort` runs). -/
structure WF (s : MapSpriteList) (l : List Nat) extends Linked s l : Prop where
  valid : ∀ n ∈ l, (s.sprites n).Valid = true
  validOnly : ∀ n, n < s.allocated → (s.sprites n).Valid = true → n ∈ l
  freeNodup : (s._spritesPool ++ s._invalidatedSprites).Nodup
  freeOut : ∀ n ∈ s._spritesPool ++ s._invalidatedSprites, n ∉ l
  freeClean : ∀ n ∈ s._spritesPool ++ s._invalidatedSprites,
    (s.sprites n).Valid = false ∧ (s.sprites n).ChainRoot = false ∧
      (s.sprites n).ChainLast = false
  bound : ∀ n ∈ l ++ (s._spritesPool ++ s._invalidatedSprites), n < s.allocated
  sortEmpty : s._sortSprites = []

instance Linked.decidable (s : MapSpriteList) (l : List Nat) : Decidable (Linked s l) :=
  decidable_of_iff
    (l.Nodup ∧ s._rootSprite = l.head? ∧ s._lastSprite = l.getLast? ∧
      Seg s.sprites none l none ∧
      (∀ n ∈ l, ((s.sprites n).ChainRoot = true ↔ l.head? = some n)) ∧
      (∀ n ∈ l, ((s.sprites n).ChainLast = true ↔ l.getLast? = some n)) ∧
      (l.map (indexOf s)).Sorted (· < ·))
    ⟨fun ⟨h1, h2, h3, h4, h5, h6, h7⟩ => ⟨h1, h2, h3, h4, h5, h6, h7⟩,
      fun h => ⟨h.nodup, h.root, h.last, h.seg, h.chainRoot, h.chainLast, h.index⟩⟩

instance WF.decidable (s : MapSpriteList) (l : List Nat) : Decidable (WF s l) :=
  decidable_of_iff
    (Linked s l ∧
      (∀ n ∈ l, (s.sprites n).Valid = true) ∧
      (∀ n, n < s.allocated → (s.sprites n).Valid = true → n ∈ l) ∧
      (s._spritesPool ++ s._invalidatedSprites).Nodup ∧
      (∀ n ∈ s._spritesPool ++ s._invalidatedSprites, n ∉ l) ∧
      (∀ n ∈ s._spritesPool ++ s._invalidatedSprites,
        (s.sprites n).Valid = false ∧ (s.sprites n).ChainRoot = false ∧
          (s.sprites n).ChainLast = false) ∧
      (∀ n ∈ l ++ (s._spritesPool ++ s._invalidatedSprites), n < s.allocated) ∧
      s._sortSprites = [])
    ⟨fun ⟨h1, h2, h3, h4, h5, h6, h7, h8⟩ => ⟨h1, h2, h3, h4, h5, h6, h7, h8⟩,
      fun h => ⟨h.toLinked, h.valid, h.validOnly, h.freeNodup, h.freeOut, h.freeClean, h.bound,
        h.sortEmpty⟩⟩

/-- Keys do not decrease along `l`. -/
def KeySorted (s : MapSpriteList) (l : List Nat) : Prop :=
  (l.map (keyOf s)).Sorted (· ≤ ·)

instance KeySorted.decidable (s : MapSpriteList) (l : List Nat) : Decidable (KeySorted s l) := by
  unfold KeySorted; infer_instance

/-- The pair `(DrawOrderPos, TreeIndex)` of `a` is at most that of `b`, lexicographically. -/
def lexLE (s : MapSpriteList) (a b : Nat) : Prop :=
  keyOf s a < keyOf s b ∨ (keyOf s a = keyOf s b ∧ indexOf s a ≤ indexOf s b)

instance lexLE.decidable (s : MapSpriteList) (a b : Nat) : Decidable (lexLE s a b) := by
  unfold lexLE; infer_instance

/-- Run `InsertSprite` for every request, in order; the addresses of the sprites handed back
are accumulated next to the state. -/
def insertAll (cfg : Settings) (fuel : Nat) :
    List PutArgs → MapSpriteList × List Nat → Option (MapSpriteList × List Nat)
  | [], acc => some acc
  | a :: rest, (s, hs) =>
      match s.InsertSprite cfg fuel a with
      | none => none
      | some (s, h) => insertAll cfg fuel rest (s, hs ++ [h])

/-- Run `AddSprite` for every request, in order. -/
def addAll (cfg : Settings) (fuel : Nat) :
    List PutArgs → MapSpriteList × List Nat → Option (MapSpriteList × List Nat)
  | [], acc => some acc
  | a :: rest, (s, hs) =>
      match s.AddSprite cfg fuel a with
      | none => none
      | some (s, h) => addAll cfg fuel rest (s, hs ++ [h])

/-- What a placement `PutSprite ... a` that handed back the sprite `m` leaves behind, `s` being
the list before the call, `l` its chain and `s2` the list after the call: `m` was not in the
chain, it now carries the arguments and the key computed from them, and no other field than
chain links and tree indices changed in the sprites of `l`. -/
structure Placed (cfg : Settings) (s s2 : MapSpriteList) (l : List Nat) (m : Nat)
    (a : PutArgs) : Prop where
  fresh : m ∉ l
  data : ∀ n ∈ l, (s2.sprites n).data = (s.sprites n).data
  valid : (s2.sprites m).Valid = true
  order : (s2.sprites m).DrawOrder = a.draw_order
  hexX : (s2.sprites m).HexX = a.hx
  hexY : (s2.sprites m).HexY = a.hy
  pos : (s2.sprites m).DrawOrderPos = drawOrderPos cfg a.draw_order a.hx a.hy
  count : s2._spriteCount = s._spriteCount + 1

/-- The state in which `PutSprite` starts linking: a sprite `m` was taken and its `Root` set. -/
def afterTake (s1 : MapSpriteList) (m : Nat) : MapSpriteList :=
  { s1 with sprites := modify s1.sprites m (fun x => { x with Root := true }) }

/-- The sprite found at address `k` once the valid sprite at `n` has been taken out of the main
chain of the heap `sp` (extra chain links, validity mirror, sprite resource and owner left
aside): `n` is cleared, its parent and its child are linked to each other and inherit
`ChainLast` / `ChainRoot`. -/
def unlinkedSprite (sp : Nat → MapSprite) (n k : Nat) : MapSprite :=
  if k = n then
    { sp n with Valid := false, ChainRoot := false, ChainLast := false, ChainParent := none,
                ChainChild := none }
  else if (sp n).ChainParent = some k then
    { sp k with ChainChild := (sp n).ChainChild,
                ChainLast := if (sp n).ChainLast = true then true else (sp k).ChainLast }
  else if (sp n).ChainChild = some k then
    { sp k with ChainParent := (sp n).ChainParent,
                ChainRoot := if (sp n).ChainRoot = true then true else (sp k).ChainRoot }
  else sp k

/-! ## Runs of public operations -/

/-- A call of one of the public operations that place or remove a single sprite. -/
inductive Op where
  | add (a : PutArgs)
  | insert (a : PutArgs)
  | invalidate (n : Nat)
  deriving DecidableEq

/-- Perform one call. -/
def applyOp (cfg : Settings) (fuel : Nat) (s : MapSpriteList) : Op → Option MapSpriteList
  | Op.add a => (s.AddSprite cfg fuel a).map Prod.fst
  | Op.insert a => (s.InsertSprite cfg fuel a).map Prod.fst
  | Op.invalidate n => some (MapSprite.Invalidate s n)

/-- Perform the calls of `ops` one after the other. -/
def runOps (cfg : Settings) (fuel : Nat) : List Op → MapSpriteList → Option MapSpriteList
  | [], s => some s
  | op :: ops, s =>
      match applyOp cfg fuel s op with
      | none => none
      | some s => runOps cfg fuel ops s

/-- The condition under which a call respects the contract of the operation: `AddSprite` is
given a key that is not below the key of the current tail, and `MapSprite::Invalidate` is called
on a sprite of the list. -/
def Op.inContract (cfg : Settings) (s : MapSpriteList) : Op → Prop
  | Op.add a =>
      match s._lastSprite with
      | none => True
      | some t => keyOf s t ≤ drawOrderPos cfg a.draw_order a.hx a.hy
  | Op.insert _ => True
  | Op.invalidate n => n < s.allocated

instance Op.inContract.decidable (cfg : Settings) (s : MapSpriteList) (op : Op) :
    Decidable (op.inContract cfg s) := by
  cases op with
  | add a =>
    unfold Op.inContract
    cases s._lastSprite with
    | none => exact isTrue trivial
    | some t => exact inferInstanceAs (Decidable (_ ≤ _))
  | insert a => exact isTrue trivial
  | invalidate n => exact inferInstanceAs (Decidable (_ < _))

/-- Every call of the run `ops` from `s` respects the contract of its operation. -/
def runInContract (cfg : Settings) (fuel : Nat) : List Op → MapSpriteList → Prop
  | [], _ => True
  | op :: ops, s =>
      op.inContract cfg s ∧
        match applyOp cfg fuel s op with
        | none => True
        | some s => runInContract cfg fuel ops s

instance runInContract.decidable (cfg : Settings) (fuel : Nat) :
    ∀ (ops : List Op) (s : MapSpriteList), Decidable (runInContract cfg fuel ops s)
  | [], _ => isTrue trivial
  | op :: ops, s => by
    unfold runInContract
    cases applyOp cfg fuel s op with
    | none => exact inferInstanceAs (Decidable (_ ∧ True))
    | some s2 =>
      have := runInContract.decidable cfg fuel ops s2
      exact inferInstanceAs (Decidable (_ ∧ _))

/-- Whether the traversal of the main chain is non-decreasing in `(DrawOrderPos, TreeIndex)`;
`none` when the traversal does not end within the fuel. -/
def chainOrdered (fuel : Nat) (s : MapSpriteList) : Option Bool :=
  (s.traverse fuel).map (fun l => decide (l.Pairwise (lexLE s)))

/-- The two lists hold the same free sprites and the same number of allocated sprites, so
that they hand out the same sprite at the next placement. -/
def FreeEq (s t : MapSpriteList) : Prop :=
  s._invalidatedSprites = t._invalidatedSprites ∧ s._spritesPool = t._spritesPool ∧
    s.allocated = t.allocated

/-- The pair `(DrawOrderPos, TreeIndex)` of `a` is below that of `b`, lexicographically. -/
def lexLT (s : MapSpriteList) (a b : Nat) : Prop :=
  keyOf s a < keyOf s b ∨ (keyOf s a = keyOf s b ∧ indexOf s a < indexOf s b)

instance lexLT.decidable (s : MapSpriteList) (a b : Nat) : Decidable (lexLT s a b) := by
  unfold lexLT; infer_instance

/-- The hex cell and the draw order category of the sprite at `n`, as `(HexX, HexY,
DrawOrder)`. -/
def placeOf (s : MapSpriteList) (n : Nat) : Nat × Nat × Nat :=
  ((s.sprites n).HexX, (s.sprites n).HexY, (s.sprites n).DrawOrder)

/-- The hex cell and the draw order category asked for by a placement request, as `(hx, hy,
draw_order)`. -/
def PutArgs.place (a : PutArgs) : Nat × Nat × Nat := (a.hx, a.hy, a.draw_order)

/-- A category of the Normal range at a cell inside the hex grid. -/
def inNormalGrid (cfg : Settings) (c hx hy : Nat) : Prop :=
  cfg.NormalBegin ≤ c ∧ c ≤ cfg.NormalEnd ∧ hx < cfg.MAXHEX_MAX ∧ hy < cfg.MAXHEX_MAX

instance inNormalGrid.decidable (cfg : Settings) (c hx hy : Nat) :
    Decidable (inNormalGrid cfg c hx hy) := by
  unfold inNormalGrid; infer_instance

/-- The category and the cell of the sprite at `n` satisfy `R`, and the sprite holds the key
computed from them. -/
def Keyed (cfg : Settings) (R : Nat → Nat → Nat → Prop) (s : MapSpriteList) (n : Nat) : Prop :=
  R (s.sprites n).DrawOrder (s.sprites n).HexX (s.sprites n).HexY ∧
    keyOf s n =
      drawOrderPos cfg (s.sprites n).DrawOrder (s.sprites n).HexX (s.sprites n).HexY

/-- The hex cell of the sprite at `n`, as `(HexX, HexY)`. -/
def cellOf (s : MapSpriteList) (n : Nat) : Nat × Nat := ((s.sprites n).HexX, (s.sprites n).HexY)

/-- The sprite at `x` is not after the sprite at `y` in the order by row, then column, then
category. -/
def cellLE (s : MapSpriteList) (x y : Nat) : Prop :=
  (s.sprites x).HexY < (s.sprites y).HexY ∨
    ((s.sprites x).HexY = (s.sprites y).HexY ∧
      ((s.sprites x).HexX < (s.sprites y).HexX ∨
        ((s.sprites x).HexX = (s.sprites y).HexX ∧
          (s.sprites x).DrawOrder ≤ (s.sprites y).DrawOrder)))

/-! ## Worked examples -/

/-- Constants for the worked examples: hex span 4000, Normal range 20..32, pool growth 4. -/
def exampleSettings : Settings :=
  { MAXHEX_MAX := 4000, NormalBegin := 20, NormalEnd := 32, SPRITES_POOL_GROW_SIZE := 4 }

/-- An empty list whose collaborator memory is cleared. -/
def emptyList : MapSpriteList := MapSpriteList.new (fun _ => false) (fun _ => none)

/-- The requests of the scenario `Insert(Normal, 2, 3)`, `Insert(Normal, 1, 3)`,
`Insert(EffectAbove, 0, 0)`, with `Normal` the first category of the Normal range and
`EffectAbove` the first category above it. -/
def scenario : List PutArgs :=
  [{ draw_order := 20, hx := 2, hy := 3 }, { draw_order := 20, hx := 1, hy := 3 },
   { draw_order := 33, hx := 0, hy := 0 }]

/-- The list left by inserting the requests of `scenario` into `emptyList`. -/
def scenarioList : MapSpriteList :=
  match insertAll exampleSettings 3 scenario (emptyList, []) with
  | some (s, _) => s
  | none => emptyList

/-- The list left by adding the requests of `scenario` to `emptyList`: its keys are not in
order. -/
def addedList : MapSpriteList :=
  match addAll exampleSettings 3 scenario (emptyList, []) with
  | some (s, _) => s
  | none => emptyList

/-- Requests that put a roof sprite between two grid sprites: a Normal sprite at row 0, a
sprite of the first category above the Normal range, and a Normal sprite at row 3000. -/
def roofScenario : List PutArgs :=
  [{ draw_order := 20, hx := 0, hy := 0 }, { draw_order := 33, hx := 0, hy := 0 },
   { draw_order := 20, hx := 0, hy := 3000 }]

/-- A run that breaks the order of the chain: `AddSprite` with category 1, then `AddSprite`
with category 0, both at cell `(0, 0)`. -/
def unorderedRun : List Op :=
  [Op.add { draw_order := 1, hx := 0, hy := 0 }, Op.add { draw_order := 0, hx := 0, hy := 0 }]

/-- A run within the contracts: insert a Normal sprite, add a sprite above the Normal range,
invalidate the first sprite (address 3), insert another Normal sprite. -/
def contractRun : List Op :=
  [Op.insert { draw_order := 20, hx := 2, hy := 3 }, Op.add { draw_order := 33, hx := 0, hy := 0 },
   Op.invalidate 3, Op.insert { draw_order := 20, hx := 1, hy := 3 }]

/-- Requests of the Normal range that share the cells `(1, 3)` and `(2, 3)`. -/
def cellScenario : List PutArgs :=
  [{ draw_order := 26, hx := 1, hy := 3 }, { draw_order := 20, hx := 2, hy := 3 },
   { draw_order := 23, hx := 1, hy := 3 }, { draw_order := 29, hx := 2, hy := 3 }]

/-! ## Geometry queries, hit test and mutators of `MapSprite` -/

/-- An `IRect`: the four `int` coordinates of a rectangle. -/
structure IRect where
  Left : Int
  Top : Int
  Right : Int
  Bottom : Int
  deriving DecidableEq

/-- What `MapSprite.cpp` reads of a `Sprite`: the pixel size, the offsets, and the optional
view size returned by `GetViewSize` (width, height and offsets packed as `Left`, `Top`,
`Right`, `Bottom`). -/
structure Sprite where
  Width : Int
  Height : Int
  OffsX : Int
  OffsY : Int
  GetViewSize : Option IRect
  deriving DecidableEq

/-- The memory and the collaborators read by the queries of a map sprite.
* `spriteAt a`: the `Sprite` object at address `a`;
* `slotAt p`: the `Sprite*` held by the indirect slot at `p` (the target of `PSpr`);
* `intAt p`: the `int` at `p` (targets of `PScrX`, `PScrY`, `OffsX`, `OffsY`);
* `CenterX`: `IRect::CenterX`, declared in a header that is not among the sources;
* `SpriteHitTest`: `SpriteManager::SpriteHitTest`, applied to a possibly null sprite. -/
structure SpriteEnv where
  spriteAt : Nat → Sprite
  slotAt : Nat → Option Nat
  intAt : Nat → Int
  CenterX : IRect → Int
  SpriteHitTest : Option Nat → Int → Int → Bool → Bool

/-- How a query stops without a result: a failed `RUNTIME_ASSERT`, or the dereference of a
null pointer that the source does not guard. -/
inductive Failure where
  | assertion
  | nullDeref
  deriving DecidableEq

/-- The sprite used by the queries: `PSpr != nullptr ? *PSpr : Spr`. -/
def MapSprite.resolveSprite (env : SpriteEnv) (m : MapSprite) : Option Nat :=
  match m.PSpr with
  | some p => env.slotAt p
  | none => m.Spr

/-- `MapSprite::GetDrawRect` (lines 101-118).  `int` arithmetic is taken in `Int` (signed
overflow is undefined in the source), `/` truncates toward zero. -/
def MapSprite.GetDrawRect (env : SpriteEnv) (m : MapSprite) : Except Failure IRect :=
  match m.resolveSprite env with
  | none => Except.error Failure.assertion
  | some a =>
      let spr := env.spriteAt a
      match m.PScrX, m.PScrY with
      | some px, some py =>
          let x := m.ScrX - spr.Width.tdiv 2 + spr.OffsX + env.intAt px
          let y := m.ScrY - spr.Height + spr.OffsY + env.intAt py
          let x := match m.OffsX with
            | some o => x + env.intAt o
            | none => x
          let y := match m.OffsY with
            | some o => y + env.intAt o
            | none => y
          Except.ok { Left := x, Top := y, Right := x + spr.Width, Bottom := y + spr.Height }
      | _, _ => Except.error Failure.nullDeref

/-- `MapSprite::GetViewRect` (lines 120-142). -/
def MapSprite.GetViewRect (env : SpriteEnv) (m : MapSprite) : Except Failure IRect :=
  match m.GetDrawRect env with
  | Except.error e => Except.error e
  | Except.ok rect =>
      match m.resolveSprite env with
      | none => Except.error Failure.assertion
      | some a =>
          match (env.spriteAt a).GetViewSize with
          | some view_rect =>
              let view_width := view_rect.Left
              let view_height := view_rect.Top
              let view_ox := view_rect.Right
              let view_oy := view_rect.Bottom
              let rect := { rect with Left := env.CenterX rect - view_width.tdiv 2 + view_ox }
              let rect := { rect with Right := rect.Left + view_width }
              let rect := { rect with Bottom := rect.Bottom + view_oy }
              let rect := { rect with Top := rect.Bottom - view_height }
              Except.ok rect
          | none => Except.ok rect

/-- `MapSprite::CheckHit` (lines 144-153).  `none`: `Root->_sprMngr` is reached with a null
`Root`. -/
def MapSprite.CheckHit (env : SpriteEnv) (m : MapSprite) (ox oy : Int)
    (check_transparent : Bool) : Option Bool :=
  if ox < 0 ∨ oy < 0 then some false
  else if check_transparent = false then some true
  else if m.Root = true then some (env.SpriteHitTest (m.resolveSprite env) ox oy true)
  else none

/-- `MapSprite::SetEggAppearence` (lines 155-160). -/
def MapSprite.SetEggAppearence (m : MapSprite) (egg_appearence : EggAppearenceType) :
    MapSprite :=
  { m with EggAppearence := egg_appearence }

/-- `MapSprite::SetContour(ContourType)` (lines 162-167). -/
def MapSprite.SetContour (m : MapSprite) (contour : ContourType) : MapSprite :=
  { m with Contour := contour }

/-- `MapSprite::SetContour(ContourType, ucolor)` (lines 169-175). -/
def MapSprite.SetContourColor (m : MapSprite) (contour : ContourType) (color : Nat) :
    MapSprite :=
  { m with Contour := contour, ContourColor := color }

/-- `MapSprite::SetColor` (lines 177-182). -/
def MapSprite.SetColor (m : MapSprite) (color : Nat) : MapSprite :=
  { m with Color := color }

/-- `MapSprite::SetAlpha` (lines 184-189). -/
def MapSprite.SetAlpha (m : MapSprite) (alpha : Option AlphaPtr) : MapSprite :=
  { m with Alpha := alpha }

/-- `MapSprite::SetFixedAlpha` (lines 191-198) on the sprite at address `self`: the byte at
offset 3 of `Color` (bits 24..31 of the 32-bit value) takes `alpha`, and `Alpha` points to
that byte. -/
def MapSprite.SetFixedAlpha (m : MapSprite) (self : Nat) (alpha : Nat) : MapSprite :=
  { m with Color := m.Color % 2 ^ 24 + (alpha % 256) * 2 ^ 24,
           Alpha := some (AlphaPtr.colorByte self) }

/-- The corners named by the `switch` of `SetLight`. -/
inductive CornerType where
  | NorthSouth
  | West
  | EastWest
  | East
  | South
  | North
  deriving DecidableEq

/-- The value held by an `int` after an expression whose mathematical value is `x`: `x`
reduced to the 32-bit two's complement range `[-2 ^ 31, 2 ^ 31)`. -/
def wrapInt32 (x : Int) : Int := (x + 2 ^ 31) % 2 ^ 32 - 2 ^ 31

/-- `MapSprite::SetLight` (lines 200-233).  `light` is the address of the light array; a
pointer into it is the pair of that address and an index.  The comparisons and the index
`HexY * maxhx + HexX` are made in `int` after promotion of the `uint16` operands: the
comparisons cannot overflow, the index is reduced to 32 bits (`wrapInt32`).  `Light - 1`,
`Light + 1`, `Light + maxhx` and `Light - maxhx` are pointer arithmetic on the pointer
obtained. -/
def MapSprite.SetLight (m : MapSprite) (corner : CornerType) (light : Nat)
    (maxhx maxhy : Nat) : MapSprite :=
  if m.HexX ≥ 1 ∧ (m.HexX : Int) < (maxhx : Int) - 1 ∧ m.HexY ≥ 1 ∧
      (m.HexY : Int) < (maxhy : Int) - 1 then
    let i : Int := wrapInt32 ((m.HexY : Int) * (maxhx : Int) + (m.HexX : Int))
    let m := { m with Light := some (light, i) }
    match corner with
    | CornerType.EastWest | CornerType.East =>
        { m with LightRight := some (light, i - 1), LightLeft := some (light, i + 1) }
    | CornerType.NorthSouth | CornerType.West =>
        { m with LightRight := some (light, i + (maxhx : Int)),
                 LightLeft := some (light, i - (maxhx : Int)) }
    | CornerType.South =>
        { m with LightRight := some (light, i - 1), LightLeft := some (light, i - (maxhx : Int)) }
    | CornerType.North =>
        { m with LightRight := some (light, i + (maxhx : Int)), LightLeft := some (light, i + 1) }
  else
    { m with Light := none, LightRight := none, LightLeft := none }

/-- A call of one of the mutators of a map sprite. -/
inductive Mutator where
  | SetEggAppearence (egg_appearence : EggAppearenceType)
  | SetContour (contour : ContourType)
  | SetContourColor (contour : ContourType) (color : Nat)
  | SetColor (color : Nat)
  | SetAlpha (alpha : Option AlphaPtr)
  | SetFixedAlpha (alpha : Nat)
  | SetLight (corner : CornerType) (light : Nat) (maxhx maxhy : Nat)
  deriving DecidableEq

/-- Perform one mutator call on the sprite `m` found at address `self`. -/
def Mutator.apply (self : Nat) (m : MapSprite) : Mutator → MapSprite
  | Mutator.SetEggAppearence e => m.SetEggAppearence e
  | Mutator.SetContour c => m.SetContour c
  | Mutator.SetContourColor c col => m.SetContourColor c col
  | Mutator.SetColor col => m.SetColor col
  | Mutator.SetAlpha p => m.SetAlpha p
  | Mutator.SetFixedAlpha al => m.SetFixedAlpha self al
  | Mutator.SetLight corner light maxhx maxhy => m.SetLight corner light maxhx maxhy

/-- Perform the mutator calls of `ms`, in order, on the sprite at address `n` of the list. -/
def mutate (s : MapSpriteList) (n : Nat) (ms : List Mutator) : MapSpriteList :=
  { s with sprites := modify s.sprites n (fun m => ms.foldl (Mutator.apply n) m) }

/-! ## `HexView`: the fading state -/

/-- The data members of `HexView` (lines 76-105 of `HexView.h`) with their initial values;
pointers are addresses, time points are ticks. -/
structure HexView where
  Visible : Bool := true
  Spr : Option Nat := none
  ScrX : Int := 0
  ScrY : Int := 0
  Alpha : Nat := 255
  DrawEffect : Option Nat := none
  _map : Option Nat := none
  _mapSpr : Option Nat := none
  _mapSprValid : Bool := false
  _maxAlpha : Nat := 255
  _fading : Bool := false
  _fadeUp : Bool := false
  _fadingTime : Nat := 0
  _finishing : Bool := false
  _finishingTime : Nat := 0
  deriving DecidableEq

/-- `HexView::IsFading` (line 62). -/
def HexView.IsFading (v : HexView) : Bool := v._fading

/-- `HexView::IsFinishing` (line 63). -/
def HexView.IsFinishing (v : HexView) : Bool := v._finishing

/-- `HexView::IsTransparent` (line 60). -/
def HexView.IsTransparent (v : HexView) : Bool := decide (v._maxAlpha < 255)

/-- `HexView::IsFullyTransparent` (line 61). -/
def HexView.IsFullyTransparent (v : HexView) : Bool := decide (v._maxAlpha = 0)

/-- `HexView::StoreFading` (line 69): the tuple `{_fading, _fadeUp, _fadingTime}`. -/
def HexView.StoreFading (v : HexView) : Bool × Bool × Nat :=
  (v._fading, v._fadeUp, v._fadingTime)

/-- `HexView::RestoreFading` (line 70): `std::tie(_fading, _fadeUp, _fadingTime) = data`. -/
def HexView.RestoreFading (v : HexView) (data : Bool × Bool × Nat) : HexView :=
  { v with _fading := data.1, _fadeUp := data.2.1, _fadingTime := data.2.2 }

/-- Modelled from the spec: `HexView::FadeUp` is declared in `HexView.h` and its body is not
among the sources.  "If not already finishing, sets `fading=true, fadeUp=true`, records the
start time"; "a visual in this state (finishing) ignores further `FadeUp`/`RestoreAlpha`
calls".  `now` is the current time. -/
def HexView.FadeUp (v : HexView) (now : Nat) : HexView :=
  if v._finishing = true then v
  else { v with _fading := true, _fadeUp := true, _fadingTime := now }

/-- Modelled from the spec: `HexView::RestoreAlpha` is declared in `HexView.h` and its body is
not among the sources.  "Cancels any in-progress fade and snaps to `maxAlpha` immediately";
"a visual in this state (finishing) ignores further `FadeUp`/`RestoreAlpha` calls". -/
def HexView.RestoreAlpha (v : HexView) : HexView :=
  if v._finishing = true then v
  else { v with _fading := false, Alpha := v._maxAlpha }

/-- Modelled from the spec: `HexView::SetMaxAlpha` is declared in `HexView.h` and its body is
not among the sources.  "Adjusts the ceiling; if a fade is in progress its target shifts
accordingly without restarting elapsed time": only the ceiling is written. -/
def HexView.SetMaxAlpha (v : HexView) (alpha : Nat) : HexView :=
  { v with _maxAlpha := alpha }

/-- A call on the fade surface of a `HexView`: `FadeUp` at a time, `RestoreAlpha`,
`SetMaxAlpha`, or `RestoreFading` with a stored tuple. -/
inductive FadeCall where
  | FadeUp (now : Nat)
  | RestoreAlpha
  | SetMaxAlpha (alpha : Nat)
  | RestoreFading (data : Bool × Bool × Nat)
  deriving DecidableEq

/-- Perform one call of the fade surface. -/
def FadeCall.apply (v : HexView) : FadeCall → HexView
  | FadeCall.FadeUp now => v.FadeUp now
  | FadeCall.RestoreAlpha => v.RestoreAlpha
  | FadeCall.SetMaxAlpha alpha => v.SetMaxAlpha alpha
  | FadeCall.RestoreFading data => v.RestoreFading data

/-- A view that has finished fading out and is finishing. -/
def finishingView : HexView := { _finishing := true, _fading := false, _finishingTime := 10 }

/-- A view in the middle of a fade, whose fading state gets stored. -/
def fadingView : HexView := { _fading := true, _fadeUp := true, _fadingTime := 7 }

/-! ## Invalidation and reuse of sprites -/

/-- The fields of a sprite outside the links of the main chain and of the extra chain: the
fields that `MapSprite::Invalidate` of another sprite never writes. -/
def MapSprite.payload (m : MapSprite) : MapSprite :=
  { m with ChainRoot := false, ChainLast := false, ChainParent := none, ChainChild := none,
           ExtraChainRoot := none, ExtraChainParent := none, ExtraChainChild := none }

/-- The links of a sprite in the main chain. -/
def MapSprite.chainLinks (m : MapSprite) : Bool × Bool × Option Nat × Option Nat :=
  (m.ChainRoot, m.ChainLast, m.ChainParent, m.ChainChild)

/-- The links of a sprite in the extra chain. -/
def MapSprite.extraLinks (m : MapSprite) : Option Nat × Option Nat × Option Nat :=
  (m.ExtraChainRoot, m.ExtraChainParent, m.ExtraChainChild)

/-- The fields of a sprite that no mutator (`SetEggAppearence`, `SetContour`, `SetColor`,
`SetAlpha`, `SetFixedAlpha`, `SetLight`) writes. -/
def MapSprite.unmutated (m : MapSprite) : MapSprite :=
  { m with EggAppearence := EggAppearenceType.None, Contour := ContourType.None,
           ContourColor := 0, Color := 0, Alpha := none, Light := none, LightRight := none,
           LightLeft := none }

/-- The assignments of lines 344-377 of `PutSprite`, applied to one sprite record. -/
def fillFields (cfg : Settings) (a : PutArgs) (m : MapSprite) : MapSprite :=
  { m with
    HexX := a.hx, HexY := a.hy, ScrX := a.x, ScrY := a.y, PScrX := a.sx, PScrY := a.sy,
    Spr := a.spr, PSpr := a.pspr, OffsX := a.ox, OffsY := a.oy, Alpha := a.alpha,
    Light := none, LightRight := none, LightLeft := none, Valid := true,
    ValidCallback := a.callback, EggAppearence := EggAppearenceType.None,
    Contour := ContourType.None, ContourColor := 0, Color := 0, DrawEffect := a.effect,
    DrawOrder := a.draw_order,
    DrawOrderPos := drawOrderPos cfg a.draw_order a.hx a.hy }

/-- Call `MapSprite::Invalidate` on the sprites of `ns`, in order. -/
def invalidateEach (ns : List Nat) (s : MapSpriteList) : MapSpriteList :=
  ns.foldl MapSprite.Invalidate s

/-- One placement: `InsertSprite` when `insert` is set, `AddSprite` otherwise. -/
def place (cfg : Settings) (fuel : Nat) (s : MapSpriteList) (insert : Bool) (a : PutArgs) :
    Option (MapSpriteList × Nat) :=
  if insert = true then s.InsertSprite cfg fuel a else s.AddSprite cfg fuel a

/-- Perform the placements of `ps`, in order; the addresses of the sprites handed back are
accumulated next to the state. -/
def placeAll (cfg : Settings) (fuel : Nat) :
    List (Bool × PutArgs) → MapSpriteList × List Nat → Option (MapSpriteList × List Nat)
  | [], acc => some acc
  | p :: rest, (s, hs) =>
      match place cfg fuel s p.1 p.2 with
      | none => none
      | some (s, h) => placeAll cfg fuel rest (s, hs ++ [h])

/-- The list `s` in which the record at address `m` is replaced by a never-used one, as
created by `new MapSprite()` in `GrowPool`. -/
def withFresh (s : MapSpriteList) (m : Nat) : MapSpriteList :=
  { s with sprites := store s.sprites m {} }

/-- A call on a list or on one of its sprites: a placement, `MapSprite::Invalidate` of the
sprite at `n`, `Sort`, or mutator calls on the sprite at `n`. -/
inductive ListCall where
  | add (a : PutArgs)
  | insert (a : PutArgs)
  | invalidate (n : Nat)
  | sort
  | mutators (n : Nat) (ms : List Mutator)
  deriving DecidableEq

/-- Perform one call. -/
def ListCall.apply (cfg : Settings) (fuel : Nat) (s : MapSpriteList) :
    ListCall → Option MapSpriteList
  | ListCall.add a => (s.AddSprite cfg fuel a).map Prod.fst
  | ListCall.insert a => (s.InsertSprite cfg fuel a).map Prod.fst
  | ListCall.invalidate n => some (MapSprite.Invalidate s n)
  | ListCall.sort => s.Sort fuel
  | ListCall.mutators n ms => some (mutate s n ms)

/-- The call leaves the sprite at `m` and its validity mirror `c` to their owner: a placement
is not given `c` as its mirror, and `MapSprite::Invalidate` is called on a sprite of the list
other than `m`. -/
def ListCall.avoids (c m : Nat) (s : MapSpriteList) : ListCall → Prop
  | ListCall.add a => a.callback ≠ some c
  | ListCall.insert a => a.callback ≠ some c
  | ListCall.invalidate n => n ≠ m ∧ n < s.allocated
  | ListCall.sort => True
  | ListCall.mutators _ _ => True

instance ListCall.avoids.decidable (c m : Nat) (s : MapSpriteList) (call : ListCall) :
    Decidable (call.avoids c m s) := by
  cases call <;> unfold ListCall.avoids <;> infer_instance

/-- Every call of the run `cs` from `s` leaves the sprite at `m` and its mirror `c` alone. -/
def runAvoids (cfg : Settings) (fuel : Nat) (c m : Nat) : List ListCall → MapSpriteList → Prop
  | [], _ => True
  | call :: cs, s =>
      call.avoids c m s ∧
        match call.apply cfg fuel s with
        | none => True
        | some s => runAvoids cfg fuel c m cs s

instance runAvoids.decidable (cfg : Settings) (fuel : Nat) (c m : Nat) :
    ∀ (cs : List ListCall) (s : MapSpriteList), Decidable (runAvoids cfg fuel c m cs s)
  | [], _ => isTrue trivial
  | call :: cs, s => by
    unfold runAvoids
    cases call.apply cfg fuel s with
    | none => exact inferInstanceAs (Decidable (_ ∧ True))
    | some s2 =>
      have := runAvoids.decidable cfg fuel c m cs s2
      exact inferInstanceAs (Decidable (_ ∧ _))

/-- The sprite at `m` is in the chain `l` and owns the validity mirror `c`: it is linked to
`c`, `c` holds true, and no other sprite of the chain is linked to `c`. -/
def OwnsMirror (s : MapSpriteList) (l : List Nat) (m c : Nat) : Prop :=
  m ∈ l ∧ (s.sprites m).ValidCallback = some c ∧ s.callbackMem c = true ∧
    ∀ n ∈ l, n ≠ m → (s.sprites n).ValidCallback ≠ some c

instance OwnsMirror.decidable (s : MapSpriteList) (l : List Nat) (m c : Nat) :
    Decidable (OwnsMirror s l m c) := by
  unfold OwnsMirror; infer_instance

/-! ## Worked examples for the queries -/

/-- An environment with one sprite of 64 x 48 pixels at every address, offsets `(3, -5)`, no
view size; the indirect slot 0 holds the sprite 1 and every other slot is null; the `int` at
address `p` is `10 * p`; the hit test succeeds on the pixels of the left half. -/
def exampleEnv : SpriteEnv where
  spriteAt := fun _ => { Width := 64, Height := 48, OffsX := 3, OffsY := -5, GetViewSize := none }
  slotAt := fun p => if p = 0 then some 1 else none
  intAt := fun p => 10 * (p : Int)
  CenterX := fun r => r.Left + (r.Right - r.Left).tdiv 2
  SpriteHitTest := fun spr ox oy _ => decide (spr ≠ none ∧ ox < 32 ∧ oy < 48)

/-- A placed sprite bound to sprite 7, anchored at `(100, 200)`, with position pointers 1 and 2
and the offset pointer 3 for `OffsX` only. -/
def exampleSprite : MapSprite :=
  { Root := true, Valid := true, Spr := some 7, ScrX := 100, ScrY := 200, PScrX := some 1,
    PScrY := some 2, OffsX := some 3, OffsY := none }

/-- A placed sprite whose `Spr` is null and whose indirect slot 5 holds a null sprite. -/
def unboundSprite : MapSprite :=
  { Root := true, Valid := true, Spr := none, PSpr := some 5, PScrX := some 1, PScrY := some 2 }

/-- Two placements, an `AddSprite` above the Normal range and an `InsertSprite` in it. -/
def reuseRequests : List (Bool × PutArgs) :=
  [(false, { draw_order := 34, hx := 5, hy := 5 }), (true, { draw_order := 20, hx := 0, hy := 1 })]

/-- Mutator calls that write the contour, the colors, the alpha pointer, the light pointers
and the egg appearance of a sprite. -/
def exampleMutators : List Mutator :=
  [Mutator.SetContourColor (ContourType.Other 1) 77, Mutator.SetColor 5,
   Mutator.SetFixedAlpha 9, Mutator.SetLight CornerType.North 40 10 10,
   Mutator.SetEggAppearence (EggAppearenceType.Other 2)]

/-- A placement request of the Normal range with an alpha pointer. -/
def reuseArgs : PutArgs :=
  { draw_order := 20, hx := 9, hy := 9, alpha := some (AlphaPtr.external 4) }

/-- A placement request of the Normal range whose validity mirror is the boolean 5. -/
def mirrorArgs : PutArgs := { draw_order := 20, hx := 4, hy := 4, callback := some 5 }

/-- The list left by inserting the request `mirrorArgs` into the list of the scenario. -/
def mirrorList : MapSpriteList :=
  match place exampleSettings 10 scenarioList true mirrorArgs with
  | some (s, _) => s
  | none => emptyList

/-- A placement request with the sprite 7 bound and the position pointers `sx`, `sy` null. -/
def nullPosArgs : PutArgs := { draw_order := 20, hx := 1, hy := 1, spr := some 7 }

/-- The sprite placed by `AddSprite` with the request `nullPosArgs` on the empty list. -/
def nullPosSprite : MapSprite :=
  match emptyList.AddSprite exampleSettings 1 nullPosArgs with
  | some (s, m) => s.sprites m
  | none => {}

/-! ## States reached by the public operations -/

/-- A call of a public operation of the list or of one of its sprites: `AddSprite`,
`InsertSprite`, `MapSprite::Invalidate` of the sprite at `n`, `MapSpriteList::Invalidate`,
`Sort`, or mutator calls on the sprite at `n`. -/
inductive PublicCall where
  | add (a : PutArgs)
  | insert (a : PutArgs)
  | invalidate (n : Nat)
  | invalidateAll
  | sort
  | mutators (n : Nat) (ms : List Mutator)
  deriving DecidableEq

/-- Perform one call. -/
def PublicCall.apply (cfg : Settings) (fuel : Nat) (s : MapSpriteList) :
    PublicCall → Option MapSpriteList
  | PublicCall.add a => (s.AddSprite cfg fuel a).map Prod.fst
  | PublicCall.insert a => (s.InsertSprite cfg fuel a).map Prod.fst
  | PublicCall.invalidate n => some (MapSprite.Invalidate s n)
  | PublicCall.invalidateAll => MapSpriteList.Invalidate fuel s
  | PublicCall.sort => s.Sort fuel
  | PublicCall.mutators n ms => some (mutate s n ms)

/-- Perform the calls of `cs` one after the other. -/
def runPublic (cfg : Settings) (fuel : Nat) :
    List PublicCall → MapSpriteList → Option MapSpriteList
  | [], s => some s
  | c :: cs, s =>
      match c.apply cfg fuel s with
      | none => none
      | some s => runPublic cfg fuel cs s

/-- The call is a single-sprite `Invalidate`. -/
def PublicCall.isInvalidate : PublicCall → Bool
  | PublicCall.invalidate _ => true
  | _ => false

/-- `Sound s l`: the list is well formed with main chain `l`, no record beyond the allocated
sprites is valid, and every allocated sprite is in the main chain, in the pool or in the
recycle bin. -/
structure Sound (s : MapSpriteList) (l : List Nat) : Prop where
  wf : WF s l
  beyond : ∀ n, s.allocated ≤ n → (s.sprites n).Valid = false
  cover : ∀ n, n < s.allocated → n ∈ l ∨ n ∈ s._spritesPool ∨ n ∈ s._invalidatedSprites

/-- The tree index of every sprite of `l` is its position in `l`. -/
def Positional (s : MapSpriteList) (l : List Nat) : Prop :=
  l.map (indexOf s) = List.range l.length

instance Positional.decidable (s : MapSpriteList) (l : List Nat) : Decidable (Positional s l) := by
  unfold Positional; infer_instance

/-- How a call moves the two tallies kept since construction or the last
`MapSpriteList::Invalidate`: the number of placements, and the number of calls of
`MapSprite::Invalidate` that found their sprite valid. -/
def PublicCall.tally (s : MapSpriteList) : PublicCall → Nat × Nat → Nat × Nat
  | PublicCall.add _, (p, i) => (p + 1, i)
  | PublicCall.insert _, (p, i) => (p + 1, i)
  | PublicCall.invalidate n, (p, i) => if (s.sprites n).Valid = true then (p, i + 1) else (p, i)
  | PublicCall.invalidateAll, _ => (0, 0)
  | PublicCall.sort, t => t
  | PublicCall.mutators _ _, t => t

/-- The tallies at the end of the run `cs` from `s`; `none` when the run does not return. -/
def runTally (cfg : Settings) (fuel : Nat) :
    List PublicCall → MapSpriteList → Nat × Nat → Option (Nat × Nat)
  | [], _, t => some t
  | c :: cs, s, t =>
      match c.apply cfg fuel s with
      | none => none
      | some s2 => runTally cfg fuel cs s2 (c.tally s t)

/-- How a call moves two more tallies kept since construction or the last
`MapSpriteList::Invalidate`: the number of calls of `MapSprite::Invalidate`, and the number of
those calls that found their sprite already invalid and returned at once (line 42). -/
def PublicCall.attempts (s : MapSpriteList) : PublicCall → Nat × Nat → Nat × Nat
  | PublicCall.add _, t => t
  | PublicCall.insert _, t => t
  | PublicCall.invalidate n, (c, z) =>
      if (s.sprites n).Valid = true then (c + 1, z) else (c + 1, z + 1)
  | PublicCall.invalidateAll, _ => (0, 0)
  | PublicCall.sort, t => t
  | PublicCall.mutators _ _, t => t

/-- The tallies of `attempts` at the end of the run `cs` from `s`; `none` when the run does
not return. -/
def runAttempts (cfg : Settings) (fuel : Nat) :
    List PublicCall → MapSpriteList → Nat × Nat → Option (Nat × Nat)
  | [], _, t => some t
  | c :: cs, s, t =>
      match c.apply cfg fuel s with
      | none => none
      | some s2 => runAttempts cfg fuel cs s2 (c.attempts s t)

/-- The sprites examined by the scan of `InsertSprite` (lines 402-411), one entry for every
evaluation of the loop body, in order; the scan stops recording when the fuel is used up. -/
def scanTrace (sp : Nat → MapSprite) (pos : Nat) : Nat → Option Nat → List Nat
  | _, none => []
  | 0, some _ => []
  | fuel + 1, some parent =>
      if (sp parent).Valid = false then parent :: scanTrace sp pos fuel (some parent)
      else if pos < (sp parent).DrawOrderPos then [parent]
      else parent :: scanTrace sp pos fuel (sp parent).ChainChild

/-- How often the scan of `InsertSprite` takes its branch `if (!parent->Valid) continue`. -/
def scanSkips (sp : Nat → MapSprite) (pos : Nat) : Nat → Option Nat → Nat
  | _, none => 0
  | 0, some _ => 0
  | fuel + 1, some parent =>
      if (sp parent).Valid = false then scanSkips sp pos fuel (some parent) + 1
      else if pos < (sp parent).DrawOrderPos then 0
      else scanSkips sp pos fuel (sp parent).ChainChild

/-- The sprites met from `mspr` along `ChainParent`, appended to `acc`. -/
def collectBack (sp : Nat → MapSprite) : Nat → Option Nat → List Nat → Option (List Nat)
  | _, none, acc => some acc
  | 0, some _, _ => none
  | fuel + 1, some mspr, acc => collectBack sp fuel (sp mspr).ChainParent (acc ++ [mspr])

/-- Tail-to-head traversal of the main chain: the sprites met from `_lastSprite` along
`ChainParent`. -/
def MapSpriteList.traverseBack (fuel : Nat) (s : MapSpriteList) : Option (List Nat) :=
  collectBack s.sprites fuel s._lastSprite []

/-- `ESeg sp prev e next`: the sprites of `e` are doubly linked in this order through
`ExtraChainParent` / `ExtraChainChild`, the first one having parent `prev` and the last one
child `next`. -/
def ESeg (sp : Nat → MapSprite) : Option Nat → List Nat → Option Nat → Prop
  | _, [], _ => True
  | prev, p :: e, next =>
      (sp p).ExtraChainParent = prev ∧ (sp p).ExtraChainChild = headOr e next ∧
        ESeg sp (some p) e next

instance ESeg.decidable (sp : Nat → MapSprite) :
    ∀ (prev : Option Nat) (e : List Nat) (next : Option Nat), Decidable (ESeg sp prev e next)
  | _, [], _ => isTrue trivial
  | prev, p :: e, next =>
      have := ESeg.decidable sp (some p) e next
      decidable_of_iff
        ((sp p).ExtraChainParent = prev ∧ (sp p).ExtraChainChild = headOr e next ∧
          ESeg sp (some p) e next)
        Iff.rfl

/-- `ExtraChain s r e`: `e` is a well-formed extra chain anchored at the slot `r`: the slot
points at the first member, the members are distinct and doubly linked, and the first member
alone holds `ExtraChainRoot`, which is the address of the slot. -/
structure ExtraChain (s : MapSpriteList) (r : Nat) (e : List Nat) : Prop where
  nodup : e.Nodup
  anchor : s.extraRootMem r = e.head?
  seg : ESeg s.sprites none e none
  root : ∀ n ∈ e, (s.sprites n).ExtraChainRoot = if e.head? = some n then some r else none

instance ExtraChain.decidable (s : MapSpriteList) (r : Nat) (e : List Nat) :
    Decidable (ExtraChain s r e) :=
  decidable_of_iff
    (e.Nodup ∧ s.extraRootMem r = e.head? ∧ ESeg s.sprites none e none ∧
      ∀ n ∈ e, (s.sprites n).ExtraChainRoot = if e.head? = some n then some r else none)
    ⟨fun ⟨h1, h2, h3, h4⟩ => ⟨h1, h2, h3, h4⟩, fun h => ⟨h.nodup, h.anchor, h.seg, h.root⟩⟩

/-- A run of public calls from the empty list: two additions (sprites 3 and 2), an insertion
in front of them (sprite 1), the invalidation of the sprite 2, mutator calls on the sprite 3,
a sort, an insertion that reuses the sprite 2, and an addition (sprite 0). -/
def publicRun : List PublicCall :=
  [PublicCall.add { draw_order := 20, hx := 2, hy := 3 },
   PublicCall.add { draw_order := 33, hx := 0, hy := 0 },
   PublicCall.insert { draw_order := 20, hx := 1, hy := 3 },
   PublicCall.invalidate 2,
   PublicCall.mutators 3 exampleMutators,
   PublicCall.sort,
   PublicCall.insert { draw_order := 20, hx := 1, hy := 3 },
   PublicCall.add { draw_order := 34, hx := 1, hy := 1 }]

/-- Three additions (sprites 3, 2 and 1, in chain order) and the invalidation of the middle
one. -/
def gapRun : List PublicCall :=
  [PublicCall.add { draw_order := 20, hx := 2, hy := 3 },
   PublicCall.add { draw_order := 20, hx := 2, hy := 4 },
   PublicCall.add { draw_order := 20, hx := 2, hy := 5 },
   PublicCall.invalidate 2]

/-- The list left by the run `gapRun` from the empty list. -/
def gapList : MapSpriteList :=
  match runPublic exampleSettings 5 gapRun emptyList with
  | some s => s
  | none => emptyList

/-- A sprite at the hex `(2, 3)`. -/
def lightSprite : MapSprite := { HexX := 2, HexY := 3 }

/-- The list `addedList` (main chain `[3, 2, 1]`) with the extra chain `[1, 3, 2]` anchored at
the slot 7: the slot points at the sprite 1, which holds `ExtraChainRoot`. -/
def extraList : MapSpriteList :=
  { addedList with
    extraRootMem := store addedList.extraRootMem 7 (some 1)
    sprites := fun k =>
      if k = 1 then
        { addedList.sprites 1 with ExtraChainRoot := some 7, ExtraChainChild := some 3 }
      else if k = 3 then
        { addedList.sprites 3 with ExtraChainParent := some 1, ExtraChainChild := some 2 }
      else if k = 2 then { addedList.sprites 2 with ExtraChainParent := some 3 }
      else addedList.sprites k }

/-- A sprite at the hex `(2, 50000)`, inside a grid of 60000 x 60000 hexes. -/
def farSprite : MapSprite := { HexX := 2, HexY := 50000 }

/-- Two additions (sprites 3 and 2, in chain order), the invalidation of the head 3, which
leaves the sprite 2 with the tree index 1 at position 0, and the invalidation of the sprite 2,
which leaves the chain empty. -/
def emptiedRun : List PublicCall :=
  [PublicCall.add { draw_order := 20, hx := 2, hy := 3 },
   PublicCall.add { draw_order := 20, hx := 2, hy := 4 },
   PublicCall.invalidate 3,
   PublicCall.invalidate 2]

/-- The list left by the run `emptiedRun` from the empty list. -/
def emptiedList : MapSpriteList :=
  match runPublic exampleSettings 6 emptiedRun emptyList with
  | some s => s
  | none => emptyList

/-! ## Theorems -/

/-! ### The sprite heap -/

@[simp] theorem modify_same (sp : Nat → MapSprite) (n : Nat) (f : MapSprite → MapSprite) :
    modify sp n f n = f (sp n) := by
  simp [modify]

@[simp] theorem modify_other (sp : Nat → MapSprite) (n j : Nat) (f : MapSprite → MapSprite)
    (h : j ≠ n) : modify sp n f j = sp j := by
  simp [modify, h]

theorem modify_apply (sp : Nat → MapSprite) (n j : Nat) (f : MapSprite → MapSprite) :
    modify sp n f j = if j = n then f (sp j) else sp j := rfl

theorem modify_id (sp : Nat → MapSprite) (n : Nat) (f : MapSprite → MapSprite)
    (h : f (sp n) = sp n) : modify sp n f = sp := by
  funext j
  by_cases hj : j = n
  · subst hj; simp [h]
  · simp [hj]

@[simp] theorem modifyAt_none (sp : Nat → MapSprite) (f : MapSprite → MapSprite) :
    modifyAt sp none f = sp := rfl

@[simp] theorem modifyAt_some (sp : Nat → MapSprite) (n : Nat) (f : MapSprite → MapSprite) :
    modifyAt sp (some n) f = modify sp n f := rfl

/-! ### Linked segments -/

@[simp] theorem headOr_nil (next : Option Nat) : headOr [] next = next := rfl

@[simp] theorem headOr_cons (q : Nat) (l : List Nat) (next : Option Nat) :
    headOr (q :: l) next = some q := rfl

theorem headOr_none (l : List Nat) : headOr l none = l.head? := by
  cases l <;> rfl

theorem headOr_append (a b : List Nat) (next : Option Nat) :
    headOr (a ++ b) next = headOr a (headOr b next) := by
  cases a <;> rfl

@[simp] theorem lastOr_nil (prev : Option Nat) : lastOr prev [] = prev := rfl

@[simp] theorem lastOr_concat (prev : Option Nat) (l : List Nat) (q : Nat) :
    lastOr prev (l ++ [q]) = some q := by
  simp [lastOr]

theorem lastOr_cons (prev : Option Nat) (p : Nat) (l : List Nat) :
    lastOr prev (p :: l) = lastOr (some p) l := by
  cases l with
  | nil => simp [lastOr]
  | cons q l =>
    simp only [lastOr, List.getLast?_cons_cons]
    have : (q :: l).getLast? = some ((q :: l).getLast (by simp)) := List.getLast?_eq_getLast _ _
    rw [this]

theorem lastOr_none (l : List Nat) : lastOr none l = l.getLast? := by
  unfold lastOr
  cases l.getLast? <;> rfl

@[simp] theorem seg_nil (sp : Nat → MapSprite) (prev next : Option Nat) :
    Seg sp prev [] next := trivial

theorem seg_cons (sp : Nat → MapSprite) (prev next : Option Nat) (p : Nat) (l : List Nat) :
    Seg sp prev (p :: l) next ↔
      (sp p).ChainParent = prev ∧ (sp p).ChainChild = headOr l next ∧ Seg sp (some p) l next :=
  Iff.rfl

theorem seg_append (sp : Nat → MapSprite) (a b : List Nat) (prev next : Option Nat) :
    Seg sp prev (a ++ b) next ↔ Seg sp prev a (headOr b next) ∧ Seg sp (lastOr prev a) b next := by
  induction a generalizing prev with
  | nil => simp
  | cons p a ih =>
    simp only [List.cons_append, seg_cons, ih, headOr_append, lastOr_cons]
    tauto

theorem seg_congr (sp sp1 : Nat → MapSprite) (l : List Nat) (prev next : Option Nat)
    (h : ∀ n ∈ l, (sp1 n).ChainParent = (sp n).ChainParent ∧
      (sp1 n).ChainChild = (sp n).ChainChild) :
    Seg sp prev l next → Seg sp1 prev l next := by
  induction l generalizing prev with
  | nil => intro _; trivial
  | cons p l ih =>
    intro hs
    obtain ⟨h1, h2, h3⟩ := hs
    have hp := h p (List.mem_cons_self _ _)
    exact ⟨hp.1.trans h1, hp.2.trans h2, ih _ (fun n hn => h n (List.mem_cons_of_mem _ hn)) h3⟩

/-- Changing only the child of the last sprite of a segment retargets the segment. -/
theorem seg_set_next (sp sp1 : Nat → MapSprite) (l : List Nat) (prev next next1 : Option Nat)
    (hnd : l.Nodup)
    (hpar : ∀ n ∈ l, (sp1 n).ChainParent = (sp n).ChainParent)
    (hch : ∀ n ∈ l, l.getLast? ≠ some n → (sp1 n).ChainChild = (sp n).ChainChild)
    (hlast : ∀ z, l.getLast? = some z → (sp1 z).ChainChild = next1) :
    Seg sp prev l next → Seg sp1 prev l next1 := by
  induction l generalizing prev with
  | nil => intro _; trivial
  | cons p l ih =>
    intro hs
    obtain ⟨h1, h2, h3⟩ := hs
    have hpl : p ∉ l := (List.nodup_cons.mp hnd).1
    have hndl : l.Nodup := (List.nodup_cons.mp hnd).2
    cases l with
    | nil =>
      refine ⟨(hpar p (by simp)).trans h1, ?_, trivial⟩
      simpa using hlast p (by simp)
    | cons q l =>
      refine ⟨(hpar p (by simp)).trans h1, ?_, ?_⟩
      · have hne : (p :: q :: l).getLast? ≠ some p := by
          intro hh
          have hmem : p ∈ (q :: l) := by
            rw [List.getLast?_cons_cons] at hh
            exact List.mem_of_getLast?_eq_some hh
          exact hpl hmem
        rw [hch p (by simp) hne, h2]; rfl
      · apply ih (some p) hndl
        · intro n hn; exact hpar n (List.mem_cons_of_mem _ hn)
        · intro n hn hne
          apply hch n (List.mem_cons_of_mem _ hn)
          rw [List.getLast?_cons_cons]; exact hne
        · intro z hz
          apply hlast z
          rw [List.getLast?_cons_cons]; exact hz
        · exact h3

/-- Changing only the parent of the first sprite of a segment retargets the segment. -/
theorem seg_set_prev (sp sp1 : Nat → MapSprite) (l : List Nat) (prev prev1 next : Option Nat)
    (hnd : l.Nodup)
    (hch : ∀ n ∈ l, (sp1 n).ChainChild = (sp n).ChainChild)
    (hpar : ∀ n ∈ l, l.head? ≠ some n → (sp1 n).ChainParent = (sp n).ChainParent)
    (hfirst : ∀ z, l.head? = some z → (sp1 z).ChainParent = prev1) :
    Seg sp prev l next → Seg sp1 prev1 l next := by
  cases l with
  | nil => intro _; trivial
  | cons p l =>
    intro hs
    obtain ⟨_, h2, h3⟩ := hs
    have hpl : p ∉ l := (List.nodup_cons.mp hnd).1
    refine ⟨hfirst p rfl, (hch p (by simp)).trans h2, ?_⟩
    apply seg_congr sp sp1 l (some p) next _ h3
    intro n hn
    refine ⟨hpar n (List.mem_cons_of_mem _ hn) ?_, hch n (List.mem_cons_of_mem _ hn)⟩
    intro hh
    simp only [List.head?_cons, Option.some.injEq] at hh
    exact hpl (hh ▸ hn)

/-! ### The loops over the main chain -/

theorem collect_none (sp : Nat → MapSprite) (fuel : Nat) (acc : List Nat) :
    collect sp fuel none acc = some acc := by
  cases fuel <;> rfl

/-- Walking a linked segment that ends in `nullptr` collects exactly its sprites. -/
theorem collect_seg (sp : Nat → MapSprite) (l : List Nat) (prev : Option Nat) (fuel : Nat)
    (acc : List Nat) (hs : Seg sp prev l none) (hf : l.length ≤ fuel) :
    collect sp fuel l.head? acc = some (acc ++ l) := by
  induction l generalizing prev fuel acc with
  | nil => simp [collect_none]
  | cons p l ih =>
    obtain ⟨_, h2, h3⟩ := hs
    cases fuel with
    | zero => simp at hf
    | succ fuel =>
      simp only [List.head?_cons, collect, h2, headOr_none]
      rw [ih (some p) fuel (acc ++ [p]) h3 (by simpa using hf)]
      simp

theorem findPlace_none (sp : Nat → MapSprite) (pos fuel : Nat) :
    findPlace sp pos fuel none = some none := by
  cases fuel <;> rfl

/-- On a linked segment of valid sprites the scan of `InsertSprite` stops at the first sprite
whose key exceeds `pos`. -/
theorem findPlace_seg (sp : Nat → MapSprite) (pos : Nat) (l : List Nat) (prev : Option Nat)
    (fuel : Nat) (hs : Seg sp prev l none) (hv : ∀ n ∈ l, (sp n).Valid = true)
    (hf : l.length ≤ fuel) :
    findPlace sp pos fuel l.head? =
      some (l.dropWhile (fun n => decide ((sp n).DrawOrderPos ≤ pos))).head? := by
  induction l generalizing prev fuel with
  | nil => simp [findPlace_none]
  | cons p l ih =>
    obtain ⟨_, h2, h3⟩ := hs
    cases fuel with
    | zero => simp at hf
    | succ fuel =>
      have hvp : (sp p).Valid = true := hv p (by simp)
      by_cases hk : (sp p).DrawOrderPos ≤ pos
      · have hnot : ¬ pos < (sp p).DrawOrderPos := Nat.not_lt.mpr hk
        simp only [List.head?_cons, findPlace, hvp, hnot, h2, headOr_none,
          List.dropWhile_cons, hk, decide_True, if_true, if_false, Bool.true_eq_false]
        exact ih (some p) fuel h3 (fun n hn => hv n (List.mem_cons_of_mem _ hn))
          (by simpa using hf)
      · have hlt : pos < (sp p).DrawOrderPos := Nat.lt_of_not_le hk
        simp [findPlace, hvp, hlt, List.dropWhile_cons, hk]

theorem renumber_none (sp : Nat → MapSprite) (fuel index : Nat) :
    renumber fuel sp none index = some sp := by
  cases fuel <;> rfl

/-- On a linked segment that ends in `nullptr` the index loop of `PutSprite` ends, numbers the
sprites of the segment consecutively from `index`, and changes nothing else. -/
theorem renumber_seg (l : List Nat) (sp : Nat → MapSprite) (prev : Option Nat)
    (fuel index : Nat) (hs : Seg sp prev l none) (hnd : l.Nodup) (hf : l.length ≤ fuel) :
    ∃ sp1, renumber fuel sp l.head? index = some sp1 ∧
      (∀ n, sp1 n = { sp n with TreeIndex := (sp1 n).TreeIndex }) ∧
      (∀ n, n ∉ l → sp1 n = sp n) ∧
      l.map (fun n => (sp1 n).TreeIndex) = List.range' index l.length := by
  induction l generalizing sp prev fuel index with
  | nil => exact ⟨sp, by simp [renumber_none], fun n => rfl, fun n _ => rfl, rfl⟩
  | cons p l ih =>
    obtain ⟨_, h2, h3⟩ := hs
    have hpl : p ∉ l := (List.nodup_cons.mp hnd).1
    have hndl : l.Nodup := (List.nodup_cons.mp hnd).2
    cases fuel with
    | zero => simp at hf
    | succ fuel =>
      have hseg : Seg (modify sp p (fun m => { m with TreeIndex := index })) (some p) l none := by
        apply seg_congr sp _ l (some p) none _ h3
        intro n _
        by_cases hn : n = p
        · subst hn; simp
        · simp [hn]
      obtain ⟨sp1, e1, e2, e3, e4⟩ := ih _ (some p) fuel (index + 1) hseg hndl (by simpa using hf)
      refine ⟨sp1, ?_, ?_, ?_, ?_⟩
      · simp only [List.head?_cons, renumber, modify_same, h2, headOr_none]
        exact e1
      · intro n
        rw [e2 n]
        by_cases hn : n = p
        · subst hn; simp
        · simp [hn]
      · intro n hn
        have hnp : n ≠ p := fun h => hn (h ▸ List.mem_cons_self _ _)
        rw [e3 n (fun h => hn (List.mem_cons_of_mem _ h))]
        simp [hnp]
      · simp only [List.map_cons, List.length_cons, List.range'_succ, e4]
        rw [e3 p hpl]
        simp

/-! ### Taking a sprite from the recycle bin or the pool -/

theorem linked_congr (s s1 : MapSpriteList) (l : List Nat) (h : Linked s l)
    (hsp : ∀ n ∈ l, s1.sprites n = s.sprites n) (hr : s1._rootSprite = s._rootSprite)
    (hl : s1._lastSprite = s._lastSprite) : Linked s1 l where
  nodup := h.nodup
  root := hr.trans h.root
  last := hl.trans h.last
  seg := seg_congr s.sprites s1.sprites l none none (fun n hn => by simp [hsp n hn]) h.seg
  chainRoot := fun n hn => by rw [hsp n hn]; exact h.chainRoot n hn
  chainLast := fun n hn => by rw [hsp n hn]; exact h.chainLast n hn
  index := by
    have : l.map (indexOf s1) = l.map (indexOf s) :=
      List.map_congr_left (fun n hn => by simp [indexOf, hsp n hn])
    rw [this]; exact h.index

/-- What `takeSprite` hands over: a sprite `m` outside the chain and outside the remaining free
sprites, invalid and without `ChainRoot` / `ChainLast`; the list stays well formed. -/
theorem takeSprite_wf (cfg : Settings) (s : MapSpriteList) (l : List Nat) (h : WF s l)
    (hg : 0 < cfg.SPRITES_POOL_GROW_SIZE) :
    ∃ s1 m, s.takeSprite cfg = some (s1, m) ∧ WF s1 l ∧ m ∉ l ∧ m < s1.allocated ∧
      m ∉ s1._spritesPool ++ s1._invalidatedSprites ∧
      (s1.sprites m).Valid = false ∧ (s1.sprites m).ChainRoot = false ∧
      (s1.sprites m).ChainLast = false ∧
      (∀ n, n < s.allocated → s1.sprites n = s.sprites n) ∧
      s1._rootSprite = s._rootSprite ∧ s1._lastSprite = s._lastSprite ∧
      s1._spriteCount = s._spriteCount ∧ s1.callbackMem = s.callbackMem ∧
      s1.extraRootMem = s.extraRootMem ∧ s1.released = s.released := by
  unfold MapSpriteList.takeSprite
  cases hb : s._invalidatedSprites.getLast? with
  | some m =>
    have hbin : s._invalidatedSprites.dropLast ++ [m] = s._invalidatedSprites :=
      List.dropLast_append_getLast? m hb
    have hperm : (s._spritesPool ++ s._invalidatedSprites).Perm
        (m :: (s._spritesPool ++ s._invalidatedSprites.dropLast)) := by
      rw [← hbin, ← List.append_assoc]
      simpa using List.perm_append_singleton m (s._spritesPool ++ s._invalidatedSprites.dropLast)
    have hnd := (List.Perm.nodup_iff hperm).mp h.freeNodup
    have hmF : m ∈ s._spritesPool ++ s._invalidatedSprites := hperm.mem_iff.mpr (by simp)
    have hsub : ∀ n, n ∈ s._spritesPool ++ s._invalidatedSprites.dropLast →
        n ∈ s._spritesPool ++ s._invalidatedSprites :=
      fun n hn => hperm.mem_iff.mpr (List.mem_cons_of_mem _ hn)
    refine ⟨_, m, rfl, ?_, h.freeOut m hmF, h.bound m (List.mem_append_right _ hmF),
      (List.nodup_cons.mp hnd).1, (h.freeClean m hmF).1, (h.freeClean m hmF).2.1,
      (h.freeClean m hmF).2.2, fun n _ => rfl, rfl, rfl, rfl, rfl, rfl, rfl⟩
    exact
      { toLinked := linked_congr s _ l h.toLinked (fun n _ => rfl) rfl rfl
        valid := h.valid
        validOnly := h.validOnly
        freeNodup := (List.nodup_cons.mp hnd).2
        freeOut := fun n hn => h.freeOut n (hsub n hn)
        freeClean := fun n hn => h.freeClean n (hsub n hn)
        bound := fun n hn => by
          rcases List.mem_append.mp hn with hn | hn
          · exact h.bound n (List.mem_append_left _ hn)
          · exact h.bound n (List.mem_append_right _ (hsub n hn))
        sortEmpty := h.sortEmpty }
  | none =>
    have hbin : s._invalidatedSprites = [] := List.getLast?_eq_none_iff.mp hb
    by_cases hp : s._spritesPool = []
    · -- the pool is grown first
      have hlast : (List.range' s.allocated cfg.SPRITES_POOL_GROW_SIZE).getLast? =
          some (s.allocated + (cfg.SPRITES_POOL_GROW_SIZE - 1)) := by
        obtain ⟨k, hk⟩ : ∃ k, cfg.SPRITES_POOL_GROW_SIZE = k + 1 := ⟨_, (Nat.succ_pred_eq_of_pos hg).symm⟩
        rw [hk, List.range'_concat]
        simp
      have hdrop : (List.range' s.allocated cfg.SPRITES_POOL_GROW_SIZE).dropLast =
          List.range' s.allocated (cfg.SPRITES_POOL_GROW_SIZE - 1) := by
        obtain ⟨k, hk⟩ : ∃ k, cfg.SPRITES_POOL_GROW_SIZE = k + 1 := ⟨_, (Nat.succ_pred_eq_of_pos hg).symm⟩
        rw [hk, List.range'_concat]
        simp
      have hl : ∀ n ∈ l, n < s.allocated := fun n hn => h.bound n (List.mem_append_left _ hn)
      simp only [hp, List.isEmpty_nil, if_true, MapSpriteList.GrowPool, List.nil_append, hlast,
        hdrop, hbin, List.append_nil]
      refine ⟨_, _, rfl, ?_, ?_, ?_, ?_, ?_, ?_, ?_, ?_, rfl, rfl, rfl, rfl, rfl, rfl⟩
      · exact
          { toLinked := linked_congr s _ l h.toLinked (fun n hn => by
              have := hl n hn
              simp only
              rw [if_neg]; omega) rfl rfl
            valid := fun n hn => by
              have := hl n hn
              simp only
              rw [if_neg (by omega)]; exact h.valid n hn
            validOnly := fun n hn hv => by
              simp only at hv hn
              by_cases hlt : n < s.allocated
              · rw [if_neg (by omega)] at hv; exact h.validOnly n hlt hv
              · rw [if_pos (by omega)] at hv; simp at hv
            freeNodup := by simpa using List.nodup_range' _ _
            freeOut := fun n hn hnl => by
              have := hl n hnl
              simp only [List.append_nil, List.mem_range'_1] at hn
              omega
            freeClean := fun n hn => by
              simp only [List.append_nil, List.mem_range'_1] at hn
              simp only
              rw [if_pos (by omega)]; simp
            bound := fun n hn => by
              simp only [List.append_nil, List.mem_append, List.mem_range'_1] at hn
              simp only
              rcases hn with hn | hn
              · have := hl n hn; omega
              · omega
            sortEmpty := h.sortEmpty }
      · intro hm; have := hl _ hm; omega
      · simp only; omega
      · simp only [List.append_nil, List.mem_range'_1]; omega
      · simp only; rw [if_pos (by omega)]
      · simp only; rw [if_pos (by omega)]
      · simp only; rw [if_pos (by omega)]
      · intro n hn; simp only; rw [if_neg (by omega)]
    · obtain ⟨m, hm⟩ : ∃ m, s._spritesPool.getLast? = some m := by
        cases hq : s._spritesPool.getLast? with
        | none => exact absurd (List.getLast?_eq_none_iff.mp hq) hp
        | some m => exact ⟨m, rfl⟩
      have hpool : s._spritesPool.dropLast ++ [m] = s._spritesPool :=
        List.dropLast_append_getLast? m hm
      have hperm : (s._spritesPool ++ s._invalidatedSprites).Perm
          (m :: (s._spritesPool.dropLast ++ s._invalidatedSprites)) := by
        rw [hbin, List.append_nil, List.append_nil, ← hpool]
        simp
      have hnd := (List.Perm.nodup_iff hperm).mp h.freeNodup
      have hmF : m ∈ s._spritesPool ++ s._invalidatedSprites := hperm.mem_iff.mpr (by simp)
      have hsub : ∀ n, n ∈ s._spritesPool.dropLast ++ s._invalidatedSprites →
          n ∈ s._spritesPool ++ s._invalidatedSprites :=
        fun n hn => hperm.mem_iff.mpr (List.mem_cons_of_mem _ hn)
      have hemp : s._spritesPool.isEmpty = false := by
        cases hq : s._spritesPool with
        | nil => exact absurd hq hp
        | cons _ _ => rfl
      simp only [hemp, Bool.false_eq_true, if_false, hm]
      refine ⟨_, m, rfl, ?_, h.freeOut m hmF, h.bound m (List.mem_append_right _ hmF),
        (List.nodup_cons.mp hnd).1, (h.freeClean m hmF).1, (h.freeClean m hmF).2.1,
        (h.freeClean m hmF).2.2, fun n _ => rfl, rfl, rfl, rfl, rfl, rfl, rfl⟩
      exact
        { toLinked := linked_congr s _ l h.toLinked (fun n _ => rfl) rfl rfl
          valid := h.valid
          validOnly := h.validOnly
          freeNodup := (List.nodup_cons.mp hnd).2
          freeOut := fun n hn => h.freeOut n (hsub n hn)
          freeClean := fun n hn => h.freeClean n (hsub n hn)
          bound := fun n hn => by
            rcases List.mem_append.mp hn with hn | hn
            · exact h.bound n (List.mem_append_left _ hn)
            · exact h.bound n (List.mem_append_right _ (hsub n hn))
          sortEmpty := h.sortEmpty }

/-! ### Linking a sprite into the main chain -/

theorem sorted_lt_concat (xs : List Nat) (x y : Nat) (h : (xs ++ [x]).Sorted (· < ·))
    (hxy : x < y) : (xs ++ [x] ++ [y]).Sorted (· < ·) := by
  unfold List.Sorted at *
  rw [List.pairwise_append]
  refine ⟨h, List.pairwise_singleton _ _, ?_⟩
  intro u hu v hv
  simp only [List.mem_singleton] at hv
  subst hv
  rcases List.mem_append.mp hu with hu | hu
  · have := (List.pairwise_append.mp h).2.2 u hu x (by simp)
    omega
  · simp only [List.mem_singleton] at hu
    omega

theorem index_append (s s1 : MapSpriteList) (l : List Nat) (m : Nat)
    (hidx : (l.map (indexOf s)).Sorted (· < ·))
    (hsame : ∀ n ∈ l, indexOf s1 n = indexOf s n)
    (hm : indexOf s1 m = nextIndex s.sprites l.getLast?) :
    ((l ++ [m]).map (indexOf s1)).Sorted (· < ·) := by
  have e : l.map (indexOf s1) = l.map (indexOf s) := List.map_congr_left hsame
  rw [List.map_append, e]
  rcases List.eq_nil_or_concat l with hl | ⟨l1, t, hl⟩
  · subst hl; simp
  · rw [List.concat_eq_append] at hl
    subst hl
    simp only [List.getLast?_concat, nextIndex] at hm
    simp only [List.map_append, List.map_cons, List.map_nil, hm]
    apply sorted_lt_concat
    · simpa using hidx
    · exact Nat.lt_succ_self _

/-- `linkSprite` with `child = nullptr`: the sprite is appended to the chain. -/
theorem linkSprite_append (fuel : Nat) (s : MapSpriteList) (l : List Nat) (m : Nat)
    (h : Linked s l) (hm : m ∉ l) (hr : (s.sprites m).ChainRoot = false) :
    ∃ s1, s.linkSprite fuel none m = some s1 ∧ Linked s1 (l ++ [m]) ∧
      (∀ n, (s1.sprites n).data = (s.sprites n).data) ∧
      (∀ n, n ∉ l → n ≠ m → s1.sprites n = s.sprites n) ∧
      (∀ n ∈ l, indexOf s1 n = indexOf s n) ∧
      indexOf s1 m = nextIndex s.sprites l.getLast? ∧
      s1 = { s with sprites := s1.sprites, _rootSprite := s1._rootSprite,
                    _lastSprite := s1._lastSprite } := by
  rcases List.eq_nil_or_concat l with hl | ⟨l1, t, hl⟩
  · subst hl
    have hlast : s._lastSprite = none := h.last
    simp only [MapSpriteList.linkSprite, hlast]
    refine ⟨_, rfl, ?_, ?_, ?_, ?_, ?_, rfl⟩
    · exact
        { nodup := by simp
          root := rfl
          last := rfl
          seg := by simp [seg_cons]
          chainRoot := fun n hn => by
            simp only [List.nil_append, List.mem_singleton] at hn
            subst hn; simp
          chainLast := fun n hn => by
            simp only [List.nil_append, List.mem_singleton] at hn
            subst hn; simp
          index := by simp }
    · intro n
      by_cases hn : n = m
      · subst hn; simp [MapSprite.data]
      · simp [hn]
    · intro n _ hn; simp [hn]
    · intro n hn; simp at hn
    · simp [indexOf, nextIndex]
  · rw [List.concat_eq_append] at hl
    subst hl
    have hlast : s._lastSprite = some t := by rw [h.last]; simp
    have htm : t ≠ m := fun e => hm (by simp [e])
    have hmt : m ≠ t := fun e => htm e.symm
    have hmem : ∀ n ∈ l1 ++ [t], n ≠ m := fun n hn e => hm (e ▸ hn)
    simp only [MapSpriteList.linkSprite, hlast]
    refine ⟨_, rfl, ?_, ?_, ?_, ?_, ?_, rfl⟩
    · exact
        { nodup := by
            rw [List.nodup_append]
            refine ⟨h.nodup, by simp, ?_⟩
            intro x hx hx2
            simp only [List.mem_singleton] at hx2
            exact hm (hx2 ▸ hx)
          root := by
            simp only
            rw [h.root]
            cases l1 <;> rfl
          last := by simp
          seg := by
            rw [seg_append]
            constructor
            · apply seg_set_next s.sprites _ (l1 ++ [t]) none none (some m) h.nodup _ _ _ h.seg
              · intro n hn
                have h1 := hmem n hn
                by_cases h2 : n = t
                · subst h2; simp [h1]
                · simp [h1, h2]
              · intro n hn hne
                have h1 := hmem n hn
                have h2 : n ≠ t := fun e => hne (by simp [e])
                simp [h1, h2]
              · intro z hz
                simp only [List.getLast?_concat, Option.some.injEq] at hz
                subst hz
                simp [htm]
            · simp [seg_cons, hmt]
          chainRoot := fun n hn => by
            have hhead : (l1 ++ [t] ++ [m]).head? = (l1 ++ [t]).head? := by cases l1 <;> rfl
            rw [hhead]
            rcases List.mem_append.mp hn with hn | hn
            · have h1 := hmem n hn
              have := h.chainRoot n hn
              by_cases h2 : n = t
              · subst h2; simpa [h1] using this
              · simpa [h1, h2] using this
            · simp only [List.mem_singleton] at hn
              subst hn
              constructor
              · intro hh; simp [hmt, hr] at hh
              · intro hh
                exact absurd (List.mem_of_mem_head? hh) hm
          chainLast := fun n hn => by
            rcases List.mem_append.mp hn with hn | hn
            · have h1 := hmem n hn
              by_cases h2 : n = t
              · subst h2; simp [h1, hmt]
              · have := h.chainLast n hn
                simp only [List.getLast?_concat, Option.some.injEq] at this
                simp only [List.getLast?_concat, Option.some.injEq]
                simp only [modify_other _ _ _ _ h1, modify_other _ _ _ _ h2]
                constructor
                · intro hh; exact absurd (this.mp hh).symm h2
                · intro hh; exact absurd hh.symm h1
            · simp only [List.mem_singleton] at hn
              subst hn
              simp
          index := by
            apply index_append s _ _ m h.index
            · intro n hn
              have h1 := hmem n hn
              by_cases h2 : n = t
              · subst h2; simp [indexOf, h1]
              · simp [indexOf, h1, h2]
            · simp [indexOf, htm, hmt, nextIndex] }
    · intro n
      by_cases hn : n = m
      · subst hn; simp [MapSprite.data, hmt]
      · by_cases h2 : n = t
        · subst h2; simp [hn, MapSprite.data]
        · simp [hn, h2]
    · intro n hnl hn
      have h2 : n ≠ t := fun e => hnl (by simp [e])
      simp [hn, h2]
    · intro n hn
      have h1 := hmem n hn
      by_cases h2 : n = t
      · subst h2; simp [indexOf, h1]
      · simp [indexOf, h1, h2]
    · simp [indexOf, htm, hmt, nextIndex]

theorem spliceBefore_apply (sp : Nat → MapSprite) (c m : Nat) (pa : Option Nat) (hcm : c ≠ m)
    (hpa : (sp c).ChainParent = pa) (hpm : pa ≠ some m) (hpc : pa ≠ some c) (n : Nat) :
    spliceBefore sp c m n =
      if n = m then { sp m with ChainChild := some c, ChainParent := pa }
      else if n = c then { sp c with ChainParent := some m }
      else if pa = some n then { sp n with ChainChild := some m }
      else sp n := by
  have hmc : m ≠ c := fun e => hcm e.symm
  subst hpa
  cases hp : (sp c).ChainParent with
  | none =>
    simp only [spliceBefore, modify_same, modify_other _ _ _ _ hcm, modify_other _ _ _ _ hmc, hp,
      modifyAt_none, modify_apply]
    by_cases h1 : n = m
    · subst h1; simp [hmc]
    · by_cases h2 : n = c
      · subst h2; simp [h1]
      · simp [h1, h2]
  | some p =>
    have hpm1 : p ≠ m := fun e => hpm (by rw [hp, e])
    have hpc1 : p ≠ c := fun e => hpc (by rw [hp, e])
    simp only [spliceBefore, modify_same, modify_other _ _ _ _ hcm, modify_other _ _ _ _ hmc, hp,
      modifyAt_some, modify_apply]
    by_cases h1 : n = m
    · subst h1
      have : n ≠ p := fun e => hpm1 e.symm
      simp [hmc, this]
    · by_cases h2 : n = c
      · subst h2
        have : n ≠ p := fun e => hpc1 e.symm
        simp [h1, this]
      · by_cases h3 : n = p
        · subst h3; simp [h1, h2]
        · have : p ≠ n := fun e => h3 e.symm
          simp [h1, h2, h3, this]

theorem setRoot_apply (sp : Nat → MapSprite) (m c : Nat) (hmc : m ≠ c) (n : Nat) :
    modify (modify sp m (fun x => { x with ChainRoot := true })) c
        (fun x => { x with ChainRoot := false }) n =
      { sp n with ChainRoot := if n = c then false else if n = m then true
                               else (sp n).ChainRoot } := by
  by_cases h2 : n = c
  · subst h2
    have : n ≠ m := fun e => hmc e.symm
    simp [this]
  · by_cases h1 : n = m
    · subst h1; simp [h2]
    · simp [h1, h2]

theorem sorted_lt_le_last (xs : List Nat) (t : Nat) (h : (xs ++ [t]).Sorted (· < ·)) :
    ∀ x ∈ xs ++ [t], x ≤ t := by
  intro x hx
  rcases List.mem_append.mp hx with hx | hx
  · exact Nat.le_of_lt ((List.pairwise_append.mp h).2.2 x hx t (by simp))
  · simp only [List.mem_singleton] at hx
    omega

theorem getLast?_insert_middle (a b : List Nat) (m c : Nat) :
    (a ++ m :: c :: b).getLast? = (a ++ c :: b).getLast? := by
  rw [List.getLast?_append, List.getLast?_append, List.getLast?_cons_cons]

theorem head?_insert_middle (a b : List Nat) (m c : Nat) (ha : a ≠ []) :
    (a ++ m :: c :: b).head? = (a ++ c :: b).head? := by
  cases a with
  | nil => exact absurd rfl ha
  | cons x a => rfl

/-- The chain obtained by splicing `m` in front of `c`, described by the link fields of the
resulting heap. -/
theorem linked_insert_core (s s1 : MapSpriteList) (a b : List Nat) (c m : Nat)
    (h : Linked s (a ++ c :: b)) (hm : m ∉ a ++ c :: b)
    (hl : (s.sprites m).ChainLast = false)
    (hroot : s1._rootSprite = (a ++ m :: c :: b).head?)
    (hlast : s1._lastSprite = s._lastSprite)
    (hPar : ∀ n, (s1.sprites n).ChainParent =
      if n = m then a.getLast? else if n = c then some m else (s.sprites n).ChainParent)
    (hCh : ∀ n, (s1.sprites n).ChainChild =
      if n = m then some c else if a.getLast? = some n then some m
      else (s.sprites n).ChainChild)
    (hRoot : ∀ n ∈ a ++ m :: c :: b,
      ((s1.sprites n).ChainRoot = true ↔ (a ++ m :: c :: b).head? = some n))
    (hLast : ∀ n, (s1.sprites n).ChainLast = (s.sprites n).ChainLast)
    (hIdxA : ∀ n ∈ a, indexOf s1 n = indexOf s n)
    (hIdxB : (m :: c :: b).map (indexOf s1) =
      List.range' (nextIndex s.sprites a.getLast?) (b.length + 2)) :
    Linked s1 (a ++ m :: c :: b) := by
  have hnd := h.nodup
  have hnd2 : (a ++ m :: c :: b).Nodup := by
    have hp : (a ++ m :: c :: b).Perm (m :: (a ++ c :: b)) := List.perm_middle
    rw [hp.nodup_iff]
    exact List.nodup_cons.mpr ⟨hm, hnd⟩
  have hma : m ∉ a := fun e => hm (List.mem_append_left _ e)
  have hcm : c ≠ m := fun e => hm (by simp [e])
  have hca : c ∉ a := by
    intro e
    rw [List.nodup_append] at hnd
    exact hnd.2.2 e (by simp)
  have hba : ∀ n ∈ b, n ∉ a := by
    intro n hn e
    rw [List.nodup_append] at hnd
    exact hnd.2.2 e (by simp [hn])
  have hbc : ∀ n ∈ b, n ≠ c := by
    intro n hn e
    rw [List.nodup_append, List.nodup_cons] at hnd
    exact hnd.2.1.1 (e ▸ hn)
  have hbm : ∀ n ∈ b, n ≠ m := fun n hn e => hm (by simp [← e, hn])
  have hlastmem : ∀ n, a.getLast? = some n → n ∈ a := fun n e => List.mem_of_getLast?_eq_some e
  obtain ⟨hsa, hsc⟩ := (seg_append _ _ _ _ _).mp h.seg
  obtain ⟨hcp, hcc, hsb⟩ := hsc
  rw [lastOr_none] at hcp
  simp only [headOr_cons] at hsa
  refine
    { nodup := hnd2
      root := hroot
      last := by rw [hlast, h.last, getLast?_insert_middle]
      seg := ?_
      chainRoot := hRoot
      chainLast := ?_
      index := ?_ }
  · rw [seg_append]
    constructor
    · simp only [headOr_cons]
      have hnda : a.Nodup := (List.nodup_append.mp hnd).1
      apply seg_set_next s.sprites s1.sprites a none (some c) (some m) hnda _ _ _ hsa
      · intro n hn
        have h1 : n ≠ m := fun e => hma (e ▸ hn)
        have h2 : n ≠ c := fun e => hca (e ▸ hn)
        rw [hPar n]; simp [h1, h2]
      · intro n hn hne
        have h1 : n ≠ m := fun e => hma (e ▸ hn)
        rw [hCh n]; simp [h1, hne]
      · intro z hz
        have h1 : z ≠ m := fun e => hma (e ▸ hlastmem z hz)
        rw [hCh z]; simp [h1, hz]
    · rw [lastOr_none]
      refine ⟨by rw [hPar m]; simp, by rw [hCh m]; simp, by rw [hPar c]; simp [hcm], ?_, ?_⟩
      · rw [hCh c, hcc]
        have : a.getLast? ≠ some c := fun e => hca (hlastmem c e)
        simp [hcm, this]
      · apply seg_congr s.sprites s1.sprites b (some c) none _ hsb
        intro n hn
        have h1 := hbm n hn
        have h2 := hbc n hn
        have h3 : a.getLast? ≠ some n := fun e => hba n hn (hlastmem n e)
        rw [hPar n, hCh n]; simp [h1, h2, h3]
  · intro n hn
    rw [hLast n, getLast?_insert_middle]
    have hn2 : n = m ∨ n ∈ a ++ c :: b := by
      simp only [List.mem_append, List.mem_cons] at hn ⊢
      tauto
    rcases hn2 with hn2 | hn2
    · subst hn2
      rw [hl]
      constructor
      · intro hh; cases hh
      · intro hh; exact absurd (List.mem_of_getLast?_eq_some hh) hm
    · exact h.chainLast n hn2
  · have hidx := h.index
    rw [List.map_append] at hidx ⊢
    rw [hIdxB, List.map_congr_left hIdxA]
    unfold List.Sorted at *
    rw [List.pairwise_append] at hidx ⊢
    refine ⟨hidx.1, List.pairwise_lt_range' _ _ , ?_⟩
    intro x hx y hy
    have hy1 := (List.mem_range'_1.mp hy).1
    rcases List.eq_nil_or_concat a with ha | ⟨a1, p, ha⟩
    · subst ha; simp at hx
    · rw [List.concat_eq_append] at ha
      subst ha
      simp only [List.getLast?_concat, nextIndex] at hy1
      have := sorted_lt_le_last (a1.map (indexOf s)) (indexOf s p) (by simpa using hidx.1) x
        (by simpa using hx)
      simp only [indexOf] at this
      omega

/-- `linkSprite` with a `child` of the chain: the sprite is spliced in right before `child`
and the sprites from there on are numbered consecutively. -/
theorem linkSprite_insert (fuel : Nat) (s : MapSpriteList) (a : List Nat) (c : Nat)
    (b : List Nat) (m : Nat) (h : Linked s (a ++ c :: b)) (hm : m ∉ a ++ c :: b)
    (hr : (s.sprites m).ChainRoot = false) (hl : (s.sprites m).ChainLast = false)
    (hf : b.length + 2 ≤ fuel) :
    ∃ s1, s.linkSprite fuel (some c) m = some s1 ∧ Linked s1 (a ++ m :: c :: b) ∧
      (∀ n, (s1.sprites n).data = (s.sprites n).data) ∧
      (∀ n, n ∉ a ++ c :: b → n ≠ m → s1.sprites n = s.sprites n) ∧
      (∀ n ∈ a, indexOf s1 n = indexOf s n) ∧
      (m :: c :: b).map (indexOf s1) =
        List.range' (nextIndex s.sprites a.getLast?) (b.length + 2) ∧
      s1 = { s with sprites := s1.sprites, _rootSprite := s1._rootSprite } := by
  have hnd := h.nodup
  have hma : m ∉ a := fun e => hm (List.mem_append_left _ e)
  have hcm : c ≠ m := fun e => hm (by simp [e])
  have hmc : m ≠ c := fun e => hcm e.symm
  have hca : c ∉ a := by
    intro e
    rw [List.nodup_append] at hnd
    exact hnd.2.2 e (by simp)
  have hba : ∀ n ∈ b, n ∉ a := by
    intro n hn e
    rw [List.nodup_append] at hnd
    exact hnd.2.2 e (by simp [hn])
  have hbc : ∀ n ∈ b, n ≠ c := by
    intro n hn e
    rw [List.nodup_append, List.nodup_cons] at hnd
    exact hnd.2.1.1 (e ▸ hn)
  have hbm : ∀ n ∈ b, n ≠ m := fun n hn e => hm (by simp [← e, hn])
  have hlastmem : ∀ n, a.getLast? = some n → n ∈ a := fun n e => List.mem_of_getLast?_eq_some e
  have hpm : a.getLast? ≠ some m := fun e => hma (hlastmem m e)
  have hpc : a.getLast? ≠ some c := fun e => hca (hlastmem c e)
  obtain ⟨hsa, hsc⟩ := (seg_append _ _ _ _ _).mp h.seg
  obtain ⟨hcp, hcc, hsb⟩ := hsc
  rw [lastOr_none] at hcp
  have hsp4 := spliceBefore_apply s.sprites c m a.getLast? hcm hcp hpm hpc
  have hseg4 : Seg (spliceBefore s.sprites c m) a.getLast? (m :: c :: b) none := by
    refine ⟨by rw [hsp4]; simp, by rw [hsp4]; simp, by rw [hsp4]; simp [hcm], ?_, ?_⟩
    · rw [hsp4]; simp [hcm, hcc]
    · apply seg_congr s.sprites _ b (some c) none _ hsb
      intro n hn
      have h1 := hbm n hn
      have h2 := hbc n hn
      have h3 : a.getLast? ≠ some n := fun e => hba n hn (hlastmem n e)
      rw [hsp4]; simp [h1, h2, h3]
  have hndm : (m :: c :: b).Nodup := by
    rw [List.nodup_append] at hnd
    refine List.nodup_cons.mpr ⟨?_, hnd.2.1⟩
    intro e
    exact hm (List.mem_append_right _ e)
  obtain ⟨sp5, e1, e2, e3, e4⟩ := renumber_seg (m :: c :: b) _ a.getLast? fuel
    (nextIndex s.sprites a.getLast?) hseg4 hndm (by simpa using hf)
  have e4 : (m :: c :: b).map (fun n => (sp5 n).TreeIndex) =
      List.range' (nextIndex s.sprites a.getLast?) (b.length + 2) := e4
  have hidx0 : nextIndex (spliceBefore s.sprites c m) (spliceBefore s.sprites c m m).ChainParent
      = nextIndex s.sprites a.getLast? := by
    rw [hsp4 m]
    simp only [if_true]
    cases hp : a.getLast? with
    | none => rfl
    | some p =>
      have h1 : p ≠ m := fun e => hpm (by rw [hp, e])
      have h2 : p ≠ c := fun e => hpc (by rw [hp, e])
      simp only [nextIndex]
      rw [hsp4 p]
      simp [h1, h2, hp]
  have hP5 : ∀ n, (sp5 n).ChainParent = (spliceBefore s.sprites c m n).ChainParent :=
    fun n => by rw [e2 n]
  have hC5 : ∀ n, (sp5 n).ChainChild = (spliceBefore s.sprites c m n).ChainChild :=
    fun n => by rw [e2 n]
  have hR5 : ∀ n, (sp5 n).ChainRoot = (s.sprites n).ChainRoot := fun n => by
    rw [e2 n, hsp4 n]; simp only; split_ifs <;> subst_vars <;> rfl
  have hL5 : ∀ n, (sp5 n).ChainLast = (s.sprites n).ChainLast := fun n => by
    rw [e2 n, hsp4 n]; simp only; split_ifs <;> subst_vars <;> rfl
  have hD5 : ∀ n, (sp5 n).data = (s.sprites n).data := fun n => by
    rw [e2 n, hsp4 n]; simp only [MapSprite.data]; split_ifs <;> subst_vars <;> rfl
  have hPar : ∀ n, (sp5 n).ChainParent =
      if n = m then a.getLast? else if n = c then some m else (s.sprites n).ChainParent := by
    intro n
    rw [hP5 n, hsp4 n]; split_ifs <;> subst_vars <;> rfl
  have hCh : ∀ n, (sp5 n).ChainChild =
      if n = m then some c else if a.getLast? = some n then some m
      else (s.sprites n).ChainChild := by
    intro n
    rw [hC5 n, hsp4 n]
    by_cases h1 : n = m
    · simp [h1]
    · by_cases h2 : n = c
      · have : a.getLast? ≠ some n := h2 ▸ hpc
        simp [h1, h2, this, hpc, hcm]
      · simp only [h1, h2, if_false]; split_ifs <;> rfl
  have hout5 : ∀ n, n ∉ a ++ c :: b → n ≠ m → sp5 n = s.sprites n := by
    intro n hn hnm
    have h2 : n ≠ c := fun e => hn (by simp [e])
    have h3 : a.getLast? ≠ some n := fun e => hn (List.mem_append_left _ (hlastmem n e))
    have h4 : n ∉ m :: c :: b := by
      simp only [List.mem_cons, not_or]
      exact ⟨hnm, h2, fun e => hn (by simp [e])⟩
    rw [e3 n h4, hsp4 n]; simp [hnm, h2, h3]
  have hIdxA5 : ∀ n ∈ a, (sp5 n).TreeIndex = (s.sprites n).TreeIndex := by
    intro n hn
    have h1 : n ≠ m := fun e => hma (e ▸ hn)
    have h2 : n ≠ c := fun e => hca (e ▸ hn)
    have h4 : n ∉ m :: c :: b := by
      simp only [List.mem_cons, not_or]
      exact ⟨h1, h2, fun e => hba n e hn⟩
    rw [e3 n h4, hsp4 n]
    simp only [h1, h2, if_false]; split_ifs <;> rfl
  have hmP5 : (sp5 m).ChainParent = a.getLast? := by rw [hPar m]; simp
  simp only [MapSpriteList.linkSprite, hidx0]
  simp only [List.head?_cons] at e1
  rw [e1]
  simp only [hmP5]
  rcases List.eq_nil_or_concat a with ha | ⟨a1, p, ha⟩
  · subst ha
    have hcr : (sp5 c).ChainRoot = true := by
      rw [hR5 c]; exact (h.chainRoot c (by simp)).mpr rfl
    simp only [List.getLast?_nil, hcr, if_true]
    have hF := setRoot_apply sp5 m c hmc
    refine ⟨_, rfl, ?_, ?_, ?_, ?_, ?_, rfl⟩
    · apply linked_insert_core s _ [] b c m h hm hl
      · rfl
      · rfl
      · intro n
        simp only [hF, hPar]
      · intro n
        simp only [hF, hCh]
      · intro n hn
        simp only [List.nil_append, List.head?_cons, Option.some.injEq, hF]
        by_cases h2 : n = c
        · subst h2
          simp only [if_true, Bool.false_eq_true, false_iff]
          exact fun e => hcm e.symm
        · by_cases h1 : n = m
          · subst h1; simp [h2]
          · simp only [h1, h2, if_false, hR5 n]
            have hnb : n ∈ b := by
              simp only [List.nil_append, List.mem_cons] at hn
              tauto
            have := h.chainRoot n (by simp [hnb])
            simp only [List.nil_append, List.head?_cons, Option.some.injEq] at this
            rw [this]
            constructor
            · intro e; exact absurd e.symm h2
            · intro e; exact absurd e.symm h1
      · intro n
        simp only [hF, hL5]
      · intro n hn; simp at hn
      · exact (List.map_congr_left (fun n _ => by simp only [indexOf, hF])).trans e4
    · intro n
      simp only [hF]
      rw [← hD5 n]
      rfl
    · intro n hn hnm
      have h2 : n ≠ c := fun e => hn (by simp [e])
      simp only [hF, h2, hnm, if_false]
      rw [← hout5 n hn hnm]
    · intro n hn; simp at hn
    · exact (List.map_congr_left (fun n _ => by simp only [indexOf, hF])).trans e4
  · rw [List.concat_eq_append] at ha
    subst ha
    simp only [List.getLast?_concat]
    refine ⟨_, rfl, ?_, hD5, hout5, fun n hn => hIdxA5 n hn, ?_, rfl⟩
    · apply linked_insert_core s _ (a1 ++ [p]) b c m h hm hl
      · simp only
        rw [h.root]
        exact (head?_insert_middle _ _ _ _ (by simp)).symm
      · rfl
      · exact hPar
      · exact hCh
      · intro n hn
        rw [hR5 n, head?_insert_middle _ _ _ _ (by simp)]
        have hn2 : n = m ∨ n ∈ a1 ++ [p] ++ c :: b := by
          simp only [List.mem_append, List.mem_cons] at hn ⊢
          tauto
        rcases hn2 with hn2 | hn2
        · subst hn2
          rw [hr]
          constructor
          · intro hh; cases hh
          · intro hh; exact absurd (List.mem_of_mem_head? hh) hm
        · exact h.chainRoot n hn2
      · exact hL5
      · exact fun n hn => hIdxA5 n hn
      · exact e4
    · have e5 := e4
      rw [List.getLast?_concat] at e5
      exact e5

/-! ### `PutSprite` on a well-formed list -/

theorem linked_of_links (s s1 : MapSpriteList) (l : List Nat) (h : Linked s l)
    (hsp : ∀ n ∈ l, (s1.sprites n).ChainParent = (s.sprites n).ChainParent ∧
      (s1.sprites n).ChainChild = (s.sprites n).ChainChild ∧
      (s1.sprites n).ChainRoot = (s.sprites n).ChainRoot ∧
      (s1.sprites n).ChainLast = (s.sprites n).ChainLast ∧
      (s1.sprites n).TreeIndex = (s.sprites n).TreeIndex)
    (hr : s1._rootSprite = s._rootSprite) (hl : s1._lastSprite = s._lastSprite) :
    Linked s1 l where
  nodup := h.nodup
  root := hr.trans h.root
  last := hl.trans h.last
  seg := seg_congr s.sprites s1.sprites l none none
    (fun n hn => ⟨(hsp n hn).1, (hsp n hn).2.1⟩) h.seg
  chainRoot := fun n hn => by rw [(hsp n hn).2.2.1]; exact h.chainRoot n hn
  chainLast := fun n hn => by rw [(hsp n hn).2.2.2.1]; exact h.chainLast n hn
  index := by
    have : l.map (indexOf s1) = l.map (indexOf s) :=
      List.map_congr_left (fun n hn => (hsp n hn).2.2.2.2)
    rw [this]; exact h.index

theorem wf_congr (s t : MapSpriteList) (l : List Nat) (h : WF s l)
    (h1 : t.sprites = s.sprites) (h2 : t.allocated = s.allocated)
    (h3 : t._rootSprite = s._rootSprite) (h4 : t._lastSprite = s._lastSprite)
    (h5 : t._invalidatedSprites = s._invalidatedSprites)
    (h6 : t._spritesPool = s._spritesPool) (h7 : t._sortSprites = s._sortSprites) :
    WF t l where
  toLinked := linked_congr s t l h.toLinked (fun n _ => by rw [h1]) h3 h4
  valid := by rw [h1]; exact h.valid
  validOnly := by rw [h1, h2]; exact h.validOnly
  freeNodup := by rw [h5, h6]; exact h.freeNodup
  freeOut := by rw [h5, h6]; exact h.freeOut
  freeClean := by rw [h1, h5, h6]; exact h.freeClean
  bound := by rw [h2, h5, h6]; exact h.bound
  sortEmpty := h7.trans h.sortEmpty

theorem data_valid {x y : MapSprite} (h : x.data = y.data) : x.Valid = y.Valid := by
  have e := congrArg MapSprite.Valid h
  exact e

theorem data_pos {x y : MapSprite} (h : x.data = y.data) : x.DrawOrderPos = y.DrawOrderPos := by
  have e := congrArg MapSprite.DrawOrderPos h
  exact e

theorem data_order {x y : MapSprite} (h : x.data = y.data) : x.DrawOrder = y.DrawOrder := by
  have e := congrArg MapSprite.DrawOrder h
  exact e

theorem data_hexX {x y : MapSprite} (h : x.data = y.data) : x.HexX = y.HexX := by
  have e := congrArg MapSprite.HexX h
  exact e

theorem data_hexY {x y : MapSprite} (h : x.data = y.data) : x.HexY = y.HexY := by
  have e := congrArg MapSprite.HexY h
  exact e

/-- The fields written by `fillSprite`. -/
theorem fillSprite_apply (cfg : Settings) (s : MapSpriteList) (m : Nat) (a : PutArgs) (n : Nat) :
    (s.fillSprite cfg m a).sprites n =
      if n = m then
        { s.sprites m with
          HexX := a.hx, HexY := a.hy, ScrX := a.x, ScrY := a.y, PScrX := a.sx, PScrY := a.sy,
          Spr := a.spr, PSpr := a.pspr, OffsX := a.ox, OffsY := a.oy, Alpha := a.alpha,
          Light := none, LightRight := none, LightLeft := none, Valid := true,
          ValidCallback := a.callback, EggAppearence := EggAppearenceType.None,
          Contour := ContourType.None, ContourColor := 0, Color := 0, DrawEffect := a.effect,
          DrawOrder := a.draw_order,
          DrawOrderPos := drawOrderPos cfg a.draw_order a.hx a.hy }
      else s.sprites n := by
  unfold MapSpriteList.fillSprite
  by_cases h : n = m
  · subst h; simp
  · simp [h]

theorem fillSprite_frame (cfg : Settings) (s : MapSpriteList) (m : Nat) (a : PutArgs) :
    (s.fillSprite cfg m a)._rootSprite = s._rootSprite ∧
    (s.fillSprite cfg m a)._lastSprite = s._lastSprite ∧
    (s.fillSprite cfg m a).allocated = s.allocated ∧
    (s.fillSprite cfg m a)._invalidatedSprites = s._invalidatedSprites ∧
    (s.fillSprite cfg m a)._spritesPool = s._spritesPool ∧
    (s.fillSprite cfg m a)._sortSprites = s._sortSprites ∧
    (s.fillSprite cfg m a)._spriteCount = s._spriteCount := by
  unfold MapSpriteList.fillSprite
  simp

/-- From a linked chain after `linkSprite` to a well-formed list after `fillSprite`. -/
theorem put_finish (cfg : Settings) (s1 s3 : MapSpriteList) (l l2 : List Nat) (m : Nat)
    (a : PutArgs) (hwf : WF s1 l) (hmb : m < s1.allocated)
    (hmF : m ∉ s1._spritesPool ++ s1._invalidatedSprites)
    (hl3 : Linked s3 l2) (hmem : ∀ n, n ∈ l2 ↔ n = m ∨ n ∈ l)
    (hdata : ∀ n, n ≠ m → (s3.sprites n).data = (s1.sprites n).data)
    (hout : ∀ n, n ∉ l → n ≠ m → s3.sprites n = s1.sprites n)
    (h2 : s3.allocated = s1.allocated)
    (h5 : s3._invalidatedSprites = s1._invalidatedSprites)
    (h6 : s3._spritesPool = s1._spritesPool) (h7 : s3._sortSprites = s1._sortSprites) :
    WF (s3.fillSprite cfg m a) l2 := by
  obtain ⟨f1, f2, f3, f4, f5, f6, _⟩ := fillSprite_frame cfg s3 m a
  have hsp := fillSprite_apply cfg s3 m a
  have hne : ∀ n, n ≠ m → (s3.fillSprite cfg m a).sprites n = s3.sprites n :=
    fun n hn => by rw [hsp n]; simp [hn]
  have hfree : ∀ n ∈ s1._spritesPool ++ s1._invalidatedSprites,
      (s3.fillSprite cfg m a).sprites n = s1.sprites n := by
    intro n hn
    have hnm : n ≠ m := fun e => hmF (e ▸ hn)
    rw [hne n hnm, hout n (hwf.freeOut n hn) hnm]
  exact
    { toLinked := linked_of_links s3 _ l2 hl3 (fun n _ => by
        rw [hsp n]; split_ifs <;> subst_vars <;> exact ⟨rfl, rfl, rfl, rfl, rfl⟩) f1 f2
      valid := fun n hn => by
        rcases (hmem n).mp hn with e | e
        · subst e; rw [hsp n]; simp
        · by_cases hnm : n = m
          · subst hnm; rw [hsp n]; simp
          · rw [hne n hnm, data_valid (hdata n hnm)]; exact hwf.valid n e
      validOnly := fun n hn hv => by
        by_cases hnm : n = m
        · exact (hmem n).mpr (Or.inl hnm)
        · rw [hne n hnm, data_valid (hdata n hnm)] at hv
          rw [f3, h2] at hn
          exact (hmem n).mpr (Or.inr (hwf.validOnly n hn hv))
      freeNodup := by rw [f4, f5, h5, h6]; exact hwf.freeNodup
      freeOut := by
        rw [f4, f5, h5, h6]
        intro n hn hn2
        rcases (hmem n).mp hn2 with e | e
        · exact hmF (e ▸ hn)
        · exact hwf.freeOut n hn e
      freeClean := by
        rw [f4, f5, h5, h6]
        intro n hn
        rw [hfree n hn]; exact hwf.freeClean n hn
      bound := by
        rw [f3, f4, f5, h2, h5, h6]
        intro n hn
        rcases List.mem_append.mp hn with e | e
        · rcases (hmem n).mp e with e2 | e2
          · exact e2 ▸ hmb
          · exact hwf.bound n (List.mem_append_left _ e2)
        · exact hwf.bound n (List.mem_append_right _ e)
      sortEmpty := by rw [f6, h7]; exact hwf.sortEmpty }

theorem put_start (cfg : Settings) (s : MapSpriteList) (l : List Nat) (h : WF s l)
    (hg : 0 < cfg.SPRITES_POOL_GROW_SIZE) :
    ∃ s1 m, ({ s with _spriteCount := s._spriteCount + 1 } : MapSpriteList).takeSprite cfg =
        some (s1, m) ∧
      WF s1 l ∧ m ∉ l ∧ m < s1.allocated ∧ m ∉ s1._spritesPool ++ s1._invalidatedSprites ∧
      Linked (afterTake s1 m) l ∧ ((afterTake s1 m).sprites m).ChainRoot = false ∧
      ((afterTake s1 m).sprites m).ChainLast = false ∧
      (∀ n ∈ l, s1.sprites n = s.sprites n) ∧ s1._spriteCount = s._spriteCount + 1 := by
  have h0 : WF ({ s with _spriteCount := s._spriteCount + 1 } : MapSpriteList) l :=
    wf_congr s _ l h rfl rfl rfl rfl rfl rfl rfl
  obtain ⟨s1, m, ht, hwf1, hml, hmb, hmF, _, hmr, hmlast, hsame, _, _, hcount, _, _, _⟩ :=
    takeSprite_wf cfg _ l h0 hg
  refine ⟨s1, m, ht, hwf1, hml, hmb, hmF, ?_, by simp [afterTake, hmr],
    by simp [afterTake, hmlast], ?_, hcount⟩
  · refine linked_of_links s1 (afterTake s1 m) l hwf1.toLinked ?_ rfl rfl
    intro n hn
    have hnm : n ≠ m := fun e => hml (e ▸ hn)
    simp [afterTake, hnm]
  · intro n hn
    exact hsame n (h.bound n (List.mem_append_left _ hn))

theorem afterTake_data (s1 : MapSpriteList) (m n : Nat) (hn : n ≠ m) :
    (afterTake s1 m).sprites n = s1.sprites n := by
  simp [afterTake, hn]

/-- `PutSprite` with `child = nullptr` on a well-formed list. -/
theorem PutSprite_append (cfg : Settings) (fuel : Nat) (s : MapSpriteList) (l : List Nat)
    (a : PutArgs) (h : WF s l) (hg : 0 < cfg.SPRITES_POOL_GROW_SIZE) :
    ∃ s2 m, s.PutSprite cfg fuel none a = some (s2, m) ∧ WF s2 (l ++ [m]) ∧
      Placed cfg s s2 l m a ∧ (∀ n ∈ l, indexOf s2 n = indexOf s n) ∧
      indexOf s2 m = nextIndex s.sprites l.getLast? := by
  obtain ⟨s1, m, ht, hwf1, hml, hmb, hmF, hl1, hmr, _, hsame, hcount⟩ := put_start cfg s l h hg
  obtain ⟨s3, e3, hl3, hd3, hout3, hidx3, hidxm, hfr3⟩ :=
    linkSprite_append fuel (afterTake s1 m) l m hl1 hml hmr
  have hsp := fillSprite_apply cfg s3 m a
  have hne : ∀ n, n ≠ m → (s3.fillSprite cfg m a).sprites n = s3.sprites n :=
    fun n hn => by rw [hsp n]; simp [hn]
  have hti : ∀ n, indexOf (s3.fillSprite cfg m a) n = indexOf s3 n := by
    intro n
    simp only [indexOf, hsp n]
    split_ifs <;> subst_vars <;> rfl
  have hlm : ∀ n ∈ l, n ≠ m := fun n hn e => hml (e ▸ hn)
  refine ⟨s3.fillSprite cfg m a, m, ?_, ?_, ?_, ?_, ?_⟩
  · simp only [MapSpriteList.PutSprite, ht]
    have : ({ s1 with sprites := modify s1.sprites m (fun x => { x with Root := true }) } :
        MapSpriteList) = afterTake s1 m := rfl
    rw [this, e3]
  · apply put_finish cfg s1 s3 l (l ++ [m]) m a hwf1 hmb hmF hl3
    · intro n; simp only [List.mem_append, List.mem_singleton]; tauto
    · intro n hn; rw [hd3 n, afterTake_data s1 m n hn]
    · intro n hnl hn; rw [hout3 n hnl hn, afterTake_data s1 m n hn]
    · rw [hfr3]; rfl
    · rw [hfr3]; rfl
    · rw [hfr3]; rfl
    · rw [hfr3]; rfl
  · exact
      { fresh := hml
        data := fun n hn => by
          rw [hne n (hlm n hn), hd3 n, afterTake_data s1 m n (hlm n hn), hsame n hn]
        valid := by rw [hsp m]; simp
        order := by rw [hsp m]; simp
        hexX := by rw [hsp m]; simp
        hexY := by rw [hsp m]; simp
        pos := by rw [hsp m]; simp
        count := by
          rw [(fillSprite_frame cfg s3 m a).2.2.2.2.2.2, hfr3]
          exact hcount }
  · intro n hn
    rw [hti n, hidx3 n hn]
    simp only [indexOf]
    rw [afterTake_data s1 m n (hlm n hn), hsame n hn]
  · rw [hti m, hidxm]
    cases hp : l.getLast? with
    | none => rfl
    | some p =>
      have hpl : p ∈ l := List.mem_of_getLast?_eq_some hp
      simp only [nextIndex]
      rw [afterTake_data s1 m p (hlm p hpl), hsame p hpl]

/-- `PutSprite` with a `child` of the chain on a well-formed list. -/
theorem PutSprite_insert (cfg : Settings) (fuel : Nat) (s : MapSpriteList) (a0 : List Nat)
    (c : Nat) (b : List Nat) (a : PutArgs) (h : WF s (a0 ++ c :: b))
    (hg : 0 < cfg.SPRITES_POOL_GROW_SIZE) (hf : b.length + 2 ≤ fuel) :
    ∃ s2 m, s.PutSprite cfg fuel (some c) a = some (s2, m) ∧ WF s2 (a0 ++ m :: c :: b) ∧
      Placed cfg s s2 (a0 ++ c :: b) m a ∧ (∀ n ∈ a0, indexOf s2 n = indexOf s n) ∧
      (m :: c :: b).map (indexOf s2) =
        List.range' (nextIndex s.sprites a0.getLast?) (b.length + 2) := by
  obtain ⟨s1, m, ht, hwf1, hml, hmb, hmF, hl1, hmr, hmlast, hsame, hcount⟩ :=
    put_start cfg s _ h hg
  obtain ⟨s3, e3, hl3, hd3, hout3, hidx3, hidxm, hfr3⟩ :=
    linkSprite_insert fuel (afterTake s1 m) a0 c b m hl1 hml hmr hmlast hf
  have hsp := fillSprite_apply cfg s3 m a
  have hne : ∀ n, n ≠ m → (s3.fillSprite cfg m a).sprites n = s3.sprites n :=
    fun n hn => by rw [hsp n]; simp [hn]
  have hti : ∀ n, indexOf (s3.fillSprite cfg m a) n = indexOf s3 n := by
    intro n
    simp only [indexOf, hsp n]
    split_ifs <;> subst_vars <;> rfl
  have hlm : ∀ n ∈ a0 ++ c :: b, n ≠ m := fun n hn e => hml (e ▸ hn)
  refine ⟨s3.fillSprite cfg m a, m, ?_, ?_, ?_, ?_, ?_⟩
  · simp only [MapSpriteList.PutSprite, ht]
    have : ({ s1 with sprites := modify s1.sprites m (fun x => { x with Root := true }) } :
        MapSpriteList) = afterTake s1 m := rfl
    rw [this, e3]
  · apply put_finish cfg s1 s3 (a0 ++ c :: b) (a0 ++ m :: c :: b) m a hwf1 hmb hmF hl3
    · intro n; simp only [List.mem_append, List.mem_cons]; tauto
    · intro n hn; rw [hd3 n, afterTake_data s1 m n hn]
    · intro n hnl hn; rw [hout3 n hnl hn, afterTake_data s1 m n hn]
    · rw [hfr3]; rfl
    · rw [hfr3]; rfl
    · rw [hfr3]; rfl
    · rw [hfr3]; rfl
  · exact
      { fresh := hml
        data := fun n hn => by
          rw [hne n (hlm n hn), hd3 n, afterTake_data s1 m n (hlm n hn), hsame n hn]
        valid := by rw [hsp m]; simp
        order := by rw [hsp m]; simp
        hexX := by rw [hsp m]; simp
        hexY := by rw [hsp m]; simp
        pos := by rw [hsp m]; simp
        count := by
          rw [(fillSprite_frame cfg s3 m a).2.2.2.2.2.2, hfr3]
          exact hcount }
  · intro n hn
    have hnl : n ∈ a0 ++ c :: b := List.mem_append_left _ hn
    rw [hti n, hidx3 n hn]
    simp only [indexOf]
    rw [afterTake_data s1 m n (hlm n hnl), hsame n hnl]
  · rw [List.map_congr_left (fun n _ => hti n), hidxm]
    cases hp : a0.getLast? with
    | none => rfl
    | some p =>
      have hpl : p ∈ a0 ++ c :: b := List.mem_append_left _ (List.mem_of_getLast?_eq_some hp)
      simp only [nextIndex]
      rw [afterTake_data s1 m p (hlm p hpl), hsame p hpl]

/-! ### `AddSprite`, `InsertSprite` and the traversal on a well-formed list -/

theorem traverse_wf (s : MapSpriteList) (l : List Nat) (fuel : Nat) (h : Linked s l)
    (hf : l.length ≤ fuel) : s.traverse fuel = some l := by
  unfold MapSpriteList.traverse
  rw [h.root, collect_seg s.sprites l none fuel [] h.seg hf]
  simp

/-- `AddSprite` on a well-formed list: the new sprite is appended. -/
theorem AddSprite_wf (cfg : Settings) (fuel : Nat) (s : MapSpriteList) (l : List Nat)
    (a : PutArgs) (h : WF s l) (hg : 0 < cfg.SPRITES_POOL_GROW_SIZE) :
    ∃ s2 m, s.AddSprite cfg fuel a = some (s2, m) ∧ WF s2 (l ++ [m]) ∧
      Placed cfg s s2 l m a ∧ (∀ n ∈ l, indexOf s2 n = indexOf s n) ∧
      indexOf s2 m = nextIndex s.sprites l.getLast? :=
  PutSprite_append cfg fuel s l a h hg

/-- `InsertSprite` on a well-formed list: the new sprite is put right before the first sprite
whose key exceeds the new key, and the sprites from there on are numbered consecutively. -/
theorem InsertSprite_wf (cfg : Settings) (fuel : Nat) (s : MapSpriteList) (l : List Nat)
    (a : PutArgs) (h : WF s l) (hg : 0 < cfg.SPRITES_POOL_GROW_SIZE)
    (hf : l.length + 1 ≤ fuel) :
    ∃ s2 m, s.InsertSprite cfg fuel a = some (s2, m) ∧
      WF s2 (l.takeWhile (fun n => decide (keyOf s n ≤ drawOrderPos cfg a.draw_order a.hx a.hy))
        ++ m :: l.dropWhile
          (fun n => decide (keyOf s n ≤ drawOrderPos cfg a.draw_order a.hx a.hy))) ∧
      Placed cfg s s2 l m a ∧
      (∀ n ∈ l.takeWhile (fun n => decide (keyOf s n ≤ drawOrderPos cfg a.draw_order a.hx a.hy)),
        indexOf s2 n = indexOf s n) ∧
      (m :: l.dropWhile
          (fun n => decide (keyOf s n ≤ drawOrderPos cfg a.draw_order a.hx a.hy))).map
          (indexOf s2) =
        List.range' (nextIndex s.sprites (l.takeWhile
            (fun n => decide (keyOf s n ≤ drawOrderPos cfg a.draw_order a.hx a.hy))).getLast?)
          ((l.dropWhile
            (fun n => decide (keyOf s n ≤ drawOrderPos cfg a.draw_order a.hx a.hy))).length
            + 1) := by
  have hfp := findPlace_seg s.sprites (drawOrderPos cfg a.draw_order a.hx a.hy) l none fuel
    h.seg h.valid (by omega)
  rw [← h.root] at hfp
  have hsplit := List.takeWhile_append_dropWhile
    (fun n => decide (keyOf s n ≤ drawOrderPos cfg a.draw_order a.hx a.hy)) l
  simp only [MapSpriteList.InsertSprite]
  rw [hfp]
  simp only [keyOf] at hsplit ⊢
  generalize List.takeWhile
    (fun n => decide ((s.sprites n).DrawOrderPos ≤ drawOrderPos cfg a.draw_order a.hx a.hy)) l
    = tw at hsplit ⊢
  cases hdw : List.dropWhile
    (fun n => decide ((s.sprites n).DrawOrderPos ≤ drawOrderPos cfg a.draw_order a.hx a.hy)) l
    with
  | nil =>
    rw [hdw, List.append_nil] at hsplit
    subst hsplit
    obtain ⟨s2, m, e, hwf, hp, hi, him⟩ := PutSprite_append cfg fuel s tw a h hg
    exact ⟨s2, m, e, hwf, hp, hi, by simp [him]⟩
  | cons c b =>
    rw [hdw] at hsplit
    subst hsplit
    have hlen : b.length + 2 ≤ fuel := by
      simp only [List.length_append, List.length_cons] at hf
      omega
    obtain ⟨s2, m, e, hwf, hp, hi, him⟩ := PutSprite_insert cfg fuel s tw c b a h hg hlen
    exact ⟨s2, m, e, hwf, hp, hi, him⟩

/-- Inserting after every key that is not greater keeps a list sorted by key.  `k` gives the
keys before and `k2` the keys after the insertion. -/
theorem sorted_insert_key (k k2 : Nat → Nat) (pos m : Nat) (hm : k2 m = pos) :
    ∀ l : List Nat, (∀ n ∈ l, k2 n = k n) → (l.map k).Sorted (· ≤ ·) →
      ((l.takeWhile (fun n => decide (k n ≤ pos)) ++
        m :: l.dropWhile (fun n => decide (k n ≤ pos))).map k2).Sorted (· ≤ ·)
  | [], _, _ => by simp
  | x :: l, hk, hs => by
    have hkl : ∀ n ∈ l, k2 n = k n := fun n hn => hk n (List.mem_cons_of_mem _ hn)
    have hs2 : (∀ b ∈ l.map k, k x ≤ b) ∧ (l.map k).Sorted (· ≤ ·) := List.sorted_cons.mp hs
    by_cases hx : k x ≤ pos
    · simp only [List.takeWhile_cons, List.dropWhile_cons, hx, decide_True, if_true,
        List.cons_append, List.map_cons]
      apply List.sorted_cons.mpr
      refine ⟨?_, sorted_insert_key k k2 pos m hm l hkl hs2.2⟩
      intro y hy
      simp only [List.map_append, List.map_cons, List.mem_append, List.mem_map,
        List.mem_cons] at hy
      rw [hk x (by simp)]
      rcases hy with ⟨n, hn, e⟩ | e | ⟨n, hn, e⟩
      · have hnl : n ∈ l := (List.takeWhile_sublist _).subset hn
        rw [← e, hkl n hnl]
        exact hs2.1 _ (List.mem_map_of_mem k hnl)
      · omega
      · have hnl : n ∈ l := (List.dropWhile_sublist _).subset hn
        rw [← e, hkl n hnl]
        exact hs2.1 _ (List.mem_map_of_mem k hnl)
    · simp only [List.takeWhile_cons, List.dropWhile_cons, hx, decide_False, if_false,
        List.nil_append, List.map_cons, Bool.false_eq_true]
      apply List.sorted_cons.mpr
      constructor
      · intro y hy
        simp only [List.mem_cons, List.mem_map] at hy
        rcases hy with e | ⟨n, hn, e⟩
        · rw [e, hk x (by simp)]; omega
        · have := hs2.1 _ (List.mem_map_of_mem k hn)
          rw [← e, hkl n hn]; omega
      · have e : (x :: l).map k2 = (x :: l).map k := List.map_congr_left hk
        have e2 : k2 x :: List.map k2 l = (x :: l).map k2 := rfl
        rw [e2, e]
        exact hs

theorem keySorted_insert (cfg : Settings) (s s2 : MapSpriteList) (l : List Nat) (m : Nat)
    (a : PutArgs) (hp : Placed cfg s s2 l m a) (hs : KeySorted s l) :
    KeySorted s2 (l.takeWhile (fun n => decide (keyOf s n ≤ drawOrderPos cfg a.draw_order a.hx a.hy))
      ++ m :: l.dropWhile
        (fun n => decide (keyOf s n ≤ drawOrderPos cfg a.draw_order a.hx a.hy))) :=
  sorted_insert_key (keyOf s) (keyOf s2) _ m hp.pos l (fun n hn => data_pos (hp.data n hn)) hs

theorem lex_pairwise (s : MapSpriteList) (l : List Nat) (hk : KeySorted s l)
    (hi : (l.map (indexOf s)).Sorted (· < ·)) : l.Pairwise (lexLE s) := by
  have h1 : l.Pairwise (fun a b => keyOf s a ≤ keyOf s b) := List.pairwise_map.mp hk
  have h2 : l.Pairwise (fun a b => indexOf s a < indexOf s b) := List.pairwise_map.mp hi
  refine (h1.and h2).imp ?_
  intro a b hab
  unfold lexLE
  rcases Nat.lt_or_eq_of_le hab.1 with e | e
  · exact Or.inl e
  · exact Or.inr ⟨e, Nat.le_of_lt hab.2⟩

theorem wf_new (cm : Nat → Bool) (em : Nat → Option Nat) : WF (MapSpriteList.new cm em) [] where
  nodup := List.nodup_nil
  root := rfl
  last := rfl
  seg := trivial
  chainRoot := fun n hn => by simp at hn
  chainLast := fun n hn => by simp at hn
  index := by simp
  valid := fun n hn => by simp at hn
  validOnly := fun n hn => by simp [MapSpriteList.new] at hn
  freeNodup := by simp [MapSpriteList.new]
  freeOut := fun n hn => by simp [MapSpriteList.new] at hn
  freeClean := fun n hn => by simp [MapSpriteList.new] at hn
  bound := fun n hn => by simp [MapSpriteList.new] at hn
  sortEmpty := rfl

/-- Any run of `InsertSprite` calls from a well-formed list with sorted keys ends, with enough
fuel, in a well-formed list with sorted keys. -/
theorem insertAll_wf (cfg : Settings) (fuel : Nat) (hg : 0 < cfg.SPRITES_POOL_GROW_SIZE) :
    ∀ (rs : List PutArgs) (s : MapSpriteList) (hs : List Nat) (l : List Nat), WF s l →
      KeySorted s l → l.length + rs.length ≤ fuel →
      ∃ s2 hs2 l2, insertAll cfg fuel rs (s, hs) = some (s2, hs2) ∧ WF s2 l2 ∧ KeySorted s2 l2 ∧
        l2.length = l.length + rs.length
  | [], s, hs, l, h, hk, _ => ⟨s, hs, l, rfl, h, hk, rfl⟩
  | a :: rs, s, hs, l, h, hk, hf => by
    simp only [List.length_cons] at hf
    obtain ⟨s1, m, e, hwf, hp, _, _⟩ := InsertSprite_wf cfg fuel s l a h hg (by omega)
    have hk1 := keySorted_insert cfg s s1 l m a hp hk
    have hlen : (l.takeWhile (fun n => decide (keyOf s n ≤ drawOrderPos cfg a.draw_order a.hx a.hy))
      ++ m :: l.dropWhile
        (fun n => decide (keyOf s n ≤ drawOrderPos cfg a.draw_order a.hx a.hy))).length
        = l.length + 1 := by
      have := congrArg List.length (List.takeWhile_append_dropWhile
        (fun n => decide (keyOf s n ≤ drawOrderPos cfg a.draw_order a.hx a.hy)) l)
      simp only [List.length_append, List.length_cons] at this ⊢
      omega
    obtain ⟨s2, hs2, l2, e2, hwf2, hk2, hl2⟩ :=
      insertAll_wf cfg fuel hg rs s1 (hs ++ [m]) _ hwf hk1 (by rw [hlen]; omega)
    refine ⟨s2, hs2, l2, ?_, hwf2, hk2, ?_⟩
    · simp only [insertAll, e]; exact e2
    · rw [hl2, hlen]; simp only [List.length_cons]; omega

/-! ### `Sort` on a well-formed list -/

theorem sortLess_false_iff (s : MapSpriteList) (a b : Nat) :
    sortLess s.sprites b a = false ↔ lexLE s a b := by
  unfold sortLess lexLE keyOf indexOf
  by_cases h : (s.sprites b).DrawOrderPos = (s.sprites a).DrawOrderPos
  · simp only [h, if_true, decide_eq_false_iff_not, Nat.not_lt, lt_self_iff_false, true_and,
      false_or]
  · simp only [h, if_false, decide_eq_false_iff_not, Nat.not_lt]
    constructor
    · intro hle
      exact Or.inl (Nat.lt_of_le_of_ne hle (fun e => h e.symm))
    · rintro (hlt | ⟨e, _⟩)
      · exact Nat.le_of_lt hlt
      · exact absurd e.symm h

theorem lexLE_total (s : MapSpriteList) (a b : Nat) : lexLE s a b ∨ lexLE s b a := by
  unfold lexLE; omega

theorem lexLE_trans (s : MapSpriteList) (a b c : Nat) (h1 : lexLE s a b) (h2 : lexLE s b c) :
    lexLE s a c := by
  unfold lexLE at *; omega

theorem stdSort_perm (less : Nat → Nat → Bool) (v : List Nat) : (stdSort less v).Perm v :=
  List.perm_insertionSort _ v

theorem stdSort_sorted (s : MapSpriteList) (v : List Nat) :
    (stdSort (sortLess s.sprites) v).Pairwise (lexLE s) := by
  haveI : IsTotal Nat (fun a b => sortLess s.sprites b a = false) :=
    ⟨fun a b => by
      simp only [sortLess_false_iff]; exact lexLE_total s a b⟩
  haveI : IsTrans Nat (fun a b => sortLess s.sprites b a = false) :=
    ⟨fun a b c => by
      simp only [sortLess_false_iff]; exact lexLE_trans s a b c⟩
  have h := List.sorted_insertionSort (fun a b => sortLess s.sprites b a = false) v
  exact List.Pairwise.imp (fun {a b} hab => (sortLess_false_iff s a b).mp hab) h

theorem orderedInsert_congr (r r2 : Nat → Nat → Prop) [DecidableRel r] [DecidableRel r2]
    (x : Nat) : ∀ t : List Nat, (∀ y ∈ t, (r x y ↔ r2 x y)) →
      List.orderedInsert r x t = List.orderedInsert r2 x t
  | [], _ => rfl
  | y :: t, h => by
    have hy := h y (List.mem_cons_self _ _)
    have ih := orderedInsert_congr r r2 x t (fun z hz => h z (List.mem_cons_of_mem _ hz))
    by_cases hr : r x y
    · simp [List.orderedInsert, hr, hy.mp hr]
    · have hr2 : ¬ r2 x y := fun e => hr (hy.mpr e)
      simp [List.orderedInsert, hr, hr2, ih]

/-- When the tree indices increase along `l`, sorting `l` with the comparison of `Sort` is the
stable sort of `l` by key alone. -/
theorem stdSort_eq_stable (s : MapSpriteList) :
    ∀ l : List Nat, (l.map (indexOf s)).Sorted (· < ·) →
      stdSort (sortLess s.sprites) l = l.insertionSort (fun a b => keyOf s a ≤ keyOf s b)
  | [], _ => rfl
  | x :: l, h => by
    have h2 : (∀ b ∈ l.map (indexOf s), indexOf s x < b) ∧ (l.map (indexOf s)).Sorted (· < ·) :=
      List.sorted_cons.mp h
    have ih := stdSort_eq_stable s l h2.2
    unfold stdSort at ih ⊢
    simp only [List.insertionSort]
    rw [ih]
    apply orderedInsert_congr
    intro y hy
    have hyl : y ∈ l := (List.perm_insertionSort _ l).subset hy
    have hlt := h2.1 _ (List.mem_map_of_mem (indexOf s) hyl)
    rw [sortLess_false_iff]
    unfold lexLE
    omega

/-! The relinking loop. -/

theorem relink_outside (n : Nat) : ∀ (rest : List Nat) (sp : Nat → MapSprite) (i prev : Nat),
    n ∉ prev :: rest → relink sp i prev rest n = sp n
  | [], _, _, _, _ => rfl
  | cur :: rest, sp, i, prev, h => by
    simp only [List.mem_cons, not_or] at h
    simp only [relink]
    rw [relink_outside n rest _ (i + 1) cur (by simp only [List.mem_cons, not_or]; exact ⟨h.2.1, h.2.2⟩)]
    simp [h.1, h.2.1]

theorem relink_data (n : Nat) : ∀ (rest : List Nat) (sp : Nat → MapSprite) (i prev : Nat),
    (relink sp i prev rest n).data = (sp n).data
  | [], _, _, _ => rfl
  | cur :: rest, sp, i, prev => by
    simp only [relink]
    rw [relink_data n rest _ (i + 1) cur]
    simp only [modify_apply]
    split_ifs <;> rfl

/-- Fields other than `ChainChild` change only in the sprites of `rest`. -/
theorem relink_keep (n : Nat) : ∀ (rest : List Nat) (sp : Nat → MapSprite) (i prev : Nat),
    n ∉ rest →
      (relink sp i prev rest n).ChainParent = (sp n).ChainParent ∧
      (relink sp i prev rest n).ChainRoot = (sp n).ChainRoot ∧
      (relink sp i prev rest n).ChainLast = (sp n).ChainLast ∧
      (relink sp i prev rest n).TreeIndex = (sp n).TreeIndex
  | [], _, _, _, _ => ⟨rfl, rfl, rfl, rfl⟩
  | cur :: rest, sp, i, prev, h => by
    simp only [List.mem_cons, not_or] at h
    simp only [relink]
    obtain ⟨e1, e2, e3, e4⟩ := relink_keep n rest
      (modify (modify (modify (modify (modify sp cur (fun m => { m with TreeIndex := i })) prev
        (fun m => { m with ChainChild := some cur })) cur
        (fun m => { m with ChainParent := some prev })) cur
        (fun m => { m with ChainRoot := false })) cur
        (fun m => { m with ChainLast := false })) (i + 1) cur h.2
    rw [e1, e2, e3, e4]
    simp only [modify_apply, h.1, if_false]
    split_ifs <;> exact ⟨rfl, rfl, rfl, rfl⟩

/-- The sprites of `rest` lose `ChainRoot` and `ChainLast` and are numbered from `i`. -/
theorem relink_rest : ∀ (rest : List Nat) (sp : Nat → MapSprite) (i prev : Nat),
    (prev :: rest).Nodup →
      (∀ n ∈ rest, (relink sp i prev rest n).ChainRoot = false ∧
        (relink sp i prev rest n).ChainLast = false) ∧
      rest.map (fun n => (relink sp i prev rest n).TreeIndex) = List.range' i rest.length
  | [], _, _, _, _ => ⟨fun n hn => by simp at hn, rfl⟩
  | cur :: rest, sp, i, prev, h => by
    have hnd : (cur :: rest).Nodup := (List.nodup_cons.mp h).2
    have hcur : cur ∉ rest := (List.nodup_cons.mp hnd).1
    have hpc : prev ≠ cur := fun e => (List.nodup_cons.mp h).1 (by simp [e])
    simp only [relink]
    obtain ⟨ih1, ih2⟩ := relink_rest rest
      (modify (modify (modify (modify (modify sp cur (fun m => { m with TreeIndex := i })) prev
        (fun m => { m with ChainChild := some cur })) cur
        (fun m => { m with ChainParent := some prev })) cur
        (fun m => { m with ChainRoot := false })) cur
        (fun m => { m with ChainLast := false })) (i + 1) cur hnd
    obtain ⟨_, k2, k3, k4⟩ := relink_keep cur rest
      (modify (modify (modify (modify (modify sp cur (fun m => { m with TreeIndex := i })) prev
        (fun m => { m with ChainChild := some cur })) cur
        (fun m => { m with ChainParent := some prev })) cur
        (fun m => { m with ChainRoot := false })) cur
        (fun m => { m with ChainLast := false })) (i + 1) cur hcur
    constructor
    · intro n hn
      rcases List.mem_cons.mp hn with e | e
      · subst e
        rw [k2, k3]; simp
      · exact ih1 n e
    · have hcp : cur ≠ prev := fun e => hpc e.symm
      simp only [List.map_cons, List.length_cons, List.range'_succ, ih2, k4]
      simp [hcp]

/-- The sprites of `rest` are doubly linked behind `prev`; the child of the last sprite of
`prev :: rest` is left as it was. -/
theorem relink_seg : ∀ (rest : List Nat) (sp : Nat → MapSprite) (i prev : Nat) (nx : Option Nat),
    (prev :: rest).Nodup → (∀ z, (prev :: rest).getLast? = some z → (sp z).ChainChild = nx) →
      Seg (relink sp i prev rest) (some prev) rest nx ∧
      (relink sp i prev rest prev).ChainChild = headOr rest nx
  | [], sp, _, prev, nx, _, hz => ⟨trivial, hz prev rfl⟩
  | cur :: rest, sp, i, prev, nx, h, hz => by
    have hnd : (cur :: rest).Nodup := (List.nodup_cons.mp h).2
    have hcur : cur ∉ rest := (List.nodup_cons.mp hnd).1
    have hpc : prev ≠ cur := fun e => (List.nodup_cons.mp h).1 (by simp [e])
    have hprest : prev ∉ cur :: rest := (List.nodup_cons.mp h).1
    simp only [relink]
    obtain ⟨ih1, ih2⟩ := relink_seg rest
      (modify (modify (modify (modify (modify sp cur (fun m => { m with TreeIndex := i })) prev
        (fun m => { m with ChainChild := some cur })) cur
        (fun m => { m with ChainParent := some prev })) cur
        (fun m => { m with ChainRoot := false })) cur
        (fun m => { m with ChainLast := false })) (i + 1) cur nx hnd (by
          intro z hzz
          have hzne : z ≠ prev := by
            intro e
            exact hprest (e ▸ List.mem_of_getLast?_eq_some hzz)
          have := hz z (by rw [List.getLast?_cons_cons]; exact hzz)
          rw [← this]
          simp only [modify_apply]
          split_ifs <;> rfl)
    obtain ⟨k1, _, _, _⟩ := relink_keep cur rest
      (modify (modify (modify (modify (modify sp cur (fun m => { m with TreeIndex := i })) prev
        (fun m => { m with ChainChild := some cur })) cur
        (fun m => { m with ChainParent := some prev })) cur
        (fun m => { m with ChainRoot := false })) cur
        (fun m => { m with ChainLast := false })) (i + 1) cur hcur
    refine ⟨⟨?_, ih2, ih1⟩, ?_⟩
    · rw [k1]; simp
    · rw [relink_outside prev rest _ (i + 1) cur (by
        simp only [List.mem_cons, not_or] at hprest ⊢
        exact hprest)]
      simp [hpc]

/-- The heap left by lines 462-468 of `Sort`. -/
theorem sortFix_apply (sp : Nat → MapSprite) (front back n : Nat) :
    modify (modify (modify (modify (modify (modify sp front
      (fun m => { m with TreeIndex := 0 })) front
      (fun m => { m with ChainParent := none })) front
      (fun m => { m with ChainRoot := true })) front
      (fun m => { m with ChainLast := false })) back
      (fun m => { m with ChainChild := none })) back
      (fun m => { m with ChainLast := true }) n =
    if n = back then
      if n = front then
        { sp n with TreeIndex := 0, ChainParent := none, ChainRoot := true, ChainChild := none,
                    ChainLast := true }
      else { sp n with ChainChild := none, ChainLast := true }
    else if n = front then
      { sp n with TreeIndex := 0, ChainParent := none, ChainRoot := true, ChainLast := false }
    else sp n := by
  by_cases h1 : n = back
  · by_cases h2 : n = front
    · subst h1; subst h2; simp
    · subst h1; simp [h2]
  · by_cases h2 : n = front
    · subst h2; simp [h1]
    · simp [h1, h2]

/-- The chain built by lines 451-468 of `Sort` from the sorted vector `front :: rest`. -/
theorem sort_relinked (sp F : Nat → MapSprite) (front back : Nat) (rest : List Nat)
    (hnd : (front :: rest).Nodup) (hb : (front :: rest).getLast? = some back)
    (hF : ∀ n, F n =
      if n = back then
        if n = front then
          { relink sp 1 front rest n with
            TreeIndex := 0, ChainParent := none, ChainRoot := true, ChainChild := none,
            ChainLast := true }
        else { relink sp 1 front rest n with ChainChild := none, ChainLast := true }
      else if n = front then
        { relink sp 1 front rest n with
          TreeIndex := 0, ChainParent := none, ChainRoot := true, ChainLast := false }
      else relink sp 1 front rest n) :
    Seg F none (front :: rest) none ∧
    (∀ n ∈ front :: rest, ((F n).ChainRoot = true ↔ n = front)) ∧
    (∀ n ∈ front :: rest, ((F n).ChainLast = true ↔ n = back)) ∧
    (front :: rest).map (fun n => (F n).TreeIndex) = List.range (rest.length + 1) ∧
    (∀ n, (F n).data = (sp n).data) ∧ (∀ n, n ∉ front :: rest → F n = sp n) := by
  have hfr : front ∉ rest := (List.nodup_cons.mp hnd).1
  have hndr : rest.Nodup := (List.nodup_cons.mp hnd).2
  have hbmem : back ∈ front :: rest := List.mem_of_getLast?_eq_some hb
  obtain ⟨hseg, hfc⟩ := relink_seg rest sp 1 front (sp back).ChainChild hnd (by
    intro z hz
    rw [hb] at hz
    cases hz; rfl)
  obtain ⟨hflags, hidx⟩ := relink_rest rest sp 1 front hnd
  have hrestlast : rest ≠ [] → rest.getLast? = some back := by
    intro hne
    cases rest with
    | nil => exact absurd rfl hne
    | cons r rest => rw [List.getLast?_cons_cons] at hb; exact hb
  have hbf : back = front → rest = [] := by
    intro e
    by_contra hne
    have := List.mem_of_getLast?_eq_some (hrestlast hne)
    exact hfr (e ▸ this)
  refine ⟨⟨?_, ?_, ?_⟩, ?_, ?_, ?_, ?_, ?_⟩
  · rw [hF front]; simp only [eq_self_iff_true, if_true]; split_ifs <;> rfl
  · by_cases e : front = back
    · have hr := hbf e.symm
      subst hr
      rw [hF front]; simp [e]
    · rw [hF front]
      simp only [e, if_false, if_true]
      have hne : rest ≠ [] := by
        intro hr
        subst hr
        simp only [List.getLast?_singleton, Option.some.injEq] at hb
        exact e hb
      show (relink sp 1 front rest front).ChainChild = _
      rw [hfc]
      cases rest with
      | nil => exact absurd rfl hne
      | cons r rest => rfl
  · apply seg_set_next (relink sp 1 front rest) F rest (some front) (sp back).ChainChild none
      hndr _ _ _ hseg
    · intro n hn
      have h1 : n ≠ front := fun e => hfr (e ▸ hn)
      rw [hF n]; simp only [h1, if_false]; split_ifs <;> rfl
    · intro n hn hne
      have h1 : n ≠ front := fun e => hfr (e ▸ hn)
      have h2 : n ≠ back := by
        intro e
        have := hrestlast (List.ne_nil_of_mem hn)
        exact hne (e ▸ this)
      rw [hF n]; simp only [h1, h2, if_false]
    · intro z hz
      have hne : rest ≠ [] := List.ne_nil_of_mem (List.mem_of_getLast?_eq_some hz)
      have := hrestlast hne
      rw [hz] at this
      cases this
      rw [hF back]; simp only [eq_self_iff_true, if_true]; split_ifs <;> rfl
  · intro n hn
    rcases List.mem_cons.mp hn with e | e
    · subst e
      rw [hF n]; simp only [eq_self_iff_true, if_true]; split_ifs <;> simp
    · have h1 : n ≠ front := fun e2 => hfr (e2 ▸ e)
      rw [hF n]; simp only [h1, if_false, iff_false]
      split_ifs
      · simp [(hflags n e).1]
      · simp [(hflags n e).1]
  · intro n hn
    by_cases h2 : n = back
    · rw [hF n]; simp only [h2, if_true, iff_true]; split_ifs <;> rfl
    · rw [hF n]; simp only [h2, if_false, iff_false]
      rcases List.mem_cons.mp hn with e | e
      · simp [e]
      · have h1 : n ≠ front := fun e2 => hfr (e2 ▸ e)
        simp [h1, (hflags n e).2]
  · have h0 : (F front).TreeIndex = 0 := by
      rw [hF front]; simp only [eq_self_iff_true, if_true]; split_ifs <;> rfl
    have hr : rest.map (fun n => (F n).TreeIndex) =
        rest.map (fun n => (relink sp 1 front rest n).TreeIndex) := by
      apply List.map_congr_left
      intro n hn
      have h1 : n ≠ front := fun e => hfr (e ▸ hn)
      rw [hF n]; simp only [h1, if_false]; split_ifs <;> rfl
    rw [List.map_cons, h0, hr, hidx, List.range_eq_range', List.range'_succ]
  · intro n
    rw [← relink_data n rest sp 1 front, hF n]
    split_ifs <;> rfl
  · intro n hn
    have h1 : n ≠ front := fun e => hn (by simp [e])
    have h2 : n ≠ back := fun e => hn (e ▸ hbmem)
    rw [hF n]; simp only [h1, h2, if_false]
    exact relink_outside n rest sp 1 front hn

/-- `Sort` on a well-formed list: the chain becomes the sorted vector, the sprites are numbered
by their new positions, and nothing but chain links and tree indices changes. -/
theorem Sort_wf (fuel : Nat) (s : MapSpriteList) (l : List Nat) (h : WF s l)
    (hf : l.length ≤ fuel) :
    ∃ s2, s.Sort fuel = some s2 ∧ WF s2 (stdSort (sortLess s.sprites) l) ∧
      (∀ n, (s2.sprites n).data = (s.sprites n).data) ∧
      (stdSort (sortLess s.sprites) l).map (indexOf s2) = List.range l.length ∧
      (∀ n, n ∉ l → s2.sprites n = s.sprites n) ∧
      s2 = { s with sprites := s2.sprites, _rootSprite := s2._rootSprite,
                    _lastSprite := s2._lastSprite } := by
  cases l with
  | nil =>
    have hroot : s._rootSprite = none := h.root
    refine ⟨s, by simp only [MapSpriteList.Sort, hroot], h, fun n => rfl, rfl, fun n _ => rfl, rfl⟩
  | cons x l =>
    have hroot : s._rootSprite = some x := h.root
    have hcol := collect_seg s.sprites (x :: l) none fuel s._sortSprites h.seg hf
    rw [h.sortEmpty, List.nil_append, List.head?_cons] at hcol
    have hperm := stdSort_perm (sortLess s.sprites) (x :: l)
    obtain ⟨front, rest, hv⟩ : ∃ front rest, stdSort (sortLess s.sprites) (x :: l) = front :: rest := by
      cases hq : stdSort (sortLess s.sprites) (x :: l) with
      | nil => rw [hq] at hperm; exact absurd hperm.symm.eq_nil (by simp)
      | cons front rest => exact ⟨front, rest, rfl⟩
    rw [hv] at hperm ⊢
    have hmem : ∀ n, n ∈ front :: rest ↔ n ∈ x :: l := fun n => hperm.mem_iff
    have hnd : (front :: rest).Nodup := hperm.nodup_iff.mpr h.nodup
    obtain ⟨back, hb⟩ : ∃ back, (front :: rest).getLast? = some back :=
      ⟨_, List.getLast?_eq_getLast _ (by simp)⟩
    have hF := sortFix_apply (relink s.sprites 1 front rest) front back
    obtain ⟨g1, g2, g3, g4, g5, g6⟩ := sort_relinked s.sprites _ front back rest hnd hb hF
    obtain ⟨s2, hs2⟩ : ∃ s2 : MapSpriteList, s2 =
        { s with
          _rootSprite := some front
          _lastSprite := some back
          sprites := modify (modify (modify (modify (modify (modify
            (relink s.sprites 1 front rest) front
            (fun m => { m with TreeIndex := 0 })) front
            (fun m => { m with ChainParent := none })) front
            (fun m => { m with ChainRoot := true })) front
            (fun m => { m with ChainLast := false })) back
            (fun m => { m with ChainChild := none })) back
            (fun m => { m with ChainLast := true })
          _sortSprites := [] } := ⟨_, rfl⟩
    have hsort : s.Sort fuel = some s2 := by
      simp only [MapSpriteList.Sort, hroot, h.sortEmpty]
      rw [hcol]
      simp only [hv, List.head?_cons, hb, List.tail_cons]
      rw [hs2]
    have g1 : Seg s2.sprites none (front :: rest) none := by rw [hs2]; exact g1
    have g2 : ∀ n ∈ front :: rest, ((s2.sprites n).ChainRoot = true ↔ n = front) := by
      rw [hs2]; exact g2
    have g3 : ∀ n ∈ front :: rest, ((s2.sprites n).ChainLast = true ↔ n = back) := by
      rw [hs2]; exact g3
    have g4 : (front :: rest).map (indexOf s2) = List.range (rest.length + 1) := by
      rw [hs2]; exact g4
    have g5 : ∀ n, (s2.sprites n).data = (s.sprites n).data := by rw [hs2]; exact g5
    have g6 : ∀ n, n ∉ front :: rest → s2.sprites n = s.sprites n := by rw [hs2]; exact g6
    have f1 : s2._rootSprite = some front := by rw [hs2]
    have f2 : s2._lastSprite = some back := by rw [hs2]
    have f3 : s2.allocated = s.allocated := by rw [hs2]
    have f4 : s2._invalidatedSprites = s._invalidatedSprites := by rw [hs2]
    have f5 : s2._spritesPool = s._spritesPool := by rw [hs2]
    have f6 : s2._sortSprites = [] := by rw [hs2]
    refine ⟨s2, hsort, ?_, g5, ?_, ?_, ?_⟩
    · exact
        { nodup := hnd
          root := f1
          last := f2.trans hb.symm
          seg := g1
          chainRoot := fun n hn => by
            rw [g2 n hn]
            simp only [List.head?_cons, Option.some.injEq]
            exact eq_comm
          chainLast := fun n hn => by
            rw [g3 n hn, hb]
            simp only [Option.some.injEq]
            exact eq_comm
          index := by
            rw [g4, List.range_eq_range']
            exact List.pairwise_lt_range' _ _
          valid := fun n hn => by
            rw [data_valid (g5 n)]
            exact h.valid n ((hmem n).mp hn)
          validOnly := fun n hn hval => by
            rw [data_valid (g5 n)] at hval
            rw [f3] at hn
            exact (hmem n).mpr (h.validOnly n hn hval)
          freeNodup := by rw [f4, f5]; exact h.freeNodup
          freeOut := by
            rw [f4, f5]
            exact fun n hn hn2 => h.freeOut n hn ((hmem n).mp hn2)
          freeClean := by
            rw [f4, f5]
            intro n hn
            have hout : n ∉ front :: rest := fun e => h.freeOut n hn ((hmem n).mp e)
            rw [g6 n hout]
            exact h.freeClean n hn
          bound := by
            rw [f3, f4, f5]
            intro n hn
            rcases List.mem_append.mp hn with e | e
            · exact h.bound n (List.mem_append_left _ ((hmem n).mp e))
            · exact h.bound n (List.mem_append_right _ e)
          sortEmpty := f6 }
    · rw [g4]
      have := hperm.length_eq
      simp only [List.length_cons] at this ⊢
      rw [this]
    · intro n hn
      exact g6 n (fun e => hn ((hmem n).mp e))
    · rw [hs2]
      have := h.sortEmpty
      cases s
      simp only at this
      subst this
      rfl

/-! ### `MapSprite::Invalidate` on a well-formed list -/

theorem core_modify (sp : Nat → MapSprite) (j k : Nat) (f : MapSprite → MapSprite)
    (hf : ∀ x, (f x).core = x.core) : (modify sp j f k).core = (sp k).core := by
  by_cases h : k = j
  · subst h; simp [hf]
  · simp [h]

theorem core_modifyAt (sp : Nat → MapSprite) (p : Option Nat) (k : Nat)
    (f : MapSprite → MapSprite) (hf : ∀ x, (f x).core = x.core) :
    (modifyAt sp p f k).core = (sp k).core := by
  cases p with
  | none => rfl
  | some j => exact core_modify sp j k f hf

/-- Leaving the extra chain touches no field that matters to the main chain. -/
theorem severExtraChain_core (t : MapSpriteList) (n k : Nat) :
    ((MapSprite.severExtraChain t n).sprites k).core = (t.sprites k).core := by
  unfold MapSprite.severExtraChain
  simp only
  split
  · refine (core_modify _ _ _ _ ?_).trans ?_
    · intro x; rfl
    refine (core_modifyAt _ _ _ _ ?_).trans ?_
    · intro x; rfl
    refine core_modifyAt _ _ _ _ ?_
    intro x; rfl
  · refine (core_modify _ _ _ _ ?_).trans ?_
    · intro x; rfl
    refine (core_modifyAt _ _ _ _ ?_).trans ?_
    · intro x; rfl
    refine (core_modifyAt _ _ _ _ ?_).trans ?_
    · intro x; rfl
    refine core_modifyAt _ _ _ _ ?_
    intro x; rfl

theorem severExtraChain_frame (t : MapSpriteList) (n : Nat) :
    (MapSprite.severExtraChain t n)._rootSprite = t._rootSprite ∧
    (MapSprite.severExtraChain t n)._lastSprite = t._lastSprite ∧
    (MapSprite.severExtraChain t n).allocated = t.allocated ∧
    (MapSprite.severExtraChain t n)._invalidatedSprites = t._invalidatedSprites ∧
    (MapSprite.severExtraChain t n)._spritesPool = t._spritesPool ∧
    (MapSprite.severExtraChain t n)._sortSprites = t._sortSprites ∧
    (MapSprite.severExtraChain t n)._spriteCount = t._spriteCount := by
  unfold MapSprite.severExtraChain
  simp

theorem severChain_frame (t : MapSpriteList) (n : Nat) :
    (MapSprite.severChain t n)._rootSprite =
      (if (t.sprites n).ChainRoot = true then (t.sprites n).ChainChild else t._rootSprite) ∧
    (MapSprite.severChain t n)._lastSprite =
      (if (t.sprites n).ChainLast = true then (t.sprites n).ChainParent else t._lastSprite) ∧
    (MapSprite.severChain t n).allocated = t.allocated ∧
    (MapSprite.severChain t n)._invalidatedSprites = t._invalidatedSprites ∧
    (MapSprite.severChain t n)._spritesPool = t._spritesPool ∧
    (MapSprite.severChain t n)._sortSprites = t._sortSprites ∧
    (MapSprite.severChain t n)._spriteCount = t._spriteCount := by
  unfold MapSprite.severChain
  simp

/-- The heap left by `severChain` when the parent and the child of `n` are two sprites other
than `n`. -/
theorem severChain_apply (t : MapSpriteList) (n : Nat)
    (hpn : (t.sprites n).ChainParent ≠ some n) (hcn : (t.sprites n).ChainChild ≠ some n)
    (hpc : (t.sprites n).ChainParent = (t.sprites n).ChainChild →
      (t.sprites n).ChainParent = none) (k : Nat) :
    (MapSprite.severChain t n).sprites k =
      if k = n then
        { t.sprites n with ChainRoot := false, ChainLast := false, ChainParent := none,
                           ChainChild := none }
      else if (t.sprites n).ChainParent = some k then
        { t.sprites k with
          ChainChild := (t.sprites n).ChainChild,
          ChainLast := if (t.sprites n).ChainLast = true then true else (t.sprites k).ChainLast }
      else if (t.sprites n).ChainChild = some k then
        { t.sprites k with
          ChainParent := (t.sprites n).ChainParent,
          ChainRoot := if (t.sprites n).ChainRoot = true then true else (t.sprites k).ChainRoot }
      else t.sprites k := by
  unfold MapSprite.severChain
  cases hp : (t.sprites n).ChainParent with
  | none =>
    cases hc : (t.sprites n).ChainChild with
    | none =>
      by_cases hk : k = n
      · subst hk
        cases hr : (t.sprites k).ChainRoot <;> cases hl : (t.sprites k).ChainLast <;>
          simp [hp, hc, hr, hl]
      · cases hr : (t.sprites n).ChainRoot <;> cases hl : (t.sprites n).ChainLast <;>
          simp [hp, hc, hr, hl, hk]
    | some c =>
      have hcn2 : c ≠ n := fun e => hcn (by rw [hc, e])
      have hnc : n ≠ c := fun e => hcn2 e.symm
      by_cases hk : k = n
      · subst hk
        cases hr : (t.sprites k).ChainRoot <;> cases hl : (t.sprites k).ChainLast <;>
          simp [hp, hc, hr, hl, hnc]
      · by_cases hkc : k = c
        · subst hkc
          cases hr : (t.sprites n).ChainRoot <;> cases hl : (t.sprites n).ChainLast <;>
            simp [hp, hc, hr, hl, hk, hnc]
        · have hck : c ≠ k := fun e => hkc e.symm
          cases hr : (t.sprites n).ChainRoot <;> cases hl : (t.sprites n).ChainLast <;>
            simp [hp, hc, hr, hl, hk, hnc, hkc, hck]
  | some p =>
    have hpn2 : p ≠ n := fun e => hpn (by rw [hp, e])
    have hnp : n ≠ p := fun e => hpn2 e.symm
    cases hc : (t.sprites n).ChainChild with
    | none =>
      by_cases hk : k = n
      · subst hk
        cases hr : (t.sprites k).ChainRoot <;> cases hl : (t.sprites k).ChainLast <;>
          simp [hp, hc, hr, hl, hnp]
      · by_cases hkp : k = p
        · subst hkp
          cases hr : (t.sprites n).ChainRoot <;> cases hl : (t.sprites n).ChainLast <;>
            simp [hp, hc, hr, hl, hk, hnp]
        · have hpk : p ≠ k := fun e => hkp e.symm
          cases hr : (t.sprites n).ChainRoot <;> cases hl : (t.sprites n).ChainLast <;>
            simp [hp, hc, hr, hl, hk, hnp, hkp, hpk]
    | some c =>
      have hcn2 : c ≠ n := fun e => hcn (by rw [hc, e])
      have hnc : n ≠ c := fun e => hcn2 e.symm
      have hpc2 : p ≠ c := by
        intro e
        have := hpc (by rw [hp, hc, e])
        rw [hp] at this
        cases this
      have hcp : c ≠ p := fun e => hpc2 e.symm
      by_cases hk : k = n
      · subst hk
        cases hr : (t.sprites k).ChainRoot <;> cases hl : (t.sprites k).ChainLast <;>
          simp [hp, hc, hr, hl, hnp, hnc]
      · by_cases hkp : k = p
        · subst hkp
          cases hr : (t.sprites n).ChainRoot <;> cases hl : (t.sprites n).ChainLast <;>
            simp [hp, hc, hr, hl, hk, hnp, hnc, hpc2, hcp]
        · have hpk : p ≠ k := fun e => hkp e.symm
          by_cases hkc : k = c
          · subst hkc
            cases hr : (t.sprites n).ChainRoot <;> cases hl : (t.sprites n).ChainLast <;>
              simp [hp, hc, hr, hl, hk, hnp, hnc, hpc2, hcp, hkp, hpk]
          · have hck : c ≠ k := fun e => hkc e.symm
            cases hr : (t.sprites n).ChainRoot <;> cases hl : (t.sprites n).ChainLast <;>
              simp [hp, hc, hr, hl, hk, hnp, hnc, hpc2, hcp, hkp, hpk, hkc, hck]

theorem core_parent {x y : MapSprite} (h : x.core = y.core) : x.ChainParent = y.ChainParent := by
  have e := congrArg MapSprite.ChainParent h
  exact e

theorem core_child {x y : MapSprite} (h : x.core = y.core) : x.ChainChild = y.ChainChild := by
  have e := congrArg MapSprite.ChainChild h
  exact e

theorem core_root {x y : MapSprite} (h : x.core = y.core) : x.ChainRoot = y.ChainRoot := by
  have e := congrArg MapSprite.ChainRoot h
  exact e

theorem core_last {x y : MapSprite} (h : x.core = y.core) : x.ChainLast = y.ChainLast := by
  have e := congrArg MapSprite.ChainLast h
  exact e

theorem core_index {x y : MapSprite} (h : x.core = y.core) : x.TreeIndex = y.TreeIndex := by
  have e := congrArg MapSprite.TreeIndex h
  exact e

theorem core_valid {x y : MapSprite} (h : x.core = y.core) : x.Valid = y.Valid := by
  have e := congrArg MapSprite.Valid h
  exact e

theorem core_pos {x y : MapSprite} (h : x.core = y.core) : x.DrawOrderPos = y.DrawOrderPos := by
  have e := congrArg MapSprite.DrawOrderPos h
  exact e

theorem core_order {x y : MapSprite} (h : x.core = y.core) : x.DrawOrder = y.DrawOrder := by
  have e := congrArg MapSprite.DrawOrder h
  exact e

theorem core_hexX {x y : MapSprite} (h : x.core = y.core) : x.HexX = y.HexX := by
  have e := congrArg MapSprite.HexX h
  exact e

theorem core_hexY {x y : MapSprite} (h : x.core = y.core) : x.HexY = y.HexY := by
  have e := congrArg MapSprite.HexY h
  exact e

theorem markInvalid_core (s : MapSpriteList) (n k : Nat) :
    ((MapSprite.markInvalid s n).sprites k).core =
      (if k = n then { s.sprites n with Valid := false } else s.sprites k).core := by
  unfold MapSprite.markInvalid
  simp only [modify_same]
  cases (s.sprites n).ValidCallback with
  | none =>
    simp only [modify_apply]; split_ifs <;> subst_vars <;> rfl
  | some cb =>
    refine (core_modify _ _ _ _ ?_).trans ?_
    · intro x; rfl
    · simp only [modify_apply]; split_ifs <;> subst_vars <;> rfl

theorem markInvalid_frame (t : MapSpriteList) (n : Nat) :
    (MapSprite.markInvalid t n)._rootSprite = t._rootSprite ∧
    (MapSprite.markInvalid t n)._lastSprite = t._lastSprite ∧
    (MapSprite.markInvalid t n).allocated = t.allocated ∧
    (MapSprite.markInvalid t n)._invalidatedSprites = t._invalidatedSprites ∧
    (MapSprite.markInvalid t n)._spritesPool = t._spritesPool ∧
    (MapSprite.markInvalid t n)._sortSprites = t._sortSprites ∧
    (MapSprite.markInvalid t n)._spriteCount = t._spriteCount := by
  unfold MapSprite.markInvalid
  simp

theorem recycle_core (t : MapSpriteList) (n k : Nat) :
    ((MapSprite.recycle t n).sprites k).core = (t.sprites k).core := by
  unfold MapSprite.recycle
  simp only
  refine (core_modify _ _ _ _ ?_).trans ?_
  · intro x; rfl
  cases (t.sprites n).MapSpr with
  | none => rfl
  | some r =>
    refine core_modify _ _ _ _ ?_
    intro x; rfl

theorem recycle_frame (t : MapSpriteList) (n : Nat) :
    (MapSprite.recycle t n)._rootSprite = t._rootSprite ∧
    (MapSprite.recycle t n)._lastSprite = t._lastSprite ∧
    (MapSprite.recycle t n).allocated = t.allocated ∧
    (MapSprite.recycle t n)._invalidatedSprites = t._invalidatedSprites ++ [n] ∧
    (MapSprite.recycle t n)._spritesPool = t._spritesPool ∧
    (MapSprite.recycle t n)._sortSprites = t._sortSprites ∧
    (MapSprite.recycle t n)._spriteCount = t._spriteCount := by
  unfold MapSprite.recycle
  simp

/-- `MapSprite::Invalidate` on a valid sprite whose parent and child are two sprites other than
itself: the main chain fields of every sprite, and the list fields. -/
theorem Invalidate_core (s : MapSpriteList) (n : Nat) (hv : (s.sprites n).Valid = true)
    (hpn : (s.sprites n).ChainParent ≠ some n) (hcn : (s.sprites n).ChainChild ≠ some n)
    (hpc : (s.sprites n).ChainParent = (s.sprites n).ChainChild →
      (s.sprites n).ChainParent = none) :
    (∀ k, ((MapSprite.Invalidate s n).sprites k).core = (unlinkedSprite s.sprites n k).core) ∧
    (MapSprite.Invalidate s n)._rootSprite =
      (if (s.sprites n).ChainRoot = true then (s.sprites n).ChainChild else s._rootSprite) ∧
    (MapSprite.Invalidate s n)._lastSprite =
      (if (s.sprites n).ChainLast = true then (s.sprites n).ChainParent else s._lastSprite) ∧
    (MapSprite.Invalidate s n).allocated = s.allocated ∧
    (MapSprite.Invalidate s n)._invalidatedSprites = s._invalidatedSprites ++ [n] ∧
    (MapSprite.Invalidate s n)._spritesPool = s._spritesPool ∧
    (MapSprite.Invalidate s n)._sortSprites = s._sortSprites ∧
    (MapSprite.Invalidate s n)._spriteCount = s._spriteCount := by
  obtain ⟨t1, ht1⟩ : ∃ t1, t1 = MapSprite.severExtraChain (MapSprite.markInvalid s n) n :=
    ⟨_, rfl⟩
  have hc1 : ∀ k, (t1.sprites k).core =
      (if k = n then { s.sprites n with Valid := false } else s.sprites k).core := by
    intro k
    rw [ht1]
    exact (severExtraChain_core _ n k).trans (markInvalid_core s n k)
  obtain ⟨d1, d2, d3, d4, d5, d6, d7⟩ := markInvalid_frame s n
  obtain ⟨e1, e2, e3, e4, e5, e6, e7⟩ := severExtraChain_frame (MapSprite.markInvalid s n) n
  rw [← ht1] at e1 e2 e3 e4 e5 e6 e7
  have hn1 : (t1.sprites n).core = ({ s.sprites n with Valid := false } : MapSprite).core := by
    have := hc1 n
    simpa using this
  have hk1 : ∀ k, k ≠ n → (t1.sprites k).core = (s.sprites k).core := by
    intro k hk
    have := hc1 k
    simpa [hk] using this
  have hP : (t1.sprites n).ChainParent = (s.sprites n).ChainParent := by
    have e := core_parent hn1
    exact e
  have hC : (t1.sprites n).ChainChild = (s.sprites n).ChainChild := by
    have e := core_child hn1
    exact e
  have hR : (t1.sprites n).ChainRoot = (s.sprites n).ChainRoot := by
    have e := core_root hn1
    exact e
  have hL : (t1.sprites n).ChainLast = (s.sprites n).ChainLast := by
    have e := core_last hn1
    exact e
  have happ := severChain_apply t1 n (by rw [hP]; exact hpn) (by rw [hC]; exact hcn)
    (by rw [hP, hC]; exact hpc)
  obtain ⟨f1, f2, f3, f4, f5, f6, f7⟩ := severChain_frame t1 n
  obtain ⟨g1, g2, g3, g4, g5, g6, g7⟩ := recycle_frame (MapSprite.severChain t1 n) n
  have hinv : MapSprite.Invalidate s n = MapSprite.recycle (MapSprite.severChain t1 n) n := by
    rw [ht1]
    unfold MapSprite.Invalidate
    simp only [hv, Bool.true_eq_false, if_false]
  rw [hinv]
  refine ⟨?_, ?_, ?_, ?_, ?_, ?_, ?_, ?_⟩
  · intro k
    rw [recycle_core, happ k, hP, hC, hR, hL]
    unfold unlinkedSprite
    by_cases hkn : k = n
    · simp only [hkn, if_true]
      show ({ (t1.sprites n).core with
        ChainRoot := false, ChainLast := false, ChainParent := none, ChainChild := none } :
          MapSprite) = _
      rw [hn1]; rfl
    · simp only [hkn, if_false]
      have hk := hk1 k hkn
      by_cases h1 : (s.sprites n).ChainParent = some k
      · simp only [h1, if_true]
        show ({ (t1.sprites k).core with ChainChild := _, ChainLast := _ } : MapSprite) = _
        rw [hk, core_last hk]; rfl
      · simp only [h1, if_false]
        by_cases h2 : (s.sprites n).ChainChild = some k
        · simp only [h2, if_true]
          show ({ (t1.sprites k).core with ChainParent := _, ChainRoot := _ } : MapSprite) = _
          rw [hk, core_root hk]; rfl
        · simp only [h2, if_false]
          exact hk
  · rw [g1, f1, hR, hC, e1, d1]
  · rw [g2, f2, hL, hP, e2, d2]
  · rw [g3, f3, e3, d3]
  · rw [g4, f4, e4, d4]
  · rw [g5, f5, e5, d5]
  · rw [g6, f6, e6, d6]
  · rw [g7, f7, e7, d7]

theorem head?_append_ne_nil (a b c : List Nat) (ha : a ≠ []) :
    (a ++ b).head? = (a ++ c).head? := by
  cases a with
  | nil => exact absurd rfl ha
  | cons x a => rfl

theorem getLast?_append_ne_nil (a b c : List Nat) (hc : c ≠ []) :
    (a ++ c).getLast? = (b ++ c).getLast? := by
  rw [List.getLast?_append_of_ne_nil _ hc, List.getLast?_append_of_ne_nil _ hc]

/-- Invalidating a sprite of the chain of a well-formed list takes exactly that sprite out of
the chain and leaves the list well formed; keys, tree indices and placement data of the other
sprites stay as they were. -/
theorem Invalidate_split (s : MapSpriteList) (a : List Nat) (n : Nat) (b : List Nat)
    (h : WF s (a ++ n :: b)) :
    WF (MapSprite.Invalidate s n) (a ++ b) ∧
    (∀ k, k ≠ n → ((MapSprite.Invalidate s n).sprites k).core.data = (s.sprites k).core.data) ∧
    (∀ k, k ≠ n → indexOf (MapSprite.Invalidate s n) k = indexOf s k) ∧
    (MapSprite.Invalidate s n)._spriteCount = s._spriteCount := by
  have hnd := h.nodup
  have hna : n ∉ a := by
    intro e
    rw [List.nodup_append] at hnd
    exact hnd.2.2 e (by simp)
  have hnb : n ∉ b := by
    rw [List.nodup_append, List.nodup_cons] at hnd
    exact hnd.2.1.1
  have hab : ∀ k ∈ a, k ∉ b := by
    intro k hk e
    rw [List.nodup_append] at hnd
    exact hnd.2.2 hk (by simp [e])
  have hnda : a.Nodup := (List.nodup_append.mp hnd).1
  have hndb : b.Nodup := (List.nodup_cons.mp (List.nodup_append.mp hnd).2.1).2
  have hnd2 : (a ++ b).Nodup := by
    rw [List.nodup_append]
    exact ⟨hnda, hndb, fun k hk e => hab k hk e⟩
  have hnl : n ∈ a ++ n :: b := by simp
  obtain ⟨hsa, hsn⟩ := (seg_append _ _ _ _ _).mp h.seg
  obtain ⟨hP, hC, hsb⟩ := hsn
  rw [lastOr_none] at hP
  rw [headOr_none] at hC
  simp only [headOr_cons] at hsa
  have hv := h.valid n hnl
  have hlastmem : ∀ k, a.getLast? = some k → k ∈ a := fun k e => List.mem_of_getLast?_eq_some e
  have hheadmem : ∀ k, b.head? = some k → k ∈ b := fun k e => List.mem_of_mem_head? e
  have hR : (s.sprites n).ChainRoot = true ↔ a = [] := by
    rw [h.chainRoot n hnl]
    cases a with
    | nil => simp
    | cons x a =>
      simp only [List.cons_append, List.head?_cons, Option.some.injEq, reduceCtorEq, iff_false]
      intro e
      exact hna (by simp [e])
  have hL : (s.sprites n).ChainLast = true ↔ b = [] := by
    rw [h.chainLast n hnl]
    cases b with
    | nil => simp
    | cons x b =>
      rw [List.getLast?_append_of_ne_nil _ (by simp), List.getLast?_cons_cons]
      simp only [reduceCtorEq, iff_false]
      intro e
      exact hnb (List.mem_of_getLast?_eq_some e)
  obtain ⟨c0, c1, c2, c3, c4, c5, c6, c7⟩ := Invalidate_core s n hv
    (by rw [hP]; exact fun e => hna (hlastmem n e))
    (by rw [hC]; exact fun e => hnb (hheadmem n e))
    (by
      rw [hP, hC]
      intro e
      cases hq : a.getLast? with
      | none => rfl
      | some k =>
        exact absurd (hheadmem k (by rw [← e, hq])) (hab k (hlastmem k hq)))
  -- the fields of the other sprites
  have hU : ∀ k, k ≠ n →
      ((MapSprite.Invalidate s n).sprites k).ChainParent =
        (if b.head? = some k then a.getLast? else (s.sprites k).ChainParent) ∧
      ((MapSprite.Invalidate s n).sprites k).ChainChild =
        (if a.getLast? = some k then b.head? else (s.sprites k).ChainChild) ∧
      (((MapSprite.Invalidate s n).sprites k).ChainRoot = true ↔
        ((b.head? = some k ∧ a = []) ∨ (s.sprites k).ChainRoot = true)) ∧
      (((MapSprite.Invalidate s n).sprites k).ChainLast = true ↔
        ((a.getLast? = some k ∧ b = []) ∨ (s.sprites k).ChainLast = true)) ∧
      ((MapSprite.Invalidate s n).sprites k).TreeIndex = (s.sprites k).TreeIndex ∧
      ((MapSprite.Invalidate s n).sprites k).Valid = (s.sprites k).Valid ∧
      ((MapSprite.Invalidate s n).sprites k).core.data = (s.sprites k).core.data := by
    intro k hk
    have hc := c0 k
    rw [core_parent hc, core_child hc, core_root hc, core_last hc, core_index hc, core_valid hc,
      hc]
    unfold unlinkedSprite
    simp only [hk, if_false, hP, hC]
    by_cases h1 : a.getLast? = some k
    · have h2 : b.head? ≠ some k := fun e => hab k (hlastmem k h1) (hheadmem k e)
      simp only [h1, h2, if_true, if_false]
      refine ⟨by trivial, by trivial, ?_, ?_, by trivial, by trivial, by trivial⟩
      · simp
      · by_cases hl : (s.sprites n).ChainLast = true
        · simp [hl, hL.mp hl]
        · have : b ≠ [] := fun e => hl (hL.mpr e)
          simp [hl, this]
    · by_cases h2 : b.head? = some k
      · simp only [h1, h2, if_true, if_false]
        refine ⟨by trivial, by trivial, ?_, ?_, by trivial, by trivial, by trivial⟩
        · by_cases hr : (s.sprites n).ChainRoot = true
          · simp [hr, hR.mp hr]
          · have : a ≠ [] := fun e => hr (hR.mpr e)
            simp [hr, this]
        · simp
      · simp only [h1, h2, if_false]
        refine ⟨by trivial, by trivial, ?_, ?_, by trivial, by trivial, by trivial⟩
        · simp
        · simp
  have hFn : ((MapSprite.Invalidate s n).sprites n).Valid = false ∧
      ((MapSprite.Invalidate s n).sprites n).ChainRoot = false ∧
      ((MapSprite.Invalidate s n).sprites n).ChainLast = false := by
    have hc := c0 n
    rw [core_valid hc, core_root hc, core_last hc]
    unfold unlinkedSprite
    simp
  have hkn : ∀ k ∈ a ++ b, k ≠ n := by
    intro k hk e
    rcases List.mem_append.mp hk with e2 | e2
    · exact hna (e ▸ e2)
    · exact hnb (e ▸ e2)
  have hsub : ∀ k ∈ a ++ b, k ∈ a ++ n :: b := by
    intro k hk
    simp only [List.mem_append, List.mem_cons] at hk ⊢
    tauto
  refine ⟨?_, fun k hk => (hU k hk).2.2.2.2.2.2, fun k hk => (hU k hk).2.2.2.2.1, c7⟩
  exact
    { nodup := hnd2
      root := by
        rw [c1]
        by_cases hr : (s.sprites n).ChainRoot = true
        · have := hR.mp hr
          subst this
          simp [hr, hC]
        · have hne : a ≠ [] := fun e => hr (hR.mpr e)
          simp only [hr, if_false, Bool.false_eq_true]
          rw [h.root]
          exact head?_append_ne_nil a _ _ hne
      last := by
        rw [c2]
        by_cases hl : (s.sprites n).ChainLast = true
        · have := hL.mp hl
          subst this
          simp [hl, hP]
        · have hne : b ≠ [] := fun e => hl (hL.mpr e)
          simp only [hl, if_false, Bool.false_eq_true]
          rw [h.last, List.getLast?_append_of_ne_nil _ (by simp), List.getLast?_append_of_ne_nil _ hne]
          cases b with
          | nil => exact absurd rfl hne
          | cons x b => rw [List.getLast?_cons_cons]
      seg := by
        rw [seg_append]
        constructor
        · apply seg_set_next s.sprites _ a none (some n) (headOr b none) hnda _ _ _ hsa
          · intro k hk
            have hkb : b.head? ≠ some k := fun e => hab k hk (hheadmem k e)
            rw [(hU k (fun e => hna (e ▸ hk))).1]
            simp [hkb]
          · intro k hk hne
            have : a.getLast? ≠ some k := hne
            rw [(hU k (fun e => hna (e ▸ hk))).2.1]
            simp [this]
          · intro z hz
            rw [(hU z (fun e => hna (e ▸ hlastmem z hz))).2.1, headOr_none]
            simp [hz]
        · rw [lastOr_none]
          apply seg_set_prev s.sprites _ b (some n) a.getLast? none hndb _ _ _ hsb
          · intro k hk
            have hka : a.getLast? ≠ some k := fun e => hab k (hlastmem k e) hk
            rw [(hU k (fun e => hnb (e ▸ hk))).2.1]
            simp [hka]
          · intro k hk hne
            rw [(hU k (fun e => hnb (e ▸ hk))).1]
            simp [hne]
          · intro z hz
            rw [(hU z (fun e => hnb (e ▸ hheadmem z hz))).1]
            simp [hz]
      chainRoot := fun k hk => by
        have hk2 := hkn k hk
        rw [(hU k hk2).2.2.1, h.chainRoot k (hsub k hk)]
        cases a with
        | nil =>
          simp only [List.nil_append, List.head?_cons, Option.some.injEq, and_true]
          constructor
          · rintro (e | e)
            · exact e
            · exact absurd e.symm hk2
          · intro e; exact Or.inl e
        | cons x a =>
          simp only [List.cons_append, List.head?_cons, reduceCtorEq, and_false, false_or]
      chainLast := fun k hk => by
        have hk2 := hkn k hk
        rw [(hU k hk2).2.2.2.1, h.chainLast k (hsub k hk)]
        cases b with
        | nil =>
          simp only [List.append_nil, and_true, List.getLast?_append_of_ne_nil _
            (List.cons_ne_nil n []), List.getLast?_singleton, Option.some.injEq]
          constructor
          · rintro (e | e)
            · exact e
            · exact absurd e.symm hk2
          · intro e; exact Or.inl e
        | cons x b =>
          simp only [reduceCtorEq, and_false, false_or]
          rw [List.getLast?_append_of_ne_nil _ (by simp), List.getLast?_append_of_ne_nil _ (by simp),
            List.getLast?_cons_cons]
      index := by
        have e : (a ++ b).map (indexOf (MapSprite.Invalidate s n)) = (a ++ b).map (indexOf s) :=
          List.map_congr_left (fun k hk => (hU k (hkn k hk)).2.2.2.2.1)
        rw [e]
        have hsl : ((a ++ b).map (indexOf s)).Sublist ((a ++ n :: b).map (indexOf s)) :=
          List.Sublist.map _ (List.Sublist.append_left (List.sublist_cons_self n b) a)
        exact List.Pairwise.sublist hsl h.index
      valid := fun k hk => by
        rw [(hU k (hkn k hk)).2.2.2.2.2.1]
        exact h.valid k (hsub k hk)
      validOnly := fun k hk hval => by
        rw [c3] at hk
        by_cases e : k = n
        · rw [e, hFn.1] at hval; cases hval
        · rw [(hU k e).2.2.2.2.2.1] at hval
          have := h.validOnly k hk hval
          simp only [List.mem_append, List.mem_cons] at this ⊢
          tauto
      freeNodup := by
        rw [c4, c5, ← List.append_assoc]
        rw [List.nodup_append]
        refine ⟨h.freeNodup, by simp, ?_⟩
        intro k hk e
        simp only [List.mem_singleton] at e
        exact h.freeOut k hk (e ▸ hnl)
      freeOut := by
        rw [c4, c5, ← List.append_assoc]
        intro k hk e
        rcases List.mem_append.mp hk with e2 | e2
        · exact h.freeOut k e2 (hsub k e)
        · simp only [List.mem_singleton] at e2
          exact hkn k e e2
      freeClean := by
        rw [c4, c5, ← List.append_assoc]
        intro k hk
        rcases List.mem_append.mp hk with e2 | e2
        · have hkl : k ∉ a ++ n :: b := h.freeOut k e2
          have hk2 : k ≠ n := fun e => hkl (e ▸ hnl)
          have hka : a.getLast? ≠ some k :=
            fun e => hkl (List.mem_append_left _ (hlastmem k e))
          have hkb : b.head? ≠ some k :=
            fun e => hkl (List.mem_append_right _ (List.mem_cons_of_mem _ (hheadmem k e)))
          obtain ⟨q1, q2, q3⟩ := h.freeClean k e2
          obtain ⟨_, _, u3, u4, _, u6, _⟩ := hU k hk2
          refine ⟨u6.trans q1, ?_, ?_⟩
          · rw [← Bool.not_eq_true, u3]; simp [hkb, q2]
          · rw [← Bool.not_eq_true, u4]; simp [hka, q3]
        · simp only [List.mem_singleton] at e2
          rw [e2]; exact hFn
      bound := by
        rw [c3, c4, c5]
        intro k hk
        simp only [List.mem_append, List.mem_singleton] at hk
        rcases hk with (e | e) | e | e | e
        · exact h.bound k (List.mem_append_left _ (hsub k (List.mem_append_left _ e)))
        · exact h.bound k (List.mem_append_left _ (hsub k (List.mem_append_right _ e)))
        · exact h.bound k (List.mem_append_right _ (List.mem_append_left _ e))
        · exact h.bound k (List.mem_append_right _ (List.mem_append_right _ e))
        · exact e ▸ h.bound n (List.mem_append_left _ hnl)
      sortEmpty := c6.trans h.sortEmpty }

/-! ### Which sprite a placement hands back -/

theorem linkSprite_frame (fuel : Nat) (t t2 : MapSpriteList) (child : Option Nat) (m : Nat)
    (h : t.linkSprite fuel child m = some t2) :
    t2._invalidatedSprites = t._invalidatedSprites ∧ t2._spritesPool = t._spritesPool ∧
      t2.allocated = t.allocated := by
  unfold MapSpriteList.linkSprite at h
  cases child with
  | none =>
    cases hl : t._lastSprite with
    | none =>
      simp only [hl, Option.some.injEq] at h
      subst h
      exact ⟨rfl, rfl, rfl⟩
    | some last =>
      simp only [hl, Option.some.injEq] at h
      subst h
      exact ⟨rfl, rfl, rfl⟩
  | some c =>
    simp only at h
    cases hr : renumber fuel (spliceBefore t.sprites c m) (some m)
        (nextIndex (spliceBefore t.sprites c m) (spliceBefore t.sprites c m m).ChainParent) with
    | none => simp [hr] at h
    | some sp =>
      simp only [hr] at h
      cases hp : (sp m).ChainParent with
      | some p =>
        simp only [hp, Option.some.injEq] at h
        subst h
        exact ⟨rfl, rfl, rfl⟩
      | none =>
        simp only [hp] at h
        by_cases hcr : (sp c).ChainRoot = true
        · simp only [hcr, if_true, Option.some.injEq] at h
          subst h
          exact ⟨rfl, rfl, rfl⟩
        · simp [hcr] at h

/-- The sprite handed back by `PutSprite` and the free sprites left are those of
`takeSprite`. -/
theorem PutSprite_free (cfg : Settings) (fuel : Nat) (s s2 : MapSpriteList)
    (child : Option Nat) (a : PutArgs) (m : Nat)
    (h : s.PutSprite cfg fuel child a = some (s2, m)) :
    ∃ s1, ({ s with _spriteCount := s._spriteCount + 1 } : MapSpriteList).takeSprite cfg =
        some (s1, m) ∧
      s2._invalidatedSprites = s1._invalidatedSprites ∧ s2._spritesPool = s1._spritesPool ∧
      s2.allocated = s1.allocated := by
  unfold MapSpriteList.PutSprite at h
  simp only at h
  cases ht : ({ s with _spriteCount := s._spriteCount + 1 } : MapSpriteList).takeSprite cfg with
  | none => simp [ht] at h
  | some r =>
    obtain ⟨s1, m1⟩ := r
    simp only [ht] at h
    cases hl : MapSpriteList.linkSprite fuel
        { s1 with sprites := modify s1.sprites m1 (fun m => { m with Root := true }) } child m1 with
    | none => simp [hl] at h
    | some s3 =>
      simp only [hl, Option.some.injEq, Prod.mk.injEq] at h
      obtain ⟨h1, h2⟩ := h
      subst h2
      obtain ⟨f1, f2, f3⟩ := linkSprite_frame fuel _ s3 child m1 hl
      obtain ⟨_, _, g3, g4, g5, _, _⟩ := fillSprite_frame cfg s3 m1 a
      refine ⟨s1, rfl, ?_, ?_, ?_⟩
      · rw [← h1, g4, f1]
      · rw [← h1, g5, f2]
      · rw [← h1, g3, f3]

theorem takeSprite_det (cfg : Settings) (s t s1 t1 : MapSpriteList) (m m2 : Nat)
    (hft : FreeEq s t) (h1 : s.takeSprite cfg = some (s1, m))
    (h2 : t.takeSprite cfg = some (t1, m2)) : m = m2 ∧ FreeEq s1 t1 := by
  obtain ⟨e1, e2, e3⟩ := hft
  unfold MapSpriteList.takeSprite at h1 h2
  rw [← e1] at h2
  cases hb : s._invalidatedSprites.getLast? with
  | some x =>
    simp only [hb, Option.some.injEq, Prod.mk.injEq] at h1 h2
    obtain ⟨a1, a2⟩ := h1
    obtain ⟨b1, b2⟩ := h2
    subst a1 b1
    exact ⟨a2.symm.trans b2, rfl, e2, e3⟩
  | none =>
    simp only [hb] at h1 h2
    rw [← e2] at h2
    by_cases hp : s._spritesPool.isEmpty = true
    · simp only [hp, if_true, MapSpriteList.GrowPool] at h1 h2
      rw [← e2, ← e3] at h2
      cases hq : (s._spritesPool ++ List.range' s.allocated cfg.SPRITES_POOL_GROW_SIZE).getLast? with
      | none => simp [hq] at h1
      | some x =>
        simp only [hq, Option.some.injEq, Prod.mk.injEq] at h1 h2
        obtain ⟨a1, a2⟩ := h1
        obtain ⟨b1, b2⟩ := h2
        subst a1 b1
        exact ⟨a2.symm.trans b2, e1, rfl, rfl⟩
    · simp only [hp, if_false, Bool.false_eq_true] at h1 h2
      rw [← e2] at h2
      cases hq : s._spritesPool.getLast? with
      | none => simp [hq] at h1
      | some x =>
        simp only [hq, Option.some.injEq, Prod.mk.injEq] at h1 h2
        obtain ⟨a1, a2⟩ := h1
        obtain ⟨b1, b2⟩ := h2
        subst a1 b1
        exact ⟨a2.symm.trans b2, e1, rfl, e3⟩

/-- Two lists with the same free sprites hand back the same sprite at the next placement. -/
theorem PutSprite_det (cfg : Settings) (f1 f2 : Nat) (s t s2 t2 : MapSpriteList)
    (c1 c2 : Option Nat) (a1 a2 : PutArgs) (m m2 : Nat) (hft : FreeEq s t)
    (h1 : s.PutSprite cfg f1 c1 a1 = some (s2, m))
    (h2 : t.PutSprite cfg f2 c2 a2 = some (t2, m2)) : m = m2 ∧ FreeEq s2 t2 := by
  obtain ⟨s1, hs1, p1, p2, p3⟩ := PutSprite_free cfg f1 s s2 c1 a1 m h1
  obtain ⟨t1, ht1, q1, q2, q3⟩ := PutSprite_free cfg f2 t t2 c2 a2 m2 h2
  have hft2 : FreeEq ({ s with _spriteCount := s._spriteCount + 1 } : MapSpriteList)
      ({ t with _spriteCount := t._spriteCount + 1 } : MapSpriteList) := hft
  obtain ⟨e, r1, r2, r3⟩ := takeSprite_det cfg _ _ s1 t1 m m2 hft2 hs1 ht1
  exact ⟨e, by rw [p1, q1]; exact r1, by rw [p2, q2]; exact r2, by rw [p3, q3]; exact r3⟩

theorem InsertSprite_put (cfg : Settings) (fuel : Nat) (s s2 : MapSpriteList) (a : PutArgs)
    (m : Nat) (h : s.InsertSprite cfg fuel a = some (s2, m)) :
    ∃ parent, s.PutSprite cfg fuel parent a = some (s2, m) := by
  unfold MapSpriteList.InsertSprite at h
  simp only at h
  cases hf : findPlace s.sprites (drawOrderPos cfg a.draw_order a.hx a.hy) fuel s._rootSprite with
  | none => simp [hf] at h
  | some parent =>
    simp only [hf] at h
    exact ⟨parent, h⟩

/-! ### Inserting one by one against adding and sorting -/

theorem dropWhile_gt (k : Nat → Nat) (pos : Nat) :
    ∀ l : List Nat, (l.map k).Sorted (· ≤ ·) →
      ∀ y ∈ l.dropWhile (fun n => decide (k n ≤ pos)), pos < k y
  | [], _, y, hy => by simp at hy
  | x :: l, hs, y, hy => by
    have hs2 : (∀ b ∈ l.map k, k x ≤ b) ∧ (l.map k).Sorted (· ≤ ·) := List.sorted_cons.mp hs
    by_cases hx : k x ≤ pos
    · simp only [List.dropWhile_cons, hx, decide_True, if_true] at hy
      exact dropWhile_gt k pos l hs2.2 y hy
    · simp only [List.dropWhile_cons, hx, decide_False, if_false, Bool.false_eq_true,
        List.mem_cons] at hy
      rcases hy with e | e
      · rw [e]; omega
      · have := hs2.1 _ (List.mem_map_of_mem k e)
        omega

theorem lexLT_antisymm (s : MapSpriteList) (a b : Nat) (h1 : lexLT s a b) (h2 : lexLT s b a) :
    a = b := by
  unfold lexLT at *; omega

theorem lexLT_congr (s t : MapSpriteList) (a b : Nat) (hka : keyOf t a = keyOf s a)
    (hkb : keyOf t b = keyOf s b) (hia : indexOf t a = indexOf s a)
    (hib : indexOf t b = indexOf s b) (h : lexLT s a b) : lexLT t a b := by
  unfold lexLT at *
  rw [hka, hkb, hia, hib]
  exact h

theorem data_place {s s2 : MapSpriteList} {n : Nat}
    (h : (s2.sprites n).data = (s.sprites n).data) : placeOf s2 n = placeOf s n := by
  unfold placeOf
  rw [data_hexX h, data_hexY h, data_order h]

theorem placed_place {cfg : Settings} {s s2 : MapSpriteList} {l : List Nat} {m : Nat}
    {a : PutArgs} (h : Placed cfg s s2 l m a) : placeOf s2 m = a.place := by
  unfold placeOf PutArgs.place
  rw [h.hexX, h.hexY, h.order]

/-- One placement request handled on both sides: inserted into a key-sorted chain, and added
at the tail of a chain holding the same sprites in call order. -/
theorem insert_add_step (cfg : Settings) (fuel : Nat) (hg : 0 < cfg.SPRITES_POOL_GROW_SIZE)
    (a : PutArgs) (s1 s2 : MapSpriteList) (l1 l2 : List Nat) (h1 : WF s1 l1) (h2 : WF s2 l2)
    (hperm : l1.Perm l2) (hfree : FreeEq s1 s2) (hkey : ∀ h ∈ l2, keyOf s1 h = keyOf s2 h)
    (hlex : l1.Pairwise (lexLT s2)) (hf : l1.length + 1 ≤ fuel) :
    ∃ s1a s2a m l1a, s1.InsertSprite cfg fuel a = some (s1a, m) ∧
      s2.AddSprite cfg fuel a = some (s2a, m) ∧ WF s1a l1a ∧ WF s2a (l2 ++ [m]) ∧
      l1a.Perm (l2 ++ [m]) ∧ FreeEq s1a s2a ∧ (∀ h ∈ l2 ++ [m], keyOf s1a h = keyOf s2a h) ∧
      l1a.Pairwise (lexLT s2a) ∧ l1a.length = l1.length + 1 ∧
      (∀ h ∈ l2, placeOf s1a h = placeOf s1 h ∧ placeOf s2a h = placeOf s2 h) ∧
      placeOf s1a m = a.place ∧ placeOf s2a m = a.place := by
  obtain ⟨s1a, m, e1, hwf1, hp1, _, _⟩ := InsertSprite_wf cfg fuel s1 l1 a h1 hg hf
  obtain ⟨s2a, m2, e2, hwf2, hp2, hi2, him2⟩ := AddSprite_wf cfg fuel s2 l2 a h2 hg
  obtain ⟨parent, e1p⟩ := InsertSprite_put cfg fuel s1 s1a a m e1
  obtain ⟨hmm, hfree2⟩ := PutSprite_det cfg fuel fuel s1 s2 s1a s2a parent none a a m m2 hfree
    e1p e2
  subst hmm
  have hmem12 : ∀ h, h ∈ l1 ↔ h ∈ l2 := fun h => hperm.mem_iff
  have hk1 : ∀ h ∈ l1, keyOf s1a h = keyOf s1 h := fun h hh => data_pos (hp1.data h hh)
  have hk2 : ∀ h ∈ l2, keyOf s2a h = keyOf s2 h := fun h hh => data_pos (hp2.data h hh)
  have hkm1 : keyOf s1a m = drawOrderPos cfg a.draw_order a.hx a.hy := hp1.pos
  have hkm2 : keyOf s2a m = drawOrderPos cfg a.draw_order a.hx a.hy := hp2.pos
  have hsorted1 : KeySorted s1 l1 := by
    unfold KeySorted
    apply List.pairwise_map.mpr
    refine List.Pairwise.imp_of_mem ?_ hlex
    intro x y hx hy hxy
    rw [hkey x ((hmem12 x).mp hx), hkey y ((hmem12 y).mp hy)]
    unfold lexLT at hxy
    omega
  -- the tree index of the new sprite on the adding side is above all others
  have hidx : ∀ h ∈ l2, indexOf s2a h < indexOf s2a m := by
    intro h hh
    rw [hi2 h hh, him2]
    rcases List.eq_nil_or_concat l2 with e | ⟨l3, t, e⟩
    · subst e; simp at hh
    · rw [List.concat_eq_append] at e
      subst e
      simp only [List.getLast?_concat, nextIndex]
      have hs := h2.index
      rw [List.map_append, List.map_cons, List.map_nil] at hs
      have := sorted_lt_le_last _ _ hs (indexOf s2 h) (by
        rw [← List.map_singleton, ← List.map_append]
        exact List.mem_map_of_mem _ hh)
      unfold indexOf at this ⊢
      omega
  have hsplit := List.takeWhile_append_dropWhile
    (fun n => decide (keyOf s1 n ≤ drawOrderPos cfg a.draw_order a.hx a.hy)) l1
  have htw : ∀ x ∈ l1.takeWhile
      (fun n => decide (keyOf s1 n ≤ drawOrderPos cfg a.draw_order a.hx a.hy)),
      keyOf s1 x ≤ drawOrderPos cfg a.draw_order a.hx a.hy := by
    intro x hx
    have := List.mem_takeWhile_imp hx
    simpa using this
  have hdw := dropWhile_gt (keyOf s1) (drawOrderPos cfg a.draw_order a.hx a.hy) l1 hsorted1
  generalize l1.takeWhile
    (fun n => decide (keyOf s1 n ≤ drawOrderPos cfg a.draw_order a.hx a.hy)) = tw at *
  generalize l1.dropWhile
    (fun n => decide (keyOf s1 n ≤ drawOrderPos cfg a.draw_order a.hx a.hy)) = dw at *
  subst hsplit
  have hlex2 : (tw ++ dw).Pairwise (lexLT s2a) := by
    refine List.Pairwise.imp_of_mem ?_ hlex
    intro x y hx hy hxy
    have hx2 := (hmem12 x).mp hx
    have hy2 := (hmem12 y).mp hy
    exact lexLT_congr s2 s2a x y (hk2 x hx2) (hk2 y hy2) (hi2 x hx2) (hi2 y hy2) hxy
  refine ⟨s1a, s2a, m, tw ++ m :: dw, e1, e2, hwf1, hwf2, ?_, hfree2, ?_, ?_, ?_,
    fun h hh => ⟨data_place (hp1.data h ((hmem12 h).mpr hh)), data_place (hp2.data h hh)⟩,
    placed_place hp1, placed_place hp2⟩
  · exact (List.perm_middle.trans (List.Perm.cons m hperm)).trans
      (List.perm_append_singleton m l2).symm
  · intro h hh
    rcases List.mem_append.mp hh with e | e
    · rw [hk1 h ((hmem12 h).mpr e), hk2 h e]
      exact hkey h e
    · simp only [List.mem_singleton] at e
      rw [e, hkm1, hkm2]
  · rw [List.pairwise_append] at hlex2 ⊢
    refine ⟨hlex2.1, List.pairwise_cons.mpr ⟨?_, hlex2.2.1⟩, ?_⟩
    · intro y hy
      have hy1 : y ∈ tw ++ dw := List.mem_append_right _ hy
      have := hdw y hy
      unfold lexLT
      left
      rw [hkm2, hk2 y ((hmem12 y).mp hy1), ← hkey y ((hmem12 y).mp hy1)]
      exact this
    · intro x hx y hy
      rcases List.mem_cons.mp hy with e | e
      · subst e
        have hx1 : x ∈ tw ++ dw := List.mem_append_left _ hx
        have hx2 := (hmem12 x).mp hx1
        have hle := htw x hx
        have hlt := hidx x hx2
        unfold lexLT
        rw [hkm2, hk2 x hx2, ← hkey x hx2]
        omega
      · exact hlex2.2.2 x hx y e
  · simp only [List.length_append, List.length_cons]
    omega

/-- Handling the same requests by `InsertSprite` on one side and by `AddSprite` on the other
side hands back the same sprites and keeps the two chains in step: same sprites, same keys,
and the inserted chain is ordered by key and then by the tree index of the added chain; the
sprites handed back hold the cells and categories of the requests, in call order. -/
theorem insert_add_sim (cfg : Settings) (fuel : Nat) (hg : 0 < cfg.SPRITES_POOL_GROW_SIZE) :
    ∀ (rs : List PutArgs) (s1 s2 : MapSpriteList) (l1 l2 hs : List Nat), WF s1 l1 → WF s2 l2 →
      l1.Perm l2 → FreeEq s1 s2 → (∀ h ∈ l2, keyOf s1 h = keyOf s2 h) →
      l1.Pairwise (lexLT s2) → l1.length + rs.length ≤ fuel →
      ∃ s1a s2a news l1a, insertAll cfg fuel rs (s1, hs) = some (s1a, hs ++ news) ∧
        addAll cfg fuel rs (s2, hs) = some (s2a, hs ++ news) ∧ WF s1a l1a ∧
        WF s2a (l2 ++ news) ∧ l1a.Perm (l2 ++ news) ∧
        (∀ h ∈ l2 ++ news, keyOf s1a h = keyOf s2a h) ∧ l1a.Pairwise (lexLT s2a) ∧
        news.length = rs.length ∧
        (∀ h ∈ l2, placeOf s1a h = placeOf s1 h ∧ placeOf s2a h = placeOf s2 h) ∧
        news.map (placeOf s1a) = rs.map PutArgs.place ∧
        news.map (placeOf s2a) = rs.map PutArgs.place
  | [], s1, s2, l1, l2, hs, h1, h2, hperm, _, hkey, hlex, _ =>
    ⟨s1, s2, [], l1, by simp [insertAll], by simp [addAll], h1, by simpa using h2,
      by simpa using hperm, by simpa using hkey, hlex, rfl, fun _ _ => ⟨rfl, rfl⟩, rfl, rfl⟩
  | a :: rs, s1, s2, l1, l2, hs, h1, h2, hperm, hfree, hkey, hlex, hf => by
    simp only [List.length_cons] at hf
    obtain ⟨s1a, s2a, m, l1a, e1, e2, w1, w2, p, fr, k, lx, len, pl, pm1, pm2⟩ :=
      insert_add_step cfg fuel hg a s1 s2 l1 l2 h1 h2 hperm hfree hkey hlex (by omega)
    obtain ⟨s1b, s2b, news, l1b, e1b, e2b, w1b, w2b, pb, kb, lxb, lenb, plb, pn1, pn2⟩ :=
      insert_add_sim cfg fuel hg rs s1a s2a l1a (l2 ++ [m]) (hs ++ [m]) w1 w2 p fr k lx
        (by omega)
    have hm := plb m (by simp)
    refine ⟨s1b, s2b, m :: news, l1b, ?_, ?_, w1b, ?_, ?_, ?_, lxb, ?_, ?_, ?_, ?_⟩
    · simp only [insertAll, e1]
      rw [e1b]; simp
    · simp only [addAll, e2]
      rw [e2b]; simp
    · simpa using w2b
    · simpa using pb
    · simpa using kb
    · simp [lenb]
    · intro h hh
      have a1 := plb h (List.mem_append_left _ hh)
      have a2 := pl h hh
      exact ⟨a1.1.trans a2.1, a1.2.trans a2.2⟩
    · rw [List.map_cons, List.map_cons, pn1, hm.1, pm1]
    · rw [List.map_cons, List.map_cons, pn2, hm.2, pm2]

/-! ### Runs of `AddSprite`, `InsertSprite` and `MapSprite::Invalidate` -/

theorem Invalidate_noop (s : MapSpriteList) (n : Nat) (h : (s.sprites n).Valid = false) :
    MapSprite.Invalidate s n = s := by
  unfold MapSprite.Invalidate
  simp [h]

theorem keySorted_append (s s2 : MapSpriteList) (l : List Nat) (m : Nat) (hk : KeySorted s l)
    (hsame : ∀ n ∈ l, keyOf s2 n = keyOf s n)
    (hle : ∀ t, l.getLast? = some t → keyOf s t ≤ keyOf s2 m) : KeySorted s2 (l ++ [m]) := by
  unfold KeySorted at *
  rw [List.map_append, List.map_congr_left hsame]
  unfold List.Sorted at *
  rw [List.pairwise_append]
  refine ⟨hk, by simp, ?_⟩
  intro x hx y hy
  simp only [List.map_cons, List.map_nil, List.mem_singleton] at hy
  subst hy
  rcases List.eq_nil_or_concat l with e | ⟨l1, t, e⟩
  · subst e; simp at hx
  · rw [List.concat_eq_append] at e
    subst e
    have h1 := hle t (by simp)
    rw [List.map_append, List.map_cons, List.map_nil] at hk hx
    rcases List.mem_append.mp hx with e2 | e2
    · have := (List.pairwise_append.mp hk).2.2 x e2 (keyOf s t) (by simp)
      omega
    · simp only [List.mem_singleton] at e2
      omega

theorem keySorted_sublist (s s2 : MapSpriteList) (l l2 : List Nat) (hk : KeySorted s l)
    (hsub : l2.Sublist l) (hsame : ∀ n ∈ l2, keyOf s2 n = keyOf s n) : KeySorted s2 l2 := by
  unfold KeySorted at *
  rw [List.map_congr_left hsame]
  exact List.Pairwise.sublist (List.Sublist.map _ hsub) hk

/-- A run of calls that respect their contracts, from a well-formed list with sorted keys,
ends (with enough fuel) in a well-formed list with sorted keys. -/
theorem runOps_wf (cfg : Settings) (fuel : Nat) (hg : 0 < cfg.SPRITES_POOL_GROW_SIZE) :
    ∀ (ops : List Op) (s : MapSpriteList) (l : List Nat), WF s l → KeySorted s l →
      l.length + ops.length ≤ fuel → runInContract cfg fuel ops s →
      ∃ s2 l2, runOps cfg fuel ops s = some s2 ∧ WF s2 l2 ∧ KeySorted s2 l2 ∧
        l2.length ≤ l.length + ops.length
  | [], s, l, h, hk, _, _ => ⟨s, l, rfl, h, hk, by simp⟩
  | op :: ops, s, l, h, hk, hf, hc => by
    simp only [List.length_cons] at hf
    obtain ⟨hc1, hc2⟩ := hc
    cases op with
    | add a =>
      obtain ⟨s1, m, e, hwf, hp, _, _⟩ := AddSprite_wf cfg fuel s l a h hg
      have happ : applyOp cfg fuel s (Op.add a) = some s1 := by simp [applyOp, e]
      rw [happ] at hc2
      have hc2 : runInContract cfg fuel ops s1 := hc2
      have hk1 : KeySorted s1 (l ++ [m]) := by
        apply keySorted_append s s1 l m hk (fun n hn => data_pos (hp.data n hn))
        intro t ht
        have hl : s._lastSprite = some t := by rw [h.last, ht]
        simp only [Op.inContract, hl] at hc1
        unfold keyOf
        rw [hp.pos]
        exact hc1
      have hlen : (l ++ [m]).length + ops.length ≤ fuel := by
        simp only [List.length_append, List.length_singleton]
        omega
      obtain ⟨s2, l2, e2, hwf2, hk2, hl2⟩ := runOps_wf cfg fuel hg ops s1 _ hwf hk1 hlen hc2
      refine ⟨s2, l2, ?_, hwf2, hk2, ?_⟩
      · simp only [runOps, happ]; exact e2
      · simp only [List.length_append, List.length_cons, List.length_nil] at hl2 ⊢
        omega
    | insert a =>
      obtain ⟨s1, m, e, hwf, hp, _, _⟩ := InsertSprite_wf cfg fuel s l a h hg (by omega)
      have happ : applyOp cfg fuel s (Op.insert a) = some s1 := by simp [applyOp, e]
      rw [happ] at hc2
      have hc2 : runInContract cfg fuel ops s1 := hc2
      have hk1 := keySorted_insert cfg s s1 l m a hp hk
      have hlen : (l.takeWhile
          (fun n => decide (keyOf s n ≤ drawOrderPos cfg a.draw_order a.hx a.hy))
        ++ m :: l.dropWhile
          (fun n => decide (keyOf s n ≤ drawOrderPos cfg a.draw_order a.hx a.hy))).length
          = l.length + 1 := by
        have := congrArg List.length (List.takeWhile_append_dropWhile
          (fun n => decide (keyOf s n ≤ drawOrderPos cfg a.draw_order a.hx a.hy)) l)
        simp only [List.length_append, List.length_cons] at this ⊢
        omega
      obtain ⟨s2, l2, e2, hwf2, hk2, hl2⟩ :=
        runOps_wf cfg fuel hg ops s1 _ hwf hk1 (by rw [hlen]; omega) hc2
      refine ⟨s2, l2, ?_, hwf2, hk2, ?_⟩
      · simp only [runOps, happ]; exact e2
      · rw [hlen] at hl2
        simp only [List.length_cons]
        omega
    | invalidate n =>
      have happ : applyOp cfg fuel s (Op.invalidate n) = some (MapSprite.Invalidate s n) := rfl
      rw [happ] at hc2
      have hc2 : runInContract cfg fuel ops (MapSprite.Invalidate s n) := hc2
      by_cases hn : n ∈ l
      · obtain ⟨a, b, hab⟩ := List.append_of_mem hn
        subst hab
        obtain ⟨hwf, hd, _, _⟩ := Invalidate_split s a n b h
        have hnd := h.nodup
        have hk1 : KeySorted (MapSprite.Invalidate s n) (a ++ b) := by
          apply keySorted_sublist s _ _ _ hk
            (List.Sublist.append_left (List.sublist_cons_self n b) a)
          intro k hk2
          have hkn : k ≠ n := by
            intro e
            subst e
            rw [List.nodup_append, List.nodup_cons] at hnd
            rcases List.mem_append.mp hk2 with e2 | e2
            · exact hnd.2.2 e2 (by simp)
            · exact hnd.2.1.1 e2
          have e1 := congrArg MapSprite.DrawOrderPos (hd k hkn)
          exact e1
        have hlen : (a ++ b).length + ops.length ≤ fuel := by
          simp only [List.length_append, List.length_cons] at hf ⊢
          omega
        obtain ⟨s2, l2, e2, hwf2, hk2, hl2⟩ := runOps_wf cfg fuel hg ops _ _ hwf hk1 hlen hc2
        refine ⟨s2, l2, ?_, hwf2, hk2, ?_⟩
        · simp only [runOps, happ]; exact e2
        · simp only [List.length_append, List.length_cons] at hl2 ⊢
          omega
      · have hv : (s.sprites n).Valid = false := by
          cases hq : (s.sprites n).Valid with
          | false => rfl
          | true => exact absurd (h.validOnly n hc1 hq) hn
        rw [Invalidate_noop s n hv] at hc2 happ
        obtain ⟨s2, l2, e2, hwf2, hk2, hl2⟩ :=
          runOps_wf cfg fuel hg ops s l h hk (by omega) hc2
        refine ⟨s2, l2, ?_, hwf2, hk2, ?_⟩
        · simp only [runOps, happ]; exact e2
        · simp only [List.length_cons]
          omega

/-! ### Uniqueness of the sorted chain -/

theorem lexLE_of_lexLT (s : MapSpriteList) (a b : Nat) (h : lexLT s a b) : lexLE s a b := by
  unfold lexLT at h
  unfold lexLE
  omega

/-- When the tree indices increase along `l`, the vector sorted by `Sort` is strictly
ordered by `(DrawOrderPos, TreeIndex)`. -/
theorem stdSort_lexLT (s : MapSpriteList) (l : List Nat) (hnd : l.Nodup)
    (hidx : (l.map (indexOf s)).Sorted (· < ·)) :
    (stdSort (sortLess s.sprites) l).Pairwise (lexLT s) := by
  have hperm := stdSort_perm (sortLess s.sprites) l
  have hnd2 : (stdSort (sortLess s.sprites) l).Nodup := hperm.nodup_iff.mpr hnd
  have hinj := List.inj_on_of_nodup_map (List.Sorted.nodup hidx)
  have hsorted := stdSort_sorted s l
  refine List.Pairwise.imp_of_mem ?_ (hsorted.and hnd2)
  intro a b ha hb hab
  obtain ⟨h1, h2⟩ := hab
  have hne : indexOf s a ≠ indexOf s b :=
    fun e => h2 (hinj (hperm.mem_iff.mp ha) (hperm.mem_iff.mp hb) e)
  unfold lexLE at h1
  unfold lexLT
  omega

theorem lexLT_unique (s : MapSpriteList) (l1 l3 : List Nat) (hperm : l1.Perm l3)
    (h1 : l1.Pairwise (lexLT s)) (h3 : l3.Pairwise (lexLT s)) : l1 = l3 := by
  haveI : IsAntisymm Nat (lexLT s) := ⟨lexLT_antisymm s⟩
  exact List.eq_of_perm_of_sorted hperm h1 h3

theorem stdSort_of_sorted (s : MapSpriteList) (l : List Nat) (h : l.Pairwise (lexLE s)) :
    stdSort (sortLess s.sprites) l = l := by
  unfold stdSort
  apply List.Sorted.insertionSort_eq
  exact List.Pairwise.imp (fun {a b} hab => (sortLess_false_iff s a b).mpr hab) h

theorem sprite_ext (x y : MapSprite) (hd : x.data = y.data) (h1 : x.TreeIndex = y.TreeIndex)
    (h2 : x.ChainRoot = y.ChainRoot) (h3 : x.ChainLast = y.ChainLast)
    (h4 : x.ChainParent = y.ChainParent) (h5 : x.ChainChild = y.ChainChild) : x = y := by
  cases x
  cases y
  simp only [MapSprite.data, MapSprite.mk.injEq] at hd
  simp only at h1 h2 h3 h4 h5
  simp only [MapSprite.mk.injEq]
  tauto

theorem seg_unique (sp sp2 : Nat → MapSprite) :
    ∀ (l : List Nat) (prev next : Option Nat), Seg sp prev l next → Seg sp2 prev l next →
      ∀ n ∈ l, (sp n).ChainParent = (sp2 n).ChainParent ∧
        (sp n).ChainChild = (sp2 n).ChainChild
  | [], _, _, _, _, n, hn => by simp at hn
  | p :: l, prev, next, h1, h2, n, hn => by
    obtain ⟨a1, a2, a3⟩ := h1
    obtain ⟨b1, b2, b3⟩ := h2
    rcases List.mem_cons.mp hn with e | e
    · subst e
      exact ⟨a1.trans b1.symm, a2.trans b2.symm⟩
    · exact seg_unique sp sp2 l (some p) next a3 b3 n e

/-- Two lists linked along the same chain with the same tree indices and the same other
fields hold the same sprites. -/
theorem linked_sprites_eq (s s2 : MapSpriteList) (l : List Nat) (h : Linked s l)
    (h2 : Linked s2 l) (hd : ∀ n, (s2.sprites n).data = (s.sprites n).data)
    (hi : l.map (indexOf s2) = l.map (indexOf s))
    (hout : ∀ n, n ∉ l → s2.sprites n = s.sprites n) : s2.sprites = s.sprites := by
  funext n
  by_cases hn : n ∈ l
  · obtain ⟨e4, e5⟩ := seg_unique s2.sprites s.sprites l none none h2.seg h.seg n hn
    apply sprite_ext _ _ (hd n) _ _ _ e4 e5
    · exact List.map_inj_left.mp hi n hn
    · have a := h2.chainRoot n hn
      have b := h.chainRoot n hn
      cases hq : (s2.sprites n).ChainRoot <;> cases hq2 : (s.sprites n).ChainRoot <;>
        simp_all
    · have a := h2.chainLast n hn
      have b := h.chainLast n hn
      cases hq : (s2.sprites n).ChainLast <;> cases hq2 : (s.sprites n).ChainLast <;>
        simp_all
  · exact hout n hn

/-- `Sort` leaves a well-formed list as it is when its chain is already ordered and numbered
by position. -/
theorem Sort_fixed (fuel : Nat) (s : MapSpriteList) (l : List Nat) (h : WF s l)
    (hf : l.length ≤ fuel) (hsorted : l.Pairwise (lexLE s))
    (hidx : l.map (indexOf s) = List.range l.length) : s.Sort fuel = some s := by
  obtain ⟨s2, e, hwf, hd, hi, hout, hfr⟩ := Sort_wf fuel s l h hf
  rw [stdSort_of_sorted s l hsorted] at hwf hi
  have hsp : s2.sprites = s.sprites :=
    linked_sprites_eq s s2 l h.toLinked hwf.toLinked hd (hi.trans hidx.symm) hout
  have hroot : s2._rootSprite = s._rootSprite := hwf.root.trans h.root.symm
  have hlast : s2._lastSprite = s._lastSprite := hwf.last.trans h.last.symm
  rw [e, hfr, hsp, hroot, hlast]

/-! ### Arithmetic of the draw order key -/

theorem lex_pair (B a1 r1 a2 r2 : Nat) (h1 : r1 < B) (h2 : r2 < B) :
    a1 * B + r1 < a2 * B + r2 ↔ a1 < a2 ∨ (a1 = a2 ∧ r1 < r2) := by
  rcases Nat.lt_trichotomy a1 a2 with h | h | h
  · have := Nat.mul_le_mul_right B (Nat.succ_le_of_lt h)
    rw [Nat.succ_mul] at this
    constructor
    · intro _; exact Or.inl h
    · intro _; omega
  · subst h
    constructor
    · intro h; right; exact ⟨rfl, by omega⟩
    · rintro (h | ⟨_, h⟩) <;> omega
  · have := Nat.mul_le_mul_right B (Nat.succ_le_of_lt h)
    rw [Nat.succ_mul] at this
    constructor
    · intro _; omega
    · rintro (h3 | ⟨h3, _⟩) <;> omega

theorem lex_pair_eq (B a1 r1 a2 r2 : Nat) (h1 : r1 < B) (h2 : r2 < B) :
    a1 * B + r1 = a2 * B + r2 ↔ a1 = a2 ∧ r1 = r2 := by
  have l1 := lex_pair B a1 r1 a2 r2 h1 h2
  have l2 := lex_pair B a2 r2 a1 r1 h2 h1
  constructor
  · intro h
    have n1 : ¬ (a1 * B + r1 < a2 * B + r2) := by omega
    have n2 : ¬ (a2 * B + r2 < a1 * B + r1) := by omega
    rw [l1] at n1
    rw [l2] at n2
    omega
  · rintro ⟨e1, e2⟩
    rw [e1, e2]

theorem cell_bound (M hx hy : Nat) (hx1 : hx < M) (hy1 : hy < M) : hy * M + hx < M * M := by
  have := Nat.mul_le_mul_right M (Nat.succ_le_of_lt hy1)
  rw [Nat.succ_mul] at this
  omega

/-- The key of a category outside the Normal range, when it fits in 32 bits. -/
theorem drawOrderPos_outside (cfg : Settings) (c hx hy : Nat)
    (ho : c < cfg.NormalBegin ∨ cfg.NormalEnd < c) (hx1 : hx < cfg.MAXHEX_MAX)
    (hy1 : hy < cfg.MAXHEX_MAX)
    (hfit : cfg.MAXHEX_MAX * cfg.MAXHEX_MAX * (c + 1) ≤ 2 ^ 32) :
    drawOrderPos cfg c hx hy = c * (cfg.MAXHEX_MAX * cfg.MAXHEX_MAX) + (hy * cfg.MAXHEX_MAX + hx) := by
  have hb := cell_bound cfg.MAXHEX_MAX hx hy hx1 hy1
  have hc : (c > cfg.NormalEnd) = (cfg.NormalEnd < c) := rfl
  unfold drawOrderPos
  rw [hc, if_pos ho, Nat.mul_add, Nat.mul_one] at *
  rw [Nat.mod_eq_of_lt (by omega), Nat.mul_comm c]
  omega

/-- The key of a category of the Normal range, when the sub-categories fit in the slot width
`NormalBegin` and the key fits in 32 bits. -/
theorem drawOrderPos_normal (cfg : Settings) (c hx hy : Nat) (hc1 : cfg.NormalBegin ≤ c)
    (hc2 : c ≤ cfg.NormalEnd) (hslot : cfg.NormalEnd < 2 * cfg.NormalBegin)
    (hx1 : hx < cfg.MAXHEX_MAX) (hy1 : hy < cfg.MAXHEX_MAX)
    (hfit : 2 * (cfg.MAXHEX_MAX * cfg.MAXHEX_MAX * cfg.NormalBegin) ≤ 2 ^ 32) :
    drawOrderPos cfg c hx hy = cfg.MAXHEX_MAX * cfg.MAXHEX_MAX * cfg.NormalBegin +
      ((hy * cfg.MAXHEX_MAX + hx) * cfg.NormalBegin + (c - cfg.NormalBegin)) ∧
    (hy * cfg.MAXHEX_MAX + hx) * cfg.NormalBegin + (c - cfg.NormalBegin) <
      cfg.MAXHEX_MAX * cfg.MAXHEX_MAX * cfg.NormalBegin := by
  have hb := cell_bound cfg.MAXHEX_MAX hx hy hx1 hy1
  have hb2 := Nat.mul_le_mul_right cfg.NormalBegin (Nat.succ_le_of_lt hb)
  rw [Nat.succ_mul] at hb2
  have hnot : ¬ (c < cfg.NormalBegin ∨ c > cfg.NormalEnd) := by
    intro h; rcases h with h | h <;> omega
  have e : hy * cfg.NormalBegin * cfg.MAXHEX_MAX + hx * cfg.NormalBegin =
      (hy * cfg.MAXHEX_MAX + hx) * cfg.NormalBegin := by ring
  unfold drawOrderPos
  rw [if_neg hnot]
  constructor
  · rw [Nat.mod_eq_of_lt (by omega)]
    omega
  · omega

/-- Order of the keys of two categories outside the Normal range. -/
theorem outside_lt (cfg : Settings) (c1 c2 hx1 hy1 hx2 hy2 : Nat)
    (ho1 : c1 < cfg.NormalBegin ∨ cfg.NormalEnd < c1)
    (ho2 : c2 < cfg.NormalBegin ∨ cfg.NormalEnd < c2)
    (hx1m : hx1 < cfg.MAXHEX_MAX) (hy1m : hy1 < cfg.MAXHEX_MAX)
    (hx2m : hx2 < cfg.MAXHEX_MAX) (hy2m : hy2 < cfg.MAXHEX_MAX)
    (hfit1 : cfg.MAXHEX_MAX * cfg.MAXHEX_MAX * (c1 + 1) ≤ 2 ^ 32)
    (hfit2 : cfg.MAXHEX_MAX * cfg.MAXHEX_MAX * (c2 + 1) ≤ 2 ^ 32) :
    drawOrderPos cfg c1 hx1 hy1 < drawOrderPos cfg c2 hx2 hy2 ↔
      c1 < c2 ∨ (c1 = c2 ∧ (hy1 < hy2 ∨ (hy1 = hy2 ∧ hx1 < hx2))) := by
  rw [drawOrderPos_outside cfg c1 hx1 hy1 ho1 hx1m hy1m hfit1,
    drawOrderPos_outside cfg c2 hx2 hy2 ho2 hx2m hy2m hfit2,
    lex_pair _ _ _ _ _ (cell_bound _ _ _ hx1m hy1m) (cell_bound _ _ _ hx2m hy2m),
    lex_pair _ _ _ _ _ hx1m hx2m]

/-- Order of the keys of two categories of the Normal range. -/
theorem normal_lt (cfg : Settings) (c1 c2 hx1 hy1 hx2 hy2 : Nat)
    (hc1 : cfg.NormalBegin ≤ c1 ∧ c1 ≤ cfg.NormalEnd)
    (hc2 : cfg.NormalBegin ≤ c2 ∧ c2 ≤ cfg.NormalEnd)
    (hslot : cfg.NormalEnd < 2 * cfg.NormalBegin)
    (hx1m : hx1 < cfg.MAXHEX_MAX) (hy1m : hy1 < cfg.MAXHEX_MAX)
    (hx2m : hx2 < cfg.MAXHEX_MAX) (hy2m : hy2 < cfg.MAXHEX_MAX)
    (hfit : 2 * (cfg.MAXHEX_MAX * cfg.MAXHEX_MAX * cfg.NormalBegin) ≤ 2 ^ 32) :
    drawOrderPos cfg c1 hx1 hy1 < drawOrderPos cfg c2 hx2 hy2 ↔
      hy1 < hy2 ∨ (hy1 = hy2 ∧ (hx1 < hx2 ∨ (hx1 = hx2 ∧ c1 < c2))) := by
  rw [(drawOrderPos_normal cfg c1 hx1 hy1 hc1.1 hc1.2 hslot hx1m hy1m hfit).1,
    (drawOrderPos_normal cfg c2 hx2 hy2 hc2.1 hc2.2 hslot hx2m hy2m hfit).1,
    Nat.add_lt_add_iff_left,
    lex_pair _ _ _ _ _ (by omega : c1 - cfg.NormalBegin < cfg.NormalBegin)
      (by omega : c2 - cfg.NormalBegin < cfg.NormalBegin),
    lex_pair _ _ _ _ _ hx1m hx2m]
  have e := lex_pair_eq cfg.MAXHEX_MAX hy1 hx1 hy2 hx2 hx1m hx2m
  constructor
  · rintro (h | ⟨h, h2⟩)
    · rcases h with h | ⟨h, h3⟩
      · exact Or.inl h
      · exact Or.inr ⟨h, Or.inl h3⟩
    · obtain ⟨e1, e2⟩ := e.mp h
      exact Or.inr ⟨e1, Or.inr ⟨e2, by omega⟩⟩
  · rintro (h | ⟨h, h2 | ⟨h2, h3⟩⟩)
    · exact Or.inl (Or.inl h)
    · exact Or.inl (Or.inr ⟨h, h2⟩)
    · exact Or.inr ⟨e.mpr ⟨h, h2⟩, by omega⟩

/-- A key below the Normal range is below every key of the Normal range. -/
theorem below_lt_normal (cfg : Settings) (c d hx hy hx2 hy2 : Nat)
    (hc : cfg.NormalBegin ≤ c ∧ c ≤ cfg.NormalEnd) (hd : d < cfg.NormalBegin)
    (hslot : cfg.NormalEnd < 2 * cfg.NormalBegin)
    (hxm : hx < cfg.MAXHEX_MAX) (hym : hy < cfg.MAXHEX_MAX)
    (hx2m : hx2 < cfg.MAXHEX_MAX) (hy2m : hy2 < cfg.MAXHEX_MAX)
    (hfit : 2 * (cfg.MAXHEX_MAX * cfg.MAXHEX_MAX * cfg.NormalBegin) ≤ 2 ^ 32) :
    drawOrderPos cfg d hx2 hy2 < drawOrderPos cfg c hx hy := by
  have hle := Nat.mul_le_mul_left (cfg.MAXHEX_MAX * cfg.MAXHEX_MAX) (Nat.succ_le_of_lt hd)
  rw [Nat.mul_succ] at hle
  have hb := cell_bound cfg.MAXHEX_MAX hx2 hy2 hx2m hy2m
  rw [(drawOrderPos_normal cfg c hx hy hc.1 hc.2 hslot hxm hym hfit).1,
    drawOrderPos_outside cfg d hx2 hy2 (Or.inl hd) hx2m hy2m
      (by rw [Nat.mul_succ]; omega),
    Nat.mul_comm d]
  omega

/-- A key above the Normal range is above the keys of the Normal range in the rows `hy` with
`NormalBegin * (hy + 1) ≤ (d - NormalBegin) * MAXHEX_MAX`. -/
theorem normal_lt_above (cfg : Settings) (c d hx hy hx2 hy2 : Nat)
    (hc : cfg.NormalBegin ≤ c ∧ c ≤ cfg.NormalEnd) (hd : cfg.NormalEnd < d)
    (hslot : cfg.NormalEnd < 2 * cfg.NormalBegin)
    (hxm : hx < cfg.MAXHEX_MAX) (hym : hy < cfg.MAXHEX_MAX)
    (hx2m : hx2 < cfg.MAXHEX_MAX) (hy2m : hy2 < cfg.MAXHEX_MAX)
    (hfitN : 2 * (cfg.MAXHEX_MAX * cfg.MAXHEX_MAX * cfg.NormalBegin) ≤ 2 ^ 32)
    (hfitD : cfg.MAXHEX_MAX * cfg.MAXHEX_MAX * (d + 1) ≤ 2 ^ 32)
    (hrow : cfg.NormalBegin * (hy + 1) ≤ (d - cfg.NormalBegin) * cfg.MAXHEX_MAX) :
    drawOrderPos cfg c hx hy < drawOrderPos cfg d hx2 hy2 := by
  rw [(drawOrderPos_normal cfg c hx hy hc.1 hc.2 hslot hxm hym hfitN).1,
    drawOrderPos_outside cfg d hx2 hy2 (Or.inr hd) hx2m hy2m hfitD]
  -- the cell part of the Normal key stays below `(hy + 1) * MAXHEX_MAX * NormalBegin`
  have h1 : (hy * cfg.MAXHEX_MAX + hx) * cfg.NormalBegin + (c - cfg.NormalBegin) <
      (hy + 1) * cfg.MAXHEX_MAX * cfg.NormalBegin := by
    have := Nat.mul_le_mul_right cfg.NormalBegin
      (show hy * cfg.MAXHEX_MAX + hx + 1 ≤ (hy + 1) * cfg.MAXHEX_MAX by
        rw [Nat.succ_mul]; omega)
    rw [Nat.succ_mul] at this
    omega
  have h2 : (hy + 1) * cfg.MAXHEX_MAX * cfg.NormalBegin ≤
      (d - cfg.NormalBegin) * (cfg.MAXHEX_MAX * cfg.MAXHEX_MAX) := by
    have := Nat.mul_le_mul_right cfg.MAXHEX_MAX hrow
    calc (hy + 1) * cfg.MAXHEX_MAX * cfg.NormalBegin
        = cfg.NormalBegin * (hy + 1) * cfg.MAXHEX_MAX := by ring
      _ ≤ (d - cfg.NormalBegin) * cfg.MAXHEX_MAX * cfg.MAXHEX_MAX := this
      _ = (d - cfg.NormalBegin) * (cfg.MAXHEX_MAX * cfg.MAXHEX_MAX) := by ring
  have h3 : d * (cfg.MAXHEX_MAX * cfg.MAXHEX_MAX) =
      cfg.MAXHEX_MAX * cfg.MAXHEX_MAX * cfg.NormalBegin +
        (d - cfg.NormalBegin) * (cfg.MAXHEX_MAX * cfg.MAXHEX_MAX) := by
    have e : d = cfg.NormalBegin + (d - cfg.NormalBegin) := by omega
    conv_lhs => rw [e]
    ring
  omega

/-! ### Chains of keyed sprites -/

theorem keyed_congr {cfg : Settings} {R : Nat → Nat → Nat → Prop} {s s2 : MapSpriteList}
    {n : Nat} (h : (s2.sprites n).data = (s.sprites n).data) (hk : Keyed cfg R s n) :
    Keyed cfg R s2 n := by
  unfold Keyed keyOf at *
  rw [data_order h, data_hexX h, data_hexY h, data_pos h]
  exact hk

/-- Any run of `InsertSprite` calls whose requests satisfy `R`, from a well-formed list with
sorted keys whose sprites satisfy `R` and hold their computed keys, ends in such a list. -/
theorem insertAll_keyed (cfg : Settings) (fuel : Nat) (hg : 0 < cfg.SPRITES_POOL_GROW_SIZE)
    (R : Nat → Nat → Nat → Prop) :
    ∀ (rs : List PutArgs) (s : MapSpriteList) (hs : List Nat) (l : List Nat), WF s l →
      KeySorted s l → (∀ n ∈ l, Keyed cfg R s n) → (∀ a ∈ rs, R a.draw_order a.hx a.hy) →
      l.length + rs.length ≤ fuel →
      ∃ s2 hs2 l2, insertAll cfg fuel rs (s, hs) = some (s2, hs2) ∧ WF s2 l2 ∧ KeySorted s2 l2 ∧
        (∀ n ∈ l2, Keyed cfg R s2 n) ∧ l2.length = l.length + rs.length
  | [], s, hs, l, h, hk, hkd, _, _ => ⟨s, hs, l, rfl, h, hk, hkd, rfl⟩
  | a :: rs, s, hs, l, h, hk, hkd, hr, hf => by
    simp only [List.length_cons] at hf
    obtain ⟨s1, m, e, hwf, hp, _, _⟩ := InsertSprite_wf cfg fuel s l a h hg (by omega)
    have hk1 := keySorted_insert cfg s s1 l m a hp hk
    have hsplit := List.takeWhile_append_dropWhile
      (fun n => decide (keyOf s n ≤ drawOrderPos cfg a.draw_order a.hx a.hy)) l
    have hlen : (l.takeWhile (fun n => decide (keyOf s n ≤ drawOrderPos cfg a.draw_order a.hx a.hy))
      ++ m :: l.dropWhile
        (fun n => decide (keyOf s n ≤ drawOrderPos cfg a.draw_order a.hx a.hy))).length
        = l.length + 1 := by
      have := congrArg List.length hsplit
      simp only [List.length_append, List.length_cons] at this ⊢
      omega
    have hkd1 : ∀ n ∈ l.takeWhile
        (fun n => decide (keyOf s n ≤ drawOrderPos cfg a.draw_order a.hx a.hy))
        ++ m :: l.dropWhile
          (fun n => decide (keyOf s n ≤ drawOrderPos cfg a.draw_order a.hx a.hy)),
        Keyed cfg R s1 n := by
      intro n hn
      have hn2 : n = m ∨ n ∈ l := by
        rw [← hsplit]
        simp only [List.mem_append, List.mem_cons] at hn ⊢
        tauto
      rcases hn2 with e | e
      · subst e
        unfold Keyed keyOf
        rw [hp.order, hp.hexX, hp.hexY, hp.pos]
        exact ⟨hr a (List.mem_cons_self _ _), rfl⟩
      · exact keyed_congr (hp.data n e) (hkd n e)
    obtain ⟨s2, hs2, l2, e2, hwf2, hk2, hkd2, hl2⟩ :=
      insertAll_keyed cfg fuel hg R rs s1 (hs ++ [m]) _ hwf hk1 hkd1
        (fun b hb => hr b (List.mem_cons_of_mem _ hb)) (by rw [hlen]; omega)
    refine ⟨s2, hs2, l2, ?_, hwf2, hk2, hkd2, ?_⟩
    · simp only [insertAll, e]; exact e2
    · rw [hl2, hlen]; simp only [List.length_cons]; omega

/-- A key-sorted chain of Normal range sprites inside the grid is ordered by row, then column,
then category. -/
theorem normal_chain_cellLE (cfg : Settings) (hslot : cfg.NormalEnd < 2 * cfg.NormalBegin)
    (hfit : 2 * (cfg.MAXHEX_MAX * cfg.MAXHEX_MAX * cfg.NormalBegin) ≤ 2 ^ 32)
    (s : MapSpriteList) (l : List Nat) (hk : KeySorted s l)
    (hkd : ∀ n ∈ l, Keyed cfg (inNormalGrid cfg) s n) : l.Pairwise (cellLE s) := by
  have h1 : l.Pairwise (fun a b => keyOf s a ≤ keyOf s b) := List.pairwise_map.mp hk
  refine List.Pairwise.imp_of_mem ?_ h1
  intro x y hx hy hxy
  obtain ⟨⟨a1, a2, a3, a4⟩, ka⟩ := hkd x hx
  obtain ⟨⟨b1, b2, b3, b4⟩, kb⟩ := hkd y hy
  have hn : ¬ (keyOf s y < keyOf s x) := by omega
  rw [ka, kb, normal_lt cfg _ _ _ _ _ _ ⟨b1, b2⟩ ⟨a1, a2⟩ hslot b3 b4 a3 a4 hfit] at hn
  unfold cellLE
  omega

theorem pairwise_getElem? {R : Nat → Nat → Prop} {l : List Nat} (h : l.Pairwise R)
    (i j x y : Nat) (hij : i < j) (hx : l[i]? = some x) (hy : l[j]? = some y) : R x y := by
  obtain ⟨hi, ex⟩ := List.getElem?_eq_some.mp hx
  obtain ⟨hj, ey⟩ := List.getElem?_eq_some.mp hy
  have := List.pairwise_iff_getElem.mp h i j hi hj hij
  rw [ex, ey] at this
  exact this

/-! ### What `MapSprite::Invalidate` writes outside the chain links -/

theorem payload_modify (sp : Nat → MapSprite) (j k : Nat) (f : MapSprite → MapSprite)
    (hf : ∀ x, (f x).payload = x.payload) : (modify sp j f k).payload = (sp k).payload := by
  by_cases h : k = j
  · subst h; simp [hf]
  · simp [h]

theorem payload_modifyAt (sp : Nat → MapSprite) (p : Option Nat) (k : Nat)
    (f : MapSprite → MapSprite) (hf : ∀ x, (f x).payload = x.payload) :
    (modifyAt sp p f k).payload = (sp k).payload := by
  cases p with
  | none => rfl
  | some j => exact payload_modify sp j k f hf

theorem severExtraChain_payload (t : MapSpriteList) (n k : Nat) :
    ((MapSprite.severExtraChain t n).sprites k).payload = (t.sprites k).payload := by
  unfold MapSprite.severExtraChain
  simp only
  split
  · refine (payload_modify _ _ _ _ ?_).trans ?_
    · intro x; rfl
    refine (payload_modifyAt _ _ _ _ ?_).trans ?_
    · intro x; rfl
    refine payload_modifyAt _ _ _ _ ?_
    intro x; rfl
  · refine (payload_modify _ _ _ _ ?_).trans ?_
    · intro x; rfl
    refine (payload_modifyAt _ _ _ _ ?_).trans ?_
    · intro x; rfl
    refine (payload_modifyAt _ _ _ _ ?_).trans ?_
    · intro x; rfl
    refine payload_modifyAt _ _ _ _ ?_
    intro x; rfl

theorem severChain_payload (t : MapSpriteList) (n k : Nat) :
    ((MapSprite.severChain t n).sprites k).payload = (t.sprites k).payload := by
  unfold MapSprite.severChain
  simp only
  refine (payload_modify _ _ _ _ ?_).trans ?_
  · intro x; rfl
  split_ifs
  all_goals
    first
    | (refine (payload_modifyAt _ _ _ _ ?_).trans ?_
       · intro x; rfl
       refine (payload_modifyAt _ _ _ _ ?_).trans ?_
       · intro x; rfl
       refine (payload_modifyAt _ _ _ _ ?_).trans ?_
       · intro x; rfl
       refine payload_modifyAt _ _ _ _ ?_
       intro x; rfl)
    | (refine (payload_modifyAt _ _ _ _ ?_).trans ?_
       · intro x; rfl
       refine (payload_modifyAt _ _ _ _ ?_).trans ?_
       · intro x; rfl
       refine payload_modifyAt _ _ _ _ ?_
       intro x; rfl)
    | (refine (payload_modifyAt _ _ _ _ ?_).trans ?_
       · intro x; rfl
       refine payload_modifyAt _ _ _ _ ?_
       intro x; rfl)

theorem markInvalid_apply (t : MapSpriteList) (n k : Nat) :
    (MapSprite.markInvalid t n).sprites k =
      if k = n then { t.sprites n with Valid := false, ValidCallback := none }
      else t.sprites k := by
  unfold MapSprite.markInvalid
  simp only [modify_same]
  by_cases h : k = n
  · subst h
    cases hc : (t.sprites k).ValidCallback <;> simp [hc]
  · cases hc : (t.sprites n).ValidCallback <;> simp [h]

theorem recycle_apply (t : MapSpriteList) (n k : Nat) :
    (MapSprite.recycle t n).sprites k =
      if k = n then { t.sprites n with MapSpr := none, Root := false } else t.sprites k := by
  unfold MapSprite.recycle
  simp only
  by_cases h : k = n
  · subst h
    cases hc : (t.sprites k).MapSpr <;> simp [hc]
  · cases hc : (t.sprites n).MapSpr <;> simp [h]

/-- `MapSprite::Invalidate` of a valid sprite, links of the two chains aside: the sprite itself
loses `Valid`, `ValidCallback`, `MapSpr` and `Root`, and no other sprite changes. -/
theorem Invalidate_payload (s : MapSpriteList) (n k : Nat)
    (hv : (s.sprites n).Valid = true) :
    ((MapSprite.Invalidate s n).sprites k).payload =
      (if k = n then
        { s.sprites n with Valid := false, ValidCallback := none, MapSpr := none, Root := false }
      else s.sprites k).payload := by
  have hnv : ¬ ((s.sprites n).Valid = false) := by simp [hv]
  unfold MapSprite.Invalidate
  rw [if_neg hnv]
  have h1 : ∀ j, ((MapSprite.severChain (MapSprite.severExtraChain
      (MapSprite.markInvalid s n) n) n).sprites j).payload =
      (if j = n then { s.sprites n with Valid := false, ValidCallback := none }
        else s.sprites j).payload := by
    intro j
    rw [severChain_payload, severExtraChain_payload, markInvalid_apply]
  rw [recycle_apply]
  by_cases h : k = n
  · subst h
    have e := h1 k
    simp only [if_true] at e ⊢
    have e2 := congrArg (fun z : MapSprite => { z with MapSpr := none, Root := false }) e
    exact e2
  · simp only [h, if_false]
    have e := h1 k
    simp only [h, if_false] at e
    exact e

theorem payload_valid {x y : MapSprite} (h : x.payload = y.payload) : x.Valid = y.Valid := by
  have e := congrArg MapSprite.Valid h
  exact e

theorem payload_callback {x y : MapSprite} (h : x.payload = y.payload) :
    x.ValidCallback = y.ValidCallback := by
  have e := congrArg MapSprite.ValidCallback h
  exact e

theorem payload_mapSpr {x y : MapSprite} (h : x.payload = y.payload) : x.MapSpr = y.MapSpr := by
  have e := congrArg MapSprite.MapSpr h
  exact e

theorem payload_root {x y : MapSprite} (h : x.payload = y.payload) : x.Root = y.Root := by
  have e := congrArg MapSprite.Root h
  exact e

theorem extraLinks_modify (sp : Nat → MapSprite) (j k : Nat) (f : MapSprite → MapSprite)
    (hf : ∀ x, (f x).extraLinks = x.extraLinks) :
    (modify sp j f k).extraLinks = (sp k).extraLinks := by
  by_cases h : k = j
  · subst h; simp [hf]
  · simp [h]

theorem extraLinks_modifyAt (sp : Nat → MapSprite) (p : Option Nat) (k : Nat)
    (f : MapSprite → MapSprite) (hf : ∀ x, (f x).extraLinks = x.extraLinks) :
    (modifyAt sp p f k).extraLinks = (sp k).extraLinks := by
  cases p with
  | none => rfl
  | some j => exact extraLinks_modify sp j k f hf

theorem severChain_extraLinks (t : MapSpriteList) (n k : Nat) :
    ((MapSprite.severChain t n).sprites k).extraLinks = (t.sprites k).extraLinks := by
  unfold MapSprite.severChain
  simp only
  refine (extraLinks_modify _ _ _ _ ?_).trans ?_
  · intro x; rfl
  split_ifs
  all_goals
    first
    | (refine (extraLinks_modifyAt _ _ _ _ ?_).trans ?_
       · intro x; rfl
       refine (extraLinks_modifyAt _ _ _ _ ?_).trans ?_
       · intro x; rfl
       refine (extraLinks_modifyAt _ _ _ _ ?_).trans ?_
       · intro x; rfl
       refine extraLinks_modifyAt _ _ _ _ ?_
       intro x; rfl)
    | (refine (extraLinks_modifyAt _ _ _ _ ?_).trans ?_
       · intro x; rfl
       refine (extraLinks_modifyAt _ _ _ _ ?_).trans ?_
       · intro x; rfl
       refine extraLinks_modifyAt _ _ _ _ ?_
       intro x; rfl)
    | (refine (extraLinks_modifyAt _ _ _ _ ?_).trans ?_
       · intro x; rfl
       refine extraLinks_modifyAt _ _ _ _ ?_
       intro x; rfl)

theorem severExtraChain_self (t : MapSpriteList) (n : Nat) :
    ((MapSprite.severExtraChain t n).sprites n).extraLinks = (none, none, none) := by
  unfold MapSprite.severExtraChain
  simp only [modify_same]
  rfl

theorem severChain_self (t : MapSpriteList) (n : Nat) :
    ((MapSprite.severChain t n).sprites n).chainLinks = (false, false, none, none) := by
  unfold MapSprite.severChain
  simp only [modify_same]
  rfl

/-- After `MapSprite::Invalidate` of a valid sprite all its links are cleared. -/
theorem Invalidate_links (s : MapSpriteList) (n : Nat) (hv : (s.sprites n).Valid = true) :
    ((MapSprite.Invalidate s n).sprites n).chainLinks = (false, false, none, none) ∧
    ((MapSprite.Invalidate s n).sprites n).extraLinks = (none, none, none) := by
  have hnv : ¬ ((s.sprites n).Valid = false) := by simp [hv]
  unfold MapSprite.Invalidate
  rw [if_neg hnv, recycle_apply]
  simp only [if_true]
  constructor
  · exact severChain_self _ n
  · have e := severChain_extraLinks (MapSprite.severExtraChain (MapSprite.markInvalid s n) n) n n
    have e2 := severExtraChain_self (MapSprite.markInvalid s n) n
    exact e.trans e2

/-- The collaborator memory after `MapSprite::Invalidate` of a valid sprite: its validity
mirror, if any, is set to false, and no other mirror is written. -/
theorem Invalidate_callbackMem (s : MapSpriteList) (n : Nat)
    (hv : (s.sprites n).Valid = true) :
    (MapSprite.Invalidate s n).callbackMem =
      storeAt s.callbackMem (s.sprites n).ValidCallback false := by
  have hnv : ¬ ((s.sprites n).Valid = false) := by simp [hv]
  unfold MapSprite.Invalidate
  rw [if_neg hnv]
  unfold MapSprite.recycle MapSprite.severChain MapSprite.severExtraChain MapSprite.markInvalid
  simp only [modify_same]

/-! ### Taking one sprite out of a well-formed list -/

theorem erase_middle (a : List Nat) (n : Nat) (b : List Nat) (hna : n ∉ a) :
    (a ++ n :: b).erase n = a ++ b := by
  induction a with
  | nil => simp
  | cons x a ih =>
    have hx : x ≠ n := fun e => hna (by simp [e])
    have hna2 : n ∉ a := fun e => hna (List.mem_cons_of_mem _ e)
    simp only [List.cons_append]
    rw [List.erase_cons_tail (by simpa using hx), ih hna2]

theorem mem_split_nodup (l : List Nat) (n : Nat) (hn : n ∈ l) (hnd : l.Nodup) :
    ∃ a b, l = a ++ n :: b ∧ n ∉ a ∧ n ∉ b := by
  obtain ⟨a, b, e⟩ := List.append_of_mem hn
  subst e
  refine ⟨a, b, rfl, ?_, ?_⟩
  · intro e
    rw [List.nodup_append] at hnd
    exact hnd.2.2 e (by simp)
  · rw [List.nodup_append, List.nodup_cons] at hnd
    exact hnd.2.1.1

/-- The links of a sprite of a well-formed chain are its neighbours. -/
theorem wf_links_at (s : MapSpriteList) (a : List Nat) (n : Nat) (b : List Nat)
    (h : Linked s (a ++ n :: b)) :
    (s.sprites n).ChainParent = a.getLast? ∧ (s.sprites n).ChainChild = b.head? := by
  obtain ⟨_, hsn⟩ := (seg_append _ _ _ _ _).mp h.seg
  obtain ⟨hP, hC, _⟩ := hsn
  rw [lastOr_none] at hP
  rw [headOr_none] at hC
  exact ⟨hP, hC⟩

theorem payload_pos {x y : MapSprite} (h : x.payload = y.payload) :
    x.DrawOrderPos = y.DrawOrderPos := by
  have e := congrArg MapSprite.DrawOrderPos h
  exact e

theorem payload_index {x y : MapSprite} (h : x.payload = y.payload) :
    x.TreeIndex = y.TreeIndex := by
  have e := congrArg MapSprite.TreeIndex h
  exact e

/-- All that `MapSprite::Invalidate` of a sprite of the chain does to a well-formed list. -/
theorem Invalidate_wf (s : MapSpriteList) (a : List Nat) (n : Nat) (b : List Nat)
    (h : WF s (a ++ n :: b)) :
    WF (MapSprite.Invalidate s n) (a ++ b) ∧
    (MapSprite.Invalidate s n)._invalidatedSprites = s._invalidatedSprites ++ [n] ∧
    (MapSprite.Invalidate s n)._spritesPool = s._spritesPool ∧
    (MapSprite.Invalidate s n).allocated = s.allocated ∧
    (MapSprite.Invalidate s n)._spriteCount = s._spriteCount ∧
    (MapSprite.Invalidate s n).callbackMem =
      storeAt s.callbackMem (s.sprites n).ValidCallback false ∧
    (∀ k, k ≠ n → ((MapSprite.Invalidate s n).sprites k).payload = (s.sprites k).payload) ∧
    ((MapSprite.Invalidate s n).sprites n).payload =
      ({ s.sprites n with Valid := false, ValidCallback := none, MapSpr := none,
                          Root := false } : MapSprite).payload ∧
    ((MapSprite.Invalidate s n).sprites n).chainLinks = (false, false, none, none) ∧
    ((MapSprite.Invalidate s n).sprites n).extraLinks = (none, none, none) := by
  have hnl : n ∈ a ++ n :: b := by simp
  have hv := h.valid n hnl
  obtain ⟨hwf, _, _, hcount⟩ := Invalidate_split s a n b h
  obtain ⟨hl1, hl2⟩ := Invalidate_links s n hv
  have hnv : ¬ ((s.sprites n).Valid = false) := by simp [hv]
  have hfr : (MapSprite.Invalidate s n)._invalidatedSprites = s._invalidatedSprites ++ [n] ∧
      (MapSprite.Invalidate s n)._spritesPool = s._spritesPool ∧
      (MapSprite.Invalidate s n).allocated = s.allocated := by
    unfold MapSprite.Invalidate
    rw [if_neg hnv]
    obtain ⟨_, _, r3, r4, r5, _, _⟩ := recycle_frame (MapSprite.severChain
      (MapSprite.severExtraChain (MapSprite.markInvalid s n) n) n) n
    obtain ⟨_, _, c3, c4, c5, _, _⟩ := severChain_frame
      (MapSprite.severExtraChain (MapSprite.markInvalid s n) n) n
    obtain ⟨_, _, e3, e4, e5, _, _⟩ := severExtraChain_frame (MapSprite.markInvalid s n) n
    obtain ⟨_, _, m3, m4, m5, _, _⟩ := markInvalid_frame s n
    exact ⟨by rw [r4, c4, e4, m4], by rw [r5, c5, e5, m5], by rw [r3, c3, e3, m3]⟩
  refine ⟨hwf, hfr.1, hfr.2.1, hfr.2.2, hcount, Invalidate_callbackMem s n hv, ?_, ?_, hl1, hl2⟩
  · intro k hk
    rw [Invalidate_payload s n k hv]
    simp [hk]
  · rw [Invalidate_payload s n n hv]
    simp

/-! ### `MapSpriteList::Invalidate` on a well-formed list -/

theorem storeAt_apply {α : Type} (mem : Nat → α) (p : Option Nat) (v : α) (c : Nat) :
    storeAt mem p v c = if p = some c then v else mem c := by
  cases p with
  | none => simp [storeAt]
  | some a =>
    simp only [storeAt, store, Option.some.injEq]
    by_cases h : c = a
    · subst h; simp
    · have h2 : ¬ a = c := fun e => h e.symm
      simp [h, h2]

/-- `MapSpriteList::Invalidate` on a well-formed list with chain `l`: with fuel for `l` the loop
ends, every sprite of `l` has gone to the recycle bin in chain order, its mirror is cleared,
and nothing else changes outside the chain links. -/
theorem InvalidateAll_wf :
    ∀ (l : List Nat) (fuel : Nat) (s : MapSpriteList), WF s l → l.length ≤ fuel →
      ∃ s2, MapSpriteList.Invalidate fuel s = some s2 ∧ WF s2 [] ∧ s2._spriteCount = 0 ∧
        s2._invalidatedSprites = s._invalidatedSprites ++ l ∧
        s2._spritesPool = s._spritesPool ∧ s2.allocated = s.allocated ∧
        (∀ n ∈ l, (s2.sprites n).Valid = false ∧ (s2.sprites n).ValidCallback = none) ∧
        (∀ n ∈ l, ∀ c, (s.sprites n).ValidCallback = some c → s2.callbackMem c = false) ∧
        (∀ c, (∀ n ∈ l, (s.sprites n).ValidCallback ≠ some c) →
          s2.callbackMem c = s.callbackMem c) ∧
        (∀ k, k ∉ l → (s2.sprites k).payload = (s.sprites k).payload)
  | [], fuel, s, h, _ => by
    have hroot : s._rootSprite = none := h.root
    have hlast : s._lastSprite = none := h.last
    refine ⟨{ s with _lastSprite := none, _spriteCount := 0 }, ?_, ?_, rfl, by simp, rfl, rfl,
      fun n hn => by simp at hn, fun n hn => by simp at hn, fun c _ => rfl, fun k _ => rfl⟩
    · unfold MapSpriteList.Invalidate
      simp only [hroot]
    · exact wf_congr s _ [] h rfl rfl rfl hlast.symm rfl rfl rfl
  | r :: l, fuel, s, h, hf => by
    have hroot : s._rootSprite = some r := h.root
    cases fuel with
    | zero => simp at hf
    | succ fuel =>
      simp only [List.length_cons] at hf
      have h0 : WF s ([] ++ r :: l) := h
      obtain ⟨hwf, hbin, hpool, hall, _, hmem, hpk, hpn, _, _⟩ := Invalidate_wf s [] r l h0
      simp only [List.nil_append] at hwf
      have hrl : r ∉ l := (List.nodup_cons.mp h.nodup).1
      obtain ⟨s2, e2, w2, c2, b2, p2, a2, v2, m2, f2, k2⟩ :=
        InvalidateAll_wf l fuel (MapSprite.Invalidate s r) hwf (by omega)
      have hcb : ∀ n ∈ l, ((MapSprite.Invalidate s r).sprites n).ValidCallback =
          (s.sprites n).ValidCallback := by
        intro n hn
        exact payload_callback (hpk n (fun e => hrl (e ▸ hn)))
      refine ⟨s2, ?_, w2, c2, ?_, by rw [p2, hpool], by rw [a2, hall], ?_, ?_, ?_, ?_⟩
      · rw [MapSpriteList.Invalidate]
        simp only [hroot]
        exact e2
      · rw [b2, hbin]; simp
      · intro n hn
        rcases List.mem_cons.mp hn with e | e
        · subst e
          have e3 := (k2 n hrl).trans hpn
          exact ⟨payload_valid e3, payload_callback e3⟩
        · exact v2 n e
      · intro n hn c hc
        by_cases hex : ∃ k ∈ l, ((MapSprite.Invalidate s r).sprites k).ValidCallback = some c
        · obtain ⟨k, hk, hkc⟩ := hex
          exact m2 k hk c hkc
        · have hno : ∀ k ∈ l, ((MapSprite.Invalidate s r).sprites k).ValidCallback ≠ some c :=
            fun k hk e => hex ⟨k, hk, e⟩
          rcases List.mem_cons.mp hn with e | e
          · subst e
            rw [f2 c hno, hmem, storeAt_apply, if_pos hc]
          · exact absurd ((hcb n e).trans hc) (hno n e)
      · intro c hc
        have hno : ∀ k ∈ l, ((MapSprite.Invalidate s r).sprites k).ValidCallback ≠ some c :=
          fun k hk e => hc k (List.mem_cons_of_mem _ hk) ((hcb k hk).symm.trans e)
        rw [f2 c hno, hmem, storeAt_apply, if_neg (hc r (List.mem_cons_self _ _))]
      · intro k hk
        have hkr : k ≠ r := fun e => hk (by simp [e])
        have hkl : k ∉ l := fun e => hk (List.mem_cons_of_mem _ e)
        exact (k2 k hkl).trans (hpk k hkr)

/-! ### What a placement writes outside the chain links -/

theorem data_modify (sp : Nat → MapSprite) (j k : Nat) (f : MapSprite → MapSprite)
    (hf : ∀ x, (f x).data = x.data) : (modify sp j f k).data = (sp k).data := by
  by_cases h : k = j
  · subst h; simp [hf]
  · simp [h]

theorem data_modifyAt (sp : Nat → MapSprite) (p : Option Nat) (k : Nat)
    (f : MapSprite → MapSprite) (hf : ∀ x, (f x).data = x.data) :
    (modifyAt sp p f k).data = (sp k).data := by
  cases p with
  | none => rfl
  | some j => exact data_modify sp j k f hf

theorem renumber_data :
    ∀ (fuel : Nat) (sp sp1 : Nat → MapSprite) (cur : Option Nat) (index : Nat),
      renumber fuel sp cur index = some sp1 → ∀ k, (sp1 k).data = (sp k).data
  | fuel, sp, sp1, none, index, h, k => by
    rw [renumber_none] at h
    cases h
    rfl
  | 0, sp, sp1, some p, index, h, k => by
    simp [renumber] at h
  | fuel + 1, sp, sp1, some p, index, h, k => by
    simp only [renumber] at h
    have ih := renumber_data fuel _ sp1 _ _ h k
    rw [ih]
    exact data_modify _ _ _ _ (fun x => rfl)

theorem spliceBefore_data (sp : Nat → MapSprite) (c m k : Nat) :
    (spliceBefore sp c m k).data = (sp k).data := by
  unfold spliceBefore
  refine (data_modifyAt _ _ _ _ ?_).trans ?_
  · intro x; rfl
  refine (data_modify _ _ _ _ ?_).trans ?_
  · intro x; rfl
  refine (data_modify _ _ _ _ ?_).trans ?_
  · intro x; rfl
  refine data_modify _ _ _ _ ?_
  intro x; rfl

/-- Linking a sprite writes chain links and tree indices only. -/
theorem linkSprite_data (fuel : Nat) (t t2 : MapSpriteList) (child : Option Nat) (m : Nat)
    (h : t.linkSprite fuel child m = some t2) :
    (∀ k, (t2.sprites k).data = (t.sprites k).data) ∧ t2.callbackMem = t.callbackMem := by
  unfold MapSpriteList.linkSprite at h
  cases child with
  | none =>
    cases hl : t._lastSprite with
    | none =>
      simp only [hl, Option.some.injEq] at h
      subst h
      exact ⟨fun k => data_modify _ _ _ _ (fun x => rfl), rfl⟩
    | some last =>
      simp only [hl, Option.some.injEq] at h
      subst h
      refine ⟨fun k => ?_, rfl⟩
      simp only
      refine (data_modify _ _ _ _ ?_).trans ?_
      · intro x; rfl
      refine (data_modify _ _ _ _ ?_).trans ?_
      · intro x; rfl
      refine (data_modify _ _ _ _ ?_).trans ?_
      · intro x; rfl
      refine (data_modify _ _ _ _ ?_).trans ?_
      · intro x; rfl
      refine data_modify _ _ _ _ ?_
      intro x; rfl
  | some c =>
    simp only at h
    cases hr : renumber fuel (spliceBefore t.sprites c m) (some m)
        (nextIndex (spliceBefore t.sprites c m) (spliceBefore t.sprites c m m).ChainParent) with
    | none => simp [hr] at h
    | some sp =>
      have hd : ∀ k, (sp k).data = (t.sprites k).data := fun k =>
        (renumber_data fuel _ sp _ _ hr k).trans (spliceBefore_data t.sprites c m k)
      simp only [hr] at h
      cases hp : (sp m).ChainParent with
      | some p =>
        simp only [hp, Option.some.injEq] at h
        subst h
        exact ⟨hd, rfl⟩
      | none =>
        simp only [hp] at h
        by_cases hcr : (sp c).ChainRoot = true
        · simp only [hcr, if_true, Option.some.injEq] at h
          subst h
          refine ⟨fun k => ?_, rfl⟩
          simp only
          refine (data_modify _ _ _ _ ?_).trans ?_
          · intro x; rfl
          refine (data_modify _ _ _ _ ?_).trans ?_
          · intro x; rfl
          exact hd k
        · simp [hcr] at h

theorem fillSprite_fields (cfg : Settings) (s : MapSpriteList) (m : Nat) (a : PutArgs)
    (n : Nat) :
    (s.fillSprite cfg m a).sprites n = if n = m then fillFields cfg a (s.sprites m)
      else s.sprites n :=
  fillSprite_apply cfg s m a n

theorem fillSprite_callbackMem (cfg : Settings) (s : MapSpriteList) (m : Nat) (a : PutArgs) :
    (s.fillSprite cfg m a).callbackMem = storeAt s.callbackMem a.callback true := by
  unfold MapSpriteList.fillSprite
  rfl

/-- The sprite handed back by `PutSprite` holds, chain links and tree index aside, the fields
assigned from the arguments over what the taken sprite held; the other sprites keep their
fields, chain links and tree indices aside; the mirror given is set. -/
theorem PutSprite_effect (cfg : Settings) (fuel : Nat) (s s2 : MapSpriteList)
    (child : Option Nat) (a : PutArgs) (m : Nat)
    (h : s.PutSprite cfg fuel child a = some (s2, m)) :
    ∃ s1, ({ s with _spriteCount := s._spriteCount + 1 } : MapSpriteList).takeSprite cfg =
        some (s1, m) ∧
      (s2.sprites m).data = (fillFields cfg a { s1.sprites m with Root := true }).data ∧
      (∀ n, n ≠ m → (s2.sprites n).data = (s1.sprites n).data) ∧
      s2.callbackMem = storeAt s1.callbackMem a.callback true := by
  unfold MapSpriteList.PutSprite at h
  simp only at h
  cases ht : ({ s with _spriteCount := s._spriteCount + 1 } : MapSpriteList).takeSprite cfg with
  | none => simp [ht] at h
  | some r =>
    obtain ⟨s1, m1⟩ := r
    simp only [ht] at h
    cases hl : MapSpriteList.linkSprite fuel
        { s1 with sprites := modify s1.sprites m1 (fun m => { m with Root := true }) } child m1 with
    | none => simp [hl] at h
    | some s3 =>
      simp only [hl, Option.some.injEq, Prod.mk.injEq] at h
      obtain ⟨h1, h2⟩ := h
      subst h2
      subst h1
      obtain ⟨hd, hm⟩ := linkSprite_data fuel _ s3 child m1 hl
      refine ⟨s1, rfl, ?_, ?_, ?_⟩
      · rw [fillSprite_fields]
        simp only [if_true]
        have e := hd m1
        simp only [modify_same] at e
        have e2 := congrArg (fun z : MapSprite => fillFields cfg a z) e
        exact e2
      · intro n hn
        rw [fillSprite_fields]
        simp only [hn, if_false]
        rw [hd n]
        simp [hn]
      · rw [fillSprite_callbackMem, hm]

/-! ### One placement on a well-formed list -/

/-- A placement on a well-formed list with chain `l`: it returns, the sprite `m` handed back
is new to the chain and is put at the tail (`AddSprite`) or before the first greater key
(`InsertSprite`), and the list stays well formed. -/
theorem place_wf (cfg : Settings) (fuel : Nat) (s : MapSpriteList) (l : List Nat)
    (insert : Bool) (a : PutArgs) (h : WF s l) (hg : 0 < cfg.SPRITES_POOL_GROW_SIZE)
    (hf : l.length + 1 ≤ fuel) :
    ∃ s2 m L, place cfg fuel s insert a = some (s2, m) ∧ WF s2 L ∧
      L = (if insert = true then
          l.takeWhile (fun n => decide (keyOf s n ≤ drawOrderPos cfg a.draw_order a.hx a.hy))
            ++ m :: l.dropWhile
              (fun n => decide (keyOf s n ≤ drawOrderPos cfg a.draw_order a.hx a.hy))
        else l ++ [m]) ∧
      (∀ k, k ∈ L ↔ (k = m ∨ k ∈ l)) ∧ L.length = l.length + 1 ∧
      Placed cfg s s2 l m a ∧
      indexOf s2 m = nextIndex s.sprites (if insert = true then
          (l.takeWhile
            (fun n => decide (keyOf s n ≤ drawOrderPos cfg a.draw_order a.hx a.hy))).getLast?
        else l.getLast?) ∧
      (∃ child, s.PutSprite cfg fuel child a = some (s2, m)) := by
  cases insert with
  | false =>
    obtain ⟨s2, m, e, hwf, hp, _, him⟩ := AddSprite_wf cfg fuel s l a h hg
    refine ⟨s2, m, l ++ [m], ?_, hwf, by simp, ?_, by simp, hp, by simpa using him, none, e⟩
    · simp only [place, Bool.false_eq_true, if_false]
      exact e
    · intro k
      simp only [List.mem_append, List.mem_singleton]
      tauto
  | true =>
    obtain ⟨s2, m, e, hwf, hp, _, hr⟩ := InsertSprite_wf cfg fuel s l a h hg hf
    have hsplit := List.takeWhile_append_dropWhile
      (fun n => decide (keyOf s n ≤ drawOrderPos cfg a.draw_order a.hx a.hy)) l
    obtain ⟨parent, hput⟩ := InsertSprite_put cfg fuel s s2 a m e
    refine ⟨s2, m, _, ?_, hwf, by simp, ?_, ?_, hp, ?_, parent, hput⟩
    · simp only [place, if_true]
      exact e
    · intro k
      have : k ∈ l ↔ k ∈ l.takeWhile
          (fun n => decide (keyOf s n ≤ drawOrderPos cfg a.draw_order a.hx a.hy)) ∨
          k ∈ l.dropWhile
          (fun n => decide (keyOf s n ≤ drawOrderPos cfg a.draw_order a.hx a.hy)) := by
        rw [← List.mem_append, hsplit]
      simp only [List.mem_append, List.mem_cons, this]
      tauto
    · have := congrArg List.length hsplit
      simp only [List.length_append, List.length_cons] at this ⊢
      omega
    · simp only [if_true]
      rw [List.map_cons, List.range'_succ] at hr
      exact (List.cons.inj hr).1

/-- Taking the sprite for a placement when the recycle bin is not empty: its last sprite is
handed out and only the recycle bin changes. -/
theorem takeSprite_bin (cfg : Settings) (s : MapSpriteList) (B : List Nat) (x : Nat)
    (h : s._invalidatedSprites = B ++ [x]) :
    s.takeSprite cfg = some ({ s with _invalidatedSprites := B }, x) := by
  unfold MapSpriteList.takeSprite
  rw [h]
  simp

/-- How many sprites are allocated after taking one: `GrowPool` runs exactly when the recycle
bin and the pool are both empty. -/
theorem takeSprite_allocated (cfg : Settings) (s s1 : MapSpriteList) (m : Nat)
    (h : s.takeSprite cfg = some (s1, m)) :
    s1.allocated = (if s._invalidatedSprites = [] ∧ s._spritesPool = [] then
      s.allocated + cfg.SPRITES_POOL_GROW_SIZE else s.allocated) := by
  unfold MapSpriteList.takeSprite at h
  cases hb : s._invalidatedSprites.getLast? with
  | some x =>
    have hne : s._invalidatedSprites ≠ [] := by
      intro e
      rw [e] at hb
      simp at hb
    simp only [hb, Option.some.injEq, Prod.mk.injEq] at h
    rw [← h.1]
    simp [hne]
  | none =>
    have he : s._invalidatedSprites = [] := List.getLast?_eq_none_iff.mp hb
    simp only [hb] at h
    by_cases hp : s._spritesPool.isEmpty = true
    · have hp2 : s._spritesPool = [] := List.isEmpty_iff.mp hp
      simp only [hp, if_true, MapSpriteList.GrowPool] at h
      cases hq : (s._spritesPool ++ List.range' s.allocated cfg.SPRITES_POOL_GROW_SIZE).getLast? with
      | none => simp [hq] at h
      | some x =>
        simp only [hq, Option.some.injEq, Prod.mk.injEq] at h
        rw [← h.1]
        simp [he, hp2]
    · have hp2 : s._spritesPool ≠ [] := fun e => hp (List.isEmpty_iff.mpr e)
      simp only [hp, if_false, Bool.false_eq_true] at h
      cases hq : s._spritesPool.getLast? with
      | none => simp [hq] at h
      | some x =>
        simp only [hq, Option.some.injEq, Prod.mk.injEq] at h
        rw [← h.1]
        simp [hp2]

/-! ### The recycle bin -/

/-- Invalidating distinct sprites of the chain one after the other: they go to the recycle bin
in call order. -/
theorem invalidateEach_wf :
    ∀ (ns : List Nat) (s : MapSpriteList) (l : List Nat), WF s l → ns.Nodup →
      (∀ n ∈ ns, n ∈ l) →
      ∃ l2, WF (invalidateEach ns s) l2 ∧ l2.length + ns.length = l.length ∧
        (∀ k, k ∈ l2 ↔ (k ∈ l ∧ k ∉ ns)) ∧
        (invalidateEach ns s)._invalidatedSprites = s._invalidatedSprites ++ ns ∧
        (invalidateEach ns s)._spritesPool = s._spritesPool ∧
        (invalidateEach ns s).allocated = s.allocated
  | [], s, l, h, _, _ => ⟨l, h, rfl, by simp, by simp [invalidateEach], rfl, rfl⟩
  | n :: ns, s, l, h, hnd, hsub => by
    obtain ⟨a, b, e, hna, hnb⟩ := mem_split_nodup l n (hsub n (List.mem_cons_self _ _)) h.nodup
    subst e
    obtain ⟨hwf, hbin, hpool, hall, _⟩ := Invalidate_wf s a n b h
    have hnn : n ∉ ns := (List.nodup_cons.mp hnd).1
    have hsub2 : ∀ k ∈ ns, k ∈ a ++ b := by
      intro k hk
      have hkl := hsub k (List.mem_cons_of_mem _ hk)
      have hkn : k ≠ n := fun e => hnn (e ▸ hk)
      simp only [List.mem_append, List.mem_cons] at hkl ⊢
      tauto
    obtain ⟨l2, w2, len2, mem2, b2, p2, a2⟩ :=
      invalidateEach_wf ns (MapSprite.Invalidate s n) (a ++ b) hwf (List.nodup_cons.mp hnd).2 hsub2
    have hstep : invalidateEach (n :: ns) s = invalidateEach ns (MapSprite.Invalidate s n) := rfl
    rw [hstep]
    refine ⟨l2, w2, ?_, ?_, ?_, by rw [p2, hpool], by rw [a2, hall]⟩
    · simp only [List.length_append, List.length_cons] at len2 ⊢
      omega
    · intro k
      rw [mem2 k]
      simp only [List.mem_append, List.mem_cons]
      constructor
      · rintro ⟨h1 | h1, h2⟩
        · exact ⟨Or.inl h1, fun e => e.elim (fun e2 => hna (e2 ▸ h1)) h2⟩
        · exact ⟨Or.inr (Or.inr h1), fun e => e.elim (fun e2 => hnb (e2 ▸ h1)) h2⟩
      · rintro ⟨h1 | h1 | h1, h2⟩
        · exact ⟨Or.inl h1, fun e => h2 (Or.inr e)⟩
        · exact absurd (Or.inl h1) h2
        · exact ⟨Or.inr h1, fun e => h2 (Or.inr e)⟩
    · rw [b2, hbin]; simp

/-- Placements served by the recycle bin: with the sprites of `R` on top of the bin (the first
of `R` topmost), as many placements hand back `R` in this order and leave the pool and the
number of allocated sprites as they were. -/
theorem placeAll_bin (cfg : Settings) (fuel : Nat) (hg : 0 < cfg.SPRITES_POOL_GROW_SIZE) :
    ∀ (ps : List (Bool × PutArgs)) (t : MapSpriteList) (L hs B R : List Nat), WF t L →
      t._invalidatedSprites = B ++ R.reverse → ps.length = R.length →
      L.length + ps.length ≤ fuel →
      ∃ t2 L2, placeAll cfg fuel ps (t, hs) = some (t2, hs ++ R) ∧ WF t2 L2 ∧
        L2.length = L.length + ps.length ∧
        t2._invalidatedSprites = B ∧ t2._spritesPool = t._spritesPool ∧
        t2.allocated = t.allocated
  | [], t, L, hs, B, R, h, hb, hlen, _ => by
    have hR : R = [] := List.length_eq_zero.mp hlen.symm
    subst hR
    exact ⟨t, L, by simp [placeAll], h, rfl, by simpa using hb, rfl, rfl⟩
  | p :: ps, t, L, hs, B, R, h, hb, hlen, hf => by
    cases R with
    | nil => simp at hlen
    | cons x R =>
      simp only [List.length_cons] at hlen hf
      obtain ⟨s2, m, L2, e, hwf, _, _, hl2, _, _, child, hput⟩ :=
        place_wf cfg fuel t L p.1 p.2 h hg (by omega)
      obtain ⟨s1, ht, q1, q2, q3⟩ := PutSprite_free cfg fuel t s2 child p.2 m hput
      have hb2 : ({ t with _spriteCount := t._spriteCount + 1 } : MapSpriteList)._invalidatedSprites
          = (B ++ R.reverse) ++ [x] := by
        show t._invalidatedSprites = _
        rw [hb, List.reverse_cons, List.append_assoc]
      rw [takeSprite_bin cfg _ _ x hb2] at ht
      simp only [Option.some.injEq, Prod.mk.injEq] at ht
      obtain ⟨ht1, ht2⟩ := ht
      subst ht2
      subst ht1
      obtain ⟨t2, L3, e3, w3, l3, b3, p3, a3⟩ :=
        placeAll_bin cfg fuel hg ps s2 L2 (hs ++ [x]) B R hwf q1 (by omega) (by omega)
      refine ⟨t2, L3, ?_, w3, by simp only [List.length_cons]; omega, b3, by rw [p3, q2],
        by rw [a3, q3]⟩
      simp only [placeAll, e]
      rw [e3]
      simp

/-- A placement on a well-formed list allocates sprites exactly when the recycle bin and the
pool are both empty. -/
theorem place_allocated (cfg : Settings) (fuel : Nat) (s : MapSpriteList) (l : List Nat)
    (insert : Bool) (a : PutArgs) (h : WF s l) (hg : 0 < cfg.SPRITES_POOL_GROW_SIZE)
    (hf : l.length + 1 ≤ fuel) :
    ∃ s2 m, place cfg fuel s insert a = some (s2, m) ∧
      s2.allocated = (if s._invalidatedSprites = [] ∧ s._spritesPool = [] then
        s.allocated + cfg.SPRITES_POOL_GROW_SIZE else s.allocated) := by
  obtain ⟨s2, m, L2, e, _, _, _, _, _, _, child, hput⟩ := place_wf cfg fuel s l insert a h hg hf
  obtain ⟨s1, ht, _, _, q3⟩ := PutSprite_free cfg fuel s s2 child a m hput
  refine ⟨s2, m, e, ?_⟩
  rw [q3, takeSprite_allocated cfg _ s1 m ht]

/-! ### A recycled sprite against a never-used one -/

theorem Mutator.apply_unmutated (self : Nat) (x : MapSprite) (mu : Mutator) :
    (mu.apply self x).unmutated = x.unmutated := by
  cases mu with
  | SetEggAppearence e => rfl
  | SetContour c => rfl
  | SetContourColor c col => rfl
  | SetColor col => rfl
  | SetAlpha p => rfl
  | SetFixedAlpha al => rfl
  | SetLight corner light maxhx maxhy =>
    simp only [Mutator.apply, MapSprite.SetLight]
    split_ifs
    · cases corner <;> rfl
    · rfl

theorem mutators_unmutated (self : Nat) :
    ∀ (ms : List Mutator) (x : MapSprite),
      (ms.foldl (Mutator.apply self) x).unmutated = x.unmutated
  | [], _ => rfl
  | mu :: ms, x => by
    rw [List.foldl_cons, mutators_unmutated self ms, Mutator.apply_unmutated]

theorem mutate_unmutated (s : MapSpriteList) (n : Nat) (ms : List Mutator) (k : Nat) :
    ((mutate s n ms).sprites k).unmutated = (s.sprites k).unmutated := by
  unfold mutate
  simp only [modify_apply]
  split_ifs with h
  · exact mutators_unmutated n ms _
  · rfl

/-- Mutator calls keep a list well formed. -/
theorem mutate_wf (s : MapSpriteList) (n : Nat) (ms : List Mutator) (l : List Nat)
    (h : WF s l) : WF (mutate s n ms) l := by
  have hu := mutate_unmutated s n ms
  have hv : ∀ k, ((mutate s n ms).sprites k).Valid = (s.sprites k).Valid :=
    fun k => by
      have e := congrArg MapSprite.Valid (hu k)
      exact e
  have hr : ∀ k, ((mutate s n ms).sprites k).ChainRoot = (s.sprites k).ChainRoot :=
    fun k => by
      have e := congrArg MapSprite.ChainRoot (hu k)
      exact e
  have hl : ∀ k, ((mutate s n ms).sprites k).ChainLast = (s.sprites k).ChainLast :=
    fun k => by
      have e := congrArg MapSprite.ChainLast (hu k)
      exact e
  have hp : ∀ k, ((mutate s n ms).sprites k).ChainParent = (s.sprites k).ChainParent :=
    fun k => by
      have e := congrArg MapSprite.ChainParent (hu k)
      exact e
  have hc : ∀ k, ((mutate s n ms).sprites k).ChainChild = (s.sprites k).ChainChild :=
    fun k => by
      have e := congrArg MapSprite.ChainChild (hu k)
      exact e
  have hi : ∀ k, ((mutate s n ms).sprites k).TreeIndex = (s.sprites k).TreeIndex :=
    fun k => by
      have e := congrArg MapSprite.TreeIndex (hu k)
      exact e
  exact
    { toLinked := linked_of_links s _ l h.toLinked
        (fun k _ => ⟨hp k, hc k, hr k, hl k, hi k⟩) rfl rfl
      valid := fun k hk => by rw [hv k]; exact h.valid k hk
      validOnly := fun k hk hkv => by
        rw [hv k] at hkv
        exact h.validOnly k hk hkv
      freeNodup := h.freeNodup
      freeOut := h.freeOut
      freeClean := fun k hk => by
        rw [hv k, hr k, hl k]
        exact h.freeClean k hk
      bound := h.bound
      sortEmpty := h.sortEmpty }

theorem withFresh_apply (t : MapSpriteList) (m k : Nat) :
    (withFresh t m).sprites k = if k = m then {} else t.sprites k := rfl

/-- Replacing a free sprite by a never-used one keeps a list well formed. -/
theorem withFresh_wf (t : MapSpriteList) (m : Nat) (L : List Nat) (h : WF t L)
    (hm : m ∈ t._spritesPool ++ t._invalidatedSprites) : WF (withFresh t m) L := by
  have hmL : m ∉ L := h.freeOut m hm
  have hsame : ∀ k, k ≠ m → (withFresh t m).sprites k = t.sprites k := by
    intro k hk
    rw [withFresh_apply]
    simp [hk]
  have hLm : ∀ k ∈ L, k ≠ m := fun k hk e => hmL (e ▸ hk)
  exact
    { toLinked := linked_of_links t _ L h.toLinked
        (fun k hk => by rw [hsame k (hLm k hk)]; exact ⟨rfl, rfl, rfl, rfl, rfl⟩) rfl rfl
      valid := fun k hk => by rw [hsame k (hLm k hk)]; exact h.valid k hk
      validOnly := fun k hk hkv => by
        by_cases e : k = m
        · subst e
          rw [withFresh_apply] at hkv
          simp at hkv
        · rw [hsame k e] at hkv
          exact h.validOnly k hk hkv
      freeNodup := h.freeNodup
      freeOut := h.freeOut
      freeClean := fun k hk => by
        by_cases e : k = m
        · subst e
          rw [withFresh_apply]
          simp
        · rw [hsame k e]
          exact h.freeClean k hk
      bound := h.bound
      sortEmpty := h.sortEmpty }

theorem takeWhile_congr_mem (l : List Nat) (p q : Nat → Bool) (h : ∀ x ∈ l, p x = q x) :
    l.takeWhile p = l.takeWhile q ∧ l.dropWhile p = l.dropWhile q := by
  induction l with
  | nil => exact ⟨rfl, rfl⟩
  | cons x l ih =>
    have hx := h x (List.mem_cons_self _ _)
    obtain ⟨i1, i2⟩ := ih (fun y hy => h y (List.mem_cons_of_mem _ hy))
    simp [List.takeWhile_cons, List.dropWhile_cons, hx, i1, i2]

/-- Over a record whose extra chain links and sprite resource are cleared, the assignments of
`PutSprite` leave what they leave over a never-used record, chain links and tree index
aside. -/
theorem fill_cleared (cfg : Settings) (a : PutArgs) (x : MapSprite)
    (h1 : x.extraLinks = (none, none, none)) (h2 : x.MapSpr = none) :
    (fillFields cfg a { x with Root := true }).data =
      (fillFields cfg a { ({} : MapSprite) with Root := true }).data := by
  cases x
  simp only [MapSprite.extraLinks, Prod.mk.injEq] at h1
  simp only at h2
  obtain ⟨e1, e2, e3⟩ := h1
  subst e1 e2 e3 h2
  rfl

/-- The placement that takes the sprite `m` from the top of the recycle bin of a well-formed
list, `m` holding neither extra chain links nor a sprite resource, leaves `m` exactly as the
same placement leaves a never-used record at `m`. -/
theorem recycled_as_fresh (cfg : Settings) (fuel : Nat) (t : MapSpriteList) (L B : List Nat)
    (m : Nat) (insert : Bool) (a : PutArgs) (h : WF t L)
    (hg : 0 < cfg.SPRITES_POOL_GROW_SIZE) (hf : L.length + 1 ≤ fuel)
    (hb : t._invalidatedSprites = B ++ [m])
    (h1 : (t.sprites m).extraLinks = (none, none, none)) (h2 : (t.sprites m).MapSpr = none) :
    ∃ s2 s2f, place cfg fuel t insert a = some (s2, m) ∧
      place cfg fuel (withFresh t m) insert a = some (s2f, m) ∧
      s2.sprites m = s2f.sprites m ∧
      (s2.sprites m).data = (fillFields cfg a { ({} : MapSprite) with Root := true }).data := by
  have hmF : m ∈ t._spritesPool ++ t._invalidatedSprites := by
    rw [hb]; simp
  have hmL : m ∉ L := h.freeOut m hmF
  have hLm : ∀ k ∈ L, k ≠ m := fun k hk e => hmL (e ▸ hk)
  have h0 : WF (withFresh t m) L := withFresh_wf t m L h hmF
  have hsame : ∀ k, k ≠ m → (withFresh t m).sprites k = t.sprites k := by
    intro k hk
    rw [withFresh_apply]
    simp [hk]
  obtain ⟨s2, m1, L1, e1, w1, hL1, mem1, _, _, hi1, c1, put1⟩ :=
    place_wf cfg fuel t L insert a h hg hf
  obtain ⟨s2f, m2, L2, e2, w2, hL2, _, _, _, hi2, c2, put2⟩ :=
    place_wf cfg fuel (withFresh t m) L insert a h0 hg hf
  -- both placements take `m` from the recycle bin
  obtain ⟨s1, ht1, hd1, _, _⟩ := PutSprite_effect cfg fuel t s2 c1 a m1 put1
  obtain ⟨s1f, ht2, hd2, _, _⟩ := PutSprite_effect cfg fuel (withFresh t m) s2f c2 a m2 put2
  have hb1 : ({ t with _spriteCount := t._spriteCount + 1 } : MapSpriteList)._invalidatedSprites
      = B ++ [m] := hb
  have hb2 : ({ withFresh t m with _spriteCount := (withFresh t m)._spriteCount + 1 } :
      MapSpriteList)._invalidatedSprites = B ++ [m] := hb
  rw [takeSprite_bin cfg _ B m hb1] at ht1
  rw [takeSprite_bin cfg _ B m hb2] at ht2
  simp only [Option.some.injEq, Prod.mk.injEq] at ht1 ht2
  obtain ⟨a1, a2⟩ := ht1
  obtain ⟨b1, b2⟩ := ht2
  subst a2 b2 a1 b1
  simp only at hd1 hd2
  rw [withFresh_apply] at hd2
  simp only [if_true] at hd2
  rw [fill_cleared cfg a _ h1 h2] at hd1
  -- the chains after the two placements are the same
  have hkey : ∀ k ∈ L,
      decide (keyOf t k ≤ drawOrderPos cfg a.draw_order a.hx a.hy) =
        decide (keyOf (withFresh t m) k ≤ drawOrderPos cfg a.draw_order a.hx a.hy) := by
    intro k hk
    simp only [keyOf, hsame k (hLm k hk)]
  obtain ⟨htw, hdw⟩ := takeWhile_congr_mem L _ _ hkey
  have hLL : L2 = L1 := by
    rw [hL1, hL2, ← htw, ← hdw]
  subst hLL
  have hmem : m ∈ L2 := (mem1 m).mpr (Or.inl rfl)
  have hnext : ∀ q : Option Nat, (∀ k, q = some k → k ∈ L) →
      nextIndex (withFresh t m).sprites q = nextIndex t.sprites q := by
    intro q hq
    cases q with
    | none => rfl
    | some k =>
      simp only [nextIndex]
      rw [hsame k (hLm k (hq k rfl))]
  have hidx : (s2.sprites m).TreeIndex = (s2f.sprites m).TreeIndex := by
    have i1 : indexOf s2 m = _ := hi1
    have i2 : indexOf s2f m = _ := hi2
    simp only [indexOf] at i1 i2
    rw [i1, i2, ← htw]
    symm
    apply hnext
    intro k hk
    split_ifs at hk
    · exact (List.takeWhile_sublist _).subset (List.mem_of_getLast?_eq_some hk)
    · exact List.mem_of_getLast?_eq_some hk
  obtain ⟨hp, hc⟩ := seg_unique s2.sprites s2f.sprites L2 none none w1.seg w2.seg m hmem
  refine ⟨s2, s2f, e1, e2, ?_, hd1⟩
  apply sprite_ext _ _ (hd1.trans hd2.symm) hidx _ _ hp hc
  · have r1 := w1.chainRoot m hmem
    have r2 := w2.chainRoot m hmem
    cases hq : (s2.sprites m).ChainRoot <;> cases hq2 : (s2f.sprites m).ChainRoot <;>
      simp_all
  · have r1 := w1.chainLast m hmem
    have r2 := w2.chainLast m hmem
    cases hq : (s2.sprites m).ChainLast <;> cases hq2 : (s2f.sprites m).ChainLast <;>
      simp_all

/-! ### Validity mirrors -/

/-- The three light references set by `SetLight` for a sprite inside the border. -/
theorem SetLight_fields (m : MapSprite) (corner : CornerType) (light maxhx maxhy : Nat)
    (hc : m.HexX ≥ 1 ∧ (m.HexX : Int) < (maxhx : Int) - 1 ∧ m.HexY ≥ 1 ∧
        (m.HexY : Int) < (maxhy : Int) - 1) :
    (m.SetLight corner light maxhx maxhy).Light =
      some (light, wrapInt32 ((m.HexY : Int) * (maxhx : Int) + (m.HexX : Int))) ∧
    (m.SetLight corner light maxhx maxhy).LightLeft =
      some (light, wrapInt32 ((m.HexY : Int) * (maxhx : Int) + (m.HexX : Int)) +
        (match corner with
          | CornerType.EastWest => 1
          | CornerType.East => 1
          | CornerType.NorthSouth => -(maxhx : Int)
          | CornerType.West => -(maxhx : Int)
          | CornerType.South => -(maxhx : Int)
          | CornerType.North => 1)) ∧
    (m.SetLight corner light maxhx maxhy).LightRight =
      some (light, wrapInt32 ((m.HexY : Int) * (maxhx : Int) + (m.HexX : Int)) +
        (match corner with
          | CornerType.EastWest => -1
          | CornerType.East => -1
          | CornerType.NorthSouth => (maxhx : Int)
          | CornerType.West => (maxhx : Int)
          | CornerType.South => -1
          | CornerType.North => (maxhx : Int))) := by
  unfold MapSprite.SetLight
  rw [if_pos hc]
  cases corner <;> simp only [Int.sub_eq_add_neg] <;> exact ⟨trivial, trivial, trivial⟩

/-- An index below `2 ^ 31` is what the source computes in `int`. -/
theorem wrapInt32_fits (x : Int) (h0 : 0 ≤ x) (h1 : x < 2 ^ 31) : wrapInt32 x = x := by
  unfold wrapInt32
  rw [Int.emod_eq_of_lt (by omega) (by omega)]
  omega

/-! ## The states reached by the public operations are sound -/

theorem linkSprite_count (fuel : Nat) (t t2 : MapSpriteList) (child : Option Nat) (m : Nat)
    (h : t.linkSprite fuel child m = some t2) : t2._spriteCount = t._spriteCount := by
  unfold MapSpriteList.linkSprite at h
  cases child with
  | none =>
    cases hl : t._lastSprite with
    | none =>
      simp only [hl, Option.some.injEq] at h
      subst h
      rfl
    | some last =>
      simp only [hl, Option.some.injEq] at h
      subst h
      rfl
  | some c =>
    simp only at h
    cases hr : renumber fuel (spliceBefore t.sprites c m) (some m)
        (nextIndex (spliceBefore t.sprites c m) (spliceBefore t.sprites c m m).ChainParent) with
    | none => simp [hr] at h
    | some sp =>
      simp only [hr] at h
      cases hp : (sp m).ChainParent with
      | some p =>
        simp only [hp, Option.some.injEq] at h
        subst h
        rfl
      | none =>
        simp only [hp] at h
        by_cases hcr : (sp c).ChainRoot = true
        · simp only [hcr, if_true, Option.some.injEq] at h
          subst h
          rfl
        · simp [hcr] at h

/-- What `takeSprite` keeps: no record beyond the allocated sprites is valid, every allocated
sprite other than the one handed over is where it was or still free, and the sprite count is
not touched. -/
theorem takeSprite_cover (cfg : Settings) (s s1 : MapSpriteList) (m : Nat) (P : Nat → Prop)
    (hg : 0 < cfg.SPRITES_POOL_GROW_SIZE) (h : s.takeSprite cfg = some (s1, m))
    (hb : ∀ n, s.allocated ≤ n → (s.sprites n).Valid = false)
    (hc : ∀ n, n < s.allocated → P n ∨ n ∈ s._spritesPool ∨ n ∈ s._invalidatedSprites) :
    (∀ n, s1.allocated ≤ n → (s1.sprites n).Valid = false) ∧
    (∀ n, n < s1.allocated →
      n = m ∨ P n ∨ n ∈ s1._spritesPool ∨ n ∈ s1._invalidatedSprites) ∧
    s1._spriteCount = s._spriteCount := by
  unfold MapSpriteList.takeSprite at h
  cases hbl : s._invalidatedSprites.getLast? with
  | some x =>
    simp only [hbl, Option.some.injEq, Prod.mk.injEq] at h
    obtain ⟨h1, h2⟩ := h
    subst h1 h2
    have hbin : s._invalidatedSprites.dropLast ++ [x] = s._invalidatedSprites :=
      List.dropLast_append_getLast? x hbl
    refine ⟨hb, ?_, rfl⟩
    intro n hn
    rcases hc n hn with a | a | a
    · exact Or.inr (Or.inl a)
    · exact Or.inr (Or.inr (Or.inl a))
    · rw [← hbin] at a
      rcases List.mem_append.mp a with a | a
      · exact Or.inr (Or.inr (Or.inr a))
      · exact Or.inl (by simpa using a)
  | none =>
    have hbin : s._invalidatedSprites = [] := List.getLast?_eq_none_iff.mp hbl
    by_cases hp : s._spritesPool = []
    · obtain ⟨k, hk⟩ : ∃ k, cfg.SPRITES_POOL_GROW_SIZE = k + 1 :=
        ⟨_, (Nat.succ_pred_eq_of_pos hg).symm⟩
      have hlast : (List.range' s.allocated cfg.SPRITES_POOL_GROW_SIZE).getLast? =
          some (s.allocated + k) := by
        rw [hk, List.range'_concat]
        simp
      have hdrop : (List.range' s.allocated cfg.SPRITES_POOL_GROW_SIZE).dropLast =
          List.range' s.allocated k := by
        rw [hk, List.range'_concat]
        simp
      simp only [hbl, hp, List.isEmpty_nil, if_true, MapSpriteList.GrowPool, List.nil_append,
        hlast, hdrop, Option.some.injEq, Prod.mk.injEq] at h
      obtain ⟨h1, h2⟩ := h
      subst h1 h2
      refine ⟨?_, ?_, rfl⟩
      · intro n hn
        simp only at hn ⊢
        by_cases hin : s.allocated ≤ n ∧ n < s.allocated + cfg.SPRITES_POOL_GROW_SIZE
        · rw [if_pos hin]
        · rw [if_neg hin]
          exact hb n (by omega)
      · intro n hn
        simp only at hn ⊢
        by_cases hlt : n < s.allocated
        · rcases hc n hlt with a | a | a
          · exact Or.inr (Or.inl a)
          · rw [hp] at a
            simp at a
          · rw [hbin] at a
            simp at a
        · by_cases hlast2 : n = s.allocated + k
          · exact Or.inl hlast2
          · refine Or.inr (Or.inr (Or.inl ?_))
            simp only [List.mem_range'_1]
            omega
    · obtain ⟨x, hx⟩ : ∃ x, s._spritesPool.getLast? = some x := by
        cases hq : s._spritesPool.getLast? with
        | none => exact absurd (List.getLast?_eq_none_iff.mp hq) hp
        | some x => exact ⟨x, rfl⟩
      have hpool : s._spritesPool.dropLast ++ [x] = s._spritesPool :=
        List.dropLast_append_getLast? x hx
      have hemp : s._spritesPool.isEmpty = false := by
        cases hq : s._spritesPool with
        | nil => exact absurd hq hp
        | cons _ _ => rfl
      simp only [hbl, hemp, Bool.false_eq_true, if_false, hx, Option.some.injEq,
        Prod.mk.injEq] at h
      obtain ⟨h1, h2⟩ := h
      subst h1 h2
      refine ⟨hb, ?_, rfl⟩
      intro n hn
      rcases hc n hn with a | a | a
      · exact Or.inr (Or.inl a)
      · rw [← hpool] at a
        rcases List.mem_append.mp a with a | a
        · exact Or.inr (Or.inr (Or.inl a))
        · exact Or.inl (by simpa using a)
      · exact Or.inr (Or.inr (Or.inr a))

/-- What `PutSprite` keeps of the free sprites, and how it moves the sprite count. -/
theorem PutSprite_cover (cfg : Settings) (fuel : Nat) (s s2 : MapSpriteList)
    (child : Option Nat) (a : PutArgs) (m : Nat) (P : Nat → Prop)
    (hg : 0 < cfg.SPRITES_POOL_GROW_SIZE)
    (h : s.PutSprite cfg fuel child a = some (s2, m))
    (hb : ∀ n, s.allocated ≤ n → (s.sprites n).Valid = false)
    (hc : ∀ n, n < s.allocated → P n ∨ n ∈ s._spritesPool ∨ n ∈ s._invalidatedSprites) :
    (∀ n, s2.allocated ≤ n → n ≠ m → (s2.sprites n).Valid = false) ∧
    (∀ n, n < s2.allocated →
      n = m ∨ P n ∨ n ∈ s2._spritesPool ∨ n ∈ s2._invalidatedSprites) ∧
    s2._spriteCount = s._spriteCount + 1 := by
  obtain ⟨s1, ht, hdm, hd, _⟩ := PutSprite_effect cfg fuel s s2 child a m h
  obtain ⟨s1b, htb, f1, f2, f3⟩ := PutSprite_free cfg fuel s s2 child a m h
  have e : s1b = s1 := by
    have := htb.symm.trans ht
    simp only [Option.some.injEq, Prod.mk.injEq] at this
    exact this.1
  subst e
  obtain ⟨c1, c2, c3⟩ := takeSprite_cover cfg _ s1b m P hg ht hb hc
  refine ⟨?_, ?_, ?_⟩
  · intro n hn hnm
    have e1 := data_valid (hd n hnm)
    rw [e1]
    exact c1 n (by rw [← f3]; exact hn)
  · intro n hn
    rw [f1, f2]
    exact c2 n (by rw [← f3]; exact hn)
  · unfold MapSpriteList.PutSprite at h
    simp only [ht] at h
    cases hl : MapSpriteList.linkSprite fuel
        { s1b with sprites := modify s1b.sprites m (fun m => { m with Root := true }) }
        child m with
    | none => simp [hl] at h
    | some s3 =>
      simp only [hl, Option.some.injEq, Prod.mk.injEq] at h
      obtain ⟨h1, _⟩ := h
      obtain ⟨_, _, _, _, _, _, g7⟩ := fillSprite_frame cfg s3 m a
      rw [← h1, g7, linkSprite_count fuel _ s3 child m hl]
      exact c3

/-! ### One call -/

theorem positional_front (s : MapSpriteList) (a b : List Nat) (h : Positional s (a ++ b)) :
    Positional s a := by
  unfold Positional at h ⊢
  rw [List.map_append, List.length_append, List.range_add] at h
  exact (List.append_inj h (by simp)).1

theorem positional_next (s : MapSpriteList) (a : List Nat) (h : Positional s a) :
    nextIndex s.sprites a.getLast? = a.length := by
  rcases List.eq_nil_or_concat a with e | ⟨a2, x, e⟩
  · subst e
    rfl
  · rw [List.concat_eq_append] at e
    subst e
    unfold Positional at h
    rw [List.map_append, List.length_append, List.length_singleton, List.range_succ] at h
    have h2 := (List.append_inj h (by simp)).2
    simp only [List.map_cons, List.map_nil, List.cons.injEq, and_true] at h2
    unfold indexOf at h2
    simp [nextIndex, h2]

/-- `InsertSprite` on a well-formed list with main chain `l`: the chain splits in `tw ++ dw`
and becomes `tw ++ m :: dw`, the indices of `tw` stay and those from `m` on are consecutive. -/
theorem InsertSprite_parts (cfg : Settings) (fuel : Nat) (s : MapSpriteList) (l : List Nat)
    (a : PutArgs) (h : WF s l) (hg : 0 < cfg.SPRITES_POOL_GROW_SIZE)
    (hf : l.length + 1 ≤ fuel) :
    ∃ s2 m tw dw, l = tw ++ dw ∧ s.InsertSprite cfg fuel a = some (s2, m) ∧
      WF s2 (tw ++ m :: dw) ∧ (∀ n ∈ tw, indexOf s2 n = indexOf s n) ∧
      (m :: dw).map (indexOf s2) = List.range' (nextIndex s.sprites tw.getLast?) (dw.length + 1) := by
  obtain ⟨s2, m, e, hwf, _, hidx, hren⟩ := InsertSprite_wf cfg fuel s l a h hg hf
  exact ⟨s2, m, _, _, (List.takeWhile_append_dropWhile _ l).symm, e, hwf, hidx, hren⟩

/-- One public call on a sound list returns, and leaves a sound list.  The sprite count and
the length of the main chain move as the tallies say; the tree indices stay the positions
when the call is not a single-sprite `Invalidate`, and are the positions after `Sort` and
after `MapSpriteList::Invalidate`. -/
theorem call_sound (cfg : Settings) (fuel : Nat) (s : MapSpriteList) (l : List Nat)
    (c : PublicCall) (h : Sound s l) (hg : 0 < cfg.SPRITES_POOL_GROW_SIZE)
    (hf : l.length + 1 ≤ fuel) :
    ∃ s2 l2, c.apply cfg fuel s = some s2 ∧ Sound s2 l2 ∧ l2.length ≤ l.length + 1 ∧
      (∀ p i, s._spriteCount = p → l.length + i = p →
        s2._spriteCount = (c.tally s (p, i)).1 ∧
          l2.length + (c.tally s (p, i)).2 = (c.tally s (p, i)).1) ∧
      (c.isInvalidate = false → Positional s l → Positional s2 l2) ∧
      (c = PublicCall.sort ∨ c = PublicCall.invalidateAll → Positional s2 l2) := by
  cases c with
  | add a =>
    obtain ⟨s2, m, e, hwf, _, hidx, hm⟩ := AddSprite_wf cfg fuel s l a h.wf hg
    obtain ⟨c1, c2, c3⟩ :=
      PutSprite_cover cfg fuel s s2 none a m (fun n => n ∈ l) hg e h.beyond h.cover
    have hmb : m < s2.allocated := hwf.bound m (by simp)
    refine ⟨s2, l ++ [m], by simp [PublicCall.apply, e], ⟨hwf, ?_, ?_⟩, by simp, ?_, ?_,
      (fun hc => by rcases hc with hc | hc <;> cases hc)⟩
    · exact fun n hn => c1 n hn (by omega)
    · intro n hn
      rcases c2 n hn with x | x | x | x
      · exact Or.inl (by simp [x])
      · exact Or.inl (by simp [x])
      · exact Or.inr (Or.inl x)
      · exact Or.inr (Or.inr x)
    · intro p i hp hi
      simp only [PublicCall.tally, List.length_append, List.length_singleton]
      omega
    · intro _ hpos
      have hn := positional_next s l hpos
      unfold Positional at hpos ⊢
      rw [List.map_append, List.length_append, List.length_singleton, List.range_succ,
        List.map_congr_left hidx, hpos]
      simp only [List.map_cons, List.map_nil, hm, hn]
  | insert a =>
    obtain ⟨s2, m, tw, dw, hl, e, hwf, hidx, hren⟩ :=
      InsertSprite_parts cfg fuel s l a h.wf hg hf
    obtain ⟨parent, e2⟩ := InsertSprite_put cfg fuel s s2 a m e
    obtain ⟨c1, c2, c3⟩ :=
      PutSprite_cover cfg fuel s s2 parent a m (fun n => n ∈ l) hg e2 h.beyond h.cover
    have hmb : m < s2.allocated := hwf.bound m (by simp)
    refine ⟨s2, tw ++ m :: dw, by simp [PublicCall.apply, e], ⟨hwf, ?_, ?_⟩,
      (by simp [hl]; omega), ?_, ?_, (fun hc => by rcases hc with hc | hc <;> cases hc)⟩
    · exact fun n hn => c1 n hn (by omega)
    · intro n hn
      rcases c2 n hn with x | x | x | x
      · exact Or.inl (by simp [x])
      · have x2 : n ∈ tw ++ dw := hl ▸ x
        refine Or.inl ?_
        rcases List.mem_append.mp x2 with y | y
        · simp [y]
        · simp [y]
      · exact Or.inr (Or.inl x)
      · exact Or.inr (Or.inr x)
    · intro p i hp hi
      simp only [PublicCall.tally, List.length_append, List.length_cons]
      rw [hl, List.length_append] at hi
      omega
    · intro _ hpos
      rw [hl] at hpos
      have hpre := positional_front s tw dw hpos
      have hn := positional_next s tw hpre
      unfold Positional at hpre ⊢
      rw [List.map_append, hren, hn, List.map_congr_left hidx, hpre, List.length_append,
        List.length_cons, List.range_eq_range', List.range_eq_range']
      have e3 := @List.range'_append_1 0 tw.length (dw.length + 1)
      rw [Nat.zero_add, Nat.add_comm (dw.length + 1)] at e3
      exact e3
  | invalidate n =>
    by_cases hv : (s.sprites n).Valid = true
    · have hnb : n < s.allocated := by
        by_contra hge
        have := h.beyond n (by omega)
        rw [hv] at this
        cases this
      have hnl : n ∈ l := h.wf.validOnly n hnb hv
      obtain ⟨a, b, hl⟩ := List.append_of_mem hnl
      subst hl
      obtain ⟨hwf, hbin, hpool, hall, hcount, _, hpay, _, _, _⟩ := Invalidate_wf s a n b h.wf
      refine ⟨MapSprite.Invalidate s n, a ++ b, rfl, ⟨hwf, ?_, ?_⟩, (by simp; omega), ?_,
        (fun hc => by simp [PublicCall.isInvalidate] at hc),
        (fun hc => by rcases hc with hc | hc <;> cases hc)⟩
      · intro k hk
        rw [hall] at hk
        have hkn : k ≠ n := by omega
        rw [payload_valid (hpay k hkn)]
        exact h.beyond k hk
      · intro k hk
        rw [hall] at hk
        rw [hbin, hpool]
        rcases h.cover k hk with x | x | x
        · rcases List.mem_append.mp x with y | y
          · exact Or.inl (by simp [y])
          · rcases List.mem_cons.mp y with y | y
            · exact Or.inr (Or.inr (by simp [y]))
            · exact Or.inl (by simp [y])
        · exact Or.inr (Or.inl x)
        · exact Or.inr (Or.inr (by simp [x]))
      · intro p i hp hi
        simp only [PublicCall.tally, hv, if_true, hcount]
        simp only [List.length_append, List.length_cons] at hi ⊢
        omega
    · have hv2 : (s.sprites n).Valid = false := by simpa using hv
      refine ⟨s, l, ?_, h, by omega, ?_, (fun hc => by simp [PublicCall.isInvalidate] at hc),
        (fun hc => by rcases hc with hc | hc <;> cases hc)⟩
      · simp [PublicCall.apply, Invalidate_noop s n hv2]
      · intro p i hp hi
        simp only [PublicCall.tally, hv2, Bool.false_eq_true, if_false]
        omega
  | invalidateAll =>
    obtain ⟨s2, e, hwf, hcount, hbin, hpool, hall, hval, _, _, hpay⟩ :=
      InvalidateAll_wf l fuel s h.wf (by omega)
    refine ⟨s2, [], e, ⟨hwf, ?_, ?_⟩, by simp, ?_, fun _ _ => rfl, fun _ => rfl⟩
    · intro k hk
      rw [hall] at hk
      by_cases hkl : k ∈ l
      · exact (hval k hkl).1
      · rw [payload_valid (hpay k hkl)]
        exact h.beyond k hk
    · intro k hk
      rw [hall] at hk
      rw [hbin, hpool]
      rcases h.cover k hk with x | x | x
      · exact Or.inr (Or.inr (by simp [x]))
      · exact Or.inr (Or.inl x)
      · exact Or.inr (Or.inr (by simp [x]))
    · intro p i _ _
      simp only [PublicCall.tally, List.length_nil]
      exact ⟨hcount, trivial⟩
  | sort =>
    obtain ⟨s2, e, hwf, hdata, hidx, _, hs2⟩ := Sort_wf fuel s l h.wf (by omega)
    have hperm := stdSort_perm (sortLess s.sprites) l
    have ha : s2.allocated = s.allocated := by
      have e := congrArg MapSpriteList.allocated hs2
      exact e
    have hp : s2._spritesPool = s._spritesPool := by
      have e := congrArg MapSpriteList._spritesPool hs2
      exact e
    have hb : s2._invalidatedSprites = s._invalidatedSprites := by
      have e := congrArg MapSpriteList._invalidatedSprites hs2
      exact e
    have hc : s2._spriteCount = s._spriteCount := by
      have e := congrArg MapSpriteList._spriteCount hs2
      exact e
    have hpos : Positional s2 (stdSort (sortLess s.sprites) l) := by
      unfold Positional
      rw [hidx, hperm.length_eq]
    refine ⟨s2, stdSort (sortLess s.sprites) l, e, ⟨hwf, ?_, ?_⟩, by rw [hperm.length_eq]; omega,
      ?_, fun _ _ => hpos, fun _ => hpos⟩
    · intro k hk
      rw [ha] at hk
      rw [data_valid (hdata k)]
      exact h.beyond k hk
    · intro k hk
      rw [ha] at hk
      rw [hp, hb]
      rcases h.cover k hk with x | x | x
      · exact Or.inl (hperm.mem_iff.mpr x)
      · exact Or.inr (Or.inl x)
      · exact Or.inr (Or.inr x)
    · intro p i hp2 hi
      simp only [PublicCall.tally, hc, hperm.length_eq]
      exact ⟨hp2, hi⟩
  | mutators n ms =>
    have hu := mutate_unmutated s n ms
    have hv : ∀ k, ((mutate s n ms).sprites k).Valid = (s.sprites k).Valid :=
      fun k => by
        have e := congrArg MapSprite.Valid (hu k)
        exact e
    have hi : ∀ k, indexOf (mutate s n ms) k = indexOf s k :=
      fun k => by
        have e := congrArg MapSprite.TreeIndex (hu k)
        exact e
    refine ⟨mutate s n ms, l, rfl, ⟨mutate_wf s n ms l h.wf, ?_, h.cover⟩, by omega, ?_, ?_,
      (fun hc => by rcases hc with hc | hc <;> cases hc)⟩
    · intro k hk
      rw [hv k]
      exact h.beyond k hk
    · intro p i hp hi2
      simp only [PublicCall.tally]
      exact ⟨hp, hi2⟩
    · intro _ hpos
      unfold Positional at hpos ⊢
      rw [List.map_congr_left (fun k _ => hi k), hpos]

/-! ### Runs of public calls -/

theorem sound_new (cm : Nat → Bool) (em : Nat → Option Nat) :
    Sound (MapSpriteList.new cm em) [] where
  wf := wf_new cm em
  beyond := fun _ _ => rfl
  cover := fun n hn => by
    have : n < 0 := hn
    omega

theorem positional_new (cm : Nat → Bool) (em : Nat → Option Nat) :
    Positional (MapSpriteList.new cm em) [] := rfl

theorem runPublic_append (cfg : Settings) (fuel : Nat) :
    ∀ (a b : List PublicCall) (s : MapSpriteList),
      runPublic cfg fuel (a ++ b) s = (runPublic cfg fuel a s).bind (runPublic cfg fuel b)
  | [], _, _ => rfl
  | c :: a, b, s => by
    simp only [List.cons_append, runPublic]
    cases c.apply cfg fuel s with
    | none => rfl
    | some s1 => exact runPublic_append cfg fuel a b s1

/-- A run of public calls on a sound list returns, and leaves a sound list whose main chain
has grown by one sprite for every call at most. -/
theorem runPublic_sound (cfg : Settings) (fuel : Nat) (hg : 0 < cfg.SPRITES_POOL_GROW_SIZE) :
    ∀ (cs : List PublicCall) (s : MapSpriteList) (l : List Nat), Sound s l →
      l.length + cs.length + 1 ≤ fuel →
      ∃ s2 l2, runPublic cfg fuel cs s = some s2 ∧ Sound s2 l2 ∧
        l2.length ≤ l.length + cs.length
  | [], s, l, h, _ => ⟨s, l, rfl, h, by simp⟩
  | c :: cs, s, l, h, hf => by
    simp only [List.length_cons] at hf
    obtain ⟨s1, l1, e1, h1, hl1, _⟩ := call_sound cfg fuel s l c h hg (by omega)
    obtain ⟨s2, l2, e2, h2, hl2⟩ := runPublic_sound cfg fuel hg cs s1 l1 h1 (by omega)
    refine ⟨s2, l2, ?_, h2, by simp only [List.length_cons]; omega⟩
    simp only [runPublic, e1]
    exact e2

/-- The tallies of a run: the sprite count is the number of placements, and the main chain
falls short of it by the number of single-sprite invalidations that found their sprite
valid. -/
theorem runTally_count (cfg : Settings) (fuel : Nat) (hg : 0 < cfg.SPRITES_POOL_GROW_SIZE) :
    ∀ (cs : List PublicCall) (s : MapSpriteList) (l : List Nat) (p i : Nat), Sound s l →
      l.length + cs.length + 1 ≤ fuel → s._spriteCount = p → l.length + i = p →
      ∃ s2 l2 p2 i2, runPublic cfg fuel cs s = some s2 ∧
        runTally cfg fuel cs s (p, i) = some (p2, i2) ∧ Sound s2 l2 ∧
        l2.length ≤ l.length + cs.length ∧ s2._spriteCount = p2 ∧ l2.length + i2 = p2
  | [], s, l, p, i, h, _, hp, hi => ⟨s, l, p, i, rfl, rfl, h, by simp, hp, hi⟩
  | c :: cs, s, l, p, i, h, hf, hp, hi => by
    simp only [List.length_cons] at hf
    obtain ⟨s1, l1, e1, h1, hl1, ht, _⟩ := call_sound cfg fuel s l c h hg (by omega)
    obtain ⟨hp1, hi1⟩ := ht p i hp hi
    obtain ⟨s2, l2, p2, i2, e2, t2, h2, hl2, hp2, hi2⟩ :=
      runTally_count cfg fuel hg cs s1 l1 (c.tally s (p, i)).1 (c.tally s (p, i)).2 h1
        (by omega) hp1 hi1
    refine ⟨s2, l2, p2, i2, ?_, ?_, h2, by simp only [List.length_cons]; omega, hp2, hi2⟩
    · simp only [runPublic, e1]
      exact e2
    · simp only [runTally, e1]
      exact t2

/-- Of the calls of `MapSprite::Invalidate` in a run, those that found their sprite valid and
those that found it invalid add up to all of them. -/
theorem runAttempts_split (cfg : Settings) (fuel : Nat) :
    ∀ (cs : List PublicCall) (s s2 : MapSpriteList) (p i c z p2 i2 : Nat),
      runPublic cfg fuel cs s = some s2 → runTally cfg fuel cs s (p, i) = some (p2, i2) →
      i + z = c →
      ∃ c2 z2, runAttempts cfg fuel cs s (c, z) = some (c2, z2) ∧ i2 + z2 = c2
  | [], s, s2, p, i, c, z, p2, i2, _, ht, h => by
    simp only [runTally, Option.some.injEq, Prod.mk.injEq] at ht
    exact ⟨c, z, rfl, by omega⟩
  | d :: cs, s, s2, p, i, c, z, p2, i2, hr, ht, h => by
    simp only [runPublic, runTally, runAttempts] at hr ht ⊢
    cases ha : d.apply cfg fuel s with
    | none => simp [ha] at hr
    | some s1 =>
      simp only [ha] at hr ht ⊢
      have hstep : (d.tally s (p, i)).2 + (d.attempts s (c, z)).2 = (d.attempts s (c, z)).1 := by
        cases d with
        | add a => exact h
        | insert a => exact h
        | invalidate n =>
          simp only [PublicCall.tally, PublicCall.attempts]
          split_ifs <;> simp only <;> omega
        | invalidateAll => rfl
        | sort => exact h
        | mutators n ms => exact h
      exact runAttempts_split cfg fuel cs s1 s2 (d.tally s (p, i)).1 (d.tally s (p, i)).2
        (d.attempts s (c, z)).1 (d.attempts s (c, z)).2 p2 i2 hr ht hstep

/-- A run without single-sprite `Invalidate` keeps the tree indices equal to the positions. -/
theorem runPublic_positional (cfg : Settings) (fuel : Nat)
    (hg : 0 < cfg.SPRITES_POOL_GROW_SIZE) :
    ∀ (cs : List PublicCall) (s : MapSpriteList) (l : List Nat), Sound s l → Positional s l →
      (∀ c ∈ cs, c.isInvalidate = false) → l.length + cs.length + 1 ≤ fuel →
      ∃ s2 l2, runPublic cfg fuel cs s = some s2 ∧ Sound s2 l2 ∧ Positional s2 l2 ∧
        l2.length ≤ l.length + cs.length
  | [], s, l, h, hpos, _, _ => ⟨s, l, rfl, h, hpos, by simp⟩
  | c :: cs, s, l, h, hpos, hc, hf => by
    simp only [List.length_cons] at hf
    obtain ⟨s1, l1, e1, h1, hl1, _, hk, _⟩ := call_sound cfg fuel s l c h hg (by omega)
    obtain ⟨s2, l2, e2, h2, hp2, hl2⟩ :=
      runPublic_positional cfg fuel hg cs s1 l1 h1 (hk (hc c (by simp)) hpos)
        (fun d hd => hc d (List.mem_cons_of_mem _ hd)) (by omega)
    refine ⟨s2, l2, ?_, h2, hp2, by simp only [List.length_cons]; omega⟩
    simp only [runPublic, e1]
    exact e2

/-- A run from the empty list returns, its result is sound and its main chain is walked with
the fuel of the run. -/
theorem reach_sound (cfg : Settings) (fuel : Nat) (cm : Nat → Bool) (em : Nat → Option Nat)
    (cs : List PublicCall) (hg : 0 < cfg.SPRITES_POOL_GROW_SIZE)
    (hf : cs.length + 1 ≤ fuel) :
    ∃ s l, runPublic cfg fuel cs (MapSpriteList.new cm em) = some s ∧
      s.traverse fuel = some l ∧ Sound s l ∧ l.length + 1 ≤ fuel := by
  obtain ⟨s, l, e, h, hl⟩ :=
    runPublic_sound cfg fuel hg cs (MapSpriteList.new cm em) [] (sound_new cm em)
      (by simpa using hf)
  simp only [List.length_nil, Nat.zero_add] at hl
  exact ⟨s, l, e, traverse_wf s l fuel h.wf.toLinked (by omega), h, by omega⟩

/-- After a run that ends with `Sort` or `MapSpriteList::Invalidate`, followed by calls other
than single-sprite `Invalidate`, the tree indices are the positions. -/
theorem runPublic_resets (cfg : Settings) (fuel : Nat) (hg : 0 < cfg.SPRITES_POOL_GROW_SIZE)
    (pre post : List PublicCall) (s : MapSpriteList) (l : List Nat) (h : Sound s l)
    (hpre : (pre = [] ∧ Positional s l) ∨ pre.getLast? = some PublicCall.sort ∨
      pre.getLast? = some PublicCall.invalidateAll)
    (hpost : ∀ c ∈ post, c.isInvalidate = false)
    (hf : l.length + (pre.length + post.length) + 1 ≤ fuel) :
    ∃ s2 l2, runPublic cfg fuel (pre ++ post) s = some s2 ∧ Sound s2 l2 ∧ Positional s2 l2 := by
  have hmid : ∃ s1 l1, runPublic cfg fuel pre s = some s1 ∧ Sound s1 l1 ∧ Positional s1 l1 ∧
      l1.length ≤ l.length + pre.length := by
    rcases hpre with ⟨e, hp⟩ | hlast
    · subst e
      exact ⟨s, l, rfl, h, hp, by simp⟩
    · rcases List.eq_nil_or_concat pre with e | ⟨cs, c, e⟩
      · subst e
        rcases hlast with x | x <;> simp at x
      · rw [List.concat_eq_append] at e
        subst e
        simp only [List.getLast?_concat, Option.some.injEq] at hlast
        simp only [List.length_append, List.length_singleton] at hf ⊢
        obtain ⟨s0, l0, e0, h0, hl0⟩ := runPublic_sound cfg fuel hg cs s l h (by omega)
        obtain ⟨s1, l1, e1, h1, hl1, _, _, hp⟩ := call_sound cfg fuel s0 l0 c h0 hg (by omega)
        refine ⟨s1, l1, ?_, h1, hp hlast, by omega⟩
        rw [runPublic_append, e0]
        simp only [Option.bind, runPublic, e1]
  obtain ⟨s1, l1, e1, h1, hp1, hl1⟩ := hmid
  obtain ⟨s2, l2, e2, h2, hp2, _⟩ :=
    runPublic_positional cfg fuel hg post s1 l1 h1 hp1 hpost (by omega)
  refine ⟨s2, l2, ?_, h2, hp2⟩
  rw [runPublic_append, e1]
  exact e2

/-! ### The scan of `InsertSprite` on a chain of valid sprites -/

theorem scanTrace_none (sp : Nat → MapSprite) (pos fuel : Nat) :
    scanTrace sp pos fuel none = [] := by
  cases fuel <;> rfl

theorem scanSkips_none (sp : Nat → MapSprite) (pos fuel : Nat) :
    scanSkips sp pos fuel none = 0 := by
  cases fuel <;> rfl

/-- On a linked segment of valid sprites the scan of `InsertSprite` never takes the branch
that does not advance, and examines the sprites with a key up to `pos` and the first sprite
with a larger key, each once. -/
theorem scan_seg (sp : Nat → MapSprite) (pos : Nat) (l : List Nat) (prev : Option Nat)
    (fuel : Nat) (hs : Seg sp prev l none) (hv : ∀ n ∈ l, (sp n).Valid = true)
    (hf : l.length ≤ fuel) :
    scanSkips sp pos fuel l.head? = 0 ∧
    scanTrace sp pos fuel l.head? =
      l.takeWhile (fun n => decide ((sp n).DrawOrderPos ≤ pos)) ++
        (l.dropWhile (fun n => decide ((sp n).DrawOrderPos ≤ pos))).head?.toList := by
  induction l generalizing prev fuel with
  | nil => simp [scanTrace_none, scanSkips_none]
  | cons p l ih =>
    obtain ⟨_, h2, h3⟩ := hs
    cases fuel with
    | zero => simp at hf
    | succ fuel =>
      have hvp : (sp p).Valid = true := hv p (by simp)
      by_cases hk : (sp p).DrawOrderPos ≤ pos
      · have hnot : ¬ pos < (sp p).DrawOrderPos := Nat.not_lt.mpr hk
        obtain ⟨i1, i2⟩ := ih (some p) fuel h3 (fun n hn => hv n (List.mem_cons_of_mem _ hn))
          (by simpa using hf)
        simp only [List.head?_cons, scanSkips, scanTrace, hvp, hnot, h2, headOr_none,
          List.dropWhile_cons, List.takeWhile_cons, hk, decide_True, if_true, if_false,
          Bool.true_eq_false, List.cons_append]
        exact ⟨i1, by rw [i2]⟩
      · have hlt : pos < (sp p).DrawOrderPos := Nat.lt_of_not_le hk
        simp [scanSkips, scanTrace, hvp, hlt, List.dropWhile_cons, List.takeWhile_cons, hk]

/-! ### Walking the main chain backwards -/

theorem collectBack_none (sp : Nat → MapSprite) (fuel : Nat) (acc : List Nat) :
    collectBack sp fuel none acc = some acc := by
  cases fuel <;> rfl

theorem collectBack_seg (sp : Nat → MapSprite) (l : List Nat) :
    ∀ (next : Option Nat) (fuel : Nat) (acc : List Nat), Seg sp none l next →
      l.length ≤ fuel → collectBack sp fuel l.getLast? acc = some (acc ++ l.reverse) := by
  induction l using List.reverseRecOn with
  | nil =>
    intro next fuel acc _ _
    simp [collectBack_none]
  | append_singleton l x ih =>
    intro next fuel acc hs hf
    obtain ⟨h1, h2⟩ := (seg_append sp l [x] none next).mp hs
    obtain ⟨hp, _, _⟩ := h2
    rw [lastOr_none] at hp
    cases fuel with
    | zero => simp at hf
    | succ fuel =>
      simp only [List.length_append, List.length_singleton] at hf
      simp only [List.getLast?_concat, collectBack, hp]
      rw [ih _ fuel (acc ++ [x]) h1 (by omega)]
      simp

/-- In a linked chain the child of a sprite has this sprite as its parent, and conversely;
the head has no parent and the tail has no child. -/
theorem linked_neighbours (s : MapSpriteList) (l : List Nat) (h : Linked s l) :
    (∀ n ∈ l, ∀ c, (s.sprites n).ChainChild = some c →
      c ∈ l ∧ (s.sprites c).ChainParent = some n) ∧
    (∀ n ∈ l, ∀ p, (s.sprites n).ChainParent = some p →
      p ∈ l ∧ (s.sprites p).ChainChild = some n) ∧
    (∀ r, s._rootSprite = some r → (s.sprites r).ChainParent = none) ∧
    (∀ t, s._lastSprite = some t → (s.sprites t).ChainChild = none) := by
  refine ⟨?_, ?_, ?_, ?_⟩
  · intro n hn c hc
    obtain ⟨a, b, hl⟩ := List.append_of_mem hn
    subst hl
    have hb := (wf_links_at s a n b h).2
    rw [hc] at hb
    cases b with
    | nil => simp at hb
    | cons c2 b =>
      simp only [List.head?_cons, Option.some.injEq] at hb
      subst hb
      have h2 : Linked s ((a ++ [n]) ++ c :: b) := by simpa using h
      have hp := (wf_links_at s (a ++ [n]) c b h2).1
      exact ⟨by simp, by simpa using hp⟩
  · intro n hn p hp
    obtain ⟨a, b, hl⟩ := List.append_of_mem hn
    subst hl
    have ha := (wf_links_at s a n b h).1
    rw [hp] at ha
    rcases List.eq_nil_or_concat a with e | ⟨a2, x, e⟩
    · subst e
      simp at ha
    · rw [List.concat_eq_append] at e
      subst e
      simp only [List.getLast?_concat, Option.some.injEq] at ha
      subst ha
      have h2 : Linked s (a2 ++ p :: (n :: b)) := by simpa using h
      have hc := (wf_links_at s a2 p (n :: b) h2).2
      exact ⟨by simp, by simpa using hc⟩
  · intro r hr
    have e := h.root
    rw [hr] at e
    cases l with
    | nil => simp at e
    | cons r2 b =>
      simp only [List.head?_cons, Option.some.injEq] at e
      subst e
      have h2 : Linked s ([] ++ r :: b) := h
      exact (wf_links_at s [] r b h2).1
  · intro t ht
    have e := h.last
    rw [ht] at e
    rcases List.eq_nil_or_concat l with e2 | ⟨a2, x, e2⟩
    · subst e2
      simp at e
    · rw [List.concat_eq_append] at e2
      subst e2
      simp only [List.getLast?_concat, Option.some.injEq] at e
      subst e
      exact (wf_links_at s a2 t [] h).2

/-! ### The comparison of `Sort` on the main chain -/

theorem sortLess_true_iff (s : MapSpriteList) (a b : Nat) :
    sortLess s.sprites a b = true ↔ lexLT s a b := by
  unfold sortLess lexLT keyOf indexOf
  split_ifs with h
  · simp [h]
  · simp only [decide_eq_true_eq]
    constructor
    · exact fun hlt => Or.inl hlt
    · rintro (hlt | ⟨he, _⟩)
      · exact hlt
      · exact absurd he h

theorem index_injective (s : MapSpriteList) (l : List Nat)
    (h : (l.map (indexOf s)).Sorted (· < ·)) :
    ∀ a ∈ l, ∀ b ∈ l, indexOf s a = indexOf s b → a = b :=
  fun _ ha _ hb e => List.inj_on_of_nodup_map (List.Sorted.nodup h) ha hb e

/-- With pairwise distinct tree indices the comparison of `Sort` is a strict total order on
the chain, and every arrangement of the chain that it leaves sorted is the one made by
`Sort`. -/
theorem sortLess_strict_total (s : MapSpriteList) (l : List Nat) (hnd : l.Nodup)
    (hidx : (l.map (indexOf s)).Sorted (· < ·)) :
    (∀ a, sortLess s.sprites a a = false) ∧
    (∀ a b, sortLess s.sprites a b = true → sortLess s.sprites b a = false) ∧
    (∀ a b c, sortLess s.sprites a b = true → sortLess s.sprites b c = true →
      sortLess s.sprites a c = true) ∧
    (∀ a ∈ l, ∀ b ∈ l, a ≠ b → sortLess s.sprites a b = true ∨ sortLess s.sprites b a = true) ∧
    (∀ v : List Nat, v.Perm l → v.Pairwise (fun a b => sortLess s.sprites b a = false) →
      v = stdSort (sortLess s.sprites) l) := by
  have hinj := index_injective s l hidx
  refine ⟨?_, ?_, ?_, ?_, ?_⟩
  · intro a
    simp [sortLess]
  · intro a b hab
    rw [sortLess_true_iff] at hab
    rw [sortLess_false_iff]
    exact lexLE_of_lexLT s a b hab
  · intro a b c hab hbc
    rw [sortLess_true_iff] at hab hbc ⊢
    unfold lexLT at hab hbc ⊢
    omega
  · intro a ha b hb hne
    rw [sortLess_true_iff, sortLess_true_iff]
    have hi : indexOf s a ≠ indexOf s b := fun e => hne (hinj a ha b hb e)
    unfold lexLT
    omega
  · intro v hperm hsorted
    have hle : v.Pairwise (lexLE s) :=
      hsorted.imp (fun hab => (sortLess_false_iff s _ _).mp hab)
    have hvnd : v.Nodup := hperm.nodup_iff.mpr hnd
    have hlt : v.Pairwise (lexLT s) := by
      have hboth := hle.and hvnd
      refine (hboth.imp_of_mem ?_)
      intro a b ha hb hab
      obtain ⟨h1, h2⟩ := hab
      have hi : indexOf s a ≠ indexOf s b :=
        fun e => h2 (hinj a (hperm.mem_iff.mp ha) b (hperm.mem_iff.mp hb) e)
      unfold lexLE at h1
      unfold lexLT
      omega
    exact lexLT_unique s v _ (hperm.trans (stdSort_perm _ l).symm) hlt
      (stdSort_lexLT s l hnd hidx)

/-! ## The extra chain -/

/-- The extra chain links of the other sprites after `severExtraChain` of the sprite `n`. -/
theorem severExtraChain_links (t : MapSpriteList) (n k : Nat) (hk : k ≠ n)
    (hpn : (t.sprites n).ExtraChainParent ≠ some n)
    (hcn : (t.sprites n).ExtraChainChild ≠ some n) :
    ((MapSprite.severExtraChain t n).sprites k).extraLinks =
      ((if (t.sprites n).ExtraChainChild = some k then
          (match (t.sprites n).ExtraChainRoot with
            | none => (t.sprites k).ExtraChainRoot
            | some r => some r)
        else (t.sprites k).ExtraChainRoot),
       (if (t.sprites n).ExtraChainChild = some k then (t.sprites n).ExtraChainParent
        else (t.sprites k).ExtraChainParent),
       (if (t.sprites n).ExtraChainParent = some k then (t.sprites n).ExtraChainChild
        else (t.sprites k).ExtraChainChild)) := by
  unfold MapSprite.severExtraChain MapSprite.extraLinks
  cases hp : (t.sprites n).ExtraChainParent with
  | none =>
    cases hc : (t.sprites n).ExtraChainChild with
    | none =>
      cases hr : (t.sprites n).ExtraChainRoot <;> simp [modify, modifyAt, hp, hc, hr, hk]
    | some c =>
      have hnc : n ≠ c := fun e => hcn (by rw [hc, e])
      have hcn2 : c ≠ n := fun e => hnc e.symm
      by_cases hkc : k = c
      · subst hkc
        cases hr : (t.sprites n).ExtraChainRoot <;>
          simp [modify, modifyAt, hp, hc, hr, hk, hnc]
      · have hck : c ≠ k := fun e => hkc e.symm
        cases hr : (t.sprites n).ExtraChainRoot <;>
          simp [modify, modifyAt, hp, hc, hr, hk, hnc, hkc, hck]
  | some p =>
    have hnp : n ≠ p := fun e => hpn (by rw [hp, e])
    cases hc : (t.sprites n).ExtraChainChild with
    | none =>
      by_cases hkp : k = p
      · subst hkp
        cases hr : (t.sprites n).ExtraChainRoot <;>
          simp [modify, modifyAt, hp, hc, hr, hk, hnp]
      · have hpk : p ≠ k := fun e => hkp e.symm
        cases hr : (t.sprites n).ExtraChainRoot <;>
          simp [modify, modifyAt, hp, hc, hr, hk, hnp, hkp, hpk]
    | some c =>
      have hnc : n ≠ c := fun e => hcn (by rw [hc, e])
      by_cases hkp : k = p
      · by_cases hkc : k = c
        · subst hkp
          subst hkc
          cases hr : (t.sprites n).ExtraChainRoot <;>
            simp [modify, modifyAt, hp, hc, hr, hk, hnp]
        · subst hkp
          have hck : c ≠ k := fun e => hkc e.symm
          cases hr : (t.sprites n).ExtraChainRoot <;>
            simp [modify, modifyAt, hp, hc, hr, hk, hnp, hnc, hkc, hck]
      · have hpk : p ≠ k := fun e => hkp e.symm
        by_cases hkc : k = c
        · subst hkc
          cases hr : (t.sprites n).ExtraChainRoot <;>
            simp [modify, modifyAt, hp, hc, hr, hk, hnp, hnc, hkp, hpk]
        · have hck : c ≠ k := fun e => hkc e.symm
          cases hr : (t.sprites n).ExtraChainRoot <;>
            simp [modify, modifyAt, hp, hc, hr, hk, hnp, hnc, hkp, hpk, hkc, hck]

/-- The anchor slots after `MapSprite::Invalidate` of a valid sprite. -/
theorem Invalidate_extraRootMem (s : MapSpriteList) (n : Nat)
    (hv : (s.sprites n).Valid = true) :
    (MapSprite.Invalidate s n).extraRootMem =
      storeAt s.extraRootMem (s.sprites n).ExtraChainRoot (s.sprites n).ExtraChainChild := by
  have hnv : ¬ ((s.sprites n).Valid = false) := by simp [hv]
  unfold MapSprite.Invalidate
  rw [if_neg hnv]
  unfold MapSprite.recycle MapSprite.severChain MapSprite.severExtraChain
  simp only
  rw [markInvalid_apply]
  simp only [if_true]
  unfold MapSprite.markInvalid
  rfl

/-- The extra chain links of the other sprites after `MapSprite::Invalidate` of a valid
sprite `n`: the child of `n` takes over its parent and, when `n` held one, its
`ExtraChainRoot`; the parent of `n` takes over its child. -/
theorem Invalidate_extraLinks (s : MapSpriteList) (n k : Nat) (hk : k ≠ n)
    (hv : (s.sprites n).Valid = true)
    (hpn : (s.sprites n).ExtraChainParent ≠ some n)
    (hcn : (s.sprites n).ExtraChainChild ≠ some n) :
    ((MapSprite.Invalidate s n).sprites k).extraLinks =
      ((if (s.sprites n).ExtraChainChild = some k then
          (match (s.sprites n).ExtraChainRoot with
            | none => (s.sprites k).ExtraChainRoot
            | some r => some r)
        else (s.sprites k).ExtraChainRoot),
       (if (s.sprites n).ExtraChainChild = some k then (s.sprites n).ExtraChainParent
        else (s.sprites k).ExtraChainParent),
       (if (s.sprites n).ExtraChainParent = some k then (s.sprites n).ExtraChainChild
        else (s.sprites k).ExtraChainChild)) := by
  have hnv : ¬ ((s.sprites n).Valid = false) := by simp [hv]
  have hmn : (MapSprite.markInvalid s n).sprites n =
      { s.sprites n with Valid := false, ValidCallback := none } := by
    rw [markInvalid_apply]
    simp
  have hmk : (MapSprite.markInvalid s n).sprites k = s.sprites k := by
    rw [markInvalid_apply]
    simp [hk]
  unfold MapSprite.Invalidate
  rw [if_neg hnv, recycle_apply, if_neg hk, severChain_extraLinks,
    severExtraChain_links (MapSprite.markInvalid s n) n k hk (by rw [hmn]; exact hpn)
      (by rw [hmn]; exact hcn), hmn, hmk]

/-! ### Extra segments -/

@[simp] theorem eseg_nil (sp : Nat → MapSprite) (prev next : Option Nat) :
    ESeg sp prev [] next := trivial

theorem eseg_cons (sp : Nat → MapSprite) (prev next : Option Nat) (p : Nat) (l : List Nat) :
    ESeg sp prev (p :: l) next ↔
      (sp p).ExtraChainParent = prev ∧ (sp p).ExtraChainChild = headOr l next ∧ ESeg sp (some p) l next :=
  Iff.rfl

theorem eseg_append (sp : Nat → MapSprite) (a b : List Nat) (prev next : Option Nat) :
    ESeg sp prev (a ++ b) next ↔ ESeg sp prev a (headOr b next) ∧ ESeg sp (lastOr prev a) b next := by
  induction a generalizing prev with
  | nil => simp
  | cons p a ih =>
    simp only [List.cons_append, eseg_cons, ih, headOr_append, lastOr_cons]
    tauto

theorem eseg_congr (sp sp1 : Nat → MapSprite) (l : List Nat) (prev next : Option Nat)
    (h : ∀ n ∈ l, (sp1 n).ExtraChainParent = (sp n).ExtraChainParent ∧
      (sp1 n).ExtraChainChild = (sp n).ExtraChainChild) :
    ESeg sp prev l next → ESeg sp1 prev l next := by
  induction l generalizing prev with
  | nil => intro _; trivial
  | cons p l ih =>
    intro hs
    obtain ⟨h1, h2, h3⟩ := hs
    have hp := h p (List.mem_cons_self _ _)
    exact ⟨hp.1.trans h1, hp.2.trans h2, ih _ (fun n hn => h n (List.mem_cons_of_mem _ hn)) h3⟩

/-- Changing only the extra child of the last sprite of an extra segment retargets it. -/
theorem eseg_set_next (sp sp1 : Nat → MapSprite) (l : List Nat) (prev next next1 : Option Nat)
    (hnd : l.Nodup)
    (hpar : ∀ n ∈ l, (sp1 n).ExtraChainParent = (sp n).ExtraChainParent)
    (hch : ∀ n ∈ l, l.getLast? ≠ some n → (sp1 n).ExtraChainChild = (sp n).ExtraChainChild)
    (hlast : ∀ z, l.getLast? = some z → (sp1 z).ExtraChainChild = next1) :
    ESeg sp prev l next → ESeg sp1 prev l next1 := by
  induction l generalizing prev with
  | nil => intro _; trivial
  | cons p l ih =>
    intro hs
    obtain ⟨h1, h2, h3⟩ := hs
    have hpl : p ∉ l := (List.nodup_cons.mp hnd).1
    have hndl : l.Nodup := (List.nodup_cons.mp hnd).2
    cases l with
    | nil =>
      refine ⟨(hpar p (by simp)).trans h1, ?_, trivial⟩
      simpa using hlast p (by simp)
    | cons q l =>
      refine ⟨(hpar p (by simp)).trans h1, ?_, ?_⟩
      · have hne : (p :: q :: l).getLast? ≠ some p := by
          intro hh
          have hmem : p ∈ (q :: l) := by
            rw [List.getLast?_cons_cons] at hh
            exact List.mem_of_getLast?_eq_some hh
          exact hpl hmem
        rw [hch p (by simp) hne, h2]; rfl
      · apply ih (some p) hndl
        · intro n hn; exact hpar n (List.mem_cons_of_mem _ hn)
        · intro n hn hne
          apply hch n (List.mem_cons_of_mem _ hn)
          rw [List.getLast?_cons_cons]; exact hne
        · intro z hz
          apply hlast z
          rw [List.getLast?_cons_cons]; exact hz
        · exact h3

/-- Changing only the extra parent of the first sprite of an extra segment retargets it. -/
theorem eseg_set_prev (sp sp1 : Nat → MapSprite) (l : List Nat) (prev prev1 next : Option Nat)
    (hnd : l.Nodup)
    (hch : ∀ n ∈ l, (sp1 n).ExtraChainChild = (sp n).ExtraChainChild)
    (hpar : ∀ n ∈ l, l.head? ≠ some n → (sp1 n).ExtraChainParent = (sp n).ExtraChainParent)
    (hfirst : ∀ z, l.head? = some z → (sp1 z).ExtraChainParent = prev1) :
    ESeg sp prev l next → ESeg sp1 prev1 l next := by
  cases l with
  | nil => intro _; trivial
  | cons p l =>
    intro hs
    obtain ⟨_, h2, h3⟩ := hs
    have hpl : p ∉ l := (List.nodup_cons.mp hnd).1
    refine ⟨hfirst p rfl, (hch p (by simp)).trans h2, ?_⟩
    apply eseg_congr sp sp1 l (some p) next _ h3
    intro n hn
    refine ⟨hpar n (List.mem_cons_of_mem _ hn) ?_, hch n (List.mem_cons_of_mem _ hn)⟩
    intro hh
    simp only [List.head?_cons, Option.some.injEq] at hh
    exact hpl (hh ▸ hn)

/-- The links of a member of a well-formed extra chain. -/
theorem extra_links_at (s : MapSpriteList) (r : Nat) (a : List Nat) (n : Nat) (b : List Nat)
    (he : ExtraChain s r (a ++ n :: b)) :
    (s.sprites n).ExtraChainParent = a.getLast? ∧ (s.sprites n).ExtraChainChild = b.head? ∧
    (s.sprites n).ExtraChainRoot = (if a = [] then some r else none) ∧
    ESeg s.sprites none a (some n) ∧ ESeg s.sprites (some n) b none := by
  obtain ⟨hsa, hsn⟩ := (eseg_append _ _ _ _ _).mp he.seg
  obtain ⟨hP, hC, hsb⟩ := hsn
  rw [lastOr_none] at hP
  rw [headOr_none] at hC
  simp only [headOr_cons] at hsa
  refine ⟨hP, hC, ?_, hsa, hsb⟩
  rw [he.root n (by simp)]
  cases a with
  | nil => simp
  | cons x a =>
    have hna : n ≠ x := by
      intro e
      have hnd := he.nodup
      rw [e] at hnd
      simp at hnd
    have hxn : ¬ x = n := fun e => hna e.symm
    simp [hxn]

/-- `MapSprite::Invalidate` of a valid member `n` of a well-formed extra chain takes `n` out
of the chain, which stays well formed with the other members in order. -/
theorem Invalidate_extra_chain (s : MapSpriteList) (r : Nat) (a : List Nat) (n : Nat)
    (b : List Nat) (hv : (s.sprites n).Valid = true) (he : ExtraChain s r (a ++ n :: b)) :
    ExtraChain (MapSprite.Invalidate s n) r (a ++ b) ∧
    (∀ k, k ∉ a ++ n :: b →
      ((MapSprite.Invalidate s n).sprites k).extraLinks = (s.sprites k).extraLinks) ∧
    (∀ q, q ≠ r → (MapSprite.Invalidate s n).extraRootMem q = s.extraRootMem q) := by
  have hnd := he.nodup
  have hna : n ∉ a := by
    intro e
    rw [List.nodup_append] at hnd
    exact hnd.2.2 e (by simp)
  have hnb : n ∉ b := by
    rw [List.nodup_append, List.nodup_cons] at hnd
    exact hnd.2.1.1
  have hab : ∀ k ∈ a, k ∉ b := by
    intro k hk e
    rw [List.nodup_append] at hnd
    exact hnd.2.2 hk (by simp [e])
  have hnda : a.Nodup := (List.nodup_append.mp hnd).1
  have hndb : b.Nodup := (List.nodup_cons.mp (List.nodup_append.mp hnd).2.1).2
  have hnd2 : (a ++ b).Nodup := by
    rw [List.nodup_append]
    exact ⟨hnda, hndb, fun k hk e => hab k hk e⟩
  obtain ⟨hP, hC, hR, hsa, hsb⟩ := extra_links_at s r a n b he
  have hlastmem : ∀ k, a.getLast? = some k → k ∈ a := fun k e => List.mem_of_getLast?_eq_some e
  have hheadmem : ∀ k, b.head? = some k → k ∈ b := fun k e => List.mem_of_mem_head? e
  have hlinks : ∀ k, k ≠ n →
      ((MapSprite.Invalidate s n).sprites k).ExtraChainRoot =
        (if b.head? = some k then
          (match (if a = [] then some r else none : Option Nat) with
            | none => (s.sprites k).ExtraChainRoot
            | some r => some r)
        else (s.sprites k).ExtraChainRoot) ∧
      ((MapSprite.Invalidate s n).sprites k).ExtraChainParent =
        (if b.head? = some k then a.getLast? else (s.sprites k).ExtraChainParent) ∧
      ((MapSprite.Invalidate s n).sprites k).ExtraChainChild =
        (if a.getLast? = some k then b.head? else (s.sprites k).ExtraChainChild) := by
    intro k hk
    have e := Invalidate_extraLinks s n k hk hv
      (by rw [hP]; exact fun e => hna (hlastmem n e))
      (by rw [hC]; exact fun e => hnb (hheadmem n e))
    rw [hP, hC, hR] at e
    unfold MapSprite.extraLinks at e
    simp only [Prod.mk.injEq] at e
    exact e
  have hmem := Invalidate_extraRootMem s n hv
  rw [hR, hC] at hmem
  refine ⟨?_, ?_, ?_⟩
  · refine ⟨hnd2, ?_, ?_, ?_⟩
    · -- the anchor slot
      rw [hmem]
      cases a with
      | nil =>
        simp [storeAt, store]
      | cons x a =>
        have := he.anchor
        simpa [storeAt] using this
    · -- the links
      rw [eseg_append]
      constructor
      · refine eseg_set_next s.sprites _ a none (some n) (headOr b none) hnda ?_ ?_ ?_ hsa
        · intro k hk
          have hkb : b.head? ≠ some k := fun e => hab k hk (hheadmem k e)
          rw [(hlinks k (fun e => hna (e ▸ hk))).2.1]
          simp [hkb]
        · intro k hk hne
          rw [(hlinks k (fun e => hna (e ▸ hk))).2.2]
          simp [hne]
        · intro z hz
          rw [(hlinks z (fun e => hna (e ▸ hlastmem z hz))).2.2, headOr_none]
          simp [hz]
      · rw [lastOr_none]
        refine eseg_set_prev s.sprites _ b (some n) a.getLast? none hndb ?_ ?_ ?_ hsb
        · intro k hk
          have hka : a.getLast? ≠ some k := fun e => hab k (hlastmem k e) hk
          rw [(hlinks k (fun e => hnb (e ▸ hk))).2.2]
          simp [hka]
        · intro k hk hne
          rw [(hlinks k (fun e => hnb (e ▸ hk))).2.1]
          simp [hne]
        · intro z hz
          rw [(hlinks z (fun e => hnb (e ▸ hheadmem z hz))).2.1]
          simp [hz]
    · -- the holder of `ExtraChainRoot`
      intro k hk
      have hkn : k ≠ n := by
        intro e
        rcases List.mem_append.mp hk with x | x
        · exact hna (e ▸ x)
        · exact hnb (e ▸ x)
      have hk2 : k ∈ a ++ n :: b := by
        simp only [List.mem_append, List.mem_cons] at hk ⊢
        tauto
      rw [(hlinks k hkn).1, he.root k hk2]
      cases a with
      | nil =>
        have hnk : n ≠ k := fun e => hkn e.symm
        by_cases hb : b.head? = some k
        · simp [hb]
        · simp [hb, hnk]
      | cons x a =>
        simp
  · intro k hk
    have hkn : k ≠ n := fun e => hk (by simp [e])
    have hkb : b.head? ≠ some k := fun e => hk (by simp [hheadmem k e])
    have hka : a.getLast? ≠ some k := fun e => hk (by simp [hlastmem k e])
    obtain ⟨l1, l2, l3⟩ := hlinks k hkn
    unfold MapSprite.extraLinks
    rw [l1, l2, l3]
    simp [hkb, hka]
  · intro q hq
    rw [hmem]
    cases a with
    | nil =>
      have hrq : ¬ r = q := fun e => hq e.symm
      simp [storeAt, store, hq]
    | cons x a => simp [storeAt]

/-! ## Tree indices and positions -/

theorem sorted_lt_offset :
    ∀ (xs : List Nat) (b : Nat), (∀ x, xs.head? = some x → b ≤ x) → xs.Sorted (· < ·) →
      ∀ k y, xs[k]? = some y → b + k ≤ y
  | [], _, _, _, k, y, h => by simp at h
  | x :: xs, b, hb, hs, k, y, h => by
    have hbx : b ≤ x := hb x rfl
    cases k with
    | zero =>
      simp only [List.getElem?_cons_zero, Option.some.injEq] at h
      omega
    | succ k =>
      simp only [List.getElem?_cons_succ] at h
      have hs2 := List.sorted_cons.mp hs
      have := sorted_lt_offset xs (x + 1)
        (fun z hz => hs2.1 z (List.mem_of_mem_head? hz)) hs2.2 k y h
      omega

/-- Along a chain with strictly increasing tree indices, the tree index of a sprite is at
least its position. -/
theorem index_ge_position (s : MapSpriteList) (l : List Nat)
    (h : (l.map (indexOf s)).Sorted (· < ·)) :
    ∀ k n, l[k]? = some n → k ≤ indexOf s n := by
  intro k n hk
  have := sorted_lt_offset (l.map (indexOf s)) 0 (fun _ _ => Nat.zero_le _) h k (indexOf s n)
    (by simp [hk])
  omega

theorem positional_congr (s s2 : MapSpriteList) (l : List Nat)
    (h : ∀ n ∈ l, indexOf s2 n = indexOf s n) : Positional s2 l ↔ Positional s l := by
  unfold Positional
  rw [List.map_congr_left h]

/-- How one public call on a sound list moves the tree indices with respect to the
positions. -/
theorem call_positions (cfg : Settings) (fuel : Nat) (s : MapSpriteList) (l : List Nat)
    (c : PublicCall) (h : Sound s l) (hg : 0 < cfg.SPRITES_POOL_GROW_SIZE)
    (hf : l.length + 1 ≤ fuel) :
    ∃ s2 l2, c.apply cfg fuel s = some s2 ∧ WF s2 l2 ∧ l2.length ≤ l.length + 1 ∧
      (c = PublicCall.sort ∨ c = PublicCall.invalidateAll → Positional s2 l2) ∧
      (∀ a, c = PublicCall.add a →
        ∃ m, l2 = l ++ [m] ∧ (Positional s2 l2 ↔ Positional s l)) ∧
      (∀ a, c = PublicCall.insert a →
        ∃ tw dw m, l = tw ++ dw ∧ l2 = tw ++ m :: dw ∧
          (Positional s2 l2 ↔ Positional s tw)) ∧
      (∀ n, c = PublicCall.invalidate n → n ∈ l →
        ∃ a b, l = a ++ n :: b ∧ l2 = a ++ b ∧
          (∀ k, k ≠ n → indexOf s2 k = indexOf s k) ∧
          (Positional s2 l2 ↔ (b = [] ∧ Positional s a))) ∧
      (∀ n, c = PublicCall.invalidate n → n ∉ l → s2 = s ∧ l2 = l) ∧
      (∀ n ms, c = PublicCall.mutators n ms →
        l2 = l ∧ ∀ k, indexOf s2 k = indexOf s k) := by
  cases c with
  | add a =>
    obtain ⟨s2, m, e, hwf, _, hidx, hm⟩ := AddSprite_wf cfg fuel s l a h.wf hg
    refine ⟨s2, l ++ [m], by simp [PublicCall.apply, e], hwf, by simp,
      (fun hc => by rcases hc with hc | hc <;> cases hc), ?_, (fun _ hc => by cases hc),
      (fun _ hc => by cases hc), (fun _ hc => by cases hc), (fun _ _ hc => by cases hc)⟩
    intro _ _
    refine ⟨m, rfl, ?_, ?_⟩
    · intro hpos
      exact (positional_congr s s2 l hidx).mp (positional_front s2 l [m] hpos)
    · intro hpos
      have hn := positional_next s l hpos
      unfold Positional at hpos ⊢
      rw [List.map_append, List.length_append, List.length_singleton, List.range_succ,
        List.map_congr_left hidx, hpos]
      simp only [List.map_cons, List.map_nil, hm, hn]
  | insert a =>
    obtain ⟨s2, m, tw, dw, hl, e, hwf, hidx, hren⟩ :=
      InsertSprite_parts cfg fuel s l a h.wf hg hf
    refine ⟨s2, tw ++ m :: dw, by simp [PublicCall.apply, e], hwf, (by simp [hl]; omega),
      (fun hc => by rcases hc with hc | hc <;> cases hc), (fun _ hc => by cases hc), ?_,
      (fun _ hc => by cases hc), (fun _ hc => by cases hc), (fun _ _ hc => by cases hc)⟩
    intro _ _
    refine ⟨tw, dw, m, hl, rfl, ?_, ?_⟩
    · intro hpos
      exact (positional_congr s s2 tw hidx).mp (positional_front s2 tw (m :: dw) hpos)
    · intro hpre
      have hn := positional_next s tw hpre
      unfold Positional at hpre ⊢
      rw [List.map_append, hren, hn, List.map_congr_left hidx, hpre, List.length_append,
        List.length_cons, List.range_eq_range', List.range_eq_range']
      have e3 := @List.range'_append_1 0 tw.length (dw.length + 1)
      rw [Nat.zero_add, Nat.add_comm (dw.length + 1)] at e3
      exact e3
  | invalidate n =>
    by_cases hnl : n ∈ l
    · obtain ⟨a, b, hl⟩ := List.append_of_mem hnl
      subst hl
      obtain ⟨hwf, _, hsame, _⟩ := Invalidate_split s a n b h.wf
      have hnd := h.wf.nodup
      have hna : n ∉ a := by
        intro e
        rw [List.nodup_append] at hnd
        exact hnd.2.2 e (by simp)
      have hnb : n ∉ b := by
        rw [List.nodup_append, List.nodup_cons] at hnd
        exact hnd.2.1.1
      refine ⟨MapSprite.Invalidate s n, a ++ b, rfl, hwf, (by simp; omega),
        (fun hc => by rcases hc with hc | hc <;> cases hc), (fun _ hc => by cases hc),
        (fun _ hc => by cases hc), ?_, ?_, (fun _ _ hc => by cases hc)⟩
      · intro n2 hc _
        have hn2 : n = n2 := by
          cases hc
          rfl
        subst hn2
        refine ⟨a, b, rfl, rfl, hsame, ?_, ?_⟩
        · intro hpos
          have hpa : Positional s a :=
            (positional_congr s _ a (fun k hk => hsame k (fun e => hna (e ▸ hk)))).mp
              (positional_front _ a b hpos)
          refine ⟨?_, hpa⟩
          cases b with
          | nil => rfl
          | cons x b =>
            exfalso
            have hxn : x ≠ n := fun e => hnb (by simp [e])
            have hget : (a ++ n :: x :: b)[a.length + 1]? = some x := by
              rw [List.getElem?_append_right (by omega), Nat.add_sub_cancel_left]
              simp
            have h1 := index_ge_position s (a ++ n :: x :: b) h.wf.index (a.length + 1) x hget
            unfold Positional at hpos
            have h2 := congrArg (fun z => z[a.length]?) hpos
            simp only [List.map_append, List.map_cons, List.length_append, List.length_cons,
              List.getElem?_append_right (Nat.le_of_eq (List.length_map a _)),
              List.length_map, Nat.sub_self, List.getElem?_cons_zero] at h2
            rw [List.getElem?_range (by omega)] at h2
            have h3 : indexOf (MapSprite.Invalidate s n) x = a.length := Option.some.inj h2
            rw [hsame x hxn] at h3
            omega
        · rintro ⟨hb, hpa⟩
          subst hb
          rw [List.append_nil]
          exact (positional_congr s _ a (fun k hk => hsame k (fun e => hna (e ▸ hk)))).mpr hpa
      · intro n2 hc hn2
        have : n = n2 := by
          cases hc
          rfl
        subst this
        exact absurd hnl hn2
    · have hv2 : (s.sprites n).Valid = false := by
        cases hv : (s.sprites n).Valid with
        | false => rfl
        | true =>
          exfalso
          by_cases hb : n < s.allocated
          · exact hnl (h.wf.validOnly n hb hv)
          · have := h.beyond n (by omega)
            rw [hv] at this
            cases this
      have hnoop : MapSprite.Invalidate s n = s := Invalidate_noop s n hv2
      refine ⟨s, l, by simp [PublicCall.apply, hnoop], h.wf, by omega,
        (fun hc => by rcases hc with hc | hc <;> cases hc), (fun _ hc => by cases hc),
        (fun _ hc => by cases hc), ?_, (fun _ _ _ => ⟨rfl, rfl⟩),
        (fun _ _ hc => by cases hc)⟩
      intro n2 hc hn2
      have : n = n2 := by
        cases hc
        rfl
      subst this
      exact absurd hn2 hnl
  | invalidateAll =>
    obtain ⟨s2, e, hwf, _⟩ := InvalidateAll_wf l fuel s h.wf (by omega)
    exact ⟨s2, [], e, hwf, by simp, fun _ => rfl, (fun _ hc => by cases hc),
      (fun _ hc => by cases hc), (fun _ hc => by cases hc), (fun _ hc => by cases hc),
      (fun _ _ hc => by cases hc)⟩
  | sort =>
    obtain ⟨s2, e, hwf, _, hidx, _, _⟩ := Sort_wf fuel s l h.wf (by omega)
    have hperm := stdSort_perm (sortLess s.sprites) l
    have hpos : Positional s2 (stdSort (sortLess s.sprites) l) := by
      unfold Positional
      rw [hidx, hperm.length_eq]
    exact ⟨s2, stdSort (sortLess s.sprites) l, e, hwf, by rw [hperm.length_eq]; omega,
      fun _ => hpos, (fun _ hc => by cases hc), (fun _ hc => by cases hc),
      (fun _ hc => by cases hc), (fun _ hc => by cases hc), (fun _ _ hc => by cases hc)⟩
  | mutators n ms =>
    have hu := mutate_unmutated s n ms
    have hi : ∀ k, indexOf (mutate s n ms) k = indexOf s k :=
      fun k => by
        have e := congrArg MapSprite.TreeIndex (hu k)
        exact e
    exact ⟨mutate s n ms, l, rfl, mutate_wf s n ms l h.wf, by omega,
      (fun hc => by rcases hc with hc | hc <;> cases hc), (fun _ hc => by cases hc),
      (fun _ hc => by cases hc), (fun _ hc => by cases hc), (fun _ hc => by cases hc),
      (fun _ _ _ => ⟨rfl, hi⟩)⟩

/-! ## The claims -/

set_option maxRecDepth 100000 in
/-- C1: starting from an empty list, any finite run of `InsertSprite` calls returns (given fuel
for the scans) and leaves a main chain whose head-to-tail traversal holds one sprite per call
and is non-decreasing in `(DrawOrderPos, TreeIndex)`, compared lexicographically. In the
scenario `Insert(Normal, 2, 3)`, `Insert(Normal, 1, 3)`, `Insert(EffectAbove, 0, 0)` the
traversal meets the sprite of cell `(1, 3)`, then the sprite of cell `(2, 3)`, then the
sprite of the category above the Normal range. -/
theorem insert_keeps_chain_ordered (cfg : Settings) (hg : 0 < cfg.SPRITES_POOL_GROW_SIZE)
    (cm : Nat → Bool) (em : Nat → Option Nat) (rs : List PutArgs) (fuel : Nat)
    (hf : rs.length ≤ fuel) :
    (∃ s hs l, insertAll cfg fuel rs (MapSpriteList.new cm em, []) = some (s, hs) ∧
      s.traverse fuel = some l ∧ l.length = rs.length ∧ l.Pairwise (lexLE s)) ∧
    (insertAll exampleSettings 3 scenario (emptyList, [])).bind
      (fun r => (r.1.traverse 3).map (List.map (placeOf r.1))) =
        some [(1, 3, 20), (2, 3, 20), (0, 0, 33)] := by
  refine ⟨?_, by decide⟩
  obtain ⟨s, hs, l, e, hwf, hk, hl⟩ :=
    insertAll_wf cfg fuel hg rs (MapSpriteList.new cm em) [] [] (wf_new cm em)
      (by simp [KeySorted]) (by simpa using hf)
  simp only [List.length_nil, Nat.zero_add] at hl
  exact ⟨s, hs, l, e, traverse_wf s l fuel hwf.toLinked (by omega), hl,
    lex_pairwise s l hk hwf.index⟩

set_option maxRecDepth 100000 in
/-- Witness of C1 on the scenario of three requests. -/
theorem insert_keeps_chain_ordered_witness :
    scenario.length ≤ 3 ∧
    ((∃ s hs l, insertAll exampleSettings 3 scenario
        (MapSpriteList.new (fun _ => false) (fun _ => none), []) = some (s, hs) ∧
      s.traverse 3 = some l ∧ l.length = scenario.length ∧ l.Pairwise (lexLE s)) ∧
    (insertAll exampleSettings 3 scenario (emptyList, [])).bind
      (fun r => (r.1.traverse 3).map (List.map (placeOf r.1))) =
        some [(1, 3, 20), (2, 3, 20), (0, 0, 33)]) :=
  ⟨by decide, insert_keeps_chain_ordered exampleSettings (by decide) (fun _ => false)
    (fun _ => none) scenario 3 (by decide)⟩

/-- C2: for every finite sequence of placement requests, starting from an empty list, the run
of `InsertSprite` calls and the run of `AddSprite` calls followed by one `Sort` both return
(given fuel for the scans), hand back the same sprites call by call, each holding the cell and
category of its request, and leave main chains with the same head-to-tail traversal: the
requests are met in the same order. -/
theorem insert_matches_add_then_sort (cfg : Settings) (hg : 0 < cfg.SPRITES_POOL_GROW_SIZE)
    (cm : Nat → Bool) (em : Nat → Option Nat) (rs : List PutArgs) (fuel : Nat)
    (hf : rs.length ≤ fuel) :
    ∃ s1 s2 s3 hs l, insertAll cfg fuel rs (MapSpriteList.new cm em, []) = some (s1, hs) ∧
      addAll cfg fuel rs (MapSpriteList.new cm em, []) = some (s2, hs) ∧
      s2.Sort fuel = some s3 ∧ s1.traverse fuel = some l ∧ s3.traverse fuel = some l ∧
      l.Perm hs ∧ hs.map (placeOf s1) = rs.map PutArgs.place ∧
      hs.map (placeOf s3) = rs.map PutArgs.place := by
  obtain ⟨s1, s2, news, l1, e1, e2, w1, w2, hperm, hkey, hlex, hlen, _, p1, p2⟩ :=
    insert_add_sim cfg fuel hg rs (MapSpriteList.new cm em) (MapSpriteList.new cm em) [] [] []
      (wf_new cm em) (wf_new cm em) (List.Perm.refl _) ⟨rfl, rfl, rfl⟩
      (fun h hh => by simp at hh) List.Pairwise.nil (by simpa using hf)
  simp only [List.nil_append] at e1 e2 w2 hperm hkey
  have hl1 : l1.length = rs.length := by rw [hperm.length_eq, hlen]
  obtain ⟨s3, e3, w3, hd3, _, _, _⟩ := Sort_wf fuel s2 news w2 (by omega)
  have hsl := stdSort_lexLT s2 news w2.nodup w2.index
  have hsp := stdSort_perm (sortLess s2.sprites) news
  have heq : l1 = stdSort (sortLess s2.sprites) news :=
    lexLT_unique s2 _ _ (hperm.trans hsp.symm) hlex hsl
  refine ⟨s1, s2, s3, news, l1, e1, e2, e3, traverse_wf s1 l1 fuel w1.toLinked (by omega),
    ?_, hperm, p1, ?_⟩
  · rw [heq]
    exact traverse_wf s3 _ fuel w3.toLinked (by rw [hsp.length_eq]; omega)
  · rw [← p2]
    exact List.map_congr_left (fun n _ => data_place (hd3 n))

set_option maxRecDepth 100000 in
/-- Witness of C2 on the scenario of three requests. -/
theorem insert_matches_add_then_sort_witness :
    scenario.length ≤ 3 ∧
    ∃ s1 s2 s3 hs l, insertAll exampleSettings 3 scenario (emptyList, []) = some (s1, hs) ∧
      addAll exampleSettings 3 scenario (emptyList, []) = some (s2, hs) ∧
      s2.Sort 3 = some s3 ∧ s1.traverse 3 = some l ∧ s3.traverse 3 = some l ∧
      l.Perm hs ∧ hs.map (placeOf s1) = scenario.map PutArgs.place ∧
      hs.map (placeOf s3) = scenario.map PutArgs.place :=
  ⟨by decide, insert_matches_add_then_sort exampleSettings (by decide) (fun _ => false)
    (fun _ => none) scenario 3 (by decide)⟩

set_option maxRecDepth 100000 in
/-- C3, counterexample: from the empty list, `AddSprite` with category 1 followed by
`AddSprite` with category 0 (both at cell `(0, 0)`) leaves a chain whose traversal holds the
keys `16000000, 0`: it is not non-decreasing in `(DrawOrderPos, TreeIndex)`. -/
theorem add_breaks_chain_order :
    (runOps exampleSettings 2 unorderedRun emptyList).bind
        (fun s => (s.traverse 2).map (List.map (keyOf s))) = some [16000000, 0] ∧
      (runOps exampleSettings 2 unorderedRun emptyList).bind (chainOrdered 2) = some false := by
  decide

/-- C3, amended: starting from an empty list, any finite run of `AddSprite`, `InsertSprite` and
single-sprite `Invalidate` calls in which every `AddSprite` is given a key that is not below
the key of the current tail, and every `Invalidate` is applied to a sprite of the list, returns
(given fuel for the scans) and leaves a main chain whose head-to-tail traversal is
non-decreasing in `(DrawOrderPos, TreeIndex)`. -/
theorem contract_runs_keep_chain_ordered (cfg : Settings)
    (hg : 0 < cfg.SPRITES_POOL_GROW_SIZE) (cm : Nat → Bool) (em : Nat → Option Nat)
    (ops : List Op) (fuel : Nat) (hf : ops.length ≤ fuel)
    (hc : runInContract cfg fuel ops (MapSpriteList.new cm em)) :
    ∃ s l, runOps cfg fuel ops (MapSpriteList.new cm em) = some s ∧
      s.traverse fuel = some l ∧ l.Pairwise (lexLE s) := by
  obtain ⟨s, l, e, hwf, hk, hl⟩ :=
    runOps_wf cfg fuel hg ops (MapSpriteList.new cm em) [] (wf_new cm em)
      (by simp [KeySorted]) (by simpa using hf) hc
  simp only [List.length_nil, Nat.zero_add] at hl
  exact ⟨s, l, e, traverse_wf s l fuel hwf.toLinked (by omega), lex_pairwise s l hk hwf.index⟩

set_option maxRecDepth 100000 in
/-- Witness of the amended C3 on a run of four calls. -/
theorem contract_runs_keep_chain_ordered_witness :
    contractRun.length ≤ 4 ∧ runInContract exampleSettings 4 contractRun emptyList ∧
    ∃ s l, runOps exampleSettings 4 contractRun emptyList = some s ∧
      s.traverse 4 = some l ∧ l.Pairwise (lexLE s) :=
  ⟨by decide, by decide, contract_runs_keep_chain_ordered exampleSettings (by decide)
    (fun _ => false) (fun _ => none) contractRun 4 (by decide) (by decide)⟩

/-- C4: on a well-formed list with main chain `l`, `Sort` returns (given fuel for the walk) and
leaves a main chain whose head-to-tail traversal is `l` stably sorted by `DrawOrderPos`, which
is what the comparator of the code yields, ties being broken by the tree index before the
sort: it is a permutation of `l`, non-decreasing in `DrawOrderPos`, the tree index of each
sprite is its position in the new traversal, `_rootSprite` and `_lastSprite` are its first
and last sprite, and no key changes; on an empty list `Sort` changes nothing. -/
theorem Sort_stably_sorts (fuel : Nat) (s : MapSpriteList) (l : List Nat) (h : WF s l)
    (hf : l.length ≤ fuel) :
    ∃ s2 l2, s.Sort fuel = some s2 ∧ s.traverse fuel = some l ∧ s2.traverse fuel = some l2 ∧
      l2 = l.insertionSort (fun a b => keyOf s a ≤ keyOf s b) ∧
      l2 = stdSort (sortLess s.sprites) l ∧ l2.Perm l ∧ l2.Pairwise (lexLE s) ∧
      KeySorted s2 l2 ∧ (∀ n, keyOf s2 n = keyOf s n) ∧
      l2.map (indexOf s2) = List.range l2.length ∧
      s2._rootSprite = l2.head? ∧ s2._lastSprite = l2.getLast? ∧ (l = [] → s2 = s) := by
  obtain ⟨s2, e, hwf, hd, hi, _, _⟩ := Sort_wf fuel s l h hf
  have hperm := stdSort_perm (sortLess s.sprites) l
  have hsorted := stdSort_sorted s l
  have hkey : ∀ n, keyOf s2 n = keyOf s n := fun n => data_pos (hd n)
  refine ⟨s2, stdSort (sortLess s.sprites) l, e, traverse_wf s l fuel h.toLinked hf,
    traverse_wf s2 _ fuel hwf.toLinked (by rw [hperm.length_eq]; exact hf),
    stdSort_eq_stable s l h.index, rfl, hperm, hsorted, ?_, hkey, ?_, hwf.root, hwf.last, ?_⟩
  · unfold KeySorted
    apply List.pairwise_map.mpr
    refine List.Pairwise.imp ?_ hsorted
    intro a b hab
    rw [hkey a, hkey b]
    unfold lexLE at hab
    omega
  · rw [hi, hperm.length_eq]
  · intro hl
    subst hl
    have e2 := Sort_fixed fuel s [] h hf List.Pairwise.nil rfl
    rw [e] at e2
    exact Option.some.inj e2

set_option maxRecDepth 100000 in
/-- Witness of C4 on the list left by adding the three requests of the scenario. -/
theorem Sort_stably_sorts_witness :
    WF addedList [3, 2, 1] ∧ [3, 2, 1].length ≤ 3 ∧
    ∃ s2 l2, addedList.Sort 3 = some s2 ∧ addedList.traverse 3 = some [3, 2, 1] ∧
      s2.traverse 3 = some l2 ∧
      l2 = [3, 2, 1].insertionSort (fun a b => keyOf addedList a ≤ keyOf addedList b) ∧
      l2 = stdSort (sortLess addedList.sprites) [3, 2, 1] ∧ l2.Perm [3, 2, 1] ∧
      l2.Pairwise (lexLE addedList) ∧
      KeySorted s2 l2 ∧ (∀ n, keyOf s2 n = keyOf addedList n) ∧
      l2.map (indexOf s2) = List.range l2.length ∧
      s2._rootSprite = l2.head? ∧ s2._lastSprite = l2.getLast? ∧
      (([3, 2, 1] : List Nat) = [] → s2 = addedList) :=
  ⟨by decide, by decide, Sort_stably_sorts 3 addedList [3, 2, 1] (by decide) (by decide)⟩

/-- C5: `Sort` is idempotent. On a well-formed list, `Sort` returns a list on which a second
`Sort` returns that same list: same sprites in the same order, same tree indices, same
`_rootSprite` and `_lastSprite`, and every other field as it was. -/
theorem Sort_idempotent (fuel : Nat) (s : MapSpriteList) (l : List Nat) (h : WF s l)
    (hf : l.length ≤ fuel) :
    ∃ s2 l2, s.Sort fuel = some s2 ∧ s2.Sort fuel = some s2 ∧ s2.traverse fuel = some l2 ∧
      l2.Perm l := by
  obtain ⟨s2, e, hwf, hd, hi, _, _⟩ := Sort_wf fuel s l h hf
  have hperm := stdSort_perm (sortLess s.sprites) l
  have hsorted := stdSort_sorted s l
  have hlen : (stdSort (sortLess s.sprites) l).length ≤ fuel := by
    rw [hperm.length_eq]; exact hf
  have hk : KeySorted s2 (stdSort (sortLess s.sprites) l) := by
    unfold KeySorted
    apply List.pairwise_map.mpr
    refine List.Pairwise.imp ?_ hsorted
    intro a b hab
    have ea : keyOf s2 a = keyOf s a := data_pos (hd a)
    have eb : keyOf s2 b = keyOf s b := data_pos (hd b)
    rw [ea, eb]
    unfold lexLE at hab
    omega
  refine ⟨s2, _, e, ?_, traverse_wf s2 _ fuel hwf.toLinked hlen, hperm⟩
  apply Sort_fixed fuel s2 _ hwf hlen (lex_pairwise s2 _ hk hwf.index)
  rw [hi, hperm.length_eq]

set_option maxRecDepth 100000 in
/-- Witness of C5 on the list left by adding the three requests of the scenario. -/
theorem Sort_idempotent_witness :
    WF addedList [3, 2, 1] ∧ [3, 2, 1].length ≤ 3 ∧
    ∃ s2 l2, addedList.Sort 3 = some s2 ∧ s2.Sort 3 = some s2 ∧ s2.traverse 3 = some l2 ∧
      l2.Perm [3, 2, 1] :=
  ⟨by decide, by decide, Sort_idempotent 3 addedList [3, 2, 1] (by decide) (by decide)⟩

/-- C6: for two categories `c1 < c2` outside the Normal range and any two cells inside the
grid, the key computed for `c1` is strictly below the key computed for `c2`; within one such
category the keys are ordered by row `hy` first, then by column `hx`. The keys are taken to
fit in 32 bits, `MAXHEX_MAX * MAXHEX_MAX * (c + 1) ≤ 2 ^ 32`. -/
theorem outside_keys_separate_categories (cfg : Settings) (c1 c2 hx1 hy1 hx2 hy2 : Nat)
    (ho1 : c1 < cfg.NormalBegin ∨ cfg.NormalEnd < c1)
    (ho2 : c2 < cfg.NormalBegin ∨ cfg.NormalEnd < c2)
    (hx1m : hx1 < cfg.MAXHEX_MAX) (hy1m : hy1 < cfg.MAXHEX_MAX)
    (hx2m : hx2 < cfg.MAXHEX_MAX) (hy2m : hy2 < cfg.MAXHEX_MAX)
    (hfit1 : cfg.MAXHEX_MAX * cfg.MAXHEX_MAX * (c1 + 1) ≤ 2 ^ 32)
    (hfit2 : cfg.MAXHEX_MAX * cfg.MAXHEX_MAX * (c2 + 1) ≤ 2 ^ 32) :
    drawOrderPos cfg c1 hx1 hy1 =
        cfg.MAXHEX_MAX * cfg.MAXHEX_MAX * c1 + hy1 * cfg.MAXHEX_MAX + hx1 ∧
      (c1 < c2 → drawOrderPos cfg c1 hx1 hy1 < drawOrderPos cfg c2 hx2 hy2) ∧
      (c1 = c2 → (drawOrderPos cfg c1 hx1 hy1 < drawOrderPos cfg c2 hx2 hy2 ↔
        hy1 < hy2 ∨ (hy1 = hy2 ∧ hx1 < hx2))) := by
  have h := outside_lt cfg c1 c2 hx1 hy1 hx2 hy2 ho1 ho2 hx1m hy1m hx2m hy2m hfit1 hfit2
  refine ⟨?_, fun hc => h.mpr (Or.inl hc), fun hc => ?_⟩
  · rw [drawOrderPos_outside cfg c1 hx1 hy1 ho1 hx1m hy1m hfit1, Nat.mul_comm c1]
    omega
  · rw [h]
    constructor
    · rintro (h2 | ⟨_, h2⟩)
      · omega
      · exact h2
    · intro h2
      exact Or.inr ⟨hc, h2⟩

/-- Witness of C6 with the categories 5 and 33, hex span 4000 and Normal range 20..32: the
key of category 5 at the last cell is below the key of category 33 at the first cell. -/
theorem outside_keys_separate_categories_witness :
    drawOrderPos exampleSettings 5 3999 3999 < drawOrderPos exampleSettings 33 0 0 :=
  (outside_keys_separate_categories exampleSettings 5 33 3999 3999 0 0 (by decide) (by decide)
    (by decide) (by decide) (by decide) (by decide) (by decide) (by decide)).2.1 (by decide)

/-- C7: for categories of the Normal range and cells inside the grid, the key orders sprites
lexicographically by `(hy, hx, category)`. Consequently, in a list built from the empty list by
`InsertSprite` calls of Normal range requests inside the grid, the sprites sharing one cell
`(hx, hy)` are contiguous in the traversal and appear in non-decreasing category order. The
sub-categories are taken to fit in the slot width (`NormalEnd < 2 * NormalBegin`) and the keys
in 32 bits. -/
theorem normal_keys_group_cells (cfg : Settings) (hg : 0 < cfg.SPRITES_POOL_GROW_SIZE)
    (hslot : cfg.NormalEnd < 2 * cfg.NormalBegin)
    (hfit : 2 * (cfg.MAXHEX_MAX * cfg.MAXHEX_MAX * cfg.NormalBegin) ≤ 2 ^ 32)
    (cm : Nat → Bool) (em : Nat → Option Nat) (rs : List PutArgs) (fuel : Nat)
    (hf : rs.length ≤ fuel) (hr : ∀ a ∈ rs, inNormalGrid cfg a.draw_order a.hx a.hy) :
    (∀ c1 c2 hx1 hy1 hx2 hy2 : Nat, inNormalGrid cfg c1 hx1 hy1 → inNormalGrid cfg c2 hx2 hy2 →
      (drawOrderPos cfg c1 hx1 hy1 < drawOrderPos cfg c2 hx2 hy2 ↔
        hy1 < hy2 ∨ (hy1 = hy2 ∧ (hx1 < hx2 ∨ (hx1 = hx2 ∧ c1 < c2))))) ∧
    ∃ s hs l, insertAll cfg fuel rs (MapSpriteList.new cm em, []) = some (s, hs) ∧
      s.traverse fuel = some l ∧ l.length = rs.length ∧
      (∀ i j k x y z : Nat, i < j → j < k → l[i]? = some x → l[j]? = some y → l[k]? = some z →
        cellOf s x = cellOf s z → cellOf s y = cellOf s x) ∧
      (∀ i j x y : Nat, i < j → l[i]? = some x → l[j]? = some y → cellOf s x = cellOf s y →
        (s.sprites x).DrawOrder ≤ (s.sprites y).DrawOrder) := by
  constructor
  · intro c1 c2 hx1 hy1 hx2 hy2 h1 h2
    exact normal_lt cfg c1 c2 hx1 hy1 hx2 hy2 ⟨h1.1, h1.2.1⟩ ⟨h2.1, h2.2.1⟩ hslot h1.2.2.1
      h1.2.2.2 h2.2.2.1 h2.2.2.2 hfit
  · obtain ⟨s, hs, l, e, hwf, hk, hkd, hl⟩ :=
      insertAll_keyed cfg fuel hg (inNormalGrid cfg) rs (MapSpriteList.new cm em) [] []
        (wf_new cm em) (by simp [KeySorted]) (fun n hn => by simp at hn) hr (by simpa using hf)
    simp only [List.length_nil, Nat.zero_add] at hl
    have hp := normal_chain_cellLE cfg hslot hfit s l hk hkd
    refine ⟨s, hs, l, e, traverse_wf s l fuel hwf.toLinked (by omega), hl, ?_, ?_⟩
    · intro i j k x y z hij hjk hx hy hz hc
      have a := pairwise_getElem? hp i j x y hij hx hy
      have b := pairwise_getElem? hp j k y z hjk hy hz
      unfold cellLE at a b
      unfold cellOf at hc ⊢
      simp only [Prod.mk.injEq] at hc ⊢
      omega
    · intro i j x y hij hx hy hc
      have a := pairwise_getElem? hp i j x y hij hx hy
      unfold cellLE at a
      unfold cellOf at hc
      simp only [Prod.mk.injEq] at hc
      omega

/-- Witness of C7 on four Normal range requests sharing two cells. -/
theorem normal_keys_group_cells_witness :
    exampleSettings.NormalEnd < 2 * exampleSettings.NormalBegin ∧
    2 * (exampleSettings.MAXHEX_MAX * exampleSettings.MAXHEX_MAX * exampleSettings.NormalBegin)
      ≤ 2 ^ 32 ∧
    cellScenario.length ≤ 4 ∧
    (∀ a ∈ cellScenario, inNormalGrid exampleSettings a.draw_order a.hx a.hy) ∧
    ((∀ c1 c2 hx1 hy1 hx2 hy2 : Nat, inNormalGrid exampleSettings c1 hx1 hy1 →
      inNormalGrid exampleSettings c2 hx2 hy2 →
      (drawOrderPos exampleSettings c1 hx1 hy1 < drawOrderPos exampleSettings c2 hx2 hy2 ↔
        hy1 < hy2 ∨ (hy1 = hy2 ∧ (hx1 < hx2 ∨ (hx1 = hx2 ∧ c1 < c2))))) ∧
    ∃ s hs l, insertAll exampleSettings 4 cellScenario (emptyList, []) = some (s, hs) ∧
      s.traverse 4 = some l ∧ l.length = cellScenario.length ∧
      (∀ i j k x y z : Nat, i < j → j < k → l[i]? = some x → l[j]? = some y →
        l[k]? = some z → cellOf s x = cellOf s z → cellOf s y = cellOf s x) ∧
      (∀ i j x y : Nat, i < j → l[i]? = some x → l[j]? = some y → cellOf s x = cellOf s y →
        (s.sprites x).DrawOrder ≤ (s.sprites y).DrawOrder)) :=
  ⟨by decide, by decide, by decide, by decide,
    normal_keys_group_cells exampleSettings (by decide) (by decide) (by decide)
      (fun _ => false) (fun _ => none) cellScenario 4 (by decide) (by decide)⟩

set_option maxRecDepth 100000 in
/-- C8, counterexample: with hex span 4000 and Normal range 20..32, the key of category 33 at
cell `(0, 0)` is 528000000, below the key 560000000 of the Normal range category 20 at cell
`(0, 3000)`; both keys fit in 32 bits. Inserting a Normal sprite at row 0, a sprite of
category 33 and a Normal sprite at row 3000 leaves the sprite of category 33 between the two
grid sprites. -/
theorem above_key_inside_normal_keys :
    exampleSettings.NormalEnd < 33 ∧
    (exampleSettings.NormalBegin ≤ 20 ∧ 20 ≤ exampleSettings.NormalEnd) ∧
    3000 < exampleSettings.MAXHEX_MAX ∧
    drawOrderPos exampleSettings 33 0 0 = 528000000 ∧
    drawOrderPos exampleSettings 20 0 3000 = 560000000 ∧
    drawOrderPos exampleSettings 33 0 0 < drawOrderPos exampleSettings 20 0 3000 ∧
    exampleSettings.MAXHEX_MAX * exampleSettings.MAXHEX_MAX * 33 + 0 * exampleSettings.MAXHEX_MAX
      + 0 < 2 ^ 32 ∧
    (insertAll exampleSettings 3 roofScenario (emptyList, [])).bind
      (fun r => (r.1.traverse 3).map (List.map (placeOf r.1))) =
        some [(0, 0, 20), (0, 0, 33), (0, 3000, 20)] := by
  decide

/-- C8, amended: for a category `c` of the Normal range, a category `d` outside it and cells
inside the grid, the key of `d` is below the key of `c` when `d < NormalBegin`; when
`d > NormalEnd`, the key of `d` is above the key of `c` at the rows `hy` with
`NormalBegin * (hy + 1) ≤ (d - NormalBegin) * MAXHEX_MAX`, which are all rows when
`2 * NormalBegin ≤ d`. The sub-categories are taken to fit in the slot width and the keys in
32 bits. -/
theorem outside_keys_around_normal_keys (cfg : Settings) (c d hx hy hx2 hy2 : Nat)
    (hc : cfg.NormalBegin ≤ c ∧ c ≤ cfg.NormalEnd)
    (hslot : cfg.NormalEnd < 2 * cfg.NormalBegin)
    (hxm : hx < cfg.MAXHEX_MAX) (hym : hy < cfg.MAXHEX_MAX)
    (hx2m : hx2 < cfg.MAXHEX_MAX) (hy2m : hy2 < cfg.MAXHEX_MAX)
    (hfitN : 2 * (cfg.MAXHEX_MAX * cfg.MAXHEX_MAX * cfg.NormalBegin) ≤ 2 ^ 32)
    (hfitD : cfg.MAXHEX_MAX * cfg.MAXHEX_MAX * (d + 1) ≤ 2 ^ 32) :
    (d < cfg.NormalBegin → drawOrderPos cfg d hx2 hy2 < drawOrderPos cfg c hx hy) ∧
    (cfg.NormalEnd < d → cfg.NormalBegin * (hy + 1) ≤ (d - cfg.NormalBegin) * cfg.MAXHEX_MAX →
      drawOrderPos cfg c hx hy < drawOrderPos cfg d hx2 hy2) ∧
    (2 * cfg.NormalBegin ≤ d → drawOrderPos cfg c hx hy < drawOrderPos cfg d hx2 hy2) := by
  refine ⟨fun hd => below_lt_normal cfg c d hx hy hx2 hy2 hc hd hslot hxm hym hx2m hy2m hfitN,
    fun hd hrow => normal_lt_above cfg c d hx hy hx2 hy2 hc hd hslot hxm hym hx2m hy2m hfitN
      hfitD hrow, fun hd => ?_⟩
  apply normal_lt_above cfg c d hx hy hx2 hy2 hc (by omega) hslot hxm hym hx2m hy2m hfitN hfitD
  have h1 := Nat.mul_le_mul_left cfg.NormalBegin (Nat.succ_le_of_lt hym)
  have h2 := Nat.mul_le_mul_right cfg.MAXHEX_MAX (show cfg.NormalBegin ≤ d - cfg.NormalBegin by omega)
  exact h1.trans h2

/-- Witness of the amended C8: category 33 against the Normal category 32 at row 2599, and
category 5 against the Normal category 20. -/
theorem outside_keys_around_normal_keys_witness :
    drawOrderPos exampleSettings 32 3999 2599 < drawOrderPos exampleSettings 33 0 0 ∧
      drawOrderPos exampleSettings 5 3999 3999 < drawOrderPos exampleSettings 20 0 0 :=
  ⟨(outside_keys_around_normal_keys exampleSettings 32 33 3999 2599 0 0 (by decide) (by decide)
      (by decide) (by decide) (by decide) (by decide) (by decide) (by decide)).2.1
      (by decide) (by decide),
    (outside_keys_around_normal_keys exampleSettings 20 5 0 0 3999 3999 (by decide) (by decide)
      (by decide) (by decide) (by decide) (by decide) (by decide) (by decide)).1 (by decide)⟩

/-- C9: `InsertSprite` on a well-formed list whose main chain `l` is sorted by key returns
(given fuel for the scan) and puts the new sprite `m` right before the first sprite of `l`
whose `DrawOrderPos` exceeds the new key: `l` splits into `before`, whose keys are at most the
new key, and `after`, whose keys exceed it, and the new traversal is `before`, `m`, `after`
(`m` is at the tail when `after` is empty). The other sprites keep their keys and their
relative order, the sprites of `before` keep their tree indices, `m` and the sprites of
`after` are numbered consecutively from the index following the last sprite of `before`, and
`m` becomes `_rootSprite` exactly when `before` is empty. -/
theorem InsertSprite_places_by_key (cfg : Settings) (fuel : Nat) (s : MapSpriteList)
    (l : List Nat) (a : PutArgs) (h : WF s l) (hk : KeySorted s l)
    (hg : 0 < cfg.SPRITES_POOL_GROW_SIZE) (hf : l.length + 1 ≤ fuel) :
    ∃ s2 m before after, s.InsertSprite cfg fuel a = some (s2, m) ∧
      before = l.takeWhile (fun n => decide (keyOf s n ≤ drawOrderPos cfg a.draw_order a.hx a.hy)) ∧
      after = l.dropWhile (fun n => decide (keyOf s n ≤ drawOrderPos cfg a.draw_order a.hx a.hy)) ∧
      l = before ++ after ∧
      (∀ n ∈ before, keyOf s n ≤ drawOrderPos cfg a.draw_order a.hx a.hy) ∧
      (∀ n ∈ after, drawOrderPos cfg a.draw_order a.hx a.hy < keyOf s n) ∧
      m ∉ l ∧ keyOf s2 m = drawOrderPos cfg a.draw_order a.hx a.hy ∧
      s2.traverse fuel = some (before ++ m :: after) ∧
      KeySorted s2 (before ++ m :: after) ∧
      (∀ n ∈ l, keyOf s2 n = keyOf s n) ∧
      (∀ n ∈ before, indexOf s2 n = indexOf s n) ∧
      (m :: after).map (indexOf s2) =
        List.range' (nextIndex s.sprites before.getLast?) (after.length + 1) ∧
      (s2._rootSprite = some m ↔ before = []) ∧
      (after = [] → s2._lastSprite = some m) := by
  obtain ⟨s2, m, e, hwf, hp, hi, hr⟩ := InsertSprite_wf cfg fuel s l a h hg hf
  have hsplit := List.takeWhile_append_dropWhile
    (fun n => decide (keyOf s n ≤ drawOrderPos cfg a.draw_order a.hx a.hy)) l
  have htw : ∀ x ∈ l.takeWhile
      (fun n => decide (keyOf s n ≤ drawOrderPos cfg a.draw_order a.hx a.hy)),
      keyOf s x ≤ drawOrderPos cfg a.draw_order a.hx a.hy := by
    intro x hx
    have := List.mem_takeWhile_imp hx
    simpa using this
  have hdw := dropWhile_gt (keyOf s) (drawOrderPos cfg a.draw_order a.hx a.hy) l hk
  have hks := keySorted_insert cfg s s2 l m a hp hk
  have hlen : (l.takeWhile (fun n => decide (keyOf s n ≤ drawOrderPos cfg a.draw_order a.hx a.hy))
      ++ m :: l.dropWhile
        (fun n => decide (keyOf s n ≤ drawOrderPos cfg a.draw_order a.hx a.hy))).length
        ≤ fuel := by
    have := congrArg List.length hsplit
    simp only [List.length_append, List.length_cons] at this ⊢
    omega
  have hroot := hwf.root
  have hlast := hwf.last
  have hfresh := hp.fresh
  refine ⟨s2, m, _, _, e, rfl, rfl, hsplit.symm, htw, hdw, hp.fresh, hp.pos,
    traverse_wf s2 _ fuel hwf.toLinked hlen, hks, fun n hn => data_pos (hp.data n hn), hi, hr,
    ?_, ?_⟩
  · generalize l.takeWhile
      (fun n => decide (keyOf s n ≤ drawOrderPos cfg a.draw_order a.hx a.hy)) = tw at *
    generalize l.dropWhile
      (fun n => decide (keyOf s n ≤ drawOrderPos cfg a.draw_order a.hx a.hy)) = dw at *
    subst hsplit
    cases tw with
    | nil => simp [hroot]
    | cons x tw =>
      simp only [hroot, List.cons_append, List.head?_cons, Option.some.injEq]
      constructor
      · intro hx
        exact absurd (by rw [← hx]; simp) hfresh
      · intro hx
        cases hx
  · intro hnil
    rw [hlast, hnil]
    simp

set_option maxRecDepth 100000 in
/-- Witness of C9: a Normal sprite at cell `(0, 4)` inserted into the list of the scenario. -/
theorem InsertSprite_places_by_key_witness :
    WF scenarioList [2, 3, 1] ∧ KeySorted scenarioList [2, 3, 1] ∧
    0 < exampleSettings.SPRITES_POOL_GROW_SIZE ∧ [2, 3, 1].length + 1 ≤ 4 ∧
    ∃ s2 m before after,
      scenarioList.InsertSprite exampleSettings 4 { draw_order := 20, hx := 0, hy := 4 } =
        some (s2, m) ∧
      before = [2, 3, 1].takeWhile (fun n => decide (keyOf scenarioList n ≤
        drawOrderPos exampleSettings (20 : Nat) (0 : Nat) (4 : Nat))) ∧
      after = [2, 3, 1].dropWhile (fun n => decide (keyOf scenarioList n ≤
        drawOrderPos exampleSettings (20 : Nat) (0 : Nat) (4 : Nat))) ∧
      [2, 3, 1] = before ++ after ∧
      (∀ n ∈ before, keyOf scenarioList n ≤ drawOrderPos exampleSettings 20 0 4) ∧
      (∀ n ∈ after, drawOrderPos exampleSettings 20 0 4 < keyOf scenarioList n) ∧
      m ∉ [2, 3, 1] ∧ keyOf s2 m = drawOrderPos exampleSettings 20 0 4 ∧
      s2.traverse 4 = some (before ++ m :: after) ∧
      KeySorted s2 (before ++ m :: after) ∧
      (∀ n ∈ [2, 3, 1], keyOf s2 n = keyOf scenarioList n) ∧
      (∀ n ∈ before, indexOf s2 n = indexOf scenarioList n) ∧
      (m :: after).map (indexOf s2) =
        List.range' (nextIndex scenarioList.sprites before.getLast?) (after.length + 1) ∧
      (s2._rootSprite = some m ↔ before = []) ∧
      (after = [] → s2._lastSprite = some m) :=
  ⟨by decide, by decide, by decide, by decide,
    InsertSprite_places_by_key exampleSettings 4 scenarioList [2, 3, 1]
      { draw_order := 20, hx := 0, hy := 4 } (by decide) (by decide) (by decide) (by decide)⟩

/-- C10: `AddSprite` appends without looking at keys. On a well-formed list with main chain
`l`, whatever the keys, it returns and hands back a sprite `m` that was not in the chain; the
traversal becomes `l` followed by `m`, `m` becomes `_lastSprite` (and `_rootSprite` when `l`
is empty, the head staying in place otherwise), its tree index is 0 when `l` is empty and
one more than the tree index of the previous tail otherwise, and no sprite of `l` changes its
key or its tree index. -/
theorem AddSprite_appends (cfg : Settings) (fuel : Nat) (s : MapSpriteList) (l : List Nat)
    (a : PutArgs) (h : WF s l) (hg : 0 < cfg.SPRITES_POOL_GROW_SIZE)
    (hf : l.length + 1 ≤ fuel) :
    ∃ s2 m, s.AddSprite cfg fuel a = some (s2, m) ∧ m ∉ l ∧
      s2.traverse fuel = some (l ++ [m]) ∧ s2._lastSprite = some m ∧
      (l = [] → s2._rootSprite = some m) ∧ (l ≠ [] → s2._rootSprite = s._rootSprite) ∧
      (l = [] → indexOf s2 m = 0) ∧
      (∀ t, s._lastSprite = some t → indexOf s2 m = indexOf s t + 1) ∧
      keyOf s2 m = drawOrderPos cfg a.draw_order a.hx a.hy ∧
      (∀ n ∈ l, keyOf s2 n = keyOf s n ∧ indexOf s2 n = indexOf s n) := by
  obtain ⟨s2, m, e, hwf, hp, hi, him⟩ := AddSprite_wf cfg fuel s l a h hg
  have hroot := hwf.root
  have hlast := hwf.last
  refine ⟨s2, m, e, hp.fresh, traverse_wf s2 _ fuel hwf.toLinked (by simpa using hf), ?_, ?_, ?_,
    ?_, ?_, hp.pos, fun n hn => ⟨data_pos (hp.data n hn), hi n hn⟩⟩
  · rw [hlast]; simp
  · intro hl
    rw [hroot, hl]; rfl
  · intro hl
    rw [hroot, h.root]
    cases l with
    | nil => exact absurd rfl hl
    | cons x l => rfl
  · intro hl
    rw [him, hl]; rfl
  · intro t ht
    rw [him, ← h.last, ht]; rfl

set_option maxRecDepth 100000 in
/-- Witness of C10: a sprite of category 0 added to the list of the scenario. -/
theorem AddSprite_appends_witness :
    WF scenarioList [2, 3, 1] ∧ 0 < exampleSettings.SPRITES_POOL_GROW_SIZE ∧
    [2, 3, 1].length + 1 ≤ 4 ∧
    ∃ s2 m, scenarioList.AddSprite exampleSettings 4 { draw_order := 0, hx := 0, hy := 0 } =
        some (s2, m) ∧ m ∉ [2, 3, 1] ∧
      s2.traverse 4 = some ([2, 3, 1] ++ [m]) ∧ s2._lastSprite = some m ∧
      (([2, 3, 1] : List Nat) = [] → s2._rootSprite = some m) ∧
      (([2, 3, 1] : List Nat) ≠ [] → s2._rootSprite = scenarioList._rootSprite) ∧
      (([2, 3, 1] : List Nat) = [] → indexOf s2 m = 0) ∧
      (∀ t, scenarioList._lastSprite = some t → indexOf s2 m = indexOf scenarioList t + 1) ∧
      keyOf s2 m = drawOrderPos exampleSettings 0 0 0 ∧
      (∀ n ∈ [2, 3, 1], keyOf s2 n = keyOf scenarioList n ∧
        indexOf s2 n = indexOf scenarioList n) :=
  ⟨by decide, by decide, by decide,
    AddSprite_appends exampleSettings 4 scenarioList [2, 3, 1]
      { draw_order := 0, hx := 0, hy := 0 } (by decide) (by decide) (by decide)⟩

/-! ## The claims on invalidation and reuse -/

/-- C11: on a well-formed list with main chain `l`, `Invalidate` of a live sprite `n` leaves a
main chain whose traversal is `l` with exactly `n` removed, the other sprites being present in
the same relative order and keeping their keys and tree indices; `_rootSprite` becomes the
successor of `n` if `n` was the head and `_lastSprite` the predecessor of `n` if `n` was the
tail (both stay otherwise, and both become null if `n` was the only sprite); `n` ends up
invalid, with all its chain links cleared, in the recycle bin. -/
theorem Invalidate_removes_sprite (s : MapSpriteList) (l : List Nat) (n fuel : Nat)
    (h : WF s l) (hn : n ∈ l) (hf : l.length ≤ fuel) :
    s.traverse fuel = some l ∧
    (MapSprite.Invalidate s n).traverse fuel = some (l.erase n) ∧
    (l.erase n).Sublist l ∧ (∀ k, k ∈ l.erase n ↔ (k ∈ l ∧ k ≠ n)) ∧
    (s._rootSprite = some n → (MapSprite.Invalidate s n)._rootSprite = (s.sprites n).ChainChild) ∧
    (s._rootSprite ≠ some n → (MapSprite.Invalidate s n)._rootSprite = s._rootSprite) ∧
    (s._lastSprite = some n → (MapSprite.Invalidate s n)._lastSprite = (s.sprites n).ChainParent) ∧
    (s._lastSprite ≠ some n → (MapSprite.Invalidate s n)._lastSprite = s._lastSprite) ∧
    (l = [n] → (MapSprite.Invalidate s n)._rootSprite = none ∧
      (MapSprite.Invalidate s n)._lastSprite = none) ∧
    ((MapSprite.Invalidate s n).sprites n).Valid = false ∧
    ((MapSprite.Invalidate s n).sprites n).chainLinks = (false, false, none, none) ∧
    ((MapSprite.Invalidate s n).sprites n).extraLinks = (none, none, none) ∧
    (MapSprite.Invalidate s n)._invalidatedSprites = s._invalidatedSprites ++ [n] ∧
    (∀ k, k ≠ n → keyOf (MapSprite.Invalidate s n) k = keyOf s k ∧
      indexOf (MapSprite.Invalidate s n) k = indexOf s k ∧
      ((MapSprite.Invalidate s n).sprites k).Valid = (s.sprites k).Valid) ∧
    WF (MapSprite.Invalidate s n) (l.erase n) := by
  obtain ⟨a, b, e, hna, hnb⟩ := mem_split_nodup l n hn h.nodup
  subst e
  obtain ⟨hwf, hbin, _, _, _, _, hpk, hpn, hl1, hl2⟩ := Invalidate_wf s a n b h
  obtain ⟨hP, hC⟩ := wf_links_at s a n b h.toLinked
  have her := erase_middle a n b hna
  have hlen : (a ++ b).length ≤ fuel := by
    simp only [List.length_append, List.length_cons] at hf ⊢
    omega
  have hroot := hwf.root
  have hlast := hwf.last
  have hroot0 := h.root
  have hlast0 := h.last
  rw [her]
  refine ⟨traverse_wf s _ fuel h.toLinked hf, traverse_wf _ _ fuel hwf.toLinked hlen,
    by simp, ?_, ?_, ?_, ?_, ?_, ?_, ?_, hl1, hl2, hbin, ?_, hwf⟩
  · intro k
    simp only [List.mem_append, List.mem_cons]
    constructor
    · rintro (e | e)
      · exact ⟨Or.inl e, fun e2 => hna (e2 ▸ e)⟩
      · exact ⟨Or.inr (Or.inr e), fun e2 => hnb (e2 ▸ e)⟩
    · rintro ⟨e | e | e, hk⟩
      · exact Or.inl e
      · exact absurd e hk
      · exact Or.inr e
  · intro hr
    rw [hroot, hC]
    cases a with
    | nil => rfl
    | cons x a =>
      rw [hroot0] at hr
      simp only [List.cons_append, List.head?_cons, Option.some.injEq] at hr
      exact absurd (by simp [hr]) hna
  · intro hr
    rw [hroot, hroot0]
    cases a with
    | nil => exact absurd (by rw [hroot0]; rfl) hr
    | cons x a => rfl
  · intro hr
    rw [hlast, hP]
    rcases List.eq_nil_or_concat b with e | ⟨b2, x, e⟩
    · subst e; simp
    · rw [List.concat_eq_append] at e
      subst e
      rw [hlast0] at hr
      rw [← List.cons_append, ← List.append_assoc, List.getLast?_concat] at hr
      simp only [Option.some.injEq] at hr
      exact absurd (by simp [hr]) hnb
  · intro hr
    rw [hlast, hlast0]
    rcases List.eq_nil_or_concat b with e | ⟨b2, x, e⟩
    · subst e
      exact absurd (by rw [hlast0]; simp) hr
    · rw [List.concat_eq_append] at e
      subst e
      rw [← List.append_assoc, List.getLast?_concat, ← List.cons_append, ← List.append_assoc,
        List.getLast?_concat]
  · intro hl
    have hab : a = [] ∧ b = [] := by
      cases a with
      | nil => simpa using hl
      | cons x a =>
        simp only [List.cons_append, List.cons.injEq] at hl
        have := congrArg List.length hl.2
        simp at this
    rw [hroot, hlast, hab.1, hab.2]
    exact ⟨rfl, rfl⟩
  · rw [payload_valid hpn]
  · intro k hk
    have e := hpk k hk
    exact ⟨payload_pos e, payload_index e, payload_valid e⟩

set_option maxRecDepth 100000 in
/-- Witness of C11: the middle sprite of the list of the scenario is invalidated. -/
theorem Invalidate_removes_sprite_witness :
    WF scenarioList [2, 3, 1] ∧ (MapSprite.Invalidate scenarioList 3).traverse 3 = some [2, 1] ∧
    (MapSprite.Invalidate scenarioList 3)._invalidatedSprites = [3] :=
  ⟨by decide,
    (Invalidate_removes_sprite scenarioList [2, 3, 1] 3 3 (by decide) (by decide)
      (by decide)).2.1,
    (Invalidate_removes_sprite scenarioList [2, 3, 1] 3 3 (by decide) (by decide)
      (by decide)).2.2.2.2.2.2.2.2.2.2.2.2.1⟩

/-- C12: single-sprite `Invalidate` is idempotent.  Called on a sprite whose `Valid` flag is
false it returns the state it was given (main chain, extra chain, recycle bin, validity
mirrors and the fields of the sprite unchanged); after `Invalidate` the sprite is invalid, so
a second `Invalidate` changes nothing, and a sprite that was valid is in the recycle bin
once. -/
theorem Invalidate_idempotent (s : MapSpriteList) (n : Nat) :
    ((s.sprites n).Valid = false → MapSprite.Invalidate s n = s) ∧
    ((MapSprite.Invalidate s n).sprites n).Valid = false ∧
    MapSprite.Invalidate (MapSprite.Invalidate s n) n = MapSprite.Invalidate s n ∧
    ((s.sprites n).Valid = true →
      (MapSprite.Invalidate (MapSprite.Invalidate s n) n)._invalidatedSprites =
        s._invalidatedSprites ++ [n]) := by
  have hinv : ((MapSprite.Invalidate s n).sprites n).Valid = false := by
    cases hv : (s.sprites n).Valid with
    | false => rw [Invalidate_noop s n hv]; exact hv
    | true =>
      have e := Invalidate_payload s n n hv
      simp only [if_true] at e
      rw [payload_valid e]
  refine ⟨Invalidate_noop s n, hinv, Invalidate_noop _ n hinv, ?_⟩
  intro hv
  rw [Invalidate_noop _ n hinv]
  have hnv : ¬ ((s.sprites n).Valid = false) := by simp [hv]
  unfold MapSprite.Invalidate
  rw [if_neg hnv]
  obtain ⟨_, _, _, r4, _, _, _⟩ := recycle_frame (MapSprite.severChain
    (MapSprite.severExtraChain (MapSprite.markInvalid s n) n) n) n
  obtain ⟨_, _, _, c4, _, _, _⟩ := severChain_frame
    (MapSprite.severExtraChain (MapSprite.markInvalid s n) n) n
  obtain ⟨_, _, _, e4, _, _, _⟩ := severExtraChain_frame (MapSprite.markInvalid s n) n
  obtain ⟨_, _, _, m4, _, _, _⟩ := markInvalid_frame s n
  rw [r4, c4, e4, m4]

set_option maxRecDepth 100000 in
/-- Witness of C12 on the list of the scenario: the sprite 3 is valid, and after two calls of
`Invalidate` it is in the recycle bin once. -/
theorem Invalidate_idempotent_witness :
    (scenarioList.sprites 3).Valid = true ∧
    (MapSprite.Invalidate (MapSprite.Invalidate scenarioList 3) 3)._invalidatedSprites =
      scenarioList._invalidatedSprites ++ [3] :=
  ⟨by decide, (Invalidate_idempotent scenarioList 3).2.2.2 (by decide)⟩

/-- C14: the recycle bin is drained first and in LIFO order.  When `k` distinct live sprites of
a well-formed list are invalidated with no placement in between, the next `k` placements
(`AddSprite` or `InsertSprite`) hand back exactly those sprites, the most recently invalidated
first, and leave the pool, the number of allocated sprites (`GrowPool` did not run) and the
rest of the bin as they were; on any well-formed list a placement allocates new sprites
exactly when the recycle bin and the pool are both empty. -/
theorem recycle_bin_is_lifo (cfg : Settings) (fuel : Nat) (s : MapSpriteList) (l ns : List Nat)
    (ps : List (Bool × PutArgs)) (h : WF s l) (hg : 0 < cfg.SPRITES_POOL_GROW_SIZE)
    (hnd : ns.Nodup) (hsub : ∀ n ∈ ns, n ∈ l) (hlen : ps.length = ns.length)
    (hf : l.length + 1 ≤ fuel) :
    (invalidateEach ns s)._invalidatedSprites = s._invalidatedSprites ++ ns ∧
    (∃ s2, placeAll cfg fuel ps (invalidateEach ns s, []) = some (s2, ns.reverse) ∧
      s2._spritesPool = s._spritesPool ∧ s2.allocated = s.allocated ∧
      s2._invalidatedSprites = s._invalidatedSprites) ∧
    (∀ insert a, ∃ s3 m, place cfg fuel s insert a = some (s3, m) ∧
      s3.allocated = (if s._invalidatedSprites = [] ∧ s._spritesPool = [] then
        s.allocated + cfg.SPRITES_POOL_GROW_SIZE else s.allocated)) := by
  obtain ⟨l2, w2, len2, _, b2, p2, a2⟩ := invalidateEach_wf ns s l h hnd hsub
  obtain ⟨t2, L2, e, _, _, b3, p3, a3⟩ :=
    placeAll_bin cfg fuel hg ps (invalidateEach ns s) l2 [] s._invalidatedSprites ns.reverse w2
      (by rw [b2, List.reverse_reverse]) (by rw [hlen, List.length_reverse]) (by omega)
  refine ⟨b2, ⟨t2, by simpa using e, by rw [p3, p2], by rw [a3, a2], b3⟩, ?_⟩
  intro insert a
  exact place_allocated cfg fuel s l insert a h hg hf

set_option maxRecDepth 100000 in
/-- Witness of C14: the sprites 3 and 2 of the list of the scenario are invalidated in this
order; two placements hand back 2, then 3. -/
theorem recycle_bin_is_lifo_witness :
    WF scenarioList [2, 3, 1] ∧
    (∃ s2, placeAll exampleSettings 4 reuseRequests (invalidateEach [3, 2] scenarioList, []) =
        some (s2, [2, 3]) ∧
      s2._spritesPool = scenarioList._spritesPool ∧ s2.allocated = scenarioList.allocated ∧
      s2._invalidatedSprites = scenarioList._invalidatedSprites) :=
  ⟨by decide,
    (recycle_bin_is_lifo exampleSettings 4 scenarioList [2, 3, 1] [3, 2] reuseRequests
      (by decide) (by decide) (by decide) (by decide) (by decide) (by decide)).2.1⟩

/-- C15: `MapSpriteList::Invalidate` on a well-formed list with main chain `l` ends (given fuel
for the sprites of `l`) and leaves the main chain empty, `_rootSprite` and `_lastSprite` null
and `_spriteCount` zero; every sprite that was live (the valid sprites of the list are those of
`l`) is now invalid, its validity mirror, if it had one, holds false, and it is in the recycle
bin, which received the sprites of `l` in chain order. -/
theorem InvalidateAll_empties (fuel : Nat) (s : MapSpriteList) (l : List Nat) (h : WF s l)
    (hf : l.length ≤ fuel) :
    ∃ s2, MapSpriteList.Invalidate fuel s = some s2 ∧ s2.traverse fuel = some [] ∧
      s2._rootSprite = none ∧ s2._lastSprite = none ∧ s2._spriteCount = 0 ∧
      (∀ n, n < s.allocated → (s.sprites n).Valid = true →
        n ∈ l ∧ (s2.sprites n).Valid = false ∧ (s2.sprites n).ValidCallback = none ∧
        n ∈ s2._invalidatedSprites ∧
        (∀ c, (s.sprites n).ValidCallback = some c → s2.callbackMem c = false)) ∧
      s2._invalidatedSprites = s._invalidatedSprites ++ l ∧
      (∀ n, n < s2.allocated → (s2.sprites n).Valid = false) ∧ WF s2 [] := by
  obtain ⟨s2, e2, w2, c2, b2, _, a2, v2, m2, _, _⟩ := InvalidateAll_wf l fuel s h hf
  refine ⟨s2, e2, traverse_wf s2 [] fuel w2.toLinked (by simp), w2.root, w2.last, c2, ?_, b2, ?_,
    w2⟩
  · intro n hn hv
    have hnl := h.validOnly n hn hv
    refine ⟨hnl, (v2 n hnl).1, (v2 n hnl).2, ?_, m2 n hnl⟩
    rw [b2]
    exact List.mem_append_right _ hnl
  · intro n hn
    cases hv : (s2.sprites n).Valid with
    | false => rfl
    | true => exact absurd (w2.validOnly n hn hv) (by simp)

set_option maxRecDepth 100000 in
/-- Witness of C15 on a list of four sprites, one of which (the sprite 0) has the validity
mirror 5. -/
theorem InvalidateAll_empties_witness :
    WF mirrorList [2, 3, 0, 1] ∧ (mirrorList.sprites 0).ValidCallback = some 5 ∧
    mirrorList.callbackMem 5 = true ∧
    ∃ s2, MapSpriteList.Invalidate 4 mirrorList = some s2 ∧ s2.traverse 4 = some [] ∧
      s2._rootSprite = none ∧ s2._lastSprite = none ∧ s2._spriteCount = 0 ∧
      (∀ n, n < mirrorList.allocated → (mirrorList.sprites n).Valid = true →
        n ∈ [2, 3, 0, 1] ∧ (s2.sprites n).Valid = false ∧ (s2.sprites n).ValidCallback = none ∧
        n ∈ s2._invalidatedSprites ∧
        (∀ c, (mirrorList.sprites n).ValidCallback = some c → s2.callbackMem c = false)) ∧
      s2._invalidatedSprites = mirrorList._invalidatedSprites ++ [2, 3, 0, 1] ∧
      (∀ n, n < s2.allocated → (s2.sprites n).Valid = false) ∧ WF s2 [] :=
  ⟨by decide, by decide, by decide,
    InvalidateAll_empties 4 mirrorList [2, 3, 0, 1] (by decide) (by decide)⟩

/-- C16: no field survives reuse.  A live sprite `m` of a well-formed list that is modified by
any mutator calls and then invalidated is on top of the recycle bin with no extra chain link
and no sprite resource; the placement (`AddSprite` or `InsertSprite`, arguments `a`) that
recycles it leaves every field of `m` equal to what the same placement in the same list state
leaves in a never-used record at `m`: in particular `Contour` and `EggAppearence` are `None`,
`ContourColor` and `Color` are clear, the three light pointers and the extra chain links are
null and no sprite resource is held.  The same holds in every well-formed state in which the
recycled sprite is on top of the bin with no extra chain link and no sprite resource. -/
theorem reuse_keeps_no_field (cfg : Settings) (fuel : Nat) (s : MapSpriteList) (l : List Nat)
    (m : Nat) (ms : List Mutator) (insert : Bool) (a : PutArgs) (h : WF s l) (hm : m ∈ l)
    (hg : 0 < cfg.SPRITES_POOL_GROW_SIZE) (hf : l.length ≤ fuel) :
    (MapSprite.Invalidate (mutate s m ms) m)._invalidatedSprites =
      s._invalidatedSprites ++ [m] ∧
    (∃ s2 s2f, place cfg fuel (MapSprite.Invalidate (mutate s m ms) m) insert a = some (s2, m) ∧
      place cfg fuel (withFresh (MapSprite.Invalidate (mutate s m ms) m) m) insert a =
        some (s2f, m) ∧
      s2.sprites m = s2f.sprites m ∧
      (s2.sprites m).Contour = ContourType.None ∧
      (s2.sprites m).EggAppearence = EggAppearenceType.None ∧
      (s2.sprites m).ContourColor = 0 ∧ (s2.sprites m).Color = 0 ∧
      (s2.sprites m).Light = none ∧ (s2.sprites m).LightRight = none ∧
      (s2.sprites m).LightLeft = none ∧ (s2.sprites m).extraLinks = (none, none, none) ∧
      (s2.sprites m).MapSpr = none ∧ (s2.sprites m).Alpha = a.alpha) ∧
    (∀ (t : MapSpriteList) (L B : List Nat), WF t L → L.length + 1 ≤ fuel →
      t._invalidatedSprites = B ++ [m] → (t.sprites m).extraLinks = (none, none, none) →
      (t.sprites m).MapSpr = none →
      ∃ s2 s2f, place cfg fuel t insert a = some (s2, m) ∧
        place cfg fuel (withFresh t m) insert a = some (s2f, m) ∧
        s2.sprites m = s2f.sprites m) := by
  obtain ⟨x, y, e, _, _⟩ := mem_split_nodup l m hm h.nodup
  subst e
  have hw := mutate_wf s m ms _ h
  obtain ⟨hwf, hbin, _, _, _, _, _, hpn, _, hl2⟩ := Invalidate_wf (mutate s m ms) x m y hw
  have hlen : (x ++ y).length + 1 ≤ fuel := by
    simp only [List.length_append, List.length_cons] at hf ⊢
    omega
  have hmap : ((MapSprite.Invalidate (mutate s m ms) m).sprites m).MapSpr = none :=
    payload_mapSpr hpn
  obtain ⟨s2, s2f, e1, e2, e3, hd⟩ :=
    recycled_as_fresh cfg fuel _ (x ++ y) s._invalidatedSprites m insert a hwf hg hlen hbin hl2
      hmap
  refine ⟨hbin, ⟨s2, s2f, e1, e2, e3, ?_, ?_, ?_, ?_, ?_, ?_, ?_, ?_, ?_, ?_⟩, ?_⟩
  · have r := congrArg MapSprite.Contour hd
    exact r
  · have r := congrArg MapSprite.EggAppearence hd
    exact r
  · have r := congrArg MapSprite.ContourColor hd
    exact r
  · have r := congrArg MapSprite.Color hd
    exact r
  · have r := congrArg MapSprite.Light hd
    exact r
  · have r := congrArg MapSprite.LightRight hd
    exact r
  · have r := congrArg MapSprite.LightLeft hd
    exact r
  · have r := congrArg MapSprite.extraLinks hd
    exact r
  · have r := congrArg MapSprite.MapSpr hd
    exact r
  · have r := congrArg MapSprite.Alpha hd
    exact r
  · intro t L B ht hL hb h1 h2
    obtain ⟨u, uf, r1, r2, r3, _⟩ :=
      recycled_as_fresh cfg fuel t L B m insert a ht hg hL hb h1 h2
    exact ⟨u, uf, r1, r2, r3⟩

set_option maxRecDepth 100000 in
/-- Witness of C16: the sprite 3 of the list of the scenario gets a contour, colors, a fixed
alpha, light pointers and an egg appearance, is invalidated and recycled by `InsertSprite`. -/
theorem reuse_keeps_no_field_witness :
    WF scenarioList [2, 3, 1] ∧
    ((mutate scenarioList 3 exampleMutators).sprites 3).Color = 150994949 ∧
    ((mutate scenarioList 3 exampleMutators).sprites 3).Light = some (40, 32) ∧
    (∃ s2 s2f,
      place exampleSettings 3 (MapSprite.Invalidate (mutate scenarioList 3 exampleMutators) 3)
        true reuseArgs = some (s2, 3) ∧
      place exampleSettings 3
        (withFresh (MapSprite.Invalidate (mutate scenarioList 3 exampleMutators) 3) 3)
        true reuseArgs = some (s2f, 3) ∧
      s2.sprites 3 = s2f.sprites 3 ∧
      (s2.sprites 3).Contour = ContourType.None ∧
      (s2.sprites 3).EggAppearence = EggAppearenceType.None ∧
      (s2.sprites 3).ContourColor = 0 ∧ (s2.sprites 3).Color = 0 ∧
      (s2.sprites 3).Light = none ∧ (s2.sprites 3).LightRight = none ∧
      (s2.sprites 3).LightLeft = none ∧ (s2.sprites 3).extraLinks = (none, none, none) ∧
      (s2.sprites 3).MapSpr = none ∧ (s2.sprites 3).Alpha = reuseArgs.alpha) :=
  ⟨by decide, by decide, by decide,
    (reuse_keeps_no_field exampleSettings 3 scenarioList [2, 3, 1] 3 exampleMutators true
      reuseArgs (by decide) (by decide) (by decide) (by decide)).2.1⟩

/-! ## The claims on the queries of a sprite and on the fading of a view -/

/-- C17: `CheckHit(ox, oy, check_transparent)` returns false whenever `ox < 0` or `oy < 0`,
whatever the flag; for non-negative coordinates it returns true when the precise test is not
requested, and otherwise (on a sprite owned by a list, which is where `Root->_sprMngr` is
defined) exactly the result of `SpriteHitTest` on the resolved sprite at `(ox, oy)`. -/
theorem CheckHit_spec (env : SpriteEnv) (m : MapSprite) (ox oy : Int)
    (check_transparent : Bool) :
    ((ox < 0 ∨ oy < 0) → m.CheckHit env ox oy check_transparent = some false) ∧
    (0 ≤ ox → 0 ≤ oy → check_transparent = false →
      m.CheckHit env ox oy check_transparent = some true) ∧
    (0 ≤ ox → 0 ≤ oy → check_transparent = true → m.Root = true →
      m.CheckHit env ox oy check_transparent =
        some (env.SpriteHitTest (m.resolveSprite env) ox oy true)) ∧
    m.resolveSprite env = (match m.PSpr with
      | some p => env.slotAt p
      | none => m.Spr) := by
  refine ⟨?_, ?_, ?_, rfl⟩
  · intro h
    unfold MapSprite.CheckHit
    rw [if_pos h]
  · intro hx hy hc
    have hn : ¬ (ox < 0 ∨ oy < 0) := by omega
    unfold MapSprite.CheckHit
    rw [if_neg hn, if_pos hc]
  · intro hx hy hc hr
    have hn : ¬ (ox < 0 ∨ oy < 0) := by omega
    have hc2 : ¬ (check_transparent = false) := by simp [hc]
    unfold MapSprite.CheckHit
    rw [if_neg hn, if_neg hc2, if_pos hr]

/-- Witness of C17 on a placed sprite: a negative coordinate, a box hit, a precise hit and a
precise miss. -/
theorem CheckHit_spec_witness :
    exampleSprite.CheckHit exampleEnv (-1) 5 true = some false ∧
    exampleSprite.CheckHit exampleEnv 40 5 false = some true ∧
    exampleSprite.CheckHit exampleEnv 40 5 true =
      some (exampleEnv.SpriteHitTest (exampleSprite.resolveSprite exampleEnv) 40 5 true) ∧
    exampleSprite.CheckHit exampleEnv 40 5 true = some false ∧
    exampleSprite.CheckHit exampleEnv 4 5 true = some true :=
  ⟨(CheckHit_spec exampleEnv exampleSprite (-1) 5 true).1 (by decide),
    (CheckHit_spec exampleEnv exampleSprite 40 5 false).2.1 (by decide) (by decide) rfl,
    (CheckHit_spec exampleEnv exampleSprite 40 5 true).2.2.1 (by decide) (by decide) rfl rfl,
    by decide, by decide⟩

/-- C18: for a sprite whose resolved `Sprite` has size `Width` x `Height` and offsets
`(OffsX, OffsY)`, `GetDrawRect` returns the rectangle with
`Left = ScrX - Width / 2 + sprite.OffsX + *PScrX` (plus `*OffsX` only when the pointer `OffsX`
of the sprite is present), `Top = ScrY - Height + sprite.OffsY + *PScrY` (plus `*OffsY` only
when present), `Right = Left + Width` and `Bottom = Top + Height`: its extent is the pixel
size of the `Sprite`, and absent offset pointers contribute nothing.  The position pointers
`PScrX`, `PScrY` are dereferenced without a guard and are taken non-null. -/
theorem GetDrawRect_spec (env : SpriteEnv) (m : MapSprite) (a px py : Nat)
    (hs : m.resolveSprite env = some a) (hx : m.PScrX = some px) (hy : m.PScrY = some py) :
    ∃ r, m.GetDrawRect env = Except.ok r ∧
      r.Left = m.ScrX - (env.spriteAt a).Width.tdiv 2 + (env.spriteAt a).OffsX + env.intAt px +
        (match m.OffsX with
          | some o => env.intAt o
          | none => 0) ∧
      r.Top = m.ScrY - (env.spriteAt a).Height + (env.spriteAt a).OffsY + env.intAt py +
        (match m.OffsY with
          | some o => env.intAt o
          | none => 0) ∧
      r.Right = r.Left + (env.spriteAt a).Width ∧
      r.Bottom = r.Top + (env.spriteAt a).Height ∧
      r.Right - r.Left = (env.spriteAt a).Width ∧
      r.Bottom - r.Top = (env.spriteAt a).Height := by
  unfold MapSprite.GetDrawRect
  simp only [hs, hx, hy]
  refine ⟨_, rfl, ?_, ?_, rfl, rfl, ?_, ?_⟩
  · cases m.OffsX <;> simp
  · cases m.OffsY <;> simp
  · simp
  · simp

/-- Witness of C18: the sprite anchored at `(100, 200)` with a 64 x 48 `Sprite`, offsets
`(3, -5)`, `*PScrX = 10`, `*PScrY = 20`, `*OffsX = 30` and no `OffsY` pointer gets the
rectangle `(111, 167, 175, 215)`. -/
theorem GetDrawRect_spec_witness :
    exampleSprite.GetDrawRect exampleEnv =
      Except.ok { Left := 111, Top := 167, Right := 175, Bottom := 215 } ∧
    ∃ r, exampleSprite.GetDrawRect exampleEnv = Except.ok r ∧
      r.Left = exampleSprite.ScrX - (exampleEnv.spriteAt 7).Width.tdiv 2 +
        (exampleEnv.spriteAt 7).OffsX + exampleEnv.intAt 1 +
        (match exampleSprite.OffsX with
          | some o => exampleEnv.intAt o
          | none => 0) ∧
      r.Top = exampleSprite.ScrY - (exampleEnv.spriteAt 7).Height +
        (exampleEnv.spriteAt 7).OffsY + exampleEnv.intAt 2 +
        (match exampleSprite.OffsY with
          | some o => exampleEnv.intAt o
          | none => 0) ∧
      r.Right = r.Left + (exampleEnv.spriteAt 7).Width ∧
      r.Bottom = r.Top + (exampleEnv.spriteAt 7).Height ∧
      r.Right - r.Left = (exampleEnv.spriteAt 7).Width ∧
      r.Bottom - r.Top = (exampleEnv.spriteAt 7).Height :=
  ⟨rfl, GetDrawRect_spec exampleEnv exampleSprite 7 1 2 rfl rfl rfl⟩

set_option maxRecDepth 100000 in
/-- C19, counterexample: the sprite placed by one `AddSprite` with the sprite 7 bound and null
position pointers `sx`, `sy` is valid and has a bound `Sprite`, yet `GetDrawRect` and
`GetViewRect` return no rectangle: they stop on the dereference of the null `PScrX`, which is
not the failed assertion. -/
theorem bound_sprite_null_position :
    (emptyList.AddSprite exampleSettings 1 nullPosArgs).map (fun r => r.1.sprites r.2) =
      some nullPosSprite ∧
    nullPosSprite.Valid = true ∧ nullPosSprite.Spr = some 7 ∧ nullPosSprite.PSpr = none ∧
    nullPosSprite.PScrX = none ∧ nullPosSprite.PScrY = none ∧
    nullPosSprite.resolveSprite exampleEnv = some 7 ∧
    nullPosSprite.GetDrawRect exampleEnv = Except.error Failure.nullDeref ∧
    nullPosSprite.GetViewRect exampleEnv = Except.error Failure.nullDeref ∧
    (¬ ∃ r, nullPosSprite.GetDrawRect exampleEnv = Except.ok r) ∧
    (¬ ∃ r, nullPosSprite.GetViewRect exampleEnv = Except.ok r) := by
  have hd : nullPosSprite.GetDrawRect exampleEnv = Except.error Failure.nullDeref := rfl
  have hv : nullPosSprite.GetViewRect exampleEnv = Except.error Failure.nullDeref := rfl
  refine ⟨by decide, by decide, by decide, by decide, by decide, by decide, by decide, hd, hv,
    ?_, ?_⟩
  · rintro ⟨r, hr⟩
    rw [hd] at hr
    cases hr
  · rintro ⟨r, hr⟩
    rw [hv] at hr
    cases hr

/-- C19, amended: `GetDrawRect` and `GetViewRect` stop on the failed `RUNTIME_ASSERT` exactly
when the sprite has no bound `Sprite`, the `Sprite` used being the target of the indirect slot
`PSpr` when `PSpr` is present and `Spr` otherwise; whenever that `Sprite` is present and the
position pointers `PScrX` and `PScrY` are non-null both queries return a rectangle; when it is
present and one of the position pointers, which the source dereferences without a guard, is
null, both queries stop on that dereference. -/
theorem queries_assert_bound_sprite (env : SpriteEnv) (m : MapSprite) :
    m.resolveSprite env = (match m.PSpr with
      | some p => env.slotAt p
      | none => m.Spr) ∧
    (m.GetDrawRect env = Except.error Failure.assertion ↔ m.resolveSprite env = none) ∧
    (m.GetViewRect env = Except.error Failure.assertion ↔ m.resolveSprite env = none) ∧
    (m.resolveSprite env ≠ none → m.PScrX ≠ none → m.PScrY ≠ none →
      (∃ r, m.GetDrawRect env = Except.ok r) ∧ (∃ r, m.GetViewRect env = Except.ok r)) ∧
    (m.resolveSprite env ≠ none → (m.PScrX = none ∨ m.PScrY = none) →
      m.GetDrawRect env = Except.error Failure.nullDeref ∧
      m.GetViewRect env = Except.error Failure.nullDeref) := by
  have hd : m.GetDrawRect env = Except.error Failure.assertion ↔ m.resolveSprite env = none := by
    unfold MapSprite.GetDrawRect
    cases hs : m.resolveSprite env with
    | none => simp
    | some a =>
      cases hx : m.PScrX <;> cases hy : m.PScrY <;> simp
  refine ⟨rfl, hd, ?_, ?_, ?_⟩
  · constructor
    · intro h
      by_contra hne
      obtain ⟨a, ha⟩ := Option.ne_none_iff_exists'.mp hne
      unfold MapSprite.GetViewRect at h
      cases hg : m.GetDrawRect env with
      | error e =>
        rw [hg] at h
        simp only [Except.error.injEq] at h
        rw [h] at hg
        exact hne (hd.mp hg)
      | ok rect =>
        rw [hg] at h
        simp only [ha] at h
        cases hv : (env.spriteAt a).GetViewSize <;> simp [hv] at h
    · intro h
      unfold MapSprite.GetViewRect
      rw [hd.mpr h]
  · intro hs hx hy
    obtain ⟨a, ha⟩ := Option.ne_none_iff_exists'.mp hs
    obtain ⟨px, hpx⟩ := Option.ne_none_iff_exists'.mp hx
    obtain ⟨py, hpy⟩ := Option.ne_none_iff_exists'.mp hy
    have hg : ∃ r, m.GetDrawRect env = Except.ok r := by
      unfold MapSprite.GetDrawRect
      simp only [ha, hpx, hpy]
      exact ⟨_, rfl⟩
    refine ⟨hg, ?_⟩
    obtain ⟨r, hr⟩ := hg
    unfold MapSprite.GetViewRect
    rw [hr]
    simp only [ha]
    cases hv : (env.spriteAt a).GetViewSize with
    | none => exact ⟨_, rfl⟩
    | some vr => exact ⟨_, rfl⟩
  · intro hs hnull
    obtain ⟨a, ha⟩ := Option.ne_none_iff_exists'.mp hs
    have hg : m.GetDrawRect env = Except.error Failure.nullDeref := by
      unfold MapSprite.GetDrawRect
      rcases hnull with hx | hy
      · simp only [ha, hx]
      · cases hx : m.PScrX <;> simp only [ha, hy]
    refine ⟨hg, ?_⟩
    unfold MapSprite.GetViewRect
    rw [hg]

/-- Witness of the amended C19: a sprite whose `Spr` is null and whose indirect slot holds
null stops both queries on the assertion; a bound sprite with position pointers gets its
rectangles. -/
theorem queries_assert_bound_sprite_witness :
    unboundSprite.GetDrawRect exampleEnv = Except.error Failure.assertion ∧
    unboundSprite.GetViewRect exampleEnv = Except.error Failure.assertion ∧
    (∃ r, exampleSprite.GetDrawRect exampleEnv = Except.ok r) ∧
    (∃ r, exampleSprite.GetViewRect exampleEnv = Except.ok r) :=
  ⟨(queries_assert_bound_sprite exampleEnv unboundSprite).2.1.mpr (by decide),
    (queries_assert_bound_sprite exampleEnv unboundSprite).2.2.1.mpr (by decide),
    ((queries_assert_bound_sprite exampleEnv exampleSprite).2.2.2.1 (by decide) (by decide)
      (by decide)).1,
    ((queries_assert_bound_sprite exampleEnv exampleSprite).2.2.2.1 (by decide) (by decide)
      (by decide)).2⟩

/-- C20, counterexample: a view with `_finishing = true` and `_fading = false` on which
`RestoreFading` is called with the tuple stored by a view in the middle of a fade has
`_fading = true`, `_finishing` still being true. -/
theorem RestoreFading_restarts_fading :
    finishingView._finishing = true ∧ finishingView._fading = false ∧
    fadingView.StoreFading = (true, true, 7) ∧
    (finishingView.RestoreFading fadingView.StoreFading)._fading = true ∧
    (finishingView.RestoreFading fadingView.StoreFading)._finishing = true := by
  decide

/-- C20, amended: on a view with `_finishing = true` and `_fading = false`, no call of the
fade surface resets `_finishing`, no call of `FadeUp`, `RestoreAlpha` or `SetMaxAlpha` sets
`_fading`, and `RestoreFading` leaves `_fading` equal to the flag of the restored tuple: the
state after a call has `_fading = true` exactly when the call is `RestoreFading` with a tuple
stored while fading. -/
theorem finishing_is_kept (v : HexView) (c : FadeCall) (hfin : v._finishing = true)
    (hfad : v._fading = false) :
    (c.apply v)._finishing = true ∧
    ((c.apply v)._fading = true ↔ ∃ data, c = FadeCall.RestoreFading data ∧ data.1 = true) := by
  cases c with
  | FadeUp now =>
    simp [FadeCall.apply, HexView.FadeUp, hfin, hfad]
  | RestoreAlpha =>
    simp [FadeCall.apply, HexView.RestoreAlpha, hfin, hfad]
  | SetMaxAlpha alpha =>
    simp [FadeCall.apply, HexView.SetMaxAlpha, hfin, hfad]
  | RestoreFading data =>
    simp [FadeCall.apply, HexView.RestoreFading, hfin]

/-- Witness of the amended C20: `FadeUp` on the finishing view leaves it finishing and not
fading. -/
theorem finishing_is_kept_witness :
    ((FadeCall.FadeUp 12).apply finishingView)._finishing = true ∧
    (((FadeCall.FadeUp 12).apply finishingView)._fading = true ↔
      ∃ data, FadeCall.FadeUp 12 = FadeCall.RestoreFading data ∧ data.1 = true) :=
  finishing_is_kept finishingView (FadeCall.FadeUp 12) (by decide) (by decide)

/-! ## The claims on reachable states, the extra chain, snapshots and lights -/

/-- C21: the fading snapshot is a round trip.  `RestoreFading (StoreFading v)` leaves the
view `v` unchanged; for any tuple `d`, `StoreFading` after `RestoreFading d` returns `d`;
`RestoreFading` writes `_fading`, `_fadeUp` and `_fadingTime` only: `_maxAlpha`, `_finishing`,
`_finishingTime`, `Visible`, `Alpha` and every other member stay as they were. -/
theorem fading_snapshot_round_trip (v : HexView) (d : Bool × Bool × Nat) :
    v.RestoreFading v.StoreFading = v ∧
    (v.RestoreFading d).StoreFading = d ∧
    (v.RestoreFading d)._fading = d.1 ∧ (v.RestoreFading d)._fadeUp = d.2.1 ∧
    (v.RestoreFading d)._fadingTime = d.2.2 ∧
    (v.RestoreFading d)._maxAlpha = v._maxAlpha ∧
    (v.RestoreFading d)._finishing = v._finishing ∧
    (v.RestoreFading d)._finishingTime = v._finishingTime ∧
    (v.RestoreFading d).Visible = v.Visible ∧ (v.RestoreFading d).Alpha = v.Alpha ∧
    v.RestoreFading d =
      { v with _fading := (v.RestoreFading d)._fading, _fadeUp := (v.RestoreFading d)._fadeUp,
               _fadingTime := (v.RestoreFading d)._fadingTime } := by
  refine ⟨?_, ?_, rfl, rfl, rfl, rfl, rfl, rfl, rfl, rfl, rfl⟩
  · cases v
    rfl
  · obtain ⟨d1, d2, d3⟩ := d
    rfl

/-- C22: head and tail back references.  In every state reached from an empty list by
`AddSprite`, `InsertSprite`, single-sprite `Invalidate`, `MapSpriteList::Invalidate`, `Sort`
(and mutator calls), the run returning whenever the fuel exceeds the number of calls: the live
sprites are the sprites of the traversal `l`; a live sprite holds `ChainRoot` exactly when it
is the head and `ChainLast` exactly when it is the tail, so that in a non-empty chain exactly
one live sprite, the head, holds `ChainRoot` and exactly one, the tail, holds `ChainLast`;
no sprite that is not live holds either; in an empty chain `_rootSprite` and `_lastSprite` are
null. -/
theorem head_tail_back_references (cfg : Settings) (fuel : Nat) (cm : Nat → Bool)
    (em : Nat → Option Nat) (cs : List PublicCall) (hg : 0 < cfg.SPRITES_POOL_GROW_SIZE)
    (hf : cs.length + 1 ≤ fuel) :
    ∃ s l, runPublic cfg fuel cs (MapSpriteList.new cm em) = some s ∧
      s.traverse fuel = some l ∧
      (∀ n, n < s.allocated → ((s.sprites n).Valid = true ↔ n ∈ l)) ∧
      s._rootSprite = l.head? ∧ s._lastSprite = l.getLast? ∧
      (∀ n, n < s.allocated → (s.sprites n).Valid = true →
        (((s.sprites n).ChainRoot = true ↔ s._rootSprite = some n) ∧
          ((s.sprites n).ChainLast = true ↔ s._lastSprite = some n))) ∧
      (∀ n, n < s.allocated → (s.sprites n).Valid = false →
        (s.sprites n).ChainRoot = false ∧ (s.sprites n).ChainLast = false) ∧
      (l ≠ [] → ∃ r t, s._rootSprite = some r ∧ s._lastSprite = some t ∧
        r < s.allocated ∧ t < s.allocated ∧
        (s.sprites r).Valid = true ∧ (s.sprites t).Valid = true ∧
        (s.sprites r).ChainRoot = true ∧ (s.sprites t).ChainLast = true ∧
        (∀ n, n < s.allocated → (s.sprites n).Valid = true →
          (s.sprites n).ChainRoot = true → n = r) ∧
        (∀ n, n < s.allocated → (s.sprites n).Valid = true →
          (s.sprites n).ChainLast = true → n = t)) ∧
      (l = [] → s._rootSprite = none ∧ s._lastSprite = none) := by
  obtain ⟨s, l, e, ht, h, _⟩ := reach_sound cfg fuel cm em cs hg hf
  have hlive : ∀ n, n < s.allocated → ((s.sprites n).Valid = true ↔ n ∈ l) :=
    fun n hn => ⟨h.wf.validOnly n hn, h.wf.valid n⟩
  have hrefs : ∀ n, n < s.allocated → (s.sprites n).Valid = true →
      (((s.sprites n).ChainRoot = true ↔ s._rootSprite = some n) ∧
        ((s.sprites n).ChainLast = true ↔ s._lastSprite = some n)) := by
    intro n hn hv
    have hnl := h.wf.validOnly n hn hv
    rw [h.wf.root, h.wf.last]
    exact ⟨h.wf.chainRoot n hnl, h.wf.chainLast n hnl⟩
  refine ⟨s, l, e, ht, hlive, h.wf.root, h.wf.last, hrefs, ?_, ?_, ?_⟩
  · intro n hn hv
    rcases h.cover n hn with x | x | x
    · rw [h.wf.valid n x] at hv
      cases hv
    · exact (h.wf.freeClean n (List.mem_append_left _ x)).2
    · exact (h.wf.freeClean n (List.mem_append_right _ x)).2
  · intro hne
    obtain ⟨r, hr⟩ : ∃ r, l.head? = some r := by
      cases l with
      | nil => exact absurd rfl hne
      | cons r _ => exact ⟨r, rfl⟩
    obtain ⟨t, htl⟩ : ∃ t, l.getLast? = some t := by
      cases hq : l.getLast? with
      | none => exact absurd (List.getLast?_eq_none_iff.mp hq) hne
      | some t => exact ⟨t, rfl⟩
    have hrl : r ∈ l := List.mem_of_mem_head? hr
    have htl2 : t ∈ l := List.mem_of_mem_getLast? htl
    have hrb : r < s.allocated := h.wf.bound r (List.mem_append_left _ hrl)
    have htb : t < s.allocated := h.wf.bound t (List.mem_append_left _ htl2)
    have hroot : s._rootSprite = some r := h.wf.root.trans hr
    have hlast : s._lastSprite = some t := h.wf.last.trans htl
    refine ⟨r, t, hroot, hlast, hrb, htb, h.wf.valid r hrl, h.wf.valid t htl2,
      (hrefs r hrb (h.wf.valid r hrl)).1.mpr hroot, (hrefs t htb (h.wf.valid t htl2)).2.mpr hlast,
      ?_, ?_⟩
    · intro n hn hv hc
      have e2 := (hrefs n hn hv).1.mp hc
      rw [hroot] at e2
      exact (Option.some.inj e2).symm
    · intro n hn hv hc
      have e2 := (hrefs n hn hv).2.mp hc
      rw [hlast] at e2
      exact (Option.some.inj e2).symm
  · intro hnil
    subst hnil
    exact ⟨h.wf.root, h.wf.last⟩

/-- Witness of C22 on the run `publicRun`. -/
theorem head_tail_back_references_witness :
    0 < exampleSettings.SPRITES_POOL_GROW_SIZE ∧ publicRun.length + 1 ≤ 9 ∧
    ∃ s l, runPublic exampleSettings 9 publicRun emptyList = some s ∧
      s.traverse 9 = some l ∧
      (∀ n, n < s.allocated → ((s.sprites n).Valid = true ↔ n ∈ l)) ∧
      s._rootSprite = l.head? ∧ s._lastSprite = l.getLast? ∧
      (∀ n, n < s.allocated → (s.sprites n).Valid = true →
        (((s.sprites n).ChainRoot = true ↔ s._rootSprite = some n) ∧
          ((s.sprites n).ChainLast = true ↔ s._lastSprite = some n))) ∧
      (∀ n, n < s.allocated → (s.sprites n).Valid = false →
        (s.sprites n).ChainRoot = false ∧ (s.sprites n).ChainLast = false) ∧
      (l ≠ [] → ∃ r t, s._rootSprite = some r ∧ s._lastSprite = some t ∧
        r < s.allocated ∧ t < s.allocated ∧
        (s.sprites r).Valid = true ∧ (s.sprites t).Valid = true ∧
        (s.sprites r).ChainRoot = true ∧ (s.sprites t).ChainLast = true ∧
        (∀ n, n < s.allocated → (s.sprites n).Valid = true →
          (s.sprites n).ChainRoot = true → n = r) ∧
        (∀ n, n < s.allocated → (s.sprites n).Valid = true →
          (s.sprites n).ChainLast = true → n = t)) ∧
      (l = [] → s._rootSprite = none ∧ s._lastSprite = none) :=
  ⟨by decide, by decide,
    head_tail_back_references exampleSettings 9 (fun _ => false) (fun _ => none) publicRun
      (by decide) (by decide)⟩

/-- C23: pooled and live sprites.  In every state reached from an empty list by the public
operations, the run returning whenever the fuel exceeds the number of calls: the sprites owned
by the list (the allocated ones) are those of the free pool, the recycle bin and the main
chain, and no sprite is in two of them; a sprite of the main chain occurs once in the
traversal `l` and is valid; the free pool and the recycle bin hold no sprite twice, and their
sprites are invalid and are not met by the traversal from the head. -/
theorem owned_sprites_partition (cfg : Settings) (fuel : Nat) (cm : Nat → Bool)
    (em : Nat → Option Nat) (cs : List PublicCall) (hg : 0 < cfg.SPRITES_POOL_GROW_SIZE)
    (hf : cs.length + 1 ≤ fuel) :
    ∃ s l, runPublic cfg fuel cs (MapSpriteList.new cm em) = some s ∧
      s.traverse fuel = some l ∧
      (∀ n, n < s.allocated ↔ (n ∈ l ∨ n ∈ s._spritesPool ∨ n ∈ s._invalidatedSprites)) ∧
      (∀ n, ¬ (n ∈ l ∧ n ∈ s._spritesPool) ∧ ¬ (n ∈ l ∧ n ∈ s._invalidatedSprites) ∧
        ¬ (n ∈ s._spritesPool ∧ n ∈ s._invalidatedSprites)) ∧
      (∀ n ∈ l, l.count n = 1 ∧ (s.sprites n).Valid = true) ∧
      l.Nodup ∧ s._spritesPool.Nodup ∧ s._invalidatedSprites.Nodup ∧
      (∀ n, n ∈ s._spritesPool ∨ n ∈ s._invalidatedSprites →
        n ∉ l ∧ (s.sprites n).Valid = false) := by
  obtain ⟨s, l, e, ht, h, _⟩ := reach_sound cfg fuel cm em cs hg hf
  have hnd := List.nodup_append.mp h.wf.freeNodup
  refine ⟨s, l, e, ht, ?_, ?_, ?_, h.wf.nodup, hnd.1, hnd.2.1, ?_⟩
  · intro n
    constructor
    · exact h.cover n
    · rintro (x | x | x)
      · exact h.wf.bound n (List.mem_append_left _ x)
      · exact h.wf.bound n (List.mem_append_right _ (List.mem_append_left _ x))
      · exact h.wf.bound n (List.mem_append_right _ (List.mem_append_right _ x))
  · intro n
    refine ⟨?_, ?_, ?_⟩
    · rintro ⟨x, y⟩
      exact h.wf.freeOut n (List.mem_append_left _ y) x
    · rintro ⟨x, y⟩
      exact h.wf.freeOut n (List.mem_append_right _ y) x
    · rintro ⟨x, y⟩
      exact hnd.2.2 x y
  · intro n hn
    exact ⟨List.count_eq_one_of_mem h.wf.nodup hn, h.wf.valid n hn⟩
  · intro n hn
    have hmem : n ∈ s._spritesPool ++ s._invalidatedSprites := List.mem_append.mpr hn
    exact ⟨h.wf.freeOut n hmem, (h.wf.freeClean n hmem).1⟩

/-- Witness of C23 on the run `publicRun`. -/
theorem owned_sprites_partition_witness :
    0 < exampleSettings.SPRITES_POOL_GROW_SIZE ∧ publicRun.length + 1 ≤ 9 ∧
    ∃ s l, runPublic exampleSettings 9 publicRun emptyList = some s ∧
      s.traverse 9 = some l ∧
      (∀ n, n < s.allocated ↔ (n ∈ l ∨ n ∈ s._spritesPool ∨ n ∈ s._invalidatedSprites)) ∧
      (∀ n, ¬ (n ∈ l ∧ n ∈ s._spritesPool) ∧ ¬ (n ∈ l ∧ n ∈ s._invalidatedSprites) ∧
        ¬ (n ∈ s._spritesPool ∧ n ∈ s._invalidatedSprites)) ∧
      (∀ n ∈ l, l.count n = 1 ∧ (s.sprites n).Valid = true) ∧
      l.Nodup ∧ s._spritesPool.Nodup ∧ s._invalidatedSprites.Nodup ∧
      (∀ n, n ∈ s._spritesPool ∨ n ∈ s._invalidatedSprites →
        n ∉ l ∧ (s.sprites n).Valid = false) :=
  ⟨by decide, by decide,
    owned_sprites_partition exampleSettings 9 (fun _ => false) (fun _ => none) publicRun
      (by decide) (by decide)⟩

set_option maxRecDepth 100000 in
/-- C24, counterexample: after three additions (sprites 3, 2 and 1, with tree indices 0, 1
and 2) and the invalidation of the middle sprite 2, the traversal is `[3, 1]` and the sprite 1,
now at position 1, still has the tree index 2. -/
theorem Invalidate_leaves_index_gap :
    runPublic exampleSettings 5 gapRun emptyList = some gapList ∧
    gapList.traverse 5 = some [3, 1] ∧
    (gapList.sprites 3).Valid = true ∧ (gapList.sprites 1).Valid = true ∧
    [3, 1].map (indexOf gapList) = [0, 2] ∧
    ¬ ([3, 1].map (indexOf gapList) = List.range [3, 1].length) := by
  refine ⟨?_, by decide, by decide, by decide, by decide, by decide⟩
  have hs : (runPublic exampleSettings 5 gapRun emptyList).isSome = true := by decide
  unfold gapList
  cases hr : runPublic exampleSettings 5 gapRun emptyList with
  | none =>
    rw [hr] at hs
    cases hs
  | some s => rfl

/-- C24, amended: in every state reached from an empty list by the calls `cs` followed by the
call `c`, the run returning whenever the fuel exceeds the number of calls, `TreeIndex`
increases strictly along the traversal `l2` and is at least the zero-based position of the
sprite.  With `s`, `l` the state and the traversal before the call `c`, the tree indices
after the call are the positions:
* always after `Sort` and `MapSpriteList::Invalidate`;
* after `AddSprite` exactly when they were before the call, so on an empty chain;
* after `InsertSprite` exactly when they were for the sprites `tw` in front of the new one, so
  after every insertion at the head;
* after the single-sprite `Invalidate` of a live sprite `n` exactly when `n` was the tail and
  the tree indices of the other sprites were their positions: `Invalidate` leaves the tree
  index of every other sprite as it is;
* after `Invalidate` of a sprite that is not live, and after mutator calls, exactly when they
  were before the call, nothing being changed. -/
theorem tree_index_positions (cfg : Settings) (fuel : Nat) (cm : Nat → Bool)
    (em : Nat → Option Nat) (cs : List PublicCall) (c : PublicCall)
    (hg : 0 < cfg.SPRITES_POOL_GROW_SIZE) (hf : cs.length + 2 ≤ fuel) :
    ∃ s l s2 l2, runPublic cfg fuel cs (MapSpriteList.new cm em) = some s ∧
      s.traverse fuel = some l ∧
      runPublic cfg fuel (cs ++ [c]) (MapSpriteList.new cm em) = some s2 ∧
      s2.traverse fuel = some l2 ∧
      (l2.map (indexOf s2)).Sorted (· < ·) ∧
      (∀ k n, l2[k]? = some n → k ≤ indexOf s2 n) ∧
      (c = PublicCall.sort ∨ c = PublicCall.invalidateAll →
        l2.map (indexOf s2) = List.range l2.length) ∧
      (∀ a, c = PublicCall.add a →
        ∃ m, l2 = l ++ [m] ∧
          (l2.map (indexOf s2) = List.range l2.length ↔
            l.map (indexOf s) = List.range l.length)) ∧
      (∀ a, c = PublicCall.insert a →
        ∃ tw dw m, l = tw ++ dw ∧ l2 = tw ++ m :: dw ∧
          (l2.map (indexOf s2) = List.range l2.length ↔
            tw.map (indexOf s) = List.range tw.length)) ∧
      (∀ n, c = PublicCall.invalidate n → n ∈ l →
        ∃ a b, l = a ++ n :: b ∧ l2 = a ++ b ∧
          (∀ k, k ≠ n → indexOf s2 k = indexOf s k) ∧
          (l2.map (indexOf s2) = List.range l2.length ↔
            (b = [] ∧ a.map (indexOf s) = List.range a.length))) ∧
      (∀ n, c = PublicCall.invalidate n → n ∉ l → s2 = s ∧ l2 = l) ∧
      (∀ n ms, c = PublicCall.mutators n ms →
        l2 = l ∧ ∀ k, indexOf s2 k = indexOf s k) := by
  obtain ⟨s, l, e, ht, h, hl⟩ := reach_sound cfg fuel cm em cs hg (by omega)
  obtain ⟨s2, l2, e2, hwf2, hl2, p1, p2, p3, p4, p5, p6⟩ :=
    call_positions cfg fuel s l c h hg hl
  refine ⟨s, l, s2, l2, e, ht, ?_, traverse_wf s2 l2 fuel hwf2.toLinked (by omega),
    hwf2.index, index_ge_position s2 l2 hwf2.index, p1, p2, p3, p4, p5, p6⟩
  rw [runPublic_append, e]
  simp only [Option.bind, runPublic, e2]

set_option maxRecDepth 100000 in
/-- Witness of the amended C24: the run `emptiedRun` leaves a gap in the tree indices and then
an empty chain; the sprite added next has the tree index 0, its position. -/
theorem tree_index_positions_witness :
    0 < exampleSettings.SPRITES_POOL_GROW_SIZE ∧ emptiedRun.length + 2 ≤ 6 ∧
    ∃ s2 l2,
      runPublic exampleSettings 6
        (emptiedRun ++ [PublicCall.add { draw_order := 20, hx := 2, hy := 5 }]) emptyList =
        some s2 ∧
      s2.traverse 6 = some l2 ∧ l2.length = 1 ∧
      l2.map (indexOf s2) = List.range l2.length := by
  refine ⟨by decide, by decide, ?_⟩
  obtain ⟨s, l, s2, l2, e, ht, e2, ht2, _, _, _, hadd, _⟩ :=
    tree_index_positions exampleSettings 6 (fun _ => false) (fun _ => none) emptiedRun
      (PublicCall.add { draw_order := 20, hx := 2, hy := 5 }) (by decide) (by decide)
  obtain ⟨m, hl2, hiff⟩ := hadd _ rfl
  have he : runPublic exampleSettings 6 emptiedRun emptyList = some emptiedList := by
    have hs : (runPublic exampleSettings 6 emptiedRun emptyList).isSome = true := by decide
    unfold emptiedList
    cases hr : runPublic exampleSettings 6 emptiedRun emptyList with
    | none =>
      rw [hr] at hs
      cases hs
    | some s => rfl
  have es : s = emptiedList := Option.some.inj (e.symm.trans he)
  subst es
  have hnil : emptiedList.traverse 6 = some [] := by decide
  have el : l = [] := (Option.some.inj (ht.symm.trans hnil))
  subst el
  exact ⟨s2, l2, e2, ht2, by rw [hl2]; rfl, hiff.mpr rfl⟩

/-- C25: `Invalidate` and the extra chain.  Let the valid sprite `n` be a member of a
well-formed extra chain `a ++ n :: b` anchored at the slot `r` (the slot points at the first
member, the members are doubly linked by `ExtraChainParent` / `ExtraChainChild`, the first
member alone holds `ExtraChainRoot`).  After `Invalidate` of `n` the extra chain anchored at
`r` is `a ++ b`, well formed, the other members in their order; when `n` was the first member
the slot points at the extra child of `n`, or is null, and that child holds `ExtraChainRoot`;
the three extra chain links of `n` are null; no other slot and no sprite outside the chain is
written; and whatever the extra chain is, the traversal of a well-formed main chain
`l1 ++ n :: l2` becomes `l1 ++ l2`, the traversal of the other sprites. -/
theorem Invalidate_unlinks_extra_chain (s : MapSpriteList) (r : Nat) (a : List Nat) (n : Nat)
    (b : List Nat) (hv : (s.sprites n).Valid = true) (he : ExtraChain s r (a ++ n :: b)) :
    ExtraChain (MapSprite.Invalidate s n) r (a ++ b) ∧
    ((MapSprite.Invalidate s n).sprites n).ExtraChainRoot = none ∧
    ((MapSprite.Invalidate s n).sprites n).ExtraChainParent = none ∧
    ((MapSprite.Invalidate s n).sprites n).ExtraChainChild = none ∧
    (MapSprite.Invalidate s n).extraRootMem r = (a ++ b).head? ∧
    (a = [] →
      (MapSprite.Invalidate s n).extraRootMem r = (s.sprites n).ExtraChainChild ∧
      (s.sprites n).ExtraChainChild = b.head? ∧
      ∀ c, (s.sprites n).ExtraChainChild = some c →
        ((MapSprite.Invalidate s n).sprites c).ExtraChainRoot = some r) ∧
    (∀ q, q ≠ r → (MapSprite.Invalidate s n).extraRootMem q = s.extraRootMem q) ∧
    (∀ k, k ∉ a ++ n :: b →
      ((MapSprite.Invalidate s n).sprites k).extraLinks = (s.sprites k).extraLinks) ∧
    (∀ (l1 l2 : List Nat) (fuel : Nat), WF s (l1 ++ n :: l2) → (l1 ++ l2).length ≤ fuel →
      (MapSprite.Invalidate s n).traverse fuel = some (l1 ++ l2)) := by
  obtain ⟨h1, h2, h3⟩ := Invalidate_extra_chain s r a n b hv he
  obtain ⟨_, hC, _, _, _⟩ := extra_links_at s r a n b he
  have hself := (Invalidate_links s n hv).2
  unfold MapSprite.extraLinks at hself
  simp only [Prod.mk.injEq] at hself
  refine ⟨h1, hself.1, hself.2.1, hself.2.2, h1.anchor, ?_, h3, h2, ?_⟩
  · intro ha
    subst ha
    refine ⟨?_, hC, ?_⟩
    · rw [h1.anchor, hC]
      rfl
    · intro c hc
      rw [hC] at hc
      have hcb : c ∈ [] ++ b := List.mem_of_mem_head? hc
      rw [h1.root c hcb]
      simp [hc]
  · intro l1 l2 fuel hwf hf
    exact traverse_wf _ _ fuel (Invalidate_wf s l1 n l2 hwf).1.toLinked hf

set_option maxRecDepth 100000 in
/-- Witness of C25: the first member of the extra chain `[1, 3, 2]` of `extraList` is
invalidated. -/
theorem Invalidate_unlinks_extra_chain_witness :
    (extraList.sprites 1).Valid = true ∧ ExtraChain extraList 7 ([] ++ 1 :: [3, 2]) ∧
    ExtraChain (MapSprite.Invalidate extraList 1) 7 ([] ++ [3, 2]) ∧
    ((MapSprite.Invalidate extraList 1).sprites 1).ExtraChainRoot = none ∧
    ((MapSprite.Invalidate extraList 1).sprites 1).ExtraChainParent = none ∧
    ((MapSprite.Invalidate extraList 1).sprites 1).ExtraChainChild = none ∧
    (MapSprite.Invalidate extraList 1).extraRootMem 7 = ([] ++ [3, 2]).head? ∧
    (([] : List Nat) = [] →
      (MapSprite.Invalidate extraList 1).extraRootMem 7 = (extraList.sprites 1).ExtraChainChild ∧
      (extraList.sprites 1).ExtraChainChild = [3, 2].head? ∧
      ∀ c, (extraList.sprites 1).ExtraChainChild = some c →
        ((MapSprite.Invalidate extraList 1).sprites c).ExtraChainRoot = some 7) ∧
    (∀ q, q ≠ 7 → (MapSprite.Invalidate extraList 1).extraRootMem q = extraList.extraRootMem q) ∧
    (∀ k, k ∉ [] ++ 1 :: [3, 2] →
      ((MapSprite.Invalidate extraList 1).sprites k).extraLinks =
        (extraList.sprites k).extraLinks) ∧
    (∀ (l1 l2 : List Nat) (fuel : Nat), WF extraList (l1 ++ 1 :: l2) →
      (l1 ++ l2).length ≤ fuel →
      (MapSprite.Invalidate extraList 1).traverse fuel = some (l1 ++ l2)) :=
  ⟨by decide, by decide,
    Invalidate_unlinks_extra_chain extraList 7 [] 1 [3, 2] (by decide) (by decide)⟩

/-- C26: the scan of `InsertSprite` ends.  In every state reached from an empty list by
`AddSprite`, `InsertSprite`, single-sprite `Invalidate`, `MapSpriteList::Invalidate` and `Sort`
(and mutator calls), the run returning whenever the fuel exceeds the number of calls, every
sprite met by the traversal `l` from the head is valid.  Therefore, for every key `pos` and
every amount of fuel `big` from `fuel` on, the scan of `InsertSprite` never takes its branch
`continue` on an invalid sprite, examines a prefix of the chain, each sprite once at most, the
same sprites whatever the fuel, and returns, the sprite it stops at being the last one
examined; so does `InsertSprite` itself. -/
theorem insert_scan_terminates (cfg : Settings) (fuel : Nat) (cm : Nat → Bool)
    (em : Nat → Option Nat) (cs : List PublicCall) (hg : 0 < cfg.SPRITES_POOL_GROW_SIZE)
    (hf : cs.length + 1 ≤ fuel) :
    ∃ s l, runPublic cfg fuel cs (MapSpriteList.new cm em) = some s ∧
      s.traverse fuel = some l ∧
      (∀ n ∈ l, (s.sprites n).Valid = true) ∧
      (∀ pos big, fuel ≤ big →
        scanSkips s.sprites pos big s._rootSprite = 0 ∧
        scanTrace s.sprites pos big s._rootSprite <+: l ∧
        (scanTrace s.sprites pos big s._rootSprite).Nodup ∧
        (∀ n, (scanTrace s.sprites pos big s._rootSprite).count n ≤ 1) ∧
        scanTrace s.sprites pos big s._rootSprite = scanTrace s.sprites pos fuel s._rootSprite ∧
        (scanTrace s.sprites pos big s._rootSprite).length ≤ l.length ∧
        ∃ place, findPlace s.sprites pos big s._rootSprite = some place ∧
          ∀ x, place = some x →
            (scanTrace s.sprites pos big s._rootSprite).getLast? = some x) ∧
      (∀ (a : PutArgs) big, fuel ≤ big → ∃ r, s.InsertSprite cfg big a = some r) := by
  obtain ⟨s, l, e, ht, h, hl⟩ := reach_sound cfg fuel cm em cs hg hf
  refine ⟨s, l, e, ht, h.wf.valid, ?_, ?_⟩
  · intro pos big hbig
    obtain ⟨k1, k2⟩ := scan_seg s.sprites pos l none big h.wf.seg h.wf.valid (by omega)
    obtain ⟨_, k3⟩ := scan_seg s.sprites pos l none fuel h.wf.seg h.wf.valid (by omega)
    have hfind := findPlace_seg s.sprites pos l none big h.wf.seg h.wf.valid (by omega)
    rw [← h.wf.root] at k1 k2 k3 hfind
    have hpre : scanTrace s.sprites pos big s._rootSprite <+: l := by
      rw [k2]
      have hsplit := List.takeWhile_append_dropWhile
        (fun n => decide ((s.sprites n).DrawOrderPos ≤ pos)) l
      cases hd : l.dropWhile (fun n => decide ((s.sprites n).DrawOrderPos ≤ pos)) with
      | nil =>
        rw [hd, List.append_nil] at hsplit
        simp only [List.head?_nil, Option.toList_none, List.append_nil]
        rw [hsplit]
      | cons x rest =>
        rw [hd] at hsplit
        refine ⟨rest, ?_⟩
        simp only [List.head?_cons, Option.toList_some, List.append_assoc,
          List.singleton_append]
        exact hsplit
    have hnd : (scanTrace s.sprites pos big s._rootSprite).Nodup :=
      List.Sublist.nodup hpre.sublist h.wf.nodup
    refine ⟨k1, hpre, hnd, fun n => List.nodup_iff_count_le_one.mp hnd n, k2.trans k3.symm,
      hpre.length_le, _, hfind, ?_⟩
    intro x hx
    rw [k2, hx]
    simp
  · intro a big hbig
    obtain ⟨s2, m, e2, _⟩ := InsertSprite_wf cfg big s l a h.wf hg (by omega)
    exact ⟨(s2, m), e2⟩

/-- Witness of C26 on the run `publicRun`. -/
theorem insert_scan_terminates_witness :
    0 < exampleSettings.SPRITES_POOL_GROW_SIZE ∧ publicRun.length + 1 ≤ 9 ∧
    ∃ s l, runPublic exampleSettings 9 publicRun emptyList = some s ∧
      s.traverse 9 = some l ∧
      (∀ n ∈ l, (s.sprites n).Valid = true) ∧
      (∀ pos big, 9 ≤ big →
        scanSkips s.sprites pos big s._rootSprite = 0 ∧
        scanTrace s.sprites pos big s._rootSprite <+: l ∧
        (scanTrace s.sprites pos big s._rootSprite).Nodup ∧
        (∀ n, (scanTrace s.sprites pos big s._rootSprite).count n ≤ 1) ∧
        scanTrace s.sprites pos big s._rootSprite = scanTrace s.sprites pos 9 s._rootSprite ∧
        (scanTrace s.sprites pos big s._rootSprite).length ≤ l.length ∧
        ∃ place, findPlace s.sprites pos big s._rootSprite = some place ∧
          ∀ x, place = some x →
            (scanTrace s.sprites pos big s._rootSprite).getLast? = some x) ∧
      (∀ (a : PutArgs) big, 9 ≤ big → ∃ r, s.InsertSprite exampleSettings big a = some r) :=
  ⟨by decide, by decide,
    insert_scan_terminates exampleSettings 9 (fun _ => false) (fun _ => none) publicRun
      (by decide) (by decide)⟩

/-- C27: the main chain is doubly linked.  In every state reached from an empty list by the
public operations, the run returning whenever the fuel exceeds the number of calls: for every
live sprite `n` (a sprite of the traversal `l`), the child of `n`, if any, is live and has `n`
as its parent, and the parent of `n`, if any, is live and has `n` as its child; the head has
no parent and the tail has no child; the walk from the tail along `ChainParent` returns, and
visits the reverse of the head-to-tail traversal. -/
theorem chain_doubly_linked (cfg : Settings) (fuel : Nat) (cm : Nat → Bool)
    (em : Nat → Option Nat) (cs : List PublicCall) (hg : 0 < cfg.SPRITES_POOL_GROW_SIZE)
    (hf : cs.length + 1 ≤ fuel) :
    ∃ s l, runPublic cfg fuel cs (MapSpriteList.new cm em) = some s ∧
      s.traverse fuel = some l ∧
      (∀ n, n < s.allocated → ((s.sprites n).Valid = true ↔ n ∈ l)) ∧
      (∀ n ∈ l, ∀ c, (s.sprites n).ChainChild = some c →
        c ∈ l ∧ (s.sprites c).ChainParent = some n) ∧
      (∀ n ∈ l, ∀ p, (s.sprites n).ChainParent = some p →
        p ∈ l ∧ (s.sprites p).ChainChild = some n) ∧
      (∀ r, s._rootSprite = some r → (s.sprites r).ChainParent = none) ∧
      (∀ t, s._lastSprite = some t → (s.sprites t).ChainChild = none) ∧
      s.traverseBack fuel = some l.reverse := by
  obtain ⟨s, l, e, ht, h, hl⟩ := reach_sound cfg fuel cm em cs hg hf
  obtain ⟨n1, n2, n3, n4⟩ := linked_neighbours s l h.wf.toLinked
  refine ⟨s, l, e, ht, fun n hn => ⟨h.wf.validOnly n hn, h.wf.valid n⟩, n1, n2, n3, n4, ?_⟩
  unfold MapSpriteList.traverseBack
  rw [h.wf.last, collectBack_seg s.sprites l none fuel [] h.wf.seg (by omega)]
  simp

/-- Witness of C27 on the run `publicRun`. -/
theorem chain_doubly_linked_witness :
    0 < exampleSettings.SPRITES_POOL_GROW_SIZE ∧ publicRun.length + 1 ≤ 9 ∧
    ∃ s l, runPublic exampleSettings 9 publicRun emptyList = some s ∧
      s.traverse 9 = some l ∧
      (∀ n, n < s.allocated → ((s.sprites n).Valid = true ↔ n ∈ l)) ∧
      (∀ n ∈ l, ∀ c, (s.sprites n).ChainChild = some c →
        c ∈ l ∧ (s.sprites c).ChainParent = some n) ∧
      (∀ n ∈ l, ∀ p, (s.sprites n).ChainParent = some p →
        p ∈ l ∧ (s.sprites p).ChainChild = some n) ∧
      (∀ r, s._rootSprite = some r → (s.sprites r).ChainParent = none) ∧
      (∀ t, s._lastSprite = some t → (s.sprites t).ChainChild = none) ∧
      s.traverseBack 9 = some l.reverse :=
  ⟨by decide, by decide,
    chain_doubly_linked exampleSettings 9 (fun _ => false) (fun _ => none) publicRun
      (by decide) (by decide)⟩

/-- C28: the comparison of `Sort` is a strict total order on the live sprites.  In every state
reached from an empty list by `AddSprite`, `InsertSprite`, single-sprite `Invalidate`,
`MapSpriteList::Invalidate` and `Sort` (and mutator calls), the run returning whenever the fuel
exceeds the number of calls: `TreeIndex` increases strictly along the traversal `l`, hence no
two live sprites share a tree index; the comparison `(DrawOrderPos, TreeIndex)` of `Sort` is
irreflexive, asymmetric and transitive, and tells any two distinct live sprites apart; `Sort`
returns, and every arrangement `v` of the live sprites that a sort routine may produce, one in
which no sprite is followed by a sprite that compares below it, is the chain left by `Sort`,
whether that routine is stable or not. -/
theorem sort_order_is_strict (cfg : Settings) (fuel : Nat) (cm : Nat → Bool)
    (em : Nat → Option Nat) (cs : List PublicCall) (hg : 0 < cfg.SPRITES_POOL_GROW_SIZE)
    (hf : cs.length + 1 ≤ fuel) :
    ∃ s l, runPublic cfg fuel cs (MapSpriteList.new cm em) = some s ∧
      s.traverse fuel = some l ∧
      (l.map (indexOf s)).Sorted (· < ·) ∧
      (∀ a ∈ l, ∀ b ∈ l, indexOf s a = indexOf s b → a = b) ∧
      (∀ a, sortLess s.sprites a a = false) ∧
      (∀ a b, sortLess s.sprites a b = true → sortLess s.sprites b a = false) ∧
      (∀ a b c, sortLess s.sprites a b = true → sortLess s.sprites b c = true →
        sortLess s.sprites a c = true) ∧
      (∀ a ∈ l, ∀ b ∈ l, a ≠ b →
        sortLess s.sprites a b = true ∨ sortLess s.sprites b a = true) ∧
      ∃ s2, s.Sort fuel = some s2 ∧
        ∀ v : List Nat, v.Perm l → v.Pairwise (fun a b => sortLess s.sprites b a = false) →
          s2.traverse fuel = some v := by
  obtain ⟨s, l, e, ht, h, hl⟩ := reach_sound cfg fuel cm em cs hg hf
  obtain ⟨o1, o2, o3, o4, o5⟩ := sortLess_strict_total s l h.wf.nodup h.wf.index
  obtain ⟨s2, e2, hwf2, _⟩ := Sort_wf fuel s l h.wf (by omega)
  refine ⟨s, l, e, ht, h.wf.index, index_injective s l h.wf.index, o1, o2, o3, o4, s2, e2, ?_⟩
  intro v hperm hsorted
  rw [o5 v hperm hsorted]
  exact traverse_wf s2 _ fuel hwf2.toLinked (by
    rw [(stdSort_perm (sortLess s.sprites) l).length_eq]
    omega)

/-- Witness of C28 on the run `publicRun`. -/
theorem sort_order_is_strict_witness :
    0 < exampleSettings.SPRITES_POOL_GROW_SIZE ∧ publicRun.length + 1 ≤ 9 ∧
    ∃ s l, runPublic exampleSettings 9 publicRun emptyList = some s ∧
      s.traverse 9 = some l ∧
      (l.map (indexOf s)).Sorted (· < ·) ∧
      (∀ a ∈ l, ∀ b ∈ l, indexOf s a = indexOf s b → a = b) ∧
      (∀ a, sortLess s.sprites a a = false) ∧
      (∀ a b, sortLess s.sprites a b = true → sortLess s.sprites b a = false) ∧
      (∀ a b c, sortLess s.sprites a b = true → sortLess s.sprites b c = true →
        sortLess s.sprites a c = true) ∧
      (∀ a ∈ l, ∀ b ∈ l, a ≠ b →
        sortLess s.sprites a b = true ∨ sortLess s.sprites b a = true) ∧
      ∃ s2, s.Sort 9 = some s2 ∧
        ∀ v : List Nat, v.Perm l → v.Pairwise (fun a b => sortLess s.sprites b a = false) →
          s2.traverse 9 = some v :=
  ⟨by decide, by decide,
    sort_order_is_strict exampleSettings 9 (fun _ => false) (fun _ => none) publicRun
      (by decide) (by decide)⟩

/-- C29: the sprite count.  In every state reached from an empty list by the public
operations, the run returning whenever the fuel exceeds the number of calls, `_spriteCount` is
the number `p` of placements (`AddSprite` or `InsertSprite`) made since construction or the
last `MapSpriteList::Invalidate`.  A single-sprite `Invalidate` and `Sort` leave it as it is.
It is at least the number of live sprites, the length of the traversal `l`, and exceeds it by
exactly the number `i` of single-sprite invalidations since the last
`MapSpriteList::Invalidate`: of the `c` calls of `MapSprite::Invalidate` made since then, the
`z` calls that found their sprite already invalid return at once and invalidate nothing, the
other `i = c - z` calls each invalidate a live sprite; when no call was made on an invalid
sprite the count exceeds the number of live sprites by the number `c` of calls. -/
theorem sprite_count_tallies (cfg : Settings) (fuel : Nat) (cm : Nat → Bool)
    (em : Nat → Option Nat) (cs : List PublicCall) (hg : 0 < cfg.SPRITES_POOL_GROW_SIZE)
    (hf : cs.length + 1 ≤ fuel) :
    ∃ s l p i c z, runPublic cfg fuel cs (MapSpriteList.new cm em) = some s ∧
      s.traverse fuel = some l ∧
      runTally cfg fuel cs (MapSpriteList.new cm em) (0, 0) = some (p, i) ∧
      runAttempts cfg fuel cs (MapSpriteList.new cm em) (0, 0) = some (c, z) ∧
      s._spriteCount = p ∧ l.length ≤ s._spriteCount ∧ s._spriteCount = l.length + i ∧
      i + z = c ∧ (z = 0 → s._spriteCount = l.length + c) ∧
      (∀ n, (MapSprite.Invalidate s n)._spriteCount = s._spriteCount) ∧
      (∃ s2, s.Sort fuel = some s2 ∧ s2._spriteCount = s._spriteCount) := by
  obtain ⟨s, l, p, i, e, et, h, hl, hp, hi⟩ :=
    runTally_count cfg fuel hg cs (MapSpriteList.new cm em) [] 0 0 (sound_new cm em)
      (by simpa using hf) rfl rfl
  simp only [List.length_nil, Nat.zero_add] at hl
  obtain ⟨c, z, ea, hcz⟩ :=
    runAttempts_split cfg fuel cs (MapSpriteList.new cm em) s 0 0 0 0 p i e et rfl
  refine ⟨s, l, p, i, c, z, e, traverse_wf s l fuel h.wf.toLinked (by omega), et, ea, hp,
    by omega, by omega, hcz, fun hz => by omega, ?_, ?_⟩
  · intro n
    obtain ⟨s2, l2, e2, _, _, ht2, _⟩ :=
      call_sound cfg fuel s l (PublicCall.invalidate n) h hg (by omega)
    have es : MapSprite.Invalidate s n = s2 := Option.some.inj e2
    rw [es, (ht2 p i hp hi).1]
    simp only [PublicCall.tally]
    split_ifs <;> exact hp.symm
  · obtain ⟨s2, l2, e2, _, _, ht2, _⟩ := call_sound cfg fuel s l PublicCall.sort h hg (by omega)
    exact ⟨s2, e2, (ht2 p i hp hi).1.trans hp.symm⟩

/-- Witness of C29 on the run `publicRun`. -/
theorem sprite_count_tallies_witness :
    0 < exampleSettings.SPRITES_POOL_GROW_SIZE ∧ publicRun.length + 1 ≤ 9 ∧
    ∃ s l p i c z, runPublic exampleSettings 9 publicRun emptyList = some s ∧
      s.traverse 9 = some l ∧
      runTally exampleSettings 9 publicRun emptyList (0, 0) = some (p, i) ∧
      runAttempts exampleSettings 9 publicRun emptyList (0, 0) = some (c, z) ∧
      s._spriteCount = p ∧ l.length ≤ s._spriteCount ∧ s._spriteCount = l.length + i ∧
      i + z = c ∧ (z = 0 → s._spriteCount = l.length + c) ∧
      (∀ n, (MapSprite.Invalidate s n)._spriteCount = s._spriteCount) ∧
      (∃ s2, s.Sort 9 = some s2 ∧ s2._spriteCount = s._spriteCount) :=
  ⟨by decide, by decide,
    sprite_count_tallies exampleSettings 9 (fun _ => false) (fun _ => none) publicRun
      (by decide) (by decide)⟩

/-- C30, counterexample: on a grid of 60000 x 60000 hexes (`uint16` values) the sprite at the
hex `(2, 50000)` is inside the border, and `HexY * maxhx + HexX` is 3000000002, above the
`int` range: `SetLight` leaves `Light` 1294967294 entries in front of the array, not at the
entry `HexY * maxhx + HexX`, and not at an index in `[0, maxhx * maxhy)`. -/
theorem SetLight_index_overflows :
    farSprite.HexX < 2 ^ 16 ∧ farSprite.HexY < 2 ^ 16 ∧ 60000 < 2 ^ 16 ∧
    (1 ≤ farSprite.HexX ∧ (farSprite.HexX : Int) < ((60000 : Nat) : Int) - 1 ∧
      1 ≤ farSprite.HexY ∧ (farSprite.HexY : Int) < ((60000 : Nat) : Int) - 1) ∧
    (farSprite.HexY : Int) * ((60000 : Nat) : Int) + (farSprite.HexX : Int) = 3000000002 ∧
    (farSprite.SetLight CornerType.East 40 60000 60000).Light = some (40, -1294967294) ∧
    (farSprite.SetLight CornerType.East 40 60000 60000).LightLeft = some (40, -1294967293) ∧
    (farSprite.SetLight CornerType.East 40 60000 60000).LightRight = some (40, -1294967295) ∧
    (farSprite.SetLight CornerType.East 40 60000 60000).Light ≠ some (40, 3000000002) ∧
    ¬ ((0 : Int) ≤ -1294967294) := by
  decide

/-- C30, amended: `SetLight corner light maxhx maxhy` on a light array of `maxhx * maxhy`
entries.  When `1 ≤ HexX < maxhx - 1` and `1 ≤ HexY < maxhy - 1`, and `HexY * maxhx + HexX` is
below `2 ^ 31`, the range of the `int` in which the source computes it (which is so whenever
the array has at most `2 ^ 31` entries), `Light` is the entry `HexY * maxhx + HexX`,
`LightLeft` and `LightRight` are that index plus the offsets `dl` and `dr` selected by the
corner, each of them `1`, `-1`, `maxhx` or `-maxhx`, and all three indices lie in
`[0, maxhx * maxhy)`, for every corner.  When the sprite is on the border or outside the
grid, in particular when `maxhx` or `maxhy` is below 3, the three light references are
cleared.  No other field is written. -/
theorem SetLight_stays_in_array (m : MapSprite) (corner : CornerType) (light maxhx maxhy : Nat) :
    (1 ≤ m.HexX ∧ (m.HexX : Int) < (maxhx : Int) - 1 ∧ 1 ≤ m.HexY ∧
        (m.HexY : Int) < (maxhy : Int) - 1 →
      (maxhx * maxhy ≤ 2 ^ 31 →
        (m.HexY : Int) * (maxhx : Int) + (m.HexX : Int) < 2 ^ 31) ∧
      ((m.HexY : Int) * (maxhx : Int) + (m.HexX : Int) < 2 ^ 31 →
        ∃ i dl dr : Int,
          i = (m.HexY : Int) * (maxhx : Int) + (m.HexX : Int) ∧
          (dl, dr) = (match corner with
            | CornerType.EastWest => (1, -1)
            | CornerType.East => (1, -1)
            | CornerType.NorthSouth => (-(maxhx : Int), (maxhx : Int))
            | CornerType.West => (-(maxhx : Int), (maxhx : Int))
            | CornerType.South => (-(maxhx : Int), -1)
            | CornerType.North => (1, (maxhx : Int))) ∧
          (m.SetLight corner light maxhx maxhy).Light = some (light, i) ∧
          (m.SetLight corner light maxhx maxhy).LightLeft = some (light, i + dl) ∧
          (m.SetLight corner light maxhx maxhy).LightRight = some (light, i + dr) ∧
          (dl = 1 ∨ dl = -1 ∨ dl = (maxhx : Int) ∨ dl = -(maxhx : Int)) ∧
          (dr = 1 ∨ dr = -1 ∨ dr = (maxhx : Int) ∨ dr = -(maxhx : Int)) ∧
          0 ≤ i ∧ i < (maxhx : Int) * (maxhy : Int) ∧
          0 ≤ i + dl ∧ i + dl < (maxhx : Int) * (maxhy : Int) ∧
          0 ≤ i + dr ∧ i + dr < (maxhx : Int) * (maxhy : Int))) ∧
    (¬ (1 ≤ m.HexX ∧ (m.HexX : Int) < (maxhx : Int) - 1 ∧ 1 ≤ m.HexY ∧
        (m.HexY : Int) < (maxhy : Int) - 1) →
      (m.SetLight corner light maxhx maxhy).Light = none ∧
      (m.SetLight corner light maxhx maxhy).LightLeft = none ∧
      (m.SetLight corner light maxhx maxhy).LightRight = none) ∧
    (maxhx < 3 ∨ maxhy < 3 →
      (m.SetLight corner light maxhx maxhy).Light = none ∧
      (m.SetLight corner light maxhx maxhy).LightLeft = none ∧
      (m.SetLight corner light maxhx maxhy).LightRight = none) ∧
    m.SetLight corner light maxhx maxhy =
      { m with Light := (m.SetLight corner light maxhx maxhy).Light,
               LightLeft := (m.SetLight corner light maxhx maxhy).LightLeft,
               LightRight := (m.SetLight corner light maxhx maxhy).LightRight } := by
  have hout : ¬ (1 ≤ m.HexX ∧ (m.HexX : Int) < (maxhx : Int) - 1 ∧ 1 ≤ m.HexY ∧
        (m.HexY : Int) < (maxhy : Int) - 1) →
      (m.SetLight corner light maxhx maxhy).Light = none ∧
      (m.SetLight corner light maxhx maxhy).LightLeft = none ∧
      (m.SetLight corner light maxhx maxhy).LightRight = none := by
    intro hc
    have hc2 : ¬ (m.HexX ≥ 1 ∧ (m.HexX : Int) < (maxhx : Int) - 1 ∧ m.HexY ≥ 1 ∧
        (m.HexY : Int) < (maxhy : Int) - 1) := hc
    unfold MapSprite.SetLight
    rw [if_neg hc2]
    exact ⟨rfl, rfl, rfl⟩
  refine ⟨?_, hout, ?_, ?_⟩
  · intro hc
    have hc2 : m.HexX ≥ 1 ∧ (m.HexX : Int) < (maxhx : Int) - 1 ∧ m.HexY ≥ 1 ∧
        (m.HexY : Int) < (maxhy : Int) - 1 := hc
    obtain ⟨hx1, hx2, hy1, hy2⟩ := hc
    have hx1i : (1 : Int) ≤ (m.HexX : Int) := by exact_mod_cast hx1
    have hy1i : (1 : Int) ≤ (m.HexY : Int) := by exact_mod_cast hy1
    have hW : (0 : Int) ≤ (maxhx : Int) := Int.ofNat_nonneg _
    have hlow : (maxhx : Int) ≤ (m.HexY : Int) * (maxhx : Int) := by nlinarith
    have hhigh : (m.HexY : Int) * (maxhx : Int) + 2 * (maxhx : Int) ≤
        (maxhx : Int) * (maxhy : Int) := by nlinarith
    have hfit : maxhx * maxhy ≤ 2 ^ 31 →
        (m.HexY : Int) * (maxhx : Int) + (m.HexX : Int) < 2 ^ 31 := by
      intro hle
      have : ((maxhx * maxhy : Nat) : Int) ≤ ((2 ^ 31 : Nat) : Int) := by exact_mod_cast hle
      push_cast at this
      linarith
    refine ⟨hfit, ?_⟩
    intro hint
    obtain ⟨hL, hLL, hLR⟩ := SetLight_fields m corner light maxhx maxhy hc2
    rw [wrapInt32_fits _ (by linarith) hint] at hL hLL hLR
    refine ⟨(m.HexY : Int) * (maxhx : Int) + (m.HexX : Int), _, _, rfl, rfl, hL, ?_, ?_, ?_, ?_,
      by linarith, by linarith, ?_, ?_, ?_, ?_⟩
    · cases corner <;> exact hLL
    · cases corner <;> exact hLR
    · cases corner <;> simp
    · cases corner <;> simp
    · cases corner <;> simp only <;> linarith
    · cases corner <;> simp only <;> linarith
    · cases corner <;> simp only <;> linarith
    · cases corner <;> simp only <;> linarith
  · intro hsmall
    apply hout
    rintro ⟨hx1, hx2, hy1, hy2⟩
    have hx1i : (1 : Int) ≤ (m.HexX : Int) := by exact_mod_cast hx1
    have hy1i : (1 : Int) ≤ (m.HexY : Int) := by exact_mod_cast hy1
    rcases hsmall with h | h
    · have : (maxhx : Int) < 3 := by exact_mod_cast h
      omega
    · have : (maxhy : Int) < 3 := by exact_mod_cast h
      omega
  · unfold MapSprite.SetLight
    split_ifs
    · cases corner <;> rfl
    · rfl

/-- Witness of the amended C30: the sprite at the hex `(2, 3)` with corner `South` on a grid
of 5 x 6 entries gets the entries 17, 12 and 16; on a grid of width 2 its light references are
cleared. -/
theorem SetLight_stays_in_array_witness :
    (lightSprite.SetLight CornerType.South 40 5 6).Light = some (40, 17) ∧
    (lightSprite.SetLight CornerType.South 40 5 6).LightLeft = some (40, 12) ∧
    (lightSprite.SetLight CornerType.South 40 5 6).LightRight = some (40, 16) ∧
    (lightSprite.SetLight CornerType.South 40 2 6).Light = none ∧
    (lightSprite.SetLight CornerType.South 40 2 6).LightLeft = none ∧
    (lightSprite.SetLight CornerType.South 40 2 6).LightRight = none := by
  obtain ⟨hin, _, _, _⟩ := SetLight_stays_in_array lightSprite CornerType.South 40 5 6
  obtain ⟨i, dl, dr, hi, hd, h1, h2, h3, _⟩ := (hin (by decide)).2 (by decide)
  simp only [Prod.mk.injEq] at hd
  obtain ⟨hdl, hdr⟩ := hd
  subst hi hdl hdr
  exact ⟨h1, h2, h3,
    (SetLight_stays_in_array lightSprite CornerType.South 40 2 6).2.2.1 (Or.inl (by decide))⟩

end FOnline
